import Mathlib

/-!
Verification of the atermpp term library: the hashing and equality protocol, the hash-consing
index and the function symbol table.

A shallow embedding of

* `libraries/atermpp/include/mcrl2/atermpp/detail/aterm_hash.h`
* `libraries/atermpp/source/function_symbol.cpp`, in both of its builds
* `libraries/data/include/mcrl2/data/identifier_generator.h`
* `libraries/lps/include/mcrl2/lps/process_initializer.h`
* `tools/ltscompare/ltscompare.cpp`

Machine words (`std::size_t`, `std::uintptr_t`) are natural numbers; every operation that can
wrap is reduced modulo `2 ^ w`, where `w` is the width of `std::size_t`.  Raw arrays and
iterators are lists; a read past the end is undefined behaviour in C++ and is `none` here.
-/

set_option autoImplicit false

namespace atermpp
namespace detail

/-! ## aterm_hash.h : data -/

/-- An `unprotected_aterm` (and its subclass `aterm`): the address of the shared `_aterm` node,
as returned by `detail::address`. Comparison of two handles compares the addresses. -/
structure unprotected_aterm where
  m_term : Nat
  deriving DecidableEq, Repr

/-- A `function_symbol` handle: the address of the shared `_function_symbol` (or its slot
number). `function_symbol::operator==` compares the handles. -/
structure function_symbol where
  m_function_symbol : Nat
  deriving DecidableEq, Repr

/-- The members of `function_symbol` that `aterm_hash.h` calls but that are declared in
`function_symbol.h`: `function_symbol::arity()` and `std::hash<function_symbol>`. They are
parameters of the embedding. -/
structure function_symbol_members where
  arity : function_symbol → Nat
  hash : function_symbol → Nat

/-- An `_aterm` seen as `_aterm_appl<aterm>`: its function symbol and its argument handles. -/
structure _aterm where
  m_function_symbol : function_symbol
  m_arguments : List unprotected_aterm
  deriving DecidableEq, Repr

/-- The accessor `_aterm::function()`. -/
def _aterm.function (term : _aterm) : function_symbol := term.m_function_symbol

/-- The accessor `_aterm_appl::arg(i)`; reading past the stored arguments is `none`. -/
def _aterm.arg (term : _aterm) (i : Nat) : Option unprotected_aterm := term.m_arguments[i]?

/-- An `_aterm_int`: a node that carries one machine word. -/
structure _aterm_int where
  m_value : Nat
  deriving DecidableEq, Repr

/-- The accessor `_aterm_int::value()`. -/
def _aterm_int.value (term : _aterm_int) : Nat := term.m_value

/-- The constant `DynamicNumberOfArguments = std::numeric_limits<std::size_t>::max()`. -/
def DynamicNumberOfArguments (w : Nat) : Nat := 2 ^ w - 1

/-! ## aterm_hash.h : hashing -/

/-- The specialisation `std::hash<_aterm*>`: the address shifted right by four. -/
def hash_aterm_ptr (term : Nat) : Nat := term >>> 4

/-- The specialisation `std::hash<unprotected_aterm>`. -/
def hash_unprotected_aterm (term : unprotected_aterm) : Nat := hash_aterm_ptr term.m_term

/-- The specialisation `std::hash<aterm>`. -/
def hash_aterm (t : unprotected_aterm) : Nat := hash_aterm_ptr t.m_term

/-- The function `combine(const std::size_t hnr, const std::size_t w)`:
`w + (hnr<<1) + (hnr>>1)` in `std::size_t` arithmetic. -/
def combine (w : Nat) (hnr v : Nat) : Nat :=
  (v + (hnr <<< 1) % 2 ^ w + (hnr >>> 1)) % 2 ^ w

/-- The overload `combine(const std::size_t hnr, const unprotected_aterm& w)`. -/
def combine_aterm (w : Nat) (hnr : Nat) (t : unprotected_aterm) : Nat :=
  combine w hnr (hash_unprotected_aterm t)

/-- The overload `combine(const std::size_t hnr, const _aterm* w)`. -/
def combine_ptr (w : Nat) (hnr : Nat) (t : Nat) : Nat :=
  combine w hnr (hash_aterm_ptr t)

/-- The arity used by the `N`-templated functors:
`(N == DynamicNumberOfArguments) ? symbol.arity() : N`. -/
def template_arity (w N : Nat) (D : function_symbol_members) (symbol : function_symbol) : Nat :=
  if N = DynamicNumberOfArguments w then D.arity symbol else N

/-- The overload `aterm_hasher<N>::operator()(const function_symbol&)`. -/
def aterm_hasher_symbol (D : function_symbol_members) (symbol : function_symbol) : Nat :=
  D.hash symbol

/-- The loop `for (i = ..; i < arity; ++i) hnr = combine(hnr, arguments[i])` over a raw array,
with `remaining = arity - i` iterations to go. -/
def hash_arguments (w : Nat) (arguments : List unprotected_aterm) : Nat → Nat → Nat → Option Nat
  | 0, _, hnr => some hnr
  | remaining + 1, i, hnr =>
    match arguments[i]? with
    | none => none
    | some a => hash_arguments w arguments remaining (i + 1) (combine_aterm w hnr a)

/-- The overload `aterm_hasher<N>::operator()(const _aterm&)`. -/
def aterm_hasher_term (w N : Nat) (D : function_symbol_members) (term : _aterm) : Option Nat :=
  let f := term.function
  let hnr := aterm_hasher_symbol D f
  let arity := template_arity w N D f
  hash_arguments w term.m_arguments arity 0 hnr

/-- The overload
`aterm_hasher<N>::operator()(const function_symbol&, unprotected_aterm arguments[])`. -/
def aterm_hasher_array (w N : Nat) (D : function_symbol_members) (symbol : function_symbol)
    (arguments : List unprotected_aterm) : Option Nat :=
  let arity := template_arity w N D symbol
  let hnr := aterm_hasher_symbol D symbol
  hash_arguments w arguments arity 0 hnr

/-- The loop of the iterator overload: `hnr = combine(hnr, *begin); ++begin;`, with
`remaining` iterations to go. The iterator is the list of elements from its position on. -/
def hash_iterator (w : Nat) : Nat → List unprotected_aterm → Nat → Option Nat
  | 0, _, hnr => some hnr
  | _ + 1, [], _ => none
  | remaining + 1, a :: rest, hnr => hash_iterator w remaining rest (combine_aterm w hnr a)

/-- The overload
`aterm_hasher<N>::operator()(const function_symbol&, ForwardIterator begin)`. -/
def aterm_hasher_iterator (w N : Nat) (D : function_symbol_members) (symbol : function_symbol)
    (first : List unprotected_aterm) : Option Nat :=
  let arity := template_arity w N D symbol
  let hnr := aterm_hasher_symbol D symbol
  hash_iterator w arity first hnr

/-- The overload
`aterm_hasher_finite<N>::operator()(const function_symbol&, std::array<unprotected_aterm, N>)`.
A `std::array` of `N` elements is a function on `Fin N`. -/
def aterm_hasher_finite_array (w N : Nat) (D : function_symbol_members) (symbol : function_symbol)
    (arguments : Fin N → unprotected_aterm) : Nat :=
  let hnr := aterm_hasher_symbol D symbol
  (List.finRange N).foldl (fun h i => combine_aterm w h (arguments i)) hnr

/-- The two function templates `combine_args<I>(hnr, t...)`. `depth` bounds the chain of
instantiations `I, I+1, ...`; `sizeof...(Tp) - 1` is computed in `std::size_t`, and a
`std::get<I>` outside the pack does not instantiate (`none`). -/
def combine_args (w : Nat) (t : List unprotected_aterm) : Nat → Nat → Nat → Option Nat
  | 0, _, _ => none
  | depth + 1, I, hnr =>
    match t[I]? with
    | none => none
    | some a =>
      if I = (t.length + (2 ^ w - 1)) % 2 ^ w then
        some (combine_aterm w hnr a)
      else if I < (t.length + (2 ^ w - 1)) % 2 ^ w then
        combine_args w t depth (I + 1) (combine_aterm w hnr a)
      else none

/-- The overload
`aterm_hasher_finite<N>::operator()(const function_symbol&, const Args&... args)`. -/
def aterm_hasher_finite_pack (w : Nat) (D : function_symbol_members) (symbol : function_symbol)
    (args : List unprotected_aterm) : Option Nat :=
  let hnr := aterm_hasher_symbol D symbol
  combine_args w args args.length 0 hnr

/-- The overload `aterm_int_hasher::operator()(const _aterm_int&)`. -/
def aterm_int_hasher_term (term : _aterm_int) : Nat := term.value

/-- The overload `aterm_int_hasher::operator()(std::size_t)`. -/
def aterm_int_hasher_value (value : Nat) : Nat := value

/-! ## aterm_hash.h : equality -/

/-- The overload `aterm_equals<N>::operator()(const _aterm&, const function_symbol&)`. -/
def aterm_equals_symbol (term : _aterm) (symbol : function_symbol) : Bool :=
  decide (term.function = symbol)

/-- The loop `if (term.arg(i) != arguments[i]) return false;` over a raw array, with
`remaining` iterations to go; falls through to `return true`. -/
def equal_arguments (term : _aterm) (arguments : List unprotected_aterm) :
    Nat → Nat → Option Bool
  | 0, _ => some true
  | remaining + 1, i =>
    match term.arg i, arguments[i]? with
    | some a, some b => if a ≠ b then some false else equal_arguments term arguments remaining (i + 1)
    | _, _ => none

/-- The overload `aterm_equals<N>::operator()(const _aterm&, const function_symbol&,
unprotected_aterm arguments[])`; it loops up to `symbol.arity()` whatever `N` is. -/
def aterm_equals_array (D : function_symbol_members) (term : _aterm) (symbol : function_symbol)
    (arguments : List unprotected_aterm) : Option Bool :=
  if term.function = symbol then
    equal_arguments term arguments (D.arity symbol) 0
  else some false

/-- The loop of the iterator overload: compare `term.arg(i)` with `*begin`, then `++begin`. -/
def equal_iterator (term : _aterm) : Nat → Nat → List unprotected_aterm → Option Bool
  | 0, _, _ => some true
  | _ + 1, _, [] => none
  | remaining + 1, i, b :: rest =>
    match term.arg i with
    | some a => if a ≠ b then some false else equal_iterator term remaining (i + 1) rest
    | none => none

/-- The overload `aterm_equals<N>::operator()(const _aterm&, const function_symbol&,
ForwardIterator begin)`. -/
def aterm_equals_iterator (w N : Nat) (D : function_symbol_members) (term : _aterm)
    (symbol : function_symbol) (first : List unprotected_aterm) : Option Bool :=
  if term.function = symbol then
    let arity := template_arity w N D symbol
    equal_iterator term arity 0 first
  else some false

/-- The loop `if (first.arg(i) != second.arg(i)) return false;` of the overload on two nodes,
with `remaining` iterations to go; falls through to `return true`. -/
def equal_nodes (first second : _aterm) : Nat → Nat → Option Bool
  | 0, _ => some true
  | remaining + 1, i =>
    match first.arg i, second.arg i with
    | some a, some b => if a ≠ b then some false else equal_nodes first second remaining (i + 1)
    | _, _ => none

/-- The overload `aterm_equals<N>::operator()(const _aterm&, const _aterm&)`. The two nodes
come with their addresses, which the test `&first == &second` compares. -/
def aterm_equals_terms (w N : Nat) (D : function_symbol_members)
    (first_address second_address : Nat) (first second : _aterm) : Option Bool :=
  if first_address = second_address then some true
  else if first.function = second.function then
    equal_nodes first second (template_arity w N D first.function) 0
  else some false

/-- The overload `aterm_int_equals::operator()(const _aterm_int&, const _aterm_int&)`. -/
def aterm_int_equals_terms (first second : _aterm_int) : Bool :=
  decide (first.value = second.value)

/-- The overload `aterm_int_equals::operator()(const _aterm_int&, std::size_t)`. -/
def aterm_int_equals_value (term : _aterm_int) (value : Nat) : Bool :=
  decide (term.value = value)

/-! ## The hash formula as the specification writes it -/

/-- The inner part `combine(hash(arg_0), combine(hash(arg_1), ... hash(arg_{n-1})))` of the
specified hash, for a non-empty list of argument hashes (`0` on the empty list, which
`spec_nested_hash` never passes). -/
def spec_nested_arguments (w : Nat) : List Nat → Nat
  | [] => 0
  | [h] => h
  | h :: rest => combine w h (spec_nested_arguments w rest)

/-- The hash as written in the specification:
`combine(hash(symbol), combine(hash(arg_0), combine(hash(arg_1), ...)))`, and `hash(symbol)`
when there are no arguments. -/
def spec_nested_hash (w : Nat) (symbol_hash : Nat) (arguments : List unprotected_aterm) : Nat :=
  match arguments with
  | [] => symbol_hash
  | _ => combine w symbol_hash (spec_nested_arguments w (arguments.map hash_unprotected_aterm))

/-! ## The hash-consing index of the specification (§4.2, §4.3, §4.4)

The term table itself is not among the sources; only its hash and equality functors are. -/

/-- Modelled from the spec: a slot of the term node store (§4.2, §4.4), which is missing from
the sources: the stable address of a node, the node, and its reference count. -/
structure term_slot where
  address : unprotected_aterm
  term : _aterm
  reference_count : Nat
  deriving DecidableEq, Repr

/-- Modelled from the spec: the hash-consing index (§4.3) together with the node store (§4.2,
§4.4), both missing from the sources: `table_size` buckets, each a chain of node handles with
the newest entry at its head, the slots carved from the store so far, oldest first, and the
free list of the slots that were returned to the store, the last one returned first. A slot
holds a node of the table as long as it is not on the free list. -/
structure term_table where
  table_size : Nat
  buckets : List (List unprotected_aterm)
  slots : List term_slot
  free_list : List unprotected_aterm
  deriving DecidableEq, Repr

/-- Modelled from the spec: the empty index with `size` buckets (§4.3), missing from the
sources. -/
def term_table.empty (size : Nat) : term_table :=
  { table_size := size, buckets := List.replicate size [], slots := [], free_list := [] }

/-- Modelled from the spec: following a handle to its node (`term_symbol`, `term_arg` of §6),
missing from the sources; `none` when no slot lives at the address. -/
def term_table.node (σ : term_table) (h : unprotected_aterm) : Option _aterm :=
  (σ.slots.find? (fun s => decide (s.address = h))).map (fun s => s.term)

/-- Modelled from the spec: the reference count of the slot at `h` (§4.4), missing from the
sources; `none` when no slot lives at the address. -/
def term_table.count (σ : term_table) (h : unprotected_aterm) : Option Nat :=
  (σ.slots.find? (fun s => decide (s.address = h))).map (fun s => s.reference_count)

/-- Modelled from the spec: the chain of bucket `b` (§4.3), missing from the sources. -/
def term_table.chain (σ : term_table) (b : Nat) : List unprotected_aterm :=
  σ.buckets.getD b []

/-- Modelled from the spec: `acquire` of §4.4 and §6, missing from the sources: the reference
count of the node at `h` goes up by one. -/
def acquire (h : unprotected_aterm) (slots : List term_slot) : List term_slot :=
  slots.map (fun s => if s.address = h then { s with reference_count := s.reference_count + 1 } else s)

/-- Modelled from the spec: writing the reference count of the slot at `h` (§4.4), missing
from the sources. -/
def set_count (h : unprotected_aterm) (count : Nat) (slots : List term_slot) : List term_slot :=
  slots.map (fun s => if s.address = h then { s with reference_count := count } else s)

/-- Modelled from the spec: step 3 of `find_or_create` (§4.3), missing from the sources: walk
the chain and accept the first entry for which `aterm_equals(entry, symbol, args)` holds.
The outer `none` is a dangling entry or an out-of-range read. -/
def find_in_chain (D : function_symbol_members) (σ : term_table) (symbol : function_symbol)
    (args : List unprotected_aterm) : List unprotected_aterm → Option (Option unprotected_aterm)
  | [] => some none
  | e :: rest =>
    match σ.node e with
    | none => none
    | some t =>
      match aterm_equals_array D t symbol args with
      | none => none
      | some true => some (some e)
      | some false => find_in_chain D σ symbol args rest

/-- Modelled from the spec: the free-list half of `allocate(arity)` (§4.2, §4.4), missing
from the sources: the first entry of the free list whose slot has the shape of a node with
`arity` arguments, if there is one. -/
def term_table.free_entry (σ : term_table) (arity : Nat) : Option unprotected_aterm :=
  σ.free_list.find?
    (fun e => decide ((σ.node e).map (fun t => t.m_arguments.length) = some arity))

/-- Modelled from the spec: `find_or_create(symbol, args[])` of §4.3, missing from the
sources. A request whose argument count is not the arity of the symbol violates the contract
of §6 (`none`). The bucket is `aterm_hasher(symbol, args) & (table_size - 1)`; on a match
the node found is acquired and returned; on a miss each argument is acquired and a slot is
allocated as in §4.2: a free-list entry of adequate shape is taken from the free list and
reused, and when there is none a new slot is carved at `slot_address (number of slots)`. The
slot receives the node with count 1, is linked at the head of the chain and returned. -/
def find_or_create (w : Nat) (D : function_symbol_members) (slot_address : Nat → Nat)
    (σ : term_table) (symbol : function_symbol) (args : List unprotected_aterm) :
    Option (unprotected_aterm × term_table) :=
  if args.length ≠ D.arity symbol then none
  else
    match aterm_hasher_array w (DynamicNumberOfArguments w) D symbol args with
    | none => none
    | some hash =>
      let bucket := hash &&& (σ.table_size - 1)
      match find_in_chain D σ symbol args (σ.chain bucket) with
      | none => none
      | some (some e) => some (e, { σ with slots := acquire e σ.slots })
      | some none =>
        let slots := args.foldl (fun sl a => acquire a sl) σ.slots
        match σ.free_entry args.length with
        | some e =>
          some (e, { σ with
            buckets := σ.buckets.set bucket (e :: σ.chain bucket)
            slots := slots.map (fun s => if s.address = e then ⟨e, ⟨symbol, args⟩, 1⟩ else s)
            free_list := σ.free_list.erase e })
        | none =>
          let e : unprotected_aterm := ⟨slot_address σ.slots.length⟩
          some (e, { σ with
            buckets := σ.buckets.set bucket (e :: σ.chain bucket)
            slots := slots ++ [⟨e, ⟨symbol, args⟩, 1⟩] })

/-- Modelled from the spec: one decrement of §4.4, missing from the sources. Releasing a
handle that denotes no node of the table (no slot, a slot on the free list, or a count of
zero) violates the contract (`none`). A count above one goes down by one. A count of one
goes to zero: the node is removed from the chain of its hash, its slot is put in front of the
free list, and its arguments are returned, because each of them is to be released in turn. -/
def release_node (w : Nat) (D : function_symbol_members) (σ : term_table)
    (h : unprotected_aterm) : Option (List unprotected_aterm × term_table) :=
  if h ∈ σ.free_list then none
  else
    match σ.node h, σ.count h with
    | some _, some (count + 2) =>
      some ([], { σ with slots := set_count h (count + 1) σ.slots })
    | some t, some 1 =>
      match aterm_hasher_term w (DynamicNumberOfArguments w) D t with
      | none => none
      | some hash =>
        let bucket := hash &&& (σ.table_size - 1)
        some (t.m_arguments,
          { σ with
            buckets := σ.buckets.set bucket ((σ.chain bucket).filter (fun e => decide (e ≠ h)))
            slots := set_count h 0 σ.slots
            free_list := h :: σ.free_list })
    | _, _ => none

/-- Modelled from the spec: `release` of §4.4 and §6, missing from the sources, with the
explicit work list that §4.4 asks for: the handles still to be released are taken from the
list one by one, and the arguments of a node whose count has dropped to zero are put on the
list. `fuel` bounds the number of decrements. -/
def release (w : Nat) (D : function_symbol_members) :
    Nat → List unprotected_aterm → term_table → Option term_table
  | _, [], σ => some σ
  | 0, _ :: _, _ => none
  | fuel + 1, h :: work, σ =>
    match release_node w D σ h with
    | none => none
    | some (arguments, σ') => release w D fuel (arguments ++ work) σ'

/-- Modelled from the spec: one step of the full rehash (§4.3), missing from the sources: the
node of slot `s` is put at the head of the chain `aterm_hasher(node) & (size - 1)`. -/
def rehash_slot (w : Nat) (D : function_symbol_members) (size : Nat)
    (buckets : List (List unprotected_aterm)) (s : term_slot) :
    Option (List (List unprotected_aterm)) :=
  match aterm_hasher_term w (DynamicNumberOfArguments w) D s.term with
  | none => none
  | some hash =>
    some (buckets.set (hash &&& (size - 1)) (s.address :: buckets.getD (hash &&& (size - 1)) []))

/-- Modelled from the spec: the loop of the full rehash (§4.3), missing from the sources. -/
def rehash (w : Nat) (D : function_symbol_members) (size : Nat) :
    List term_slot → List (List unprotected_aterm) → Option (List (List unprotected_aterm))
  | [], buckets => some buckets
  | s :: rest, buckets =>
    match rehash_slot w D size buckets s with
    | none => none
    | some buckets' => rehash w D size rest buckets'

/-- Modelled from the spec: the slots that hold a node of the table (§4.4), that is, those
that are not on the free list. -/
def term_table.live_slots (σ : term_table) : List term_slot :=
  σ.slots.filter (fun s => decide (s.address ∉ σ.free_list))

/-- Modelled from the spec: the resize of §4.3, missing from the sources: the table doubles
and every live node is rehashed into fresh buckets; when the allocation fails (`ok = false`)
the old table stays in use. -/
def term_table.resize (w : Nat) (D : function_symbol_members) (ok : Bool) (σ : term_table) :
    Option term_table :=
  if ok then
    match rehash w D (2 * σ.table_size) σ.live_slots (List.replicate (2 * σ.table_size) []) with
    | none => none
    | some buckets => some { σ with table_size := 2 * σ.table_size, buckets := buckets }
  else some σ

/-- Modelled from the spec: the states of the index that requests, resizes and releases
produce from an empty table whose size is a power of two (§4.3, §4.4). -/
inductive term_table.Reachable (w : Nat) (D : function_symbol_members)
    (slot_address : Nat → Nat) : term_table → Prop
  | empty (k : Nat) : term_table.Reachable w D slot_address (term_table.empty (2 ^ k))
  | request (σ σ' : term_table) (symbol : function_symbol) (args : List unprotected_aterm)
      (h : unprotected_aterm) :
      term_table.Reachable w D slot_address σ →
      find_or_create w D slot_address σ symbol args = some (h, σ') →
      term_table.Reachable w D slot_address σ'
  | resize (σ σ' : term_table) (ok : Bool) :
      term_table.Reachable w D slot_address σ →
      σ.resize w D ok = some σ' →
      term_table.Reachable w D slot_address σ'
  | release (σ σ' : term_table) (fuel : Nat) (h : unprotected_aterm) :
      term_table.Reachable w D slot_address σ →
      release w D fuel [h] σ = some σ' →
      term_table.Reachable w D slot_address σ'

/-- Modelled from the spec: `Later σ τ` says that `τ` comes from `σ` by requests and resizes
only, that is, with no release in between. -/
inductive term_table.Later (w : Nat) (D : function_symbol_members)
    (slot_address : Nat → Nat) : term_table → term_table → Prop
  | refl (σ : term_table) : term_table.Later w D slot_address σ σ
  | request (σ τ τ' : term_table) (symbol : function_symbol) (args : List unprotected_aterm)
      (h : unprotected_aterm) :
      term_table.Later w D slot_address σ τ →
      find_or_create w D slot_address τ symbol args = some (h, τ') →
      term_table.Later w D slot_address σ τ'
  | resize (σ τ τ' : term_table) (ok : Bool) :
      term_table.Later w D slot_address σ τ →
      τ.resize w D ok = some τ' →
      term_table.Later w D slot_address σ τ'

/-- Modelled from the spec: `Follows σ τ` says that `τ` comes from `σ` by requests, resizes
and releases (§4.3, §4.4). -/
inductive term_table.Follows (w : Nat) (D : function_symbol_members)
    (slot_address : Nat → Nat) : term_table → term_table → Prop
  | refl (σ : term_table) : term_table.Follows w D slot_address σ σ
  | request (σ τ τ' : term_table) (symbol : function_symbol) (args : List unprotected_aterm)
      (h : unprotected_aterm) :
      term_table.Follows w D slot_address σ τ →
      find_or_create w D slot_address τ symbol args = some (h, τ') →
      term_table.Follows w D slot_address σ τ'
  | resize (σ τ τ' : term_table) (ok : Bool) :
      term_table.Follows w D slot_address σ τ →
      τ.resize w D ok = some τ' →
      term_table.Follows w D slot_address σ τ'
  | release (σ τ τ' : term_table) (fuel : Nat) (h : unprotected_aterm) :
      term_table.Follows w D slot_address σ τ →
      release w D fuel [h] τ = some τ' →
      term_table.Follows w D slot_address σ τ'

/-- The address and the content of every slot, oldest first. -/
def term_table.cells (σ : term_table) : List (unprotected_aterm × _aterm) :=
  σ.slots.map (fun s => (s.address, s.term))

/-- The nodes of the table: the address and the content of every slot that is not on the free
list, oldest first. -/
def term_table.nodes (σ : term_table) : List (unprotected_aterm × _aterm) :=
  σ.cells.filter (fun p => decide (p.1 ∉ σ.free_list))

/-- The invariant of the index: the table has `table_size > 0` buckets, slot `i` lives at
`slot_address i`, every node has as many arguments as the arity of its symbol, every node is
linked in the chain of its hash, every chain entry is a node whose hash is that chain, no two
nodes have the same symbol and arguments, and the free list holds slots, each once. -/
structure term_table.Inv (w : Nat) (D : function_symbol_members) (slot_address : Nat → Nat)
    (σ : term_table) : Prop where
  size_pos : 0 < σ.table_size
  buckets_length : σ.buckets.length = σ.table_size
  address_eq : ∀ (i : Nat) (p : unprotected_aterm × _aterm),
    σ.cells[i]? = some p → p.1 = ⟨slot_address i⟩
  arity_ok : ∀ p ∈ σ.nodes, p.2.m_arguments.length = D.arity p.2.function
  linked : ∀ p ∈ σ.nodes, ∀ hash,
    aterm_hasher_term w (DynamicNumberOfArguments w) D p.2 = some hash →
      p.1 ∈ σ.chain (hash &&& (σ.table_size - 1))
  chain_home : ∀ b, ∀ e ∈ σ.chain b, ∃ t hash, (e, t) ∈ σ.nodes ∧
    aterm_hasher_term w (DynamicNumberOfArguments w) D t = some hash ∧
    hash &&& (σ.table_size - 1) = b
  shared : ∀ p ∈ σ.nodes, ∀ q ∈ σ.nodes, p.2 = q.2 → p.1 = q.1
  free_slots : ∀ e ∈ σ.free_list, ∃ t, (e, t) ∈ σ.cells
  free_nodup : σ.free_list.Nodup

/-- A sample instance of the symbol members: the arity of a symbol is its handle and its hash
is the handle plus five. -/
def sample_members : function_symbol_members :=
  ⟨fun s => s.m_function_symbol, fun s => s.m_function_symbol + 5⟩

/-- A sample node store layout: slot `k` lives at address `16 * (k + 1)`. -/
def sample_slot_address (k : Nat) : Nat := 16 * (k + 1)

/-- A second sample instance of the symbol members: every symbol is a constant and its hash
is its handle. -/
def sample_constants : function_symbol_members :=
  ⟨fun _ => 0, fun s => s.m_function_symbol⟩

/-- The sample table after the request for the constant `c` (symbol 0) from an empty table of
four buckets: `c` lives at address 16. -/
def sample_table_c : term_table :=
  { table_size := 4, buckets := [[], [⟨16⟩], [], []],
    slots := [⟨⟨16⟩, ⟨⟨0⟩, []⟩, 1⟩], free_list := [] }

/-- The sample table after the further request for `f(c)` (symbol 1 on the handle of `c`):
`f(c)` lives at address 32 and holds a reference to `c`. -/
def sample_table_fc : term_table :=
  { table_size := 4, buckets := [[⟨32⟩], [⟨16⟩], [], []],
    slots := [⟨⟨16⟩, ⟨⟨0⟩, []⟩, 2⟩, ⟨⟨32⟩, ⟨⟨1⟩, [⟨16⟩]⟩, 1⟩], free_list := [] }

/-- The sample table after the release of `f(c)`: its slot is on the free list and its
reference to `c` is given back. -/
def sample_table_released : term_table :=
  { table_size := 4, buckets := [[], [⟨16⟩], [], []],
    slots := [⟨⟨16⟩, ⟨⟨0⟩, []⟩, 1⟩, ⟨⟨32⟩, ⟨⟨1⟩, [⟨16⟩]⟩, 0⟩], free_list := [⟨32⟩] }

end detail

/-! ## function_symbol.cpp, the build without `FUNCTION_SYMBOL_AS_POINTER` (index build)

The globals of `namespace detail` are the fields of `administration`. `END_OF_LIST` is `none`.
A `std::string` is the list of its characters, each as the word that `*i` contributes to a
`HashNumber`. `malloc` and `realloc` succeed or fail as the environment `memory` says: the
`k`-th allocation request of the run succeeds when `memory k` is true. -/

namespace index_build

/-- The ways in which a call does not return normally. -/
inductive failure where
  /-- A `std::runtime_error` with the given message is thrown. -/
  | out_of_memory (what : String)
  /-- An array is read or written outside its bounds. -/
  | undefined_behaviour
  /-- A chain loop runs through more entries than there are slots, so it never ends. -/
  | no_termination
  deriving DecidableEq, Repr

/-- The record `_function_symbol` of the index build, with the fields the source uses. -/
structure _function_symbol where
  name : List Nat
  arity : Nat
  next : Option Nat
  reference_count : Nat
  deriving DecidableEq, Repr

/-- Modelled from the spec: the constructor `_function_symbol(name, arity, next)`, declared in
a header that is not among the sources. A new record has no reference yet: the constructor of
`function_symbol` asserts a count of zero before it fills a record and raises the count with
`increase_reference_count<false>` afterwards (§3: created on first request, then counted). -/
def _function_symbol.create (name : List Nat) (arity : Nat) (next : Option Nat) :
    _function_symbol :=
  { name := name, arity := arity, next := next, reference_count := 0 }

/-- The globals of the index build. `function_lookup_table` holds the records constructed so
far; `allocations` counts the allocation requests made so far. -/
structure administration where
  function_symbol_table_size : Nat
  function_symbol_table_mask : Nat
  function_symbol_hashtable : List (Option Nat)
  first_free : Option Nat
  function_lookup_table_actual_size : Nat
  function_lookup_table_size : Nat
  function_lookup_table : List _function_symbol
  allocations : Nat
  deriving DecidableEq, Repr

/-- The globals at program start. -/
def administration.start : administration :=
  { function_symbol_table_size := 0, function_symbol_table_mask := 0,
    function_symbol_hashtable := [], first_free := none,
    function_lookup_table_actual_size := 0, function_lookup_table_size := 0,
    function_lookup_table := [], allocations := 0 }

/-- The constant `INITIAL_FUNCTION_HASH_TABLE_SIZE = 1<<14`. -/
def INITIAL_FUNCTION_HASH_TABLE_SIZE : Nat := 1 <<< 14

/-- The constant `INITIAL_FUNCTION_LOOKUP_TABLE_SIZE = 128`. -/
def INITIAL_FUNCTION_LOOKUP_TABLE_SIZE : Nat := 128

/-- The constant `MAGIC_PRIME = 7`. -/
def MAGIC_PRIME : Nat := 7

/-- The function `calculate_hash_of_function_symbol(name, arity)`. -/
def calculate_hash_of_function_symbol (w : Nat) (name : List Nat) (arity : Nat) : Nat :=
  (name.foldl (fun hnr c => (251 * hnr + c) % 2 ^ w) (arity * 3 % 2 ^ w)) * MAGIC_PRIME % 2 ^ w

/-- The function `function_lookup_table_create_free_entry_at_end()`; the caller constructs
the record at the index returned. -/
def function_lookup_table_create_free_entry_at_end (w : Nat) (memory : Nat → Bool)
    (σ : administration) : Except failure (Nat × administration) :=
  if σ.function_lookup_table_actual_size ≤ σ.function_lookup_table_size then
    if memory σ.allocations then
      .ok (σ.function_lookup_table_size,
        { σ with
          function_lookup_table_actual_size := σ.function_lookup_table_actual_size <<< 1 % 2 ^ w
          function_lookup_table_size := σ.function_lookup_table_size + 1
          allocations := σ.allocations + 1 })
    else .error (.out_of_memory "Out of memory. Fail to resize function_lookup_table.")
  else
    .ok (σ.function_lookup_table_size,
      { σ with function_lookup_table_size := σ.function_lookup_table_size + 1 })

/-- The second loop of `resize_function_symbol_hashtable()`: entry `i` is put at the head of
the chain of its hash, for `remaining` entries from `i` on. The source asserts that the entry
is referenced but links it in any case. -/
def rehash_entries (w : Nat) : Nat → Nat → administration → Except failure administration
  | 0, _, σ => .ok σ
  | remaining + 1, i, σ =>
    match σ.function_lookup_table[i]? with
    | none => .error .undefined_behaviour
    | some entry =>
      let hnr := calculate_hash_of_function_symbol w entry.name entry.arity
        &&& σ.function_symbol_table_mask
      match σ.function_symbol_hashtable[hnr]? with
      | none => .error .undefined_behaviour
      | some head =>
        let linked := { entry with next := head }
        rehash_entries w remaining (i + 1)
          { σ with
            function_lookup_table := σ.function_lookup_table.set i linked
            function_symbol_hashtable := σ.function_symbol_hashtable.set hnr (some i) }

/-- The function `resize_function_symbol_hashtable()`. -/
def resize_function_symbol_hashtable (w : Nat) (memory : Nat → Bool) (σ : administration) :
    Except failure administration :=
  let size := σ.function_symbol_table_size <<< 1 % 2 ^ w
  if memory σ.allocations then
    rehash_entries w σ.function_lookup_table_size 0
      { σ with
        function_symbol_table_size := size
        function_symbol_table_mask := (size + (2 ^ w - 1)) % 2 ^ w
        function_symbol_hashtable := List.replicate size none
        allocations := σ.allocations + 1 }
  else
    .ok { σ with function_symbol_table_size := size >>> 1, allocations := σ.allocations + 1 }

/-- Modelled from the spec: the member `increase_reference_count<CHECK>()`, declared in a
header that is not among the sources. Acquiring a handle increments the count of the record
`m_number` (§4.1, §4.4); `CHECK` only adds the assertion that the count was positive. -/
def increase_reference_count (m_number : Nat) (σ : administration) :
    Except failure administration :=
  match σ.function_lookup_table[m_number]? with
  | none => .error .undefined_behaviour
  | some entry =>
    let counted := { entry with reference_count := entry.reference_count + 1 }
    .ok { σ with function_lookup_table := σ.function_lookup_table.set m_number counted }

/-- The search loop of the constructor: `while (cur!=END_OF_LIST)`, returning the record that
has the arity and the name, if the chain holds one. -/
def find_symbol (σ : administration) (name : List Nat) (arity_ : Nat) :
    Nat → Option Nat → Except failure (Option Nat)
  | _, none => .ok none
  | 0, some _ => .error .no_termination
  | fuel + 1, some cur =>
    match σ.function_lookup_table[cur]? with
    | none => .error .undefined_behaviour
    | some entry =>
      if entry.arity = arity_ ∧ entry.name = name then .ok (some cur)
      else find_symbol σ name arity_ fuel entry.next

/-- The part of the constructor after the search loop has missed: take the first free
record, or create one at the end, link it at the head of the chain `hnr` and count the first
reference. -/
def insert_symbol (w : Nat) (memory : Nat → Bool) (name : List Nat) (arity_ : Nat) (hnr : Nat)
    (σ : administration) : Except failure (Nat × administration) :=
  match σ.function_symbol_hashtable[hnr]? with
  | none => .error .undefined_behaviour
  | some head =>
    match σ.first_free with
    | some cur =>
      match σ.function_lookup_table[cur]? with
      | none => .error .undefined_behaviour
      | some entry =>
        match increase_reference_count cur
          { σ with
            first_free := entry.next
            function_lookup_table :=
              σ.function_lookup_table.set cur (_function_symbol.create name arity_ head)
            function_symbol_hashtable := σ.function_symbol_hashtable.set hnr (some cur) } with
        | .error e => .error e
        | .ok σ' => .ok (cur, σ')
    | none =>
      match function_lookup_table_create_free_entry_at_end w memory σ with
      | .error e => .error e
      | .ok (cur, σ1) =>
        if cur = σ1.function_lookup_table.length ∧ cur < σ1.function_lookup_table_actual_size then
          match increase_reference_count cur
            { σ1 with
              function_lookup_table :=
                σ1.function_lookup_table ++ [_function_symbol.create name arity_ head]
              function_symbol_hashtable := σ1.function_symbol_hashtable.set hnr (some cur) } with
          | .error e => .error e
          | .ok σ' => .ok (cur, σ')
        else .error .undefined_behaviour

/-- The constructor `function_symbol::function_symbol(const std::string&, const size_t)` from
the resize test on, that is, once `function_symbol_table_size` is not zero. The search loop
can pass through each of the `function_lookup_table_size` records once. -/
def function_symbol_lookup_or_insert (w : Nat) (memory : Nat → Bool) (name : List Nat)
    (arity_ : Nat) (σ : administration) : Except failure (Nat × administration) :=
  match (if σ.function_lookup_table_size ≥ σ.function_symbol_table_size
      then resize_function_symbol_hashtable w memory σ else .ok σ) with
  | .error e => .error e
  | .ok σ =>
    let hnr := calculate_hash_of_function_symbol w name arity_ &&& σ.function_symbol_table_mask
    match σ.function_symbol_hashtable[hnr]? with
    | none => .error .undefined_behaviour
    | some cur =>
      match find_symbol σ name arity_ (σ.function_lookup_table_size + 1) cur with
      | .error e => .error e
      | .ok (some cur) =>
        match increase_reference_count cur σ with
        | .error e => .error e
        | .ok σ' => .ok (cur, σ')
      | .ok none => insert_symbol w memory name arity_ hnr σ

/-- Modelled from the spec: the call `function_adm.initialise_function_symbols()`, whose
class is not among the sources. It registers a fixed set of built-in symbols (§4.1), given
here by their names and arities, each with the constructor `construct`. -/
def initialise_function_symbols
    (construct : List Nat → Nat → administration → Except failure (Nat × administration)) :
    List (List Nat × Nat) → administration → Except failure administration
  | [], σ => .ok σ
  | (name, arity) :: rest, σ =>
    match construct name arity σ with
    | .error e => .error e
    | .ok (_, σ') => initialise_function_symbols construct rest σ'

/-- The function `initialise_administration()`. The call `initialise_aterm_administration()`
at its end sets up the term administration and leaves these globals alone. -/
def initialise_administration (memory : Nat → Bool) (builtin : List (List Nat × Nat))
    (construct : List Nat → Nat → administration → Except failure (Nat × administration))
    (σ : administration) : Except failure administration :=
  if σ.function_symbol_table_size = 0 then
    if memory σ.allocations then
      if memory (σ.allocations + 1) then
        initialise_function_symbols construct builtin
          { σ with
            function_symbol_table_size := INITIAL_FUNCTION_HASH_TABLE_SIZE
            function_symbol_table_mask := INITIAL_FUNCTION_HASH_TABLE_SIZE - 1
            function_symbol_hashtable := List.replicate INITIAL_FUNCTION_HASH_TABLE_SIZE none
            function_lookup_table_actual_size := INITIAL_FUNCTION_LOOKUP_TABLE_SIZE
            allocations := σ.allocations + 2 }
      else .error (.out_of_memory "Out of memory. Cannot create function lookup table.")
    else .error (.out_of_memory "Out of memory. Cannot create function symbol hashtable.")
  else .ok σ

/-- The constructor `function_symbol::function_symbol(const std::string&, const size_t)`.
`depth` bounds the nesting of constructor calls: the constructor calls
`initialise_administration()`, which constructs the built-in symbols. -/
def function_symbol (w : Nat) (memory : Nat → Bool) (builtin : List (List Nat × Nat)) :
    Nat → List Nat → Nat → administration → Except failure (Nat × administration)
  | 0, _, _, _ => .error .no_termination
  | depth + 1, name, arity_, σ =>
    match (if σ.function_symbol_table_size = 0
        then initialise_administration memory builtin (function_symbol w memory builtin depth) σ
        else .ok σ) with
    | .error e => .error e
    | .ok σ => function_symbol_lookup_or_insert w memory name arity_ σ

/-- The unlink loop of `free_function_symbol()`:
`for (cur = table[prev].next; cur != m_number; prev = cur, cur = table[cur].next)`, returning
`prev` when `cur` has reached `m_number`. Reading the record `END_OF_LIST` is out of bounds. -/
def find_previous (σ : administration) (m_number : Nat) : Nat → Option Nat →
    Except failure Nat
  | _, none => .error .undefined_behaviour
  | 0, some _ => .error .no_termination
  | fuel + 1, some prev =>
    match σ.function_lookup_table[prev]? with
    | none => .error .undefined_behaviour
    | some entry =>
      if entry.next = some m_number then .ok prev
      else find_previous σ m_number fuel entry.next

/-- The function `function_symbol::free_function_symbol()`. -/
def free_function_symbol (w : Nat) (m_number : Nat) (σ : administration) :
    Except failure administration :=
  match σ.function_lookup_table[m_number]? with
  | none => .error .undefined_behaviour
  | some sym =>
    let hnr := calculate_hash_of_function_symbol w sym.name sym.arity
      &&& σ.function_symbol_table_mask
    match σ.function_symbol_hashtable[hnr]? with
    | none => .error .undefined_behaviour
    | some head =>
      match (if head = some m_number then
          Except.ok
            { σ with function_symbol_hashtable := σ.function_symbol_hashtable.set hnr sym.next }
        else
          match find_previous σ m_number (σ.function_lookup_table_size + 1) head with
          | .error e => .error e
          | .ok prev =>
            match σ.function_lookup_table[prev]? with
            | none => .error .undefined_behaviour
            | some entry =>
              let unlinked := { entry with next := sym.next }
              .ok { σ with function_lookup_table := σ.function_lookup_table.set prev unlinked })
        with
      | .error e => .error e
      | .ok σ1 =>
        match σ1.function_lookup_table[m_number]? with
        | none => .error .undefined_behaviour
        | some entry =>
          let released := { entry with next := σ1.first_free }
          .ok { σ1 with
            function_lookup_table := σ1.function_lookup_table.set m_number released
            first_free := some m_number }

/-- Modelled from the spec: the member `decrease_reference_count()`, declared in a header
that is not among the sources. Releasing a handle decrements the count and, at zero, the
record is unlinked and returned to the free list (§4.1, §4.4), which is what
`free_function_symbol()` does. -/
def decrease_reference_count (w : Nat) (m_number : Nat) (σ : administration) :
    Except failure administration :=
  match σ.function_lookup_table[m_number]? with
  | none => .error .undefined_behaviour
  | some entry =>
    let count := (entry.reference_count + (2 ^ w - 1)) % 2 ^ w
    let counted := { entry with reference_count := count }
    let σ1 := { σ with function_lookup_table := σ.function_lookup_table.set m_number counted }
    if count = 0 then free_function_symbol w m_number σ1 else .ok σ1

/-- The records reached from `head` through the `next` fields are, in this order, those with
the indices `l`, and then `END_OF_LIST`. -/
inductive chain (table : List _function_symbol) : Option Nat → List Nat → Prop
  | nil : chain table none []
  | cons (i : Nat) (entry : _function_symbol) (rest : List Nat) :
      table[i]? = some entry → chain table entry.next rest → chain table (some i) (i :: rest)

/-- The bucket of record `i`: the hash of its name and arity, masked. -/
def bucket_of (w mask : Nat) (table : List _function_symbol) (i : Nat) : Option Nat :=
  (table[i]?).map (fun e => calculate_hash_of_function_symbol w e.name e.arity &&& mask)

/-- The indices below `k`, largest first, of the records whose bucket is `b`. -/
def members (w mask : Nat) (table : List _function_symbol) (b : Nat) : Nat → List Nat
  | 0 => []
  | k + 1 =>
    if bucket_of w mask table k = some b then k :: members w mask table b k
    else members w mask table b k

/-- Whether record `i` has the given name and arity, the test of the search loop. -/
def is_symbol (table : List _function_symbol) (name : List Nat) (arity_ : Nat) (i : Nat) : Bool :=
  match table[i]? with
  | some entry => decide (entry.arity = arity_ ∧ entry.name = name)
  | none => false

/-- The state `σ` of the rehash loop after `k` records, started in `σ0`: only the `next`
fields and the bucket heads have changed, and bucket `b` heads the chain of the records below
`k` whose hash falls in `b`, the last one linked first. -/
structure rehashed (w : Nat) (σ0 σ : administration) (k : Nat) : Prop where
  table_size : σ.function_symbol_table_size = σ0.function_symbol_table_size
  table_mask : σ.function_symbol_table_mask = σ0.function_symbol_table_mask
  first_free : σ.first_free = σ0.first_free
  actual_size : σ.function_lookup_table_actual_size = σ0.function_lookup_table_actual_size
  lookup_size : σ.function_lookup_table_size = σ0.function_lookup_table_size
  allocations : σ.allocations = σ0.allocations
  hashtable_length : σ.function_symbol_hashtable.length = σ0.function_symbol_hashtable.length
  records : ∀ (i : Nat) (e : _function_symbol), σ0.function_lookup_table[i]? = some e →
    ∃ next, σ.function_lookup_table[i]? = some { e with next := next }
  table_length : σ.function_lookup_table.length = σ0.function_lookup_table.length
  chains : ∀ b, b < σ.function_symbol_hashtable.length →
    ∃ head, σ.function_symbol_hashtable[b]? = some head ∧
      chain σ.function_lookup_table head
        (members w σ0.function_symbol_table_mask σ0.function_lookup_table b k)

/-- The client code of the scenario: construct the symbols `name/arity`, `name/(arity+1)`,
..., `name/(arity+count)` one after the other, keep every handle, and return the last handle.
The constructor may nest twice (to construct the built-in symbols). -/
def construct_fresh (w : Nat) (memory : Nat → Bool) (builtin : List (List Nat × Nat))
    (name : List Nat) : Nat → Nat → administration → Except failure (Nat × administration)
  | 0, arity, σ => function_symbol w memory builtin 2 name arity σ
  | count + 1, arity, σ =>
    match function_symbol w memory builtin 2 name arity σ with
    | .error e => .error e
    | .ok (_, σ') => construct_fresh w memory builtin name count (arity + 1) σ'

/-- The states in which the table is being filled for the first time: it has its initial size,
no record has been released, every record has an arity below `bound`, and every bucket heads a
chain of at most `function_lookup_table_size` records. -/
structure filling (σ : administration) (bound : Nat) : Prop where
  table_size : σ.function_symbol_table_size = INITIAL_FUNCTION_HASH_TABLE_SIZE
  table_mask : σ.function_symbol_table_mask = INITIAL_FUNCTION_HASH_TABLE_SIZE - 1
  hashtable_length : σ.function_symbol_hashtable.length = INITIAL_FUNCTION_HASH_TABLE_SIZE
  table_length : σ.function_lookup_table.length = σ.function_lookup_table_size
  first_free : σ.first_free = none
  actual_pos : 0 < σ.function_lookup_table_actual_size
  actual_ge : σ.function_lookup_table_size ≤ σ.function_lookup_table_actual_size
  actual_le : σ.function_lookup_table_actual_size ≤ 2 * INITIAL_FUNCTION_HASH_TABLE_SIZE
  arities : ∀ (i : Nat) (e : _function_symbol), σ.function_lookup_table[i]? = some e →
    e.arity < bound
  chains : ∀ b, b < INITIAL_FUNCTION_HASH_TABLE_SIZE →
    ∃ head l, σ.function_symbol_hashtable[b]? = some head ∧
      chain σ.function_lookup_table head l ∧ l.length ≤ σ.function_lookup_table_size

/-- Record `cur` is `head` or comes after it when the `next` fields are followed. -/
inductive reaches (table : List _function_symbol) : Option Nat → Nat → Prop
  | here (cur : Nat) : reaches table (some cur) cur
  | step (i : Nat) (entry : _function_symbol) (cur : Nat) :
      table[i]? = some entry → reaches table entry.next cur → reaches table (some i) cur

end index_build

/-! ## function_symbol.cpp, the build with `FUNCTION_SYMBOL_AS_POINTER` (pointer build)

A pointer to the record `function_symbol_index_table[i][j]` is the number
`j + FUNCTION_SYMBOL_BLOCK_SIZE * i`, which is also what the field `number` of that record
holds; `END_OF_LIST` (the null pointer) is `none`. The records of all blocks are kept in one
list, block after block. -/

namespace pointer_build

/-- The ways in which a call does not return normally, as in the index build. -/
abbrev failure := index_build.failure

/-- The macros `FUNCTION_SYMBOL_BLOCK_CLASS` and `FUNCTION_SYMBOL_BLOCK_SIZE`, which are defined
in a header that is not among the sources. They are parameters of the embedding. -/
structure block_macros where
  FUNCTION_SYMBOL_BLOCK_CLASS : Nat
  FUNCTION_SYMBOL_BLOCK_SIZE : Nat

/-- The record `_function_symbol` of the pointer build, with the fields the source uses. -/
structure _function_symbol where
  arity : Nat
  name : List Nat
  reference_count : Nat
  next : Option Nat
  number : Nat
  deriving DecidableEq, Repr

/-- The globals of the pointer build. `index_table_capacity` is the number of block pointers
that the array `function_symbol_index_table` has room for (none before it is allocated);
`function_symbol_index_table` holds the records of the blocks created so far; `allocations`
counts the allocation requests made so far. -/
structure administration where
  function_symbol_table_size : Nat
  function_symbol_table_mask : Nat
  function_symbol_hashtable : List (Option Nat)
  function_symbol_index_table_size : Nat
  function_symbol_free_list : Option Nat
  index_table_capacity : Nat
  function_symbol_index_table : List _function_symbol
  allocations : Nat
  deriving DecidableEq, Repr

/-- The globals at program start. -/
def administration.start : administration :=
  { function_symbol_table_size := 0, function_symbol_table_mask := 0,
    function_symbol_hashtable := [], function_symbol_index_table_size := 0,
    function_symbol_free_list := none, index_table_capacity := 0,
    function_symbol_index_table := [], allocations := 0 }

/-- The constant `INITIAL_FUNCTION_HASH_TABLE_SIZE = 1<<FUNCTION_SYMBOL_BLOCK_CLASS`. -/
def INITIAL_FUNCTION_HASH_TABLE_SIZE (P : block_macros) (w : Nat) : Nat :=
  1 <<< P.FUNCTION_SYMBOL_BLOCK_CLASS % 2 ^ w

/-- The constant `INITIAL_FUNCTION_INDEX_TABLE_SIZE = 128`. -/
def INITIAL_FUNCTION_INDEX_TABLE_SIZE : Nat := 128

/-- The constant `MAGIC_PRIME = 7`. -/
def MAGIC_PRIME : Nat := 7

/-- The function `calculate_hash_of_function_symbol(name, arity)`. -/
def calculate_hash_of_function_symbol (w : Nat) (name : List Nat) (arity : Nat) : Nat :=
  (name.foldl (fun hnr c => (251 * hnr + c) % 2 ^ w) (arity * 3 % 2 ^ w)) * MAGIC_PRIME % 2 ^ w

/-- The loop of `create_new_function_symbol_block()`, `for(i=..; i>0; ) { --i; ... }`, with
`i` records of the block at `base` still to do: record `i` is cleared, put in front of the
free list and numbered. -/
def clear_block (base : Nat) : Nat → administration → administration
  | 0, σ => σ
  | i + 1, σ =>
    let cleared : _function_symbol :=
      { arity := 0, name := [], reference_count := 0, next := σ.function_symbol_free_list,
        number := base + i }
    clear_block base i
      { σ with
        function_symbol_index_table := σ.function_symbol_index_table.set (base + i) cleared
        function_symbol_free_list := some (base + i) }

/-- The function `create_new_function_symbol_block()`. Writing the block pointer at
`function_symbol_index_table[function_symbol_index_table_size]` is out of bounds when the
array has no such entry. The new block is appended (its records are not yet initialised), then
cleared. -/
def create_new_function_symbol_block (P : block_macros) (memory : Nat → Bool)
    (σ : administration) : Except failure administration :=
  if σ.function_symbol_index_table_size < σ.index_table_capacity then
    if memory σ.allocations then
      let fresh : _function_symbol :=
        { arity := 0, name := [], reference_count := 0, next := none, number := 0 }
      let σ1 := clear_block (P.FUNCTION_SYMBOL_BLOCK_SIZE * σ.function_symbol_index_table_size)
        P.FUNCTION_SYMBOL_BLOCK_SIZE
        { σ with
          function_symbol_index_table :=
            σ.function_symbol_index_table ++ List.replicate P.FUNCTION_SYMBOL_BLOCK_SIZE fresh
          allocations := σ.allocations + 1 }
      .ok { σ1 with function_symbol_index_table_size := σ.function_symbol_index_table_size + 1 }
    else .error (.out_of_memory "Out of memory. Fail to resize function_lookup_table.")
  else .error .undefined_behaviour

/-- The inner loop of `resize_function_symbol_hashtable()`, `for (j=..; j<BLOCK_SIZE; j++)`,
with `remaining` records of block `i` to go: a record with a positive reference count is put
at the head of the chain of its hash. -/
def rehash_block (P : block_macros) (w : Nat) (i : Nat) :
    Nat → Nat → administration → Except failure administration
  | 0, _, σ => .ok σ
  | remaining + 1, j, σ =>
    match σ.function_symbol_index_table[j + P.FUNCTION_SYMBOL_BLOCK_SIZE * i]? with
    | none => .error .undefined_behaviour
    | some entry =>
      if entry.reference_count > 0 then
        let hnr := calculate_hash_of_function_symbol w entry.name entry.arity
          &&& σ.function_symbol_table_mask
        match σ.function_symbol_hashtable[hnr]? with
        | none => .error .undefined_behaviour
        | some head =>
          let linked := { entry with next := head }
          rehash_block P w i remaining (j + 1)
            { σ with
              function_symbol_index_table :=
                σ.function_symbol_index_table.set (j + P.FUNCTION_SYMBOL_BLOCK_SIZE * i) linked
              function_symbol_hashtable :=
                σ.function_symbol_hashtable.set hnr
                  (some (j + P.FUNCTION_SYMBOL_BLOCK_SIZE * i)) }
      else rehash_block P w i remaining (j + 1) σ

/-- The outer loop of `resize_function_symbol_hashtable()`,
`for (i=..; i<function_symbol_index_table_size; i++)`, with `remaining` blocks to go. -/
def rehash_blocks (P : block_macros) (w : Nat) :
    Nat → Nat → administration → Except failure administration
  | 0, _, σ => .ok σ
  | remaining + 1, i, σ =>
    match rehash_block P w i P.FUNCTION_SYMBOL_BLOCK_SIZE 0 σ with
    | .error e => .error e
    | .ok σ' => rehash_blocks P w remaining (i + 1) σ'

/-- The function `resize_function_symbol_hashtable()`. -/
def resize_function_symbol_hashtable (P : block_macros) (w : Nat) (memory : Nat → Bool)
    (σ : administration) : Except failure administration :=
  let size := σ.function_symbol_table_size <<< 1 % 2 ^ w
  if memory σ.allocations then
    rehash_blocks P w σ.function_symbol_index_table_size 0
      { σ with
        function_symbol_table_size := size
        function_symbol_table_mask := (size + (2 ^ w - 1)) % 2 ^ w
        function_symbol_hashtable := List.replicate size none
        allocations := σ.allocations + 1 }
  else
    .ok { σ with function_symbol_table_size := size >>> 1, allocations := σ.allocations + 1 }

/-- Modelled from the spec: the member `increase_reference_count<CHECK>()`, declared in a
header that is not among the sources. Acquiring a handle increments the count of the record
(§4.1, §4.4); `CHECK` only adds the assertion that the count was positive. -/
def increase_reference_count (m_function_symbol : Nat) (σ : administration) :
    Except failure administration :=
  match σ.function_symbol_index_table[m_function_symbol]? with
  | none => .error .undefined_behaviour
  | some entry =>
    let counted := { entry with reference_count := entry.reference_count + 1 }
    .ok { σ with
      function_symbol_index_table := σ.function_symbol_index_table.set m_function_symbol counted }

/-- The search loop of the constructor: `while (cur!=detail::END_OF_LIST)`, returning the
record that has the arity and the name, if the chain holds one. -/
def find_symbol (σ : administration) (name : List Nat) (arity_ : Nat) :
    Nat → Option Nat → Except failure (Option Nat)
  | _, none => .ok none
  | 0, some _ => .error .no_termination
  | fuel + 1, some cur =>
    match σ.function_symbol_index_table[cur]? with
    | none => .error .undefined_behaviour
    | some entry =>
      if entry.arity = arity_ ∧ entry.name = name then .ok (some cur)
      else find_symbol σ name arity_ fuel entry.next

/-- The part of the constructor after the search loop has missed: create a block when the
free list is empty, take the first free record, fill it, link it at the head of the chain
`hnr` and count the first reference. -/
def insert_symbol (P : block_macros) (memory : Nat → Bool) (name : List Nat) (arity_ : Nat)
    (hnr : Nat) (σ : administration) : Except failure (Nat × administration) :=
  match (if σ.function_symbol_free_list = none
      then create_new_function_symbol_block P memory σ else .ok σ) with
  | .error e => .error e
  | .ok σ =>
    match σ.function_symbol_free_list with
    | none => .error .undefined_behaviour
    | some cur =>
      match σ.function_symbol_index_table[cur]? with
      | none => .error .undefined_behaviour
      | some entry =>
        match σ.function_symbol_hashtable[hnr]? with
        | none => .error .undefined_behaviour
        | some head =>
          let filled := { entry with name := name, arity := arity_, next := head }
          match increase_reference_count cur
            { σ with
              function_symbol_free_list := entry.next
              function_symbol_index_table := σ.function_symbol_index_table.set cur filled
              function_symbol_hashtable := σ.function_symbol_hashtable.set hnr (some cur) } with
          | .error e => .error e
          | .ok σ' => .ok (cur, σ')

/-- The constructor `function_symbol::function_symbol(const std::string&, const size_t)` from
the resize test on, that is, once `function_symbol_table_size` is not zero. The search loop
can pass through each record once. -/
def function_symbol_lookup_or_insert (P : block_macros) (w : Nat) (memory : Nat → Bool)
    (name : List Nat) (arity_ : Nat) (σ : administration) :
    Except failure (Nat × administration) :=
  match (if σ.function_symbol_index_table_size <<< (P.FUNCTION_SYMBOL_BLOCK_CLASS + 1) % 2 ^ w
        > σ.function_symbol_table_size
      then resize_function_symbol_hashtable P w memory σ else .ok σ) with
  | .error e => .error e
  | .ok σ =>
    let hnr := calculate_hash_of_function_symbol w name arity_ &&& σ.function_symbol_table_mask
    match σ.function_symbol_hashtable[hnr]? with
    | none => .error .undefined_behaviour
    | some cur =>
      match find_symbol σ name arity_ (σ.function_symbol_index_table.length + 1) cur with
      | .error e => .error e
      | .ok (some cur) =>
        match increase_reference_count cur σ with
        | .error e => .error e
        | .ok σ' => .ok (cur, σ')
      | .ok none => insert_symbol P memory name arity_ hnr σ

/-- Modelled from the spec: the call `function_adm.initialise_function_symbols()`, whose
class is not among the sources. It registers a fixed set of built-in symbols (§4.1), given
here by their names and arities, each with the constructor `construct`. -/
def initialise_function_symbols
    (construct : List Nat → Nat → administration → Except failure (Nat × administration)) :
    List (List Nat × Nat) → administration → Except failure administration
  | [], σ => .ok σ
  | (name, arity) :: rest, σ =>
    match construct name arity σ with
    | .error e => .error e
    | .ok (_, σ') => initialise_function_symbols construct rest σ'

/-- The function `initialise_administration()`. The call `initialise_aterm_administration()`
at its end sets up the term administration and leaves these globals alone. -/
def initialise_administration (P : block_macros) (w : Nat) (memory : Nat → Bool)
    (builtin : List (List Nat × Nat))
    (construct : List Nat → Nat → administration → Except failure (Nat × administration))
    (σ : administration) : Except failure administration :=
  if σ.function_symbol_table_size = 0 then
    if memory σ.allocations then
      if memory (σ.allocations + 1) then
        match create_new_function_symbol_block P memory
          { σ with
            function_symbol_table_size := INITIAL_FUNCTION_HASH_TABLE_SIZE P w
            function_symbol_table_mask :=
              (INITIAL_FUNCTION_HASH_TABLE_SIZE P w + (2 ^ w - 1)) % 2 ^ w
            function_symbol_hashtable :=
              List.replicate (INITIAL_FUNCTION_HASH_TABLE_SIZE P w) none
            index_table_capacity := INITIAL_FUNCTION_INDEX_TABLE_SIZE
            function_symbol_index_table_size := 0
            allocations := σ.allocations + 2 } with
        | .error e => .error e
        | .ok σ' => initialise_function_symbols construct builtin σ'
      else .error (.out_of_memory "Out of memory. Cannot create function symbol index table.")
    else .error (.out_of_memory "Out of memory. Cannot create function symbol hashtable.")
  else .ok σ

/-- The constructor `function_symbol::function_symbol(const std::string&, const size_t)`.
`depth` bounds the nesting of constructor calls: the constructor calls
`initialise_administration()`, which constructs the built-in symbols. -/
def function_symbol (P : block_macros) (w : Nat) (memory : Nat → Bool)
    (builtin : List (List Nat × Nat)) :
    Nat → List Nat → Nat → administration → Except failure (Nat × administration)
  | 0, _, _, _ => .error .no_termination
  | depth + 1, name, arity_, σ =>
    match (if σ.function_symbol_table_size = 0
        then initialise_administration P w memory builtin
          (function_symbol P w memory builtin depth) σ
        else .ok σ) with
    | .error e => .error e
    | .ok σ => function_symbol_lookup_or_insert P w memory name arity_ σ

/-- The default constructor `function_symbol::function_symbol()`, which denotes the record
`function_symbol_index_table[0][0]`. -/
def function_symbol_default (P : block_macros) (w : Nat) (memory : Nat → Bool)
    (builtin : List (List Nat × Nat)) (depth : Nat) (σ : administration) :
    Except failure (Nat × administration) :=
  match (if σ.function_symbol_table_size = 0
      then initialise_administration P w memory builtin
        (function_symbol P w memory builtin depth) σ
      else .ok σ) with
  | .error e => .error e
  | .ok σ =>
    match increase_reference_count 0 σ with
    | .error e => .error e
    | .ok σ' => .ok (0, σ')

/-- The unlink loop of `free_function_symbol()`:
`for (cur = prev->next; cur != m_function_symbol; prev = cur, cur = cur->next)`, returning
`prev` when `cur` has reached the symbol. Following the null pointer is undefined. -/
def find_previous (σ : administration) (m_function_symbol : Nat) : Nat → Option Nat →
    Except failure Nat
  | _, none => .error .undefined_behaviour
  | 0, some _ => .error .no_termination
  | fuel + 1, some prev =>
    match σ.function_symbol_index_table[prev]? with
    | none => .error .undefined_behaviour
    | some entry =>
      if entry.next = some m_function_symbol then .ok prev
      else find_previous σ m_function_symbol fuel entry.next

/-- The function `function_symbol::free_function_symbol()`. -/
def free_function_symbol (w : Nat) (m_function_symbol : Nat) (σ : administration) :
    Except failure administration :=
  match σ.function_symbol_index_table[m_function_symbol]? with
  | none => .error .undefined_behaviour
  | some sym =>
    let hnr := calculate_hash_of_function_symbol w sym.name sym.arity
      &&& σ.function_symbol_table_mask
    match σ.function_symbol_hashtable[hnr]? with
    | none => .error .undefined_behaviour
    | some head =>
      match (if head = some m_function_symbol then
          Except.ok
            { σ with function_symbol_hashtable := σ.function_symbol_hashtable.set hnr sym.next }
        else
          match find_previous σ m_function_symbol (σ.function_symbol_index_table.length + 1)
            head with
          | .error e => .error e
          | .ok prev =>
            match σ.function_symbol_index_table[prev]? with
            | none => .error .undefined_behaviour
            | some entry =>
              let unlinked := { entry with next := sym.next }
              .ok { σ with
                function_symbol_index_table := σ.function_symbol_index_table.set prev unlinked })
        with
      | .error e => .error e
      | .ok σ1 =>
        match σ1.function_symbol_index_table[m_function_symbol]? with
        | none => .error .undefined_behaviour
        | some entry =>
          let released := { entry with next := σ1.function_symbol_free_list }
          .ok { σ1 with
            function_symbol_index_table :=
              σ1.function_symbol_index_table.set m_function_symbol released
            function_symbol_free_list := some m_function_symbol }

/-- Modelled from the spec: the member `decrease_reference_count()`, declared in a header
that is not among the sources. Releasing a handle decrements the count and, at zero, the
record is unlinked and returned to the free list (§4.1, §4.4), which is what
`free_function_symbol()` does. -/
def decrease_reference_count (w : Nat) (m_function_symbol : Nat) (σ : administration) :
    Except failure administration :=
  match σ.function_symbol_index_table[m_function_symbol]? with
  | none => .error .undefined_behaviour
  | some entry =>
    let count := (entry.reference_count + (2 ^ w - 1)) % 2 ^ w
    let counted := { entry with reference_count := count }
    let σ1 := { σ with
      function_symbol_index_table := σ.function_symbol_index_table.set m_function_symbol counted }
    if count = 0 then free_function_symbol w m_function_symbol σ1 else .ok σ1

/-- The records reached from `head` through the `next` fields are, in this order, those with
the numbers `l`, and then `END_OF_LIST`. -/
inductive chain (table : List _function_symbol) : Option Nat → List Nat → Prop
  | nil : chain table none []
  | cons (i : Nat) (entry : _function_symbol) (rest : List Nat) :
      table[i]? = some entry → chain table entry.next rest → chain table (some i) (i :: rest)

/-- Record `cur` is `head` or comes after it when the `next` fields are followed. -/
inductive reaches (table : List _function_symbol) : Option Nat → Nat → Prop
  | here (cur : Nat) : reaches table (some cur) cur
  | step (i : Nat) (entry : _function_symbol) (cur : Nat) :
      table[i]? = some entry → reaches table entry.next cur → reaches table (some i) cur

/-- Whether record `i` has the given name and arity, the test of the search loop. -/
def is_symbol (table : List _function_symbol) (name : List Nat) (arity_ : Nat) (i : Nat) : Bool :=
  match table[i]? with
  | some entry => decide (entry.arity = arity_ ∧ entry.name = name)
  | none => false

/-- The numbers below `k`, largest first, of the records that are referenced and whose hash,
masked, is the bucket `b`. -/
def live_members (w mask : Nat) (table : List _function_symbol) (b : Nat) : Nat → List Nat
  | 0 => []
  | k + 1 =>
    match table[k]? with
    | some e =>
      if 0 < e.reference_count ∧ calculate_hash_of_function_symbol w e.name e.arity &&& mask = b
      then k :: live_members w mask table b k
      else live_members w mask table b k
    | none => live_members w mask table b k

/-- The state `σ` of the rehash loops after the first `k` records, started in `σ0`: only the
`next` fields of referenced records and the bucket heads have changed, and bucket `b` heads
the chain of the referenced records below `k` whose hash falls in `b`, the last one linked
first. -/
structure rehashed (w : Nat) (σ0 σ : administration) (k : Nat) : Prop where
  table_size : σ.function_symbol_table_size = σ0.function_symbol_table_size
  table_mask : σ.function_symbol_table_mask = σ0.function_symbol_table_mask
  index_table_size : σ.function_symbol_index_table_size = σ0.function_symbol_index_table_size
  free_list : σ.function_symbol_free_list = σ0.function_symbol_free_list
  capacity : σ.index_table_capacity = σ0.index_table_capacity
  allocations : σ.allocations = σ0.allocations
  hashtable_length : σ.function_symbol_hashtable.length = σ0.function_symbol_hashtable.length
  records : ∀ (i : Nat) (e : _function_symbol), σ0.function_symbol_index_table[i]? = some e →
    ∃ next, σ.function_symbol_index_table[i]? = some { e with next := next }
  released : ∀ (i : Nat) (e : _function_symbol), σ0.function_symbol_index_table[i]? = some e →
    e.reference_count = 0 → σ.function_symbol_index_table[i]? = some e
  table_length : σ.function_symbol_index_table.length = σ0.function_symbol_index_table.length
  chains : ∀ b, b < σ.function_symbol_hashtable.length →
    ∃ head, σ.function_symbol_hashtable[b]? = some head ∧
      chain σ.function_symbol_index_table head
        (live_members w σ0.function_symbol_table_mask σ0.function_symbol_index_table b k)

/-- The invariant of the pointer build between two calls, once the table is initialised: the
size is a power of two below `2^(FUNCTION_SYMBOL_BLOCK_CLASS + 9)`, the mask is the size minus
one, there is one bucket per hash value, the index table has room for 128 blocks of which at
most 128 exist, the records come in whole blocks, the free list runs through exactly the
records without a reference, bucket `b` heads a chain of exactly the records with a reference
whose hash, masked, is `b`, and no two records with a reference have the same name and
arity. -/
structure well_formed (P : block_macros) (w : Nat) (σ : administration) : Prop where
  size_pow : ∃ k, σ.function_symbol_table_size = 2 ^ k
  size_bound : σ.function_symbol_table_size < 2 ^ (P.FUNCTION_SYMBOL_BLOCK_CLASS + 9)
  mask_eq : σ.function_symbol_table_mask = σ.function_symbol_table_size - 1
  hashtable_length : σ.function_symbol_hashtable.length = σ.function_symbol_table_size
  capacity_eq : σ.index_table_capacity = INITIAL_FUNCTION_INDEX_TABLE_SIZE
  blocks_le : σ.function_symbol_index_table_size ≤ INITIAL_FUNCTION_INDEX_TABLE_SIZE
  table_length : σ.function_symbol_index_table.length
    = P.FUNCTION_SYMBOL_BLOCK_SIZE * σ.function_symbol_index_table_size
  free_chain : ∃ F, chain σ.function_symbol_index_table σ.function_symbol_free_list F ∧
    ∀ i, i ∈ F ↔ ∃ e, σ.function_symbol_index_table[i]? = some e ∧ e.reference_count = 0
  buckets : ∀ b, b < σ.function_symbol_table_size →
    ∃ head L, σ.function_symbol_hashtable[b]? = some head ∧
      chain σ.function_symbol_index_table head L ∧
      ∀ i, i ∈ L ↔ ∃ e, σ.function_symbol_index_table[i]? = some e ∧ 0 < e.reference_count ∧
        calculate_hash_of_function_symbol w e.name e.arity &&& σ.function_symbol_table_mask = b
  unique : ∀ (i j : Nat) (ei ej : _function_symbol),
    σ.function_symbol_index_table[i]? = some ei → σ.function_symbol_index_table[j]? = some ej →
    0 < ei.reference_count → 0 < ej.reference_count →
    ei.name = ej.name → ei.arity = ej.arity → i = j

/-- The states that a program reaches from the start of the program: a symbol is constructed
from a name and an arity (which initialises the table at the first time and resizes it when
due), a handle is copied, or a handle is destroyed; a handle can be copied or destroyed only
while it exists, that is, while its record has a reference. -/
inductive reachable (P : block_macros) (w : Nat) (memory : Nat → Bool)
    (builtin : List (List Nat × Nat)) : administration → Prop
  | start : reachable P w memory builtin administration.start
  | construct (σ σ' : administration) (depth : Nat) (name : List Nat) (arity_ handle : Nat) :
      reachable P w memory builtin σ →
      function_symbol P w memory builtin depth name arity_ σ = .ok (handle, σ') →
      reachable P w memory builtin σ'
  | copy (σ σ' : administration) (handle : Nat) (e : _function_symbol) :
      reachable P w memory builtin σ →
      σ.function_symbol_index_table[handle]? = some e → 0 < e.reference_count →
      increase_reference_count handle σ = .ok σ' →
      reachable P w memory builtin σ'
  | release (σ σ' : administration) (handle : Nat) (e : _function_symbol) :
      reachable P w memory builtin σ →
      σ.function_symbol_index_table[handle]? = some e → 0 < e.reference_count →
      decrease_reference_count w handle σ = .ok σ' →
      reachable P w memory builtin σ'

end pointer_build

/-! ## The hash of a function symbol as the specification writes it -/

/-- A sample state of the pointer build: 64-bit words are meant, blocks have two records, the
table has two buckets, `f/1` lives in record 0 (bucket 1) and record 1 is free. -/
def pointer_build.sample_administration : pointer_build.administration :=
  ⟨2, 1, [none, some 0], 1, some 1, 128, [⟨1, [102], 1, none, 0⟩, ⟨0, [], 0, none, 1⟩], 3⟩

/-- The block macros that go with `pointer_build.sample_administration`. -/
def pointer_build.sample_macros : pointer_build.block_macros := ⟨1, 2⟩

/-- A sample state of the index build: the table has two buckets and `f/1` lives in record 0
(bucket 1). -/
def index_build.sample_administration : index_build.administration :=
  ⟨2, 1, [none, some 0], none, 128, 1, [⟨[102], 1, none, 1⟩], 2⟩

/-- A sample state of the pointer build in which `f/1` has just lost its last reference: the
chain of bucket 1 is `g/0` (record 1) and then `f/1` (record 0), and no record is free. -/
def pointer_build.sample_released : pointer_build.administration :=
  ⟨2, 1, [none, some 1], 1, none, 128, [⟨1, [102], 0, none, 0⟩, ⟨0, [103], 1, some 0, 1⟩], 3⟩

/-- The same sample state in the index build. -/
def index_build.sample_released : index_build.administration :=
  ⟨2, 1, [none, some 1], none, 128, 2, [⟨[102], 1, none, 0⟩, ⟨[103], 0, some 0, 1⟩], 2⟩

/-- A sample state of the pointer build that is due for a resize: two buckets, two blocks of
two records; `f/1` (record 0) and `g/0` (record 1) are referenced and share bucket 1, record 2
has been released and record 3 was never used. -/
def pointer_build.sample_full : pointer_build.administration :=
  ⟨2, 1, [none, some 1], 2, some 2, 128,
    [⟨1, [102], 1, none, 0⟩, ⟨0, [103], 1, some 0, 1⟩, ⟨2, [104], 0, some 3, 2⟩,
      ⟨0, [], 0, none, 3⟩], 4⟩

namespace detail

/-! ## The table of integer terms of the specification (§4.3, §6)

The integer terms themselves (`aterm_int.h`) are not among the sources; only their hash and
equality functors are. -/

/-- Modelled from the spec: a slot of the node store that holds an integer term (§4.2),
missing from the sources: the stable address of the node, and the node. -/
structure int_slot where
  address : unprotected_aterm
  term : _aterm_int
  deriving DecidableEq, Repr

/-- Modelled from the spec: the table in which integer terms are stored, "keyed only by
value" (§4.3), missing from the sources: `table_size` buckets, each a chain of node handles
with the newest entry at its head, and the slots carved so far, oldest first. -/
structure int_table where
  table_size : Nat
  buckets : List (List unprotected_aterm)
  slots : List int_slot
  deriving DecidableEq, Repr

/-- Modelled from the spec: the empty table of integer terms with `size` buckets, missing from
the sources. -/
def int_table.empty (size : Nat) : int_table :=
  { table_size := size, buckets := List.replicate size [], slots := [] }

/-- Modelled from the spec: following a handle to its integer node, missing from the sources;
`none` when no slot lives at the address. -/
def int_table.node (σ : int_table) (h : unprotected_aterm) : Option _aterm_int :=
  (σ.slots.find? (fun s => decide (s.address = h))).map (fun s => s.term)

/-- Modelled from the spec: the chain of bucket `b`, missing from the sources. -/
def int_table.chain (σ : int_table) (b : Nat) : List unprotected_aterm :=
  σ.buckets.getD b []

/-- Modelled from the spec: the walk along a chain of integer terms (§4.3), missing from the
sources: the first entry for which `aterm_int_equals(entry, value)` holds is accepted. The
outer `none` is a dangling entry. -/
def find_int_in_chain (σ : int_table) (value : Nat) :
    List unprotected_aterm → Option (Option unprotected_aterm)
  | [] => some none
  | e :: rest =>
    match σ.node e with
    | none => none
    | some t =>
      if aterm_int_equals_value t value then some (some e)
      else find_int_in_chain σ value rest

/-- Modelled from the spec: `make_int_term(value)` of §6, the constructor `aterm_int(value)`,
missing from the sources. The hash of an integer term is its value (§4.3), so the bucket is
`aterm_int_hasher(value) & (table_size - 1)`; on a match the node found is returned, on a miss
a new node that carries the value is carved at `slot_address (number of slots)` and linked at
the head of the chain. -/
def make_int_term (slot_address : Nat → Nat) (σ : int_table) (value : Nat) :
    Option (unprotected_aterm × int_table) :=
  let bucket := aterm_int_hasher_value value &&& (σ.table_size - 1)
  match find_int_in_chain σ value (σ.chain bucket) with
  | none => none
  | some (some e) => some (e, σ)
  | some none =>
    let e : unprotected_aterm := ⟨slot_address σ.slots.length⟩
    some (e, { σ with
      buckets := σ.buckets.set bucket (e :: σ.chain bucket)
      slots := σ.slots ++ [⟨e, ⟨value⟩⟩] })

/-- Modelled from the spec: `term_int_value(t)` of §6, the call `aterm_int(t).value()`,
missing from the sources: the value that the node at `t` carries; `none` when `t` is not an
integer term of the table. -/
def term_int_value (σ : int_table) (t : unprotected_aterm) : Option Nat :=
  (σ.node t).map (fun n => n.value)

/-- Modelled from the spec: the states of the table of integer terms that requests produce
from an empty table. -/
inductive int_table.Reachable (slot_address : Nat → Nat) : int_table → Prop
  | empty (size : Nat) : int_table.Reachable slot_address (int_table.empty size)
  | request (σ σ' : int_table) (value : Nat) (t : unprotected_aterm) :
      int_table.Reachable slot_address σ →
      make_int_term slot_address σ value = some (t, σ') →
      int_table.Reachable slot_address σ'

/-- The invariant of the table of integer terms: slot `i` lives at `slot_address i` and every
chain entry is the address of a slot. -/
structure int_table.Inv (slot_address : Nat → Nat) (σ : int_table) : Prop where
  address_eq : ∀ (i : Nat) (s : int_slot), σ.slots[i]? = some s → s.address = ⟨slot_address i⟩
  chain_live : ∀ b, ∀ e ∈ σ.chain b, ∃ s ∈ σ.slots, s.address = e

end detail

/-! ## A client of the pointer build -/

/-- Client code: construct the symbols `name/arity`, `name/(arity+1)`, ..., `count` of them,
one after the other, and keep every handle. The constructor may nest twice (to construct the
built-in symbols). -/
def pointer_build.construct_symbols (P : pointer_build.block_macros) (w : Nat)
    (memory : Nat → Bool) (builtin : List (List Nat × Nat)) (name : List Nat) :
    Nat → Nat → pointer_build.administration → Except pointer_build.failure
      pointer_build.administration
  | 0, _, σ => .ok σ
  | count + 1, arity, σ =>
    match pointer_build.function_symbol P w memory builtin 2 name arity σ with
    | .error e => .error e
    | .ok (_, σ') => pointer_build.construct_symbols P w memory builtin name count (arity + 1) σ'

/-- The state of the pointer build after the first constructor call, `function_symbol("f", 1)`,
with 64-bit words, blocks of two records (`pointer_build.sample_macros`), no built-in symbols
and every allocation succeeding: four buckets, `f/1` in record 0 (bucket 1), record 1 free. -/
def pointer_build.sample_first : pointer_build.administration :=
  ⟨4, 3, [none, some 0, none, none], 1, some 1, 128,
    [⟨1, [102], 1, none, 0⟩, ⟨0, [], 0, none, 1⟩], 4⟩

/-- The state `pointer_build.sample_first` after the handle of `f/1` has been released: record
0 heads the free list, before record 1. -/
def pointer_build.sample_freed : pointer_build.administration :=
  ⟨4, 3, [none, none, none, none], 1, some 0, 128,
    [⟨1, [102], 0, some 1, 0⟩, ⟨0, [], 0, none, 1⟩], 4⟩

end atermpp

/-! ## identifier_generator.h

An identifier and a `std::string` are both the list of their characters, so that the
conversion `core::identifier_string(s)` is the identity. -/

namespace mcrl2
namespace data

/-- The members of `identifier_generator<Generator>` that the header leaves open: the pure
virtual `has_identifier` and `add_identifier`, which a derived class defines on its context
`C`, and the call `m_generator(hint)` of the template argument `Generator`, whose default is
declared in a header that is not among the sources; `G` is the state of the generator. The
derived class keeps its context apart from the generator. -/
structure identifier_generator (C G : Type) where
  has_identifier : C → List Nat → Bool
  add_identifier : C → List Nat → C
  m_generator : G → List Nat → List Nat × G

/-- The loop `while (has_identifier(id)) { id = core::identifier_string(m_generator(hint)); }`
of `operator()(const std::string& hint)`, which may run `fuel` times; `none` when it has not
ended by then. -/
def identifier_generator.search {C G : Type} (M : identifier_generator C G) (context : C)
    (hint : List Nat) : Nat → List Nat → G → Option (List Nat × G)
  | 0, id, g => if M.has_identifier context id then none else some (id, g)
  | fuel + 1, id, g =>
    if M.has_identifier context id then
      M.search context hint fuel (M.m_generator g hint).1 (M.m_generator g hint).2
    else some (id, g)

/-- The member `identifier_generator::operator()(const std::string& hint)`: the identifier
returned, and the context and the generator after the call. -/
def identifier_generator.call {C G : Type} (M : identifier_generator C G) (fuel : Nat)
    (hint : List Nat) (context : C) (g : G) : Option (List Nat × C × G) :=
  match M.search context hint fuel hint g with
  | none => none
  | some (id, g') => some (id, M.add_identifier context id, g')

/-- The identifier that the loop tries in its `n`-th test, with the generator at that time:
the hint first, then what the generator yields. -/
def identifier_generator.candidate {C G : Type} (M : identifier_generator C G)
    (hint : List Nat) : Nat → List Nat → G → List Nat × G
  | 0, id, g => (id, g)
  | n + 1, _, g => M.candidate hint n (M.m_generator g hint).1 (M.m_generator g hint).2

/-- A sample generator: the context is the list of the identifiers in use, and the generator
appends the digit of its counter to the hint. -/
def sample_identifier_generator : identifier_generator (List (List Nat)) Nat :=
  { has_identifier := fun context id => decide (id ∈ context)
    add_identifier := fun context id => id :: context
    m_generator := fun index hint => (hint ++ [48 + index], index + 1) }

end data
end mcrl2

/-! ## process_initializer.h -/

namespace lps

/-- A `data_assignment`, with its left hand side (a variable) and its right hand side (an
expression); the class is declared in a header that is not among the sources. -/
structure data_assignment (V E : Type) where
  lhs : V
  rhs : E

/-- The members of the class `process_initializer`. -/
structure process_initializer (V E : Type) where
  m_free_variables : List V
  m_assignments : List (data_assignment V E)

/-- The member `process_initializer::is_well_typed()`. The helper
`detail::sequence_contains_duplicates`, declared in a header that is not among the sources,
is a parameter; the transform iterator with `detail::data_assignment_lhs()` presents the left
hand sides of the assignments to it, in their order. The message on `std::cerr` is left
out. -/
def process_initializer.is_well_typed {V E : Type} (sequence_contains_duplicates : List V → Bool)
    (p : process_initializer V E) : Bool :=
  if sequence_contains_duplicates (p.m_assignments.map (fun a => a.lhs)) then false
  else true

end lps

/-! ## ltscompare.cpp

The command line has been taken apart by `command_line_parser` before the code of the tool
looks at it; what the tool writes to `stderr` is collected in a list. -/

namespace ltscompare

/-- The enumeration `lts_type` of `liblts.h`, a header that is not among the sources: the two
values that the tool names, and the other formats. -/
inductive lts_type where
  | lts_none
  | lts_aut
  | other (format : Nat)
  deriving DecidableEq, Repr

/-- The values of the enumeration `lts_equivalence` that the tool names. -/
inductive lts_equivalence where
  | lts_eq_strong
  | lts_eq_branch
  deriving DecidableEq, Repr

/-- The functions of `liblts.h` that `parse_command_line` calls; they are parameters of the
embedding, and so is the class `lts_eq_options`. -/
structure liblts (lts_eq_options : Type) where
  parse_format : String → lts_type
  guess_format : String → lts_type
  lts_reduce_add_tau_actions : lts_eq_options → String → lts_eq_options

/-- What the object `command_line_parser parser(clinterface, ac, av)` holds, as far as the tool
reads it: `parser.options.count(name)`, `parser.option_argument(name)` and
`parser.arguments`. The class is declared in a header that is not among the sources. -/
structure parsed_command_line where
  count : String → Nat
  option_argument : String → String
  arguments : List String

/-- The struct `t_tool_options`. -/
structure t_tool_options (lts_eq_options : Type) where
  name_for_first : String
  name_for_second : String
  format_for_first : lts_type
  format_for_second : lts_type
  equivalence : lts_equivalence
  eq_opts : lts_eq_options

/-- The text that `print_formats` writes (without `MCRL2_BCG`). -/
def print_formats : String :=
  "The following formats are accepted by ltscompare:\n\n" ++
  "  format  ext.  description                       remarks\n" ++
  "  -----------------------------------------------------------\n" ++
  "  aut     .aut  Aldebaran format (CADP)\n" ++
  "  mcrl    .svc  mCRL SVC format\n" ++
  "  mcrl2   .svc  mCRL2 SVC format                  default\n\n"

/-- The part of `parse_command_line` from `if (parser.options.count("in1"))` on: the formats
of the two inputs. The second component is what is written to `std::cerr`. -/
def parse_formats {O : Type} (L : liblts O) (parser : parsed_command_line)
    (tool_options : t_tool_options O) : t_tool_options O × List String :=
  let first : t_tool_options O × List String :=
    if parser.count "in1" ≠ 0 then
      let warned : List String :=
        if 1 < parser.count "in1" then
          ["warning: first input format has already been specified; extra option ignored\n"]
        else []
      let format := L.parse_format (parser.option_argument "in1")
      ({ tool_options with format_for_first := format },
        if format = .lts_none then
          warned ++ ["warning: format \x27" ++ parser.option_argument "in1" ++
            "\x27 is not recognised; option ignored\n"]
        else warned)
    else if ¬ tool_options.name_for_first.isEmpty then
      ({ tool_options with
        format_for_first := L.guess_format tool_options.name_for_first }, [])
    else (tool_options, [])
  if parser.count "in2" ≠ 0 then
    let warned : List String :=
      if 1 < parser.count "in2" then
        ["warning: second input format has already been specified; extra option ignored\n"]
      else []
    let format := L.parse_format (parser.option_argument "in2")
    ({ first.1 with format_for_second := format },
      if format = .lts_none then
        first.2 ++ warned ++ ["warning: format \x27" ++ parser.option_argument "in2" ++
          "\x27 is not recognised; option ignored\n"]
      else first.2 ++ warned)
  else
    ({ first.1 with format_for_second := L.guess_format first.1.name_for_second }, first.2)

/-- The function `parse_command_line`, from the declaration of `tool_options` on. The struct
starts with empty names, the default of `std::string`, and with whatever the memory holds in
its two formats (`indeterminate_first`, `indeterminate_second`); `eq_opts` is the default
`lts_eq_options`. The member `parser.error`, declared in a header that is not among the
sources, throws its message, which `main` catches and prints. -/
def parse_command_line {O : Type} (L : liblts O) (indeterminate_first indeterminate_second :
    lts_type) (eq_opts : O) (parser : parsed_command_line) :
    Except String (t_tool_options O × List String) :=
  let tool_options : t_tool_options O :=
    { name_for_first := "", name_for_second := "", format_for_first := indeterminate_first,
      format_for_second := indeterminate_second, equivalence := .lts_eq_strong,
      eq_opts := eq_opts }
  let printed : List String := if parser.count "formats" ≠ 0 then [print_formats] else []
  let tool_options :=
    if parser.count "strong" ≠ 0 then { tool_options with equivalence := .lts_eq_strong }
    else tool_options
  let tool_options :=
    if parser.count "branching" ≠ 0 then { tool_options with equivalence := .lts_eq_branch }
    else tool_options
  let tool_options :=
    if parser.count "tau" ≠ 0 then
      { tool_options with
        eq_opts := L.lts_reduce_add_tau_actions tool_options.eq_opts
          (parser.option_argument "tau") }
    else tool_options
  if parser.arguments.length = 0 then .error "need at least one file argument"
  else
    let tool_options :=
      if parser.arguments.length = 1 then
        { tool_options with
          format_for_first := .lts_aut
          name_for_second := parser.arguments.getD 0 "" }
      else tool_options
    let tool_options :=
      if 1 < parser.arguments.length then
        { tool_options with
          name_for_first := parser.arguments.getD 0 ""
          name_for_second := parser.arguments.getD 1 "" }
      else tool_options
    if 2 < parser.arguments.length then .error "too many file arguments"
    else
      let formats := parse_formats L parser tool_options
      .ok (formats.1, printed ++ formats.2)

/-- The test of `process` that selects the input of the first LTS: `std::cin` (`none`) when
`name_for_first` is empty, the file of that name otherwise. -/
def first_input {O : Type} (tool_options : t_tool_options O) : Option String :=
  if tool_options.name_for_first.isEmpty then none else some tool_options.name_for_first

/-- The input of the second LTS in `process`: always the file named `name_for_second`. -/
def second_input {O : Type} (tool_options : t_tool_options O) : String :=
  tool_options.name_for_second

/-- A sample `liblts`: the format names `aut` and `svc` are known, a file name is guessed to
be in the format that its name spells, and the options of the equivalence are the list of the
`tau` arguments. -/
def sample_liblts : liblts (List String) :=
  { parse_format := fun s => if s = "aut" then .lts_aut else if s = "svc" then .other 0
      else .lts_none
    guess_format := fun s => if s = "aut" then .lts_aut else .other 0
    lts_reduce_add_tau_actions := fun o s => o ++ [s] }

end ltscompare

namespace atermpp
namespace detail

/-! ## Lemmas on the hashing protocol -/

theorem combine_unfold (w s v : Nat) : combine w s v = (v + 2 * s + s / 2) % 2 ^ w := by
  unfold combine
  rw [Nat.shiftLeft_eq, Nat.shiftRight_eq_div_pow]
  simp only [pow_one]
  rw [Nat.add_mod (v + s * 2 % 2 ^ w), Nat.add_mod v, Nat.mod_mod, ← Nat.add_mod v, ← Nat.add_mod]
  ring_nf

theorem hash_arguments_eq (w : Nat) (arguments : List unprotected_aterm) :
    ∀ (k i hnr : Nat), i + k ≤ arguments.length →
      hash_arguments w arguments k i hnr
        = some (((arguments.drop i).take k).foldl (combine_aterm w) hnr) := by
  intro k
  induction k with
  | zero => intro i hnr _; simp [hash_arguments]
  | succ k ih =>
    intro i hnr h
    have hi : i < arguments.length := by omega
    rw [hash_arguments, List.getElem?_eq_getElem hi]
    simp only
    rw [ih (i + 1) _ (by omega)]
    conv_rhs => rw [List.drop_eq_getElem_cons hi, List.take_succ_cons, List.foldl_cons]

theorem hash_iterator_eq (w : Nat) :
    ∀ (k : Nat) (l : List unprotected_aterm) (hnr : Nat), k ≤ l.length →
      hash_iterator w k l hnr = some ((l.take k).foldl (combine_aterm w) hnr) := by
  intro k
  induction k with
  | zero => intro l hnr _; simp [hash_iterator]
  | succ k ih =>
    intro l hnr h
    cases l with
    | nil => simp at h
    | cons a rest =>
      simp only [List.length_cons, Nat.add_le_add_iff_right] at h
      simp [hash_iterator, ih rest _ h]

theorem combine_args_eq (w : Nat) (t : List unprotected_aterm) (hlen : t.length < 2 ^ w) :
    ∀ (depth I hnr : Nat), I < t.length → t.length ≤ I + depth →
      combine_args w t depth I hnr = some ((t.drop I).foldl (combine_aterm w) hnr) := by
  have hpred : (t.length + (2 ^ w - 1)) % 2 ^ w = t.length - 1 ∨ t.length = 0 := by
    rcases Nat.eq_zero_or_pos t.length with h | h
    · exact Or.inr h
    · left
      have : t.length + (2 ^ w - 1) = (t.length - 1) + 2 ^ w := by omega
      rw [this, Nat.add_mod_right, Nat.mod_eq_of_lt (by omega)]
  intro depth
  induction depth with
  | zero => intro I hnr h1 h2; omega
  | succ d ih =>
    intro I hnr h1 h2
    have hp : (t.length + (2 ^ w - 1)) % 2 ^ w = t.length - 1 := by
      rcases hpred with h | h
      · exact h
      · omega
    rw [combine_args, List.getElem?_eq_getElem h1]
    simp only [hp]
    conv_rhs => rw [List.drop_eq_getElem_cons h1, List.foldl_cons]
    by_cases hI : I = t.length - 1
    · have hd : List.drop (I + 1) t = [] := List.drop_eq_nil_of_le (by omega)
      rw [if_pos hI, hd, List.foldl_nil]
    · have hlt : I < t.length - 1 := by omega
      rw [if_neg hI, if_pos hlt, ih (I + 1) _ (by omega) (by omega)]

theorem finite_array_eq (w : Nat) (hnr : Nat) (args : List unprotected_aterm) :
    (List.finRange args.length).foldl (fun h i => combine_aterm w h (args.get i)) hnr
      = args.foldl (combine_aterm w) hnr := by
  have h := List.foldl_map (args.get) (combine_aterm w) (List.finRange args.length) hnr
  rw [List.finRange_map_get] at h
  exact h.symm

theorem equal_arguments_spec (term : _aterm) (arguments : List unprotected_aterm) :
    ∀ (k i : Nat), i + k ≤ term.m_arguments.length → i + k ≤ arguments.length →
      ∃ b, equal_arguments term arguments k i = some b ∧
        (b = true ↔ ∀ j, i ≤ j → j < i + k → term.arg j = arguments[j]?) := by
  intro k
  induction k with
  | zero =>
    intro i _ _
    exact ⟨true, by simp [equal_arguments], by simp; intro j h1 h2; omega⟩
  | succ k ih =>
    intro i h1 h2
    have hi1 : i < term.m_arguments.length := by omega
    have hi2 : i < arguments.length := by omega
    rw [equal_arguments]
    simp only [_aterm.arg, List.getElem?_eq_getElem hi1, List.getElem?_eq_getElem hi2]
    by_cases hne : term.m_arguments[i] ≠ arguments[i]
    · refine ⟨false, by simp [hne], ?_⟩
      simp only [Bool.false_eq_true, false_iff, not_forall]
      refine ⟨i, le_refl _, by omega, ?_⟩
      simp [List.getElem?_eq_getElem hi1, List.getElem?_eq_getElem hi2, hne]
    · obtain ⟨b, hb, hiff⟩ := ih (i + 1) (by omega) (by omega)
      refine ⟨b, by simp [hne, hb], ?_⟩
      rw [hiff]
      push_neg at hne
      constructor
      · intro h j hj1 hj2
        rcases Nat.eq_or_lt_of_le hj1 with heq | hlt
        · subst heq
          show term.m_arguments[i]? = arguments[i]?
          rw [List.getElem?_eq_getElem hi1, List.getElem?_eq_getElem hi2, hne]
        · exact h j hlt (by omega)
      · intro h j hj1 hj2
        exact h j (by omega) (by omega)

theorem equal_iterator_eq (term : _aterm) :
    ∀ (k i : Nat) (l : List unprotected_aterm) (arguments : List unprotected_aterm),
      k ≤ l.length → l = arguments.drop i →
      equal_iterator term k i l = equal_arguments term arguments k i := by
  intro k
  induction k with
  | zero => intro i l arguments _ _; simp [equal_iterator, equal_arguments]
  | succ k ih =>
    intro i l arguments hk hl
    cases l with
    | nil => simp at hk
    | cons b rest =>
      have hi : i < arguments.length := by
        by_contra hcon
        rw [List.drop_eq_nil_of_le (by omega)] at hl
        cases hl
      rw [List.drop_eq_getElem_cons hi] at hl
      injection hl with hb hrest
      simp only [List.length_cons, Nat.add_le_add_iff_right] at hk
      rw [equal_iterator, equal_arguments, List.getElem?_eq_getElem hi, ← hb]
      cases harg : term.arg i with
      | none => rfl
      | some a => rw [ih (i + 1) rest arguments hk hrest]

theorem mod_eq_cases (N x y : Nat) (hxy : y ≤ x) (h : x % N = y % N) (hlt : x < y + 3 * N) :
    x = y ∨ x = y + N ∨ x = y + 2 * N := by
  have h0 : (x - y) % N = 0 := Nat.sub_mod_eq_zero_of_mod_eq h
  obtain ⟨q, hq⟩ := Nat.dvd_of_mod_eq_zero h0
  have hq3 : q < 3 := by
    by_contra hcon
    have : N * 3 ≤ N * q := Nat.mul_le_mul_left N (by omega)
    omega
  interval_cases q <;> omega

theorem swap_ne_aux (N K b δ : Nat) (hδ : 0 < δ) (hδN : δ < N)
    (h3 : 3 * δ + 1 < N ∨ (N + 1 < 3 * δ ∧ 3 * δ + 1 < 2 * N) ∨ 2 * N + 1 < 3 * δ) :
    (b + 2 * ((b + δ + K) % N) + (b + δ + K) % N / 2) % N
      ≠ (b + δ + 2 * ((b + K) % N) + (b + K) % N / 2) % N := by
  have hN : 0 < N := by omega
  have hd : (b + K) % N < N := Nat.mod_lt _ hN
  have hx : (b + δ + K) % N = ((b + K) % N + δ) % N := by
    rw [Nat.add_mod ((b + K) % N), Nat.mod_mod, ← Nat.add_mod]
    congr 1
    omega
  rw [hx]
  generalize (b + K) % N = d at hd
  by_cases hwrap : d + δ < N
  · rw [Nat.mod_eq_of_lt hwrap]
    intro heq
    rcases mod_eq_cases N _ _ (by omega) heq (by omega) with h | h | h <;> omega
  · have hx' : (d + δ) % N = d + δ - N := by
      rw [Nat.mod_eq_sub_mod (by omega)]
      exact Nat.mod_eq_of_lt (by omega)
    rw [hx']
    intro heq
    rcases mod_eq_cases N _ _ (by omega) heq.symm (by omega) with h | h | h <;> omega

/-! ## Lemmas on the hash-consing index -/

theorem getD_set_chain (buckets : List (List unprotected_aterm)) (b b' : Nat)
    (x : List unprotected_aterm) (hb : b < buckets.length) :
    (buckets.set b x).getD b' [] = if b = b' then x else buckets.getD b' [] := by
  simp only [List.getD_eq_getElem?_getD, List.getElem?_set]
  by_cases h : b = b'
  · subst h; simp [hb]
  · simp [h]

theorem acquire_cells (h : unprotected_aterm) (slots : List term_slot) :
    (acquire h slots).map (fun s => (s.address, s.term))
      = slots.map (fun s => (s.address, s.term)) := by
  unfold acquire
  rw [List.map_map]
  apply List.map_congr_left
  intro s _
  simp only [Function.comp]
  split <;> rfl

theorem acquire_all_cells (args : List unprotected_aterm) (slots : List term_slot) :
    (args.foldl (fun sl a => acquire a sl) slots).map (fun s => (s.address, s.term))
      = slots.map (fun s => (s.address, s.term)) := by
  induction args generalizing slots with
  | nil => rfl
  | cons a rest ih => rw [List.foldl_cons, ih, acquire_cells]

theorem acquire_all_length (args : List unprotected_aterm) (slots : List term_slot) :
    (args.foldl (fun sl a => acquire a sl) slots).length = slots.length := by
  have h := congrArg List.length (acquire_all_cells args slots)
  simpa using h

theorem set_count_cells (h : unprotected_aterm) (count : Nat) (slots : List term_slot) :
    (set_count h count slots).map (fun s => (s.address, s.term))
      = slots.map (fun s => (s.address, s.term)) := by
  unfold set_count
  rw [List.map_map]
  apply List.map_congr_left
  intro s _
  simp only [Function.comp]
  split <;> rfl

theorem mem_nodes (σ : term_table) (p : unprotected_aterm × _aterm) :
    p ∈ σ.nodes ↔ p ∈ σ.cells ∧ p.1 ∉ σ.free_list := by
  unfold term_table.nodes
  simp [List.mem_filter]

theorem mem_live_slots (σ : term_table) (p : unprotected_aterm × _aterm) :
    p ∈ σ.nodes ↔ ∃ s ∈ σ.live_slots, (s.address, s.term) = p := by
  rw [mem_nodes]
  unfold term_table.cells term_table.live_slots
  simp only [List.mem_map, List.mem_filter, decide_eq_true_eq]
  constructor
  · rintro ⟨⟨s, hs, hsp⟩, hfree⟩
    exact ⟨s, ⟨hs, by rw [← hsp] at hfree; exact hfree⟩, hsp⟩
  · rintro ⟨s, ⟨hs, hfree⟩, hsp⟩
    exact ⟨⟨s, hs, hsp⟩, by rw [← hsp]; exact hfree⟩

theorem cells_address_unique (w : Nat) (D : function_symbol_members) (slot_address : Nat → Nat)
    (hinj : Function.Injective slot_address) (σ : term_table)
    (hσ : σ.Inv w D slot_address) (p q : unprotected_aterm × _aterm)
    (hp : p ∈ σ.cells) (hq : q ∈ σ.cells) (h : p.1 = q.1) : p = q := by
  obtain ⟨i, hi, hpi⟩ := List.getElem_of_mem hp
  obtain ⟨j, hj, hqj⟩ := List.getElem_of_mem hq
  have h1 := hσ.address_eq i p (by rw [List.getElem?_eq_getElem hi, hpi])
  have h2 := hσ.address_eq j q (by rw [List.getElem?_eq_getElem hj, hqj])
  rw [h1, h2] at h
  have hij : i = j := hinj (by injection h)
  subst hij
  rw [← hpi, ← hqj]

theorem nodes_address_unique (w : Nat) (D : function_symbol_members) (slot_address : Nat → Nat)
    (hinj : Function.Injective slot_address) (σ : term_table)
    (hσ : σ.Inv w D slot_address) (p q : unprotected_aterm × _aterm)
    (hp : p ∈ σ.nodes) (hq : q ∈ σ.nodes) (h : p.1 = q.1) : p = q :=
  cells_address_unique w D slot_address hinj σ hσ p q ((mem_nodes σ p).mp hp).1
    ((mem_nodes σ q).mp hq).1 h

theorem slot_of_cell (w : Nat) (D : function_symbol_members) (slot_address : Nat → Nat)
    (hinj : Function.Injective slot_address) (σ : term_table)
    (hσ : σ.Inv w D slot_address) (e : unprotected_aterm) (t : _aterm)
    (h : (e, t) ∈ σ.cells) :
    ∃ s, σ.slots.find? (fun s => decide (s.address = e)) = some s ∧ s.address = e ∧
      s.term = t := by
  cases hfind : σ.slots.find? (fun s => decide (s.address = e)) with
  | none =>
    rw [List.find?_eq_none] at hfind
    unfold term_table.cells at h
    rw [List.mem_map] at h
    obtain ⟨s, hs, hse⟩ := h
    have := hfind s hs
    injection hse with h1 h2
    simp [h1] at this
  | some s =>
    have hmem := List.mem_of_find?_eq_some hfind
    have haddr := List.find?_some hfind
    simp only [decide_eq_true_eq] at haddr
    have hs : (s.address, s.term) ∈ σ.cells := by
      unfold term_table.cells
      exact List.mem_map.mpr ⟨s, hmem, rfl⟩
    have := cells_address_unique w D slot_address hinj σ hσ _ _ hs h haddr
    injection this with h1 h2
    exact ⟨s, rfl, h1, h2⟩

theorem node_of_cell (w : Nat) (D : function_symbol_members) (slot_address : Nat → Nat)
    (hinj : Function.Injective slot_address) (σ : term_table)
    (hσ : σ.Inv w D slot_address) (e : unprotected_aterm) (t : _aterm)
    (h : (e, t) ∈ σ.cells) : σ.node e = some t := by
  obtain ⟨s, h1, _, h3⟩ := slot_of_cell w D slot_address hinj σ hσ e t h
  unfold term_table.node
  rw [h1]
  simp [h3]

theorem node_of_mem (w : Nat) (D : function_symbol_members) (slot_address : Nat → Nat)
    (hinj : Function.Injective slot_address) (σ : term_table)
    (hσ : σ.Inv w D slot_address) (e : unprotected_aterm) (t : _aterm)
    (h : (e, t) ∈ σ.nodes) : σ.node e = some t :=
  node_of_cell w D slot_address hinj σ hσ e t ((mem_nodes σ _).mp h).1

theorem cell_of_node (σ : term_table) (e : unprotected_aterm) (t : _aterm)
    (h : σ.node e = some t) : (e, t) ∈ σ.cells := by
  unfold term_table.node at h
  cases hfind : σ.slots.find? (fun s => decide (s.address = e)) with
  | none => rw [hfind] at h; cases h
  | some s =>
    rw [hfind] at h
    simp only [Option.map_some', Option.some.injEq] at h
    have hmem := List.mem_of_find?_eq_some hfind
    have haddr := List.find?_some hfind
    simp only [decide_eq_true_eq] at haddr
    unfold term_table.cells
    exact List.mem_map.mpr ⟨s, hmem, by rw [haddr, h]⟩

theorem aterm_equals_array_exact (D : function_symbol_members) (t : _aterm)
    (S : function_symbol) (A : List unprotected_aterm)
    (ht : t.m_arguments.length = D.arity t.function) (hA : A.length = D.arity S) :
    aterm_equals_array D t S A = some (decide (t = ⟨S, A⟩)) := by
  unfold aterm_equals_array
  by_cases hf : t.function = S
  · rw [if_pos hf]
    obtain ⟨b, hb, hiff⟩ := equal_arguments_spec t A (D.arity S) 0
      (by rw [ht, hf]; omega) (by omega)
    rw [hb]
    congr 1
    have hargs : (∀ j, 0 ≤ j → j < 0 + D.arity S → t.arg j = A[j]?) ↔ t = ⟨S, A⟩ := by
      constructor
      · intro h
        have hl : t.m_arguments = A := by
          apply List.ext_getElem?
          intro j
          by_cases hj : j < D.arity S
          · exact h j (Nat.zero_le _) (by omega)
          · rw [List.getElem?_eq_none (by rw [ht, hf]; omega),
              List.getElem?_eq_none (by omega)]
        cases t
        simp only [_aterm.function] at hf
        simp only at hl
        rw [hf, hl]
      · intro h j _ _
        rw [h]
        rfl
    rw [hargs] at hiff
    cases b
    · simp only [Bool.false_eq_true, false_iff] at hiff
      simp [hiff]
    · simp only [true_iff] at hiff
      simp [hiff]
  · rw [if_neg hf]
    have : t ≠ ⟨S, A⟩ := by
      intro h
      apply hf
      rw [h]
      rfl
    simp [this]

theorem find_in_chain_spec (w : Nat) (D : function_symbol_members) (slot_address : Nat → Nat)
    (hinj : Function.Injective slot_address) (σ : term_table)
    (hσ : σ.Inv w D slot_address) (S : function_symbol) (A : List unprotected_aterm)
    (hA : A.length = D.arity S) :
    ∀ (chain : List unprotected_aterm), (∀ e ∈ chain, ∃ t, (e, t) ∈ σ.nodes) →
      (∃ e, find_in_chain D σ S A chain = some (some e) ∧ e ∈ chain ∧ (e, ⟨S, A⟩) ∈ σ.nodes) ∨
      (find_in_chain D σ S A chain = some none ∧ ∀ e ∈ chain, (e, ⟨S, A⟩) ∉ σ.nodes) := by
  intro chain
  induction chain with
  | nil => intro _; right; exact ⟨rfl, by simp⟩
  | cons e rest ih =>
    intro hlive
    obtain ⟨t, ht⟩ := hlive e (List.mem_cons_self _ _)
    have hnode := node_of_mem w D slot_address hinj σ hσ e t ht
    have hexact := aterm_equals_array_exact D t S A (hσ.arity_ok _ ht) hA
    rw [find_in_chain, hnode]
    simp only [hexact]
    by_cases heq : t = ⟨S, A⟩
    · left
      refine ⟨e, by simp [heq], List.mem_cons_self _ _, ?_⟩
      rw [← heq]; exact ht
    · have hd : decide (t = ⟨S, A⟩) = false := by simp [heq]
      rw [hd]
      simp only
      rcases ih (fun e' he' => hlive e' (List.mem_cons_of_mem _ he')) with ⟨e', h1, h2, h3⟩ | ⟨h1, h2⟩
      · left; exact ⟨e', h1, List.mem_cons_of_mem _ h2, h3⟩
      · right
        refine ⟨h1, ?_⟩
        intro e' he'
        rcases List.mem_cons.mp he' with rfl | hr
        · intro hcon
          have := nodes_address_unique w D slot_address hinj σ hσ _ _ ht hcon rfl
          injection this with _ h2'
          exact heq h2'
        · exact h2 e' hr

theorem inv_congr (w : Nat) (D : function_symbol_members) (slot_address : Nat → Nat)
    (σ σ' : term_table) (hsize : σ'.table_size = σ.table_size)
    (hbuckets : σ'.buckets = σ.buckets) (hcells : σ'.cells = σ.cells)
    (hfree : σ'.free_list = σ.free_list)
    (hσ : σ.Inv w D slot_address) : σ'.Inv w D slot_address := by
  have hchain : ∀ b, σ'.chain b = σ.chain b := by
    intro b; unfold term_table.chain; rw [hbuckets]
  have hnodes : σ'.nodes = σ.nodes := by
    unfold term_table.nodes; rw [hcells, hfree]
  constructor
  · rw [hsize]; exact hσ.size_pos
  · rw [hbuckets, hsize]; exact hσ.buckets_length
  · rw [hcells]; exact hσ.address_eq
  · rw [hnodes]; exact hσ.arity_ok
  · rw [hnodes, hsize]; intro p hp hash hh; rw [hchain]; exact hσ.linked p hp hash hh
  · intro b e he; rw [hchain] at he; rw [hnodes, hsize]; exact hσ.chain_home b e he
  · rw [hnodes]; exact hσ.shared
  · rw [hfree, hcells]; exact hσ.free_slots
  · rw [hfree]; exact hσ.free_nodup

theorem aterm_hasher_term_total (w : Nat) (D : function_symbol_members) (t : _aterm)
    (ht : t.m_arguments.length = D.arity t.function) :
    ∃ hash, aterm_hasher_term w (DynamicNumberOfArguments w) D t = some hash := by
  unfold aterm_hasher_term template_arity
  simp only [if_true]
  rw [hash_arguments_eq w _ _ 0 _ (by omega)]
  exact ⟨_, rfl⟩

theorem land_mask_lt (hash size : Nat) (h : 0 < size) : hash &&& (size - 1) < size := by
  have := @Nat.and_le_right hash (size - 1)
  omega

/-- Linking a node that the table does not hold yet keeps the invariant. -/
theorem inv_insert (w : Nat) (D : function_symbol_members) (slot_address : Nat → Nat)
    (σ σ' : term_table) (hσ : σ.Inv w D slot_address)
    (S : function_symbol) (A : List unprotected_aterm) (e : unprotected_aterm) (hash : Nat)
    (hA : A.length = D.arity S)
    (hhash : aterm_hasher_term w (DynamicNumberOfArguments w) D ⟨S, A⟩ = some hash)
    (hsize : σ'.table_size = σ.table_size)
    (hbuckets : σ'.buckets = σ.buckets.set (hash &&& (σ.table_size - 1))
      (e :: σ.chain (hash &&& (σ.table_size - 1))))
    (haddr : ∀ (i : Nat) (p : unprotected_aterm × _aterm),
      σ'.cells[i]? = some p → p.1 = ⟨slot_address i⟩)
    (hnodes : ∀ p, p ∈ σ'.nodes ↔ p ∈ σ.nodes ∨ p = (e, ⟨S, A⟩))
    (hmiss : ∀ p ∈ σ.nodes, p.2 ≠ ⟨S, A⟩)
    (hfree : ∀ x ∈ σ'.free_list, ∃ t, (x, t) ∈ σ'.cells)
    (hnodup : σ'.free_list.Nodup) : σ'.Inv w D slot_address := by
  have hb : hash &&& (σ.table_size - 1) < σ.buckets.length := by
    rw [hσ.buckets_length]; exact land_mask_lt _ _ hσ.size_pos
  have hchain : ∀ b', σ'.chain b'
      = if hash &&& (σ.table_size - 1) = b'
        then e :: σ.chain (hash &&& (σ.table_size - 1)) else σ.chain b' := by
    intro b'
    unfold term_table.chain
    rw [hbuckets]
    exact getD_set_chain σ.buckets _ b' _ hb
  constructor
  · rw [hsize]; exact hσ.size_pos
  · rw [hbuckets, hsize]; simp only [List.length_set]; exact hσ.buckets_length
  · exact haddr
  · intro p hp
    rcases (hnodes p).mp hp with h | h
    · exact hσ.arity_ok p h
    · rw [h]; exact hA
  · intro p hp hash' hh
    rw [hchain, hsize]
    rcases (hnodes p).mp hp with h | h
    · have := hσ.linked p h hash' hh
      split
      · rename_i heq
        rw [heq]
        exact List.mem_cons_of_mem _ this
      · exact this
    · rw [h] at hh
      have hEq : hash' = hash := by
        have : some hash' = some hash := by rw [← hh, ← hhash]
        injection this
      rw [hEq, if_pos rfl, h]
      exact List.mem_cons_self _ _
  · intro b' x hx
    rw [hchain] at hx
    rw [hsize]
    split at hx
    · rename_i heq
      rcases List.mem_cons.mp hx with h | h
      · exact ⟨⟨S, A⟩, hash, (hnodes _).mpr (Or.inr (by rw [h])), hhash, heq⟩
      · obtain ⟨t, hash', h1, h2, h3⟩ := hσ.chain_home _ x h
        exact ⟨t, hash', (hnodes _).mpr (Or.inl h1), h2, by rw [h3]; exact heq⟩
    · obtain ⟨t, hash', h1, h2, h3⟩ := hσ.chain_home _ x hx
      exact ⟨t, hash', (hnodes _).mpr (Or.inl h1), h2, h3⟩
  · intro p hp q hq hpq
    rcases (hnodes p).mp hp with h | h <;> rcases (hnodes q).mp hq with h' | h'
    · exact hσ.shared p h q h' hpq
    · rw [h'] at hpq
      exact absurd hpq (hmiss p h)
    · rw [h] at hpq
      exact absurd hpq.symm (hmiss q h')
    · rw [h, h']
  · exact hfree
  · exact hnodup

theorem find_or_create_spec (w : Nat) (D : function_symbol_members) (slot_address : Nat → Nat)
    (hinj : Function.Injective slot_address) (σ : term_table)
    (hσ : σ.Inv w D slot_address) (S : function_symbol) (A : List unprotected_aterm)
    (hA : A.length = D.arity S) :
    ∃ h σ', find_or_create w D slot_address σ S A = some (h, σ') ∧
      σ'.Inv w D slot_address ∧ (h, ⟨S, A⟩) ∈ σ'.nodes ∧ (∀ p ∈ σ.nodes, p ∈ σ'.nodes) := by
  obtain ⟨hash, hhash⟩ := aterm_hasher_term_total w D ⟨S, A⟩ hA
  have hhash' : aterm_hasher_array w (DynamicNumberOfArguments w) D S A = some hash := hhash
  unfold find_or_create
  rw [if_neg (by simp [hA]), hhash']
  simp only
  rcases find_in_chain_spec w D slot_address hinj σ hσ S A hA
      (σ.chain (hash &&& (σ.table_size - 1)))
      (fun e he => by
        obtain ⟨t, _, h1, _⟩ := hσ.chain_home _ e he
        exact ⟨t, h1⟩) with ⟨e, h1, _, h3⟩ | ⟨h1, h2⟩
  · rw [h1]
    simp only
    have hc : ({ σ with slots := acquire e σ.slots } : term_table).cells = σ.cells :=
      acquire_cells e σ.slots
    have hn : ({ σ with slots := acquire e σ.slots } : term_table).nodes = σ.nodes := by
      unfold term_table.nodes; rw [hc]
    refine ⟨e, _, rfl, inv_congr w D slot_address σ _ rfl rfl hc rfl hσ, ?_, ?_⟩
    · rw [hn]; exact h3
    · rw [hn]; exact fun p hp => hp
  · rw [h1]
    simp only
    have hmiss : ∀ p ∈ σ.nodes, p.2 ≠ ⟨S, A⟩ := by
      intro p hp hcon
      have hl := hσ.linked p hp hash (by rw [hcon]; exact hhash)
      apply h2 p.1 hl
      rw [← hcon]
      exact hp
    cases hfe : σ.free_entry A.length with
    | some e =>
      simp only
      have hefree : e ∈ σ.free_list := by
        unfold term_table.free_entry at hfe
        exact List.mem_of_find?_eq_some hfe
      obtain ⟨t0, ht0⟩ := hσ.free_slots e hefree
      have hc : ∀ (bk : List (List unprotected_aterm)) (fl : List unprotected_aterm),
          ({ table_size := σ.table_size, buckets := bk,
             slots := (A.foldl (fun sl a => acquire a sl) σ.slots).map
               (fun s => if s.address = e then ⟨e, ⟨S, A⟩, 1⟩ else s),
             free_list := fl } : term_table).cells
            = σ.cells.map (fun p => if p.1 = e then (e, ⟨S, A⟩) else p) := by
        intro bk fl
        unfold term_table.cells
        simp only
        rw [← acquire_all_cells A σ.slots, List.map_map, List.map_map]
        apply List.map_congr_left
        intro s _
        simp only [Function.comp]
        split <;> rfl
      have hmemc : ∀ p, p ∈ σ.cells.map (fun p => if p.1 = e then (e, (⟨S, A⟩ : _aterm)) else p)
          ↔ (p ∈ σ.cells ∧ p.1 ≠ e) ∨ p = (e, ⟨S, A⟩) := by
        intro p
        rw [List.mem_map]
        constructor
        · rintro ⟨q, hq, hqp⟩
          by_cases hqe : q.1 = e
          · rw [if_pos hqe] at hqp
            exact Or.inr hqp.symm
          · rw [if_neg hqe] at hqp
            rw [← hqp]
            exact Or.inl ⟨hq, hqe⟩
        · rintro (⟨hp, hpe⟩ | hp)
          · exact ⟨p, hp, by rw [if_neg hpe]⟩
          · exact ⟨(e, t0), ht0, by rw [if_pos rfl, hp]⟩
      have hmemf : ∀ x, x ∈ σ.free_list.erase e ↔ x ≠ e ∧ x ∈ σ.free_list :=
        fun x => hσ.free_nodup.mem_erase_iff
      have hnodes : ∀ (bk : List (List unprotected_aterm)) p, p ∈
          ({ table_size := σ.table_size, buckets := bk,
             slots := (A.foldl (fun sl a => acquire a sl) σ.slots).map
               (fun s => if s.address = e then ⟨e, ⟨S, A⟩, 1⟩ else s),
             free_list := σ.free_list.erase e } : term_table).nodes
            ↔ p ∈ σ.nodes ∨ p = (e, ⟨S, A⟩) := by
        intro bk p
        rw [mem_nodes, hc, hmemc, mem_nodes]
        simp only [hmemf]
        constructor
        · rintro ⟨⟨hp, hpe⟩ | hp, hfree⟩
          · exact Or.inl ⟨hp, fun hcon => hfree ⟨hpe, hcon⟩⟩
          · exact Or.inr hp
        · rintro (⟨hp, hfree⟩ | hp)
          · have hpe : p.1 ≠ e := fun hcon => hfree (by rw [hcon]; exact hefree)
            exact ⟨Or.inl ⟨hp, hpe⟩, fun hcon => hfree hcon.2⟩
          · exact ⟨Or.inr hp, fun hcon => hcon.1 (by rw [hp])⟩
      refine ⟨_, _, rfl, ?_, ?_, ?_⟩
      · refine inv_insert w D slot_address σ _ hσ S A e hash hA hhash rfl rfl ?_
          (hnodes _) hmiss ?_ (hσ.free_nodup.erase e)
        · intro i p hp
          rw [hc, List.getElem?_map] at hp
          cases hq : σ.cells[i]? with
          | none => rw [hq] at hp; cases hp
          | some q =>
            rw [hq] at hp
            simp only [Option.map_some', Option.some.injEq] at hp
            have := hσ.address_eq i q hq
            rw [← hp]
            split
            · rename_i hqe
              rw [← hqe]; exact this
            · exact this
        · intro x hx
          have hx' : x ∈ σ.free_list := ((hmemf x).mp hx).2
          have hxe : x ≠ e := ((hmemf x).mp hx).1
          obtain ⟨t, ht⟩ := hσ.free_slots x hx'
          refine ⟨t, ?_⟩
          rw [hc, hmemc]
          exact Or.inl ⟨ht, hxe⟩
      · exact (hnodes _ _).mpr (Or.inr rfl)
      · intro p hp
        exact (hnodes _ _).mpr (Or.inl hp)
    | none =>
      simp only
      have hc : ∀ (bk : List (List unprotected_aterm)),
          ({ table_size := σ.table_size, buckets := bk,
             slots := A.foldl (fun sl a => acquire a sl) σ.slots
               ++ [⟨⟨slot_address σ.slots.length⟩, ⟨S, A⟩, 1⟩],
             free_list := σ.free_list } : term_table).cells
            = σ.cells ++ [(⟨slot_address σ.slots.length⟩, ⟨S, A⟩)] := by
        intro bk
        unfold term_table.cells
        simp only [List.map_append, acquire_all_cells, List.map_cons, List.map_nil]
      have hlen : σ.cells.length = σ.slots.length := by
        unfold term_table.cells; simp
      have hfresh : (⟨slot_address σ.slots.length⟩ : unprotected_aterm) ∉ σ.free_list := by
        intro hcon
        obtain ⟨t, ht⟩ := hσ.free_slots _ hcon
        obtain ⟨i, hi, hpi⟩ := List.getElem_of_mem ht
        have := hσ.address_eq i _ (by rw [List.getElem?_eq_getElem hi, hpi])
        simp only at this
        have hij : σ.slots.length = i := hinj (by injection this)
        omega
      have hnodes : ∀ (bk : List (List unprotected_aterm)) p, p ∈
          ({ table_size := σ.table_size, buckets := bk,
             slots := A.foldl (fun sl a => acquire a sl) σ.slots
               ++ [⟨⟨slot_address σ.slots.length⟩, ⟨S, A⟩, 1⟩],
             free_list := σ.free_list } : term_table).nodes
            ↔ p ∈ σ.nodes ∨ p = (⟨slot_address σ.slots.length⟩, ⟨S, A⟩) := by
        intro bk p
        rw [mem_nodes, hc, mem_nodes, List.mem_append, List.mem_singleton]
        constructor
        · rintro ⟨hp | hp, hfree⟩
          · exact Or.inl ⟨hp, hfree⟩
          · exact Or.inr hp
        · rintro (⟨hp, hfree⟩ | hp)
          · exact ⟨Or.inl hp, hfree⟩
          · exact ⟨Or.inr hp, by rw [hp]; exact hfresh⟩
      refine ⟨_, _, rfl, ?_, ?_, ?_⟩
      · refine inv_insert w D slot_address σ _ hσ S A _ hash hA hhash rfl rfl ?_
          (hnodes _) hmiss ?_ hσ.free_nodup
        · intro i p hp
          rw [hc] at hp
          by_cases hi : i < σ.cells.length
          · rw [List.getElem?_append_left hi] at hp
            exact hσ.address_eq i p hp
          · rw [List.getElem?_append_right (by omega)] at hp
            have hi0 : i - σ.cells.length = 0 := by
              by_contra hne
              rw [List.getElem?_eq_none (by simp; omega)] at hp
              cases hp
            rw [hi0] at hp
            simp only [List.getElem?_cons_zero, Option.some.injEq] at hp
            have : i = σ.slots.length := by omega
            rw [← hp, this]
        · intro x hx
          obtain ⟨t, ht⟩ := hσ.free_slots x hx
          refine ⟨t, ?_⟩
          rw [hc]
          exact List.mem_append.mpr (Or.inl ht)
      · exact (hnodes _ _).mpr (Or.inr rfl)
      · intro p hp
        exact (hnodes _ _).mpr (Or.inl hp)

theorem find_or_create_inv (w : Nat) (D : function_symbol_members) (slot_address : Nat → Nat)
    (hinj : Function.Injective slot_address) (σ σ' : term_table)
    (hσ : σ.Inv w D slot_address) (S : function_symbol) (A : List unprotected_aterm)
    (h : unprotected_aterm) (hreq : find_or_create w D slot_address σ S A = some (h, σ')) :
    A.length = D.arity S ∧ σ'.Inv w D slot_address ∧ (h, ⟨S, A⟩) ∈ σ'.nodes ∧
      (∀ p ∈ σ.nodes, p ∈ σ'.nodes) := by
  have hA : A.length = D.arity S := by
    by_contra hne
    unfold find_or_create at hreq
    rw [if_pos hne] at hreq
    cases hreq
  obtain ⟨h0, σ0, h1, h2, h3, h4⟩ := find_or_create_spec w D slot_address hinj σ hσ S A hA
  rw [h1] at hreq
  injection hreq with hreq
  injection hreq with e1 e2
  subst e1 e2
  exact ⟨hA, h2, h3, h4⟩

theorem rehash_spec (w : Nat) (D : function_symbol_members) (size : Nat) (hsize : 0 < size) :
    ∀ (slots : List term_slot) (bk : List (List unprotected_aterm)), bk.length = size →
      (∀ s ∈ slots, s.term.m_arguments.length = D.arity s.term.function) →
      ∃ bk', rehash w D size slots bk = some bk' ∧ bk'.length = size ∧
        ∀ b e, e ∈ bk'.getD b [] ↔
          (e ∈ bk.getD b [] ∨ ∃ s ∈ slots, s.address = e ∧ ∃ hash,
            aterm_hasher_term w (DynamicNumberOfArguments w) D s.term = some hash ∧
              hash &&& (size - 1) = b) := by
  intro slots
  induction slots with
  | nil =>
    intro bk hbk _
    exact ⟨bk, rfl, hbk, by simp⟩
  | cons s rest ih =>
    intro bk hbk har
    obtain ⟨hash, hh⟩ := aterm_hasher_term_total w D s.term (har s (List.mem_cons_self _ _))
    have hb : hash &&& (size - 1) < bk.length := by
      rw [hbk]; exact land_mask_lt _ _ hsize
    obtain ⟨bk', h1, h2, h3⟩ := ih
      (bk.set (hash &&& (size - 1)) (s.address :: bk.getD (hash &&& (size - 1)) []))
      (by simp [hbk]) (fun s' hs' => har s' (List.mem_cons_of_mem _ hs'))
    refine ⟨bk', ?_, h2, ?_⟩
    · rw [rehash, rehash_slot, hh]
      exact h1
    · intro b e
      rw [h3 b e, getD_set_chain bk _ b _ hb]
      constructor
      · rintro (h | ⟨s', hs', h⟩)
        · split at h
          · rename_i heq
            rcases List.mem_cons.mp h with h | h
            · right
              exact ⟨s, List.mem_cons_self _ _, h.symm, hash, hh, heq⟩
            · left; rw [← heq]; exact h
          · left; exact h
        · right
          exact ⟨s', List.mem_cons_of_mem _ hs', h⟩
      · rintro (h | ⟨s', hs', haddr, hash', hh', hb'⟩)
        · left
          split
          · rename_i heq
            rw [← heq] at h
            exact List.mem_cons_of_mem _ h
          · exact h
        · rcases List.mem_cons.mp hs' with h | h
          · left
            rw [h, hh] at hh'
            injection hh' with hh'
            rw [← hh'] at hb'
            rw [if_pos hb', ← haddr, h]
            exact List.mem_cons_self _ _
          · right
            exact ⟨s', h, haddr, hash', hh', hb'⟩

theorem resize_spec (w : Nat) (D : function_symbol_members) (slot_address : Nat → Nat)
    (σ : term_table) (hσ : σ.Inv w D slot_address) (ok : Bool) :
    ∃ σ', σ.resize w D ok = some σ' ∧ σ'.Inv w D slot_address ∧ σ'.nodes = σ.nodes ∧
      σ'.free_list = σ.free_list := by
  unfold term_table.resize
  cases ok with
  | false => exact ⟨σ, by simp, hσ, rfl, rfl⟩
  | true =>
    have hpos : 0 < 2 * σ.table_size := by have := hσ.size_pos; omega
    obtain ⟨bk, h1, h2, h3⟩ := rehash_spec w D (2 * σ.table_size) hpos σ.live_slots
      (List.replicate (2 * σ.table_size) []) (by simp)
      (fun s hs => hσ.arity_ok (s.address, s.term) ((mem_live_slots σ _).mpr ⟨s, hs, rfl⟩))
    rw [if_pos rfl, h1]
    refine ⟨_, rfl, ?_, rfl, rfl⟩
    have hempty : ∀ b (e : unprotected_aterm),
        e ∉ (List.replicate (2 * σ.table_size) ([] : List unprotected_aterm)).getD b [] := by
      intro b e
      rw [List.getD_eq_getElem?_getD]
      by_cases hb : b < 2 * σ.table_size
      · simp [List.getElem?_replicate, hb]
      · simp [List.getElem?_replicate, hb]
    have hn : ({ σ with table_size := 2 * σ.table_size, buckets := bk } : term_table).nodes
        = σ.nodes := rfl
    constructor
    · exact hpos
    · exact h2
    · exact hσ.address_eq
    · exact hσ.arity_ok
    · intro p hp hash hh
      rw [hn] at hp
      obtain ⟨s, hs, hsp⟩ := (mem_live_slots σ p).mp hp
      show p.1 ∈ bk.getD _ []
      rw [h3]
      right
      refine ⟨s, hs, ?_, hash, ?_, rfl⟩
      · rw [← hsp]
      · rw [← hsp] at hh; exact hh
    · intro b e he
      have he' : e ∈ bk.getD b [] := he
      rw [h3] at he'
      rcases he' with h | ⟨s, hs, haddr, hash, hh, hb⟩
      · exact absurd h (hempty b e)
      · refine ⟨s.term, hash, ?_, hh, hb⟩
        rw [hn]
        exact (mem_live_slots σ _).mpr ⟨s, hs, by rw [haddr]⟩
    · exact hσ.shared
    · exact hσ.free_slots
    · exact hσ.free_nodup

theorem resize_inv (w : Nat) (D : function_symbol_members) (slot_address : Nat → Nat)
    (σ σ' : term_table) (hσ : σ.Inv w D slot_address) (ok : Bool)
    (h : σ.resize w D ok = some σ') : σ'.Inv w D slot_address ∧ σ'.nodes = σ.nodes := by
  obtain ⟨σ0, h1, h2, h3, _⟩ := resize_spec w D slot_address σ hσ ok
  rw [h1] at h
  injection h with h
  subst h
  exact ⟨h2, h3⟩

/-- One step of a release keeps the invariant, and the nodes after it are nodes before it. -/
theorem release_node_inv (w : Nat) (D : function_symbol_members) (slot_address : Nat → Nat)
    (hinj : Function.Injective slot_address) (σ σ' : term_table)
    (hσ : σ.Inv w D slot_address) (h : unprotected_aterm) (arguments : List unprotected_aterm)
    (hrel : release_node w D σ h = some (arguments, σ')) :
    σ'.Inv w D slot_address ∧ (∀ p ∈ σ'.nodes, p ∈ σ.nodes) := by
  unfold release_node at hrel
  by_cases hfree : h ∈ σ.free_list
  · rw [if_pos hfree] at hrel; cases hrel
  rw [if_neg hfree] at hrel
  cases hnode : σ.node h with
  | none => rw [hnode] at hrel; simp at hrel
  | some t =>
    rw [hnode] at hrel
    cases hcount : σ.count h with
    | none => rw [hcount] at hrel; simp at hrel
    | some count =>
      rw [hcount] at hrel
      match count, hrel with
      | 0, hrel => simp at hrel
      | count + 2, hrel =>
        simp only [Option.some.injEq, Prod.mk.injEq] at hrel
        obtain ⟨_, hrel⟩ := hrel
        subst hrel
        have hc : ({ σ with slots := set_count h (count + 1) σ.slots } : term_table).cells
            = σ.cells := set_count_cells h (count + 1) σ.slots
        have hn : ({ σ with slots := set_count h (count + 1) σ.slots } : term_table).nodes
            = σ.nodes := by
          unfold term_table.nodes; rw [hc]
        exact ⟨inv_congr w D slot_address σ _ rfl rfl hc rfl hσ, by rw [hn]; exact fun p hp => hp⟩
      | 1, hrel =>
        simp only at hrel
        have hcell : (h, t) ∈ σ.cells := cell_of_node σ h t hnode
        have hmem : (h, t) ∈ σ.nodes := (mem_nodes σ _).mpr ⟨hcell, hfree⟩
        obtain ⟨hash, hhash⟩ := aterm_hasher_term_total w D t (hσ.arity_ok _ hmem)
        rw [hhash] at hrel
        simp only [Option.some.injEq, Prod.mk.injEq] at hrel
        obtain ⟨_, hrel⟩ := hrel
        subst hrel
        have hb : hash &&& (σ.table_size - 1) < σ.buckets.length := by
          rw [hσ.buckets_length]; exact land_mask_lt _ _ hσ.size_pos
        have hc : ∀ (bk : List (List unprotected_aterm)) (fl : List unprotected_aterm),
            ({ table_size := σ.table_size, buckets := bk, slots := set_count h 0 σ.slots,
               free_list := fl } : term_table).cells = σ.cells :=
          fun _ _ => set_count_cells h 0 σ.slots
        have hnodes : ∀ (bk : List (List unprotected_aterm)) p, p ∈
            ({ table_size := σ.table_size, buckets := bk, slots := set_count h 0 σ.slots,
               free_list := h :: σ.free_list } : term_table).nodes
              ↔ p ∈ σ.nodes ∧ p.1 ≠ h := by
          intro bk p
          rw [mem_nodes, hc, mem_nodes]
          simp only [List.mem_cons, not_or]
          constructor
          · rintro ⟨h1, h2, h3⟩; exact ⟨⟨h1, h3⟩, h2⟩
          · rintro ⟨⟨h1, h3⟩, h2⟩; exact ⟨h1, h2, h3⟩
        have hchain : ∀ (sl : List term_slot) (fl : List unprotected_aterm) (b' : Nat),
            ({ table_size := σ.table_size,
               buckets := σ.buckets.set (hash &&& (σ.table_size - 1))
                 ((σ.chain (hash &&& (σ.table_size - 1))).filter (fun e => decide (e ≠ h))),
               slots := sl, free_list := fl } : term_table).chain b'
            = if hash &&& (σ.table_size - 1) = b'
              then (σ.chain (hash &&& (σ.table_size - 1))).filter (fun e => decide (e ≠ h))
              else σ.chain b' := by
          intro sl fl b'
          exact getD_set_chain σ.buckets _ b' _ hb
        refine ⟨?_, fun p hp => ((hnodes _ p).mp hp).1⟩
        constructor
        · exact hσ.size_pos
        · simp only [List.length_set]; exact hσ.buckets_length
        · intro i p hp
          rw [hc] at hp
          exact hσ.address_eq i p hp
        · intro p hp
          exact hσ.arity_ok p ((hnodes _ p).mp hp).1
        · intro p hp hash' hh
          obtain ⟨hp1, hp2⟩ := (hnodes _ p).mp hp
          have := hσ.linked p hp1 hash' hh
          rw [hchain]
          split
          · rename_i heq
            rw [heq]
            exact List.mem_filter.mpr ⟨this, by simpa using hp2⟩
          · exact this
        · intro b' e he
          rw [hchain] at he
          split at he
          · rename_i heq
            obtain ⟨he1, he2⟩ := List.mem_filter.mp he
            simp only [ne_eq, decide_not, Bool.not_eq_eq_eq_not, Bool.not_true,
              decide_eq_false_iff_not] at he2
            obtain ⟨t', hash', h1, h2, h3⟩ := hσ.chain_home _ e he1
            exact ⟨t', hash', (hnodes _ _).mpr ⟨h1, he2⟩, h2, by rw [h3]; exact heq⟩
          · rename_i hne
            obtain ⟨t', hash', h1, h2, h3⟩ := hσ.chain_home _ e he
            refine ⟨t', hash', (hnodes _ _).mpr ⟨h1, ?_⟩, h2, h3⟩
            intro hcon
            simp only at hcon
            rw [hcon] at h1
            have := nodes_address_unique w D slot_address hinj σ hσ _ _ h1 hmem rfl
            injection this with _ htt
            rw [htt, hhash] at h2
            injection h2 with h2
            apply hne
            rw [h2]
            exact h3
        · intro p hp q hq hpq
          exact hσ.shared p ((hnodes _ p).mp hp).1 q ((hnodes _ q).mp hq).1 hpq
        · intro x hx
          show ∃ t, (x, t) ∈ term_table.cells _
          simp only [hc]
          rcases List.mem_cons.mp hx with hx | hx
          · exact ⟨t, by rw [hx]; exact hcell⟩
          · exact hσ.free_slots x hx
        · exact List.nodup_cons.mpr ⟨hfree, hσ.free_nodup⟩

/-- A release keeps the invariant, and the nodes after it are nodes before it. -/
theorem release_inv (w : Nat) (D : function_symbol_members) (slot_address : Nat → Nat)
    (hinj : Function.Injective slot_address) :
    ∀ (fuel : Nat) (work : List unprotected_aterm) (σ σ' : term_table),
      σ.Inv w D slot_address → release w D fuel work σ = some σ' →
      σ'.Inv w D slot_address ∧ (∀ p ∈ σ'.nodes, p ∈ σ.nodes) := by
  intro fuel
  induction fuel with
  | zero =>
    intro work σ σ' hσ hrel
    cases work with
    | nil =>
      simp only [release, Option.some.injEq] at hrel
      subst hrel
      exact ⟨hσ, fun p hp => hp⟩
    | cons h rest => simp [release] at hrel
  | succ fuel ih =>
    intro work σ σ' hσ hrel
    cases work with
    | nil =>
      simp only [release, Option.some.injEq] at hrel
      subst hrel
      exact ⟨hσ, fun p hp => hp⟩
    | cons h rest =>
      rw [release] at hrel
      cases hstep : release_node w D σ h with
      | none => rw [hstep] at hrel; cases hrel
      | some r =>
        obtain ⟨arguments, σ1⟩ := r
        rw [hstep] at hrel
        simp only at hrel
        obtain ⟨h1, h2⟩ := release_node_inv w D slot_address hinj σ σ1 hσ h arguments hstep
        obtain ⟨h3, h4⟩ := ih _ σ1 σ' h1 hrel
        exact ⟨h3, fun p hp => h2 p (h4 p hp)⟩

theorem empty_inv (w : Nat) (D : function_symbol_members) (slot_address : Nat → Nat) (k : Nat) :
    (term_table.empty (2 ^ k)).Inv w D slot_address := by
  constructor
  · exact Nat.two_pow_pos k
  · simp [term_table.empty]
  · intro i p hp; simp [term_table.empty, term_table.cells] at hp
  · intro p hp; simp [term_table.empty, term_table.nodes, term_table.cells] at hp
  · intro p hp; simp [term_table.empty, term_table.nodes, term_table.cells] at hp
  · intro b e he
    simp only [term_table.chain, term_table.empty, List.getD_eq_getElem?_getD] at he
    by_cases hb : b < 2 ^ k
    · simp [List.getElem?_replicate, hb] at he
    · simp [List.getElem?_replicate, hb] at he
  · intro p hp; simp [term_table.empty, term_table.nodes, term_table.cells] at hp
  · intro e he; simp [term_table.empty] at he
  · simp [term_table.empty]

theorem reachable_inv (w : Nat) (D : function_symbol_members) (slot_address : Nat → Nat)
    (hinj : Function.Injective slot_address) (σ : term_table)
    (hσ : term_table.Reachable w D slot_address σ) : σ.Inv w D slot_address := by
  induction hσ with
  | empty k => exact empty_inv w D slot_address k
  | request σ σ' S A h _ hreq ih =>
    exact (find_or_create_inv w D slot_address hinj σ σ' ih S A h hreq).2.1
  | resize σ σ' ok _ hres ih => exact (resize_inv w D slot_address σ σ' ih ok hres).1
  | release σ σ' fuel h _ hrel ih =>
    exact (release_inv w D slot_address hinj fuel [h] σ σ' ih hrel).1

theorem later_inv (w : Nat) (D : function_symbol_members) (slot_address : Nat → Nat)
    (hinj : Function.Injective slot_address) (σ τ : term_table)
    (hσ : σ.Inv w D slot_address) (hl : term_table.Later w D slot_address σ τ) :
    τ.Inv w D slot_address ∧ ∀ p ∈ σ.nodes, p ∈ τ.nodes := by
  induction hl with
  | refl => exact ⟨hσ, fun p hp => hp⟩
  | request τ τ' S A h _ hreq ih =>
    obtain ⟨_, h2, _, h4⟩ := find_or_create_inv w D slot_address hinj τ τ' ih.1 S A h hreq
    exact ⟨h2, fun p hp => h4 p (ih.2 p hp)⟩
  | resize τ τ' ok _ hres ih =>
    obtain ⟨h1, h2⟩ := resize_inv w D slot_address τ τ' ih.1 ok hres
    exact ⟨h1, fun p hp => by rw [h2]; exact ih.2 p hp⟩

theorem later_reachable (w : Nat) (D : function_symbol_members) (slot_address : Nat → Nat)
    (σ τ : term_table) (hσ : term_table.Reachable w D slot_address σ)
    (hl : term_table.Later w D slot_address σ τ) : term_table.Reachable w D slot_address τ := by
  induction hl with
  | refl => exact hσ
  | request τ τ' S A h _ hreq ih => exact term_table.Reachable.request τ τ' S A h ih hreq
  | resize τ τ' ok _ hres ih => exact term_table.Reachable.resize τ τ' ok ih hres


theorem follows_inv (w : Nat) (D : function_symbol_members) (slot_address : Nat → Nat)
    (hinj : Function.Injective slot_address) (σ τ : term_table)
    (hσ : σ.Inv w D slot_address) (hl : term_table.Follows w D slot_address σ τ) :
    τ.Inv w D slot_address := by
  induction hl with
  | refl => exact hσ
  | request τ τ' S A h _ hreq ih =>
    exact (find_or_create_inv w D slot_address hinj τ τ' ih S A h hreq).2.1
  | resize τ τ' ok _ hres ih => exact (resize_inv w D slot_address τ τ' ih ok hres).1
  | release τ τ' fuel h _ hrel ih =>
    exact (release_inv w D slot_address hinj fuel [h] τ τ' ih hrel).1

theorem sample_slot_address_injective : Function.Injective sample_slot_address := by
  intro a b h
  unfold sample_slot_address at h
  omega

theorem sample_table_released_reachable :
    term_table.Reachable 64 sample_members sample_slot_address sample_table_released :=
  term_table.Reachable.release sample_table_fc sample_table_released 2 ⟨32⟩
    (term_table.Reachable.request sample_table_c sample_table_fc ⟨1⟩ [⟨16⟩] ⟨32⟩
      (term_table.Reachable.request (term_table.empty (2 ^ 2)) sample_table_c ⟨0⟩ [] ⟨16⟩
        (term_table.Reachable.empty 2) (by decide))
      (by decide))
    (by decide)


/-! ## Claims on the hash-consing index -/

/-- C2 (maximal sharing): in a table reached by requests, resizes and releases, a request
`find_or_create(S, A)` with as many arguments as the arity of `S` returns a handle, and every
later request for `(S, A)`, with requests and resizes but no release in between, returns the
identical handle; and the table never holds two nodes (slots that are not on the free list)
with the same symbol and argument handles. -/
theorem maximal_sharing (w : Nat) (D : function_symbol_members) (slot_address : Nat → Nat)
    (hinj : Function.Injective slot_address) (σ : term_table)
    (hσ : term_table.Reachable w D slot_address σ)
    (S : function_symbol) (A : List unprotected_aterm) (hA : A.length = D.arity S) :
    (∃ h σ1, find_or_create w D slot_address σ S A = some (h, σ1) ∧
      ∀ τ, term_table.Later w D slot_address σ1 τ →
        ∃ τ', find_or_create w D slot_address τ S A = some (h, τ')) ∧
    (∀ (i j : Nat) (s t : term_slot), σ.slots[i]? = some s → σ.slots[j]? = some t →
      s.address ∉ σ.free_list → t.address ∉ σ.free_list → s.term = t.term → i = j) := by
  have hinv := reachable_inv w D slot_address hinj σ hσ
  constructor
  · obtain ⟨h, σ1, h1, h2, h3, _⟩ := find_or_create_spec w D slot_address hinj σ hinv S A hA
    refine ⟨h, σ1, h1, ?_⟩
    intro τ hl
    obtain ⟨hτ, hmono⟩ := later_inv w D slot_address hinj σ1 τ h2 hl
    obtain ⟨h', τ', g1, g2, g3, g4⟩ := find_or_create_spec w D slot_address hinj τ hτ S A hA
    have hmem : (h, (⟨S, A⟩ : _aterm)) ∈ τ'.nodes := g4 _ (hmono _ h3)
    have heq : h' = h := g2.shared _ g3 _ hmem rfl
    rw [heq] at g1
    exact ⟨τ', g1⟩
  · intro i j s t hs ht hsf htf hst
    have hs' : σ.cells[i]? = some (s.address, s.term) := by
      unfold term_table.cells; rw [List.getElem?_map, hs]; rfl
    have ht' : σ.cells[j]? = some (t.address, t.term) := by
      unfold term_table.cells; rw [List.getElem?_map, ht]; rfl
    have hadd := hinv.shared _ ((mem_nodes σ _).mpr ⟨List.getElem?_mem hs', hsf⟩) _
      ((mem_nodes σ _).mpr ⟨List.getElem?_mem ht', htf⟩) hst
    have h1 := hinv.address_eq i _ hs'
    have h2 := hinv.address_eq j _ ht'
    simp only at hadd h1 h2
    rw [h1, h2] at hadd
    exact hinj (by injection hadd)

/-- Witness for C2: `f(c)` requested from the sample table in which `c` and `f(c)` were
created and `f(c)` was released. -/
theorem maximal_sharing_witness :
    (∃ h σ1, find_or_create 64 sample_members sample_slot_address sample_table_released
        ⟨1⟩ [⟨16⟩] = some (h, σ1) ∧
      ∀ τ, term_table.Later 64 sample_members sample_slot_address σ1 τ →
        ∃ τ', find_or_create 64 sample_members sample_slot_address τ ⟨1⟩ [⟨16⟩]
          = some (h, τ')) ∧
    (∀ (i j : Nat) (s t : term_slot), sample_table_released.slots[i]? = some s →
      sample_table_released.slots[j]? = some t →
      s.address ∉ sample_table_released.free_list →
      t.address ∉ sample_table_released.free_list → s.term = t.term → i = j) :=
  maximal_sharing 64 sample_members sample_slot_address sample_slot_address_injective
    sample_table_released sample_table_released_reachable ⟨1⟩ [⟨16⟩] (by decide)

/-- C3, counterexample: with constants only, the request for the symbol 0 from an empty table
returns the handle 16; after the release of that node the request for the different symbol 1
reuses the slot and returns the handle 16 too. -/
theorem released_slot_serves_other_tuple :
    (⟨0⟩ : function_symbol) ≠ ⟨1⟩ ∧
    ∃ σ1 σ2 τ1 : term_table,
      find_or_create 64 sample_constants sample_slot_address (term_table.empty (2 ^ 2)) ⟨0⟩ []
        = some (⟨16⟩, σ1) ∧
      release 64 sample_constants 1 [⟨16⟩] σ1 = some σ2 ∧
      find_or_create 64 sample_constants sample_slot_address σ2 ⟨1⟩ [] = some (⟨16⟩, τ1) :=
  ⟨by decide,
    { table_size := 4, buckets := [[⟨16⟩], [], [], []],
      slots := [⟨⟨16⟩, ⟨⟨0⟩, []⟩, 1⟩], free_list := [] },
    { table_size := 4, buckets := [[], [], [], []],
      slots := [⟨⟨16⟩, ⟨⟨0⟩, []⟩, 0⟩], free_list := [⟨16⟩] },
    { table_size := 4, buckets := [[], [⟨16⟩], [], []],
      slots := [⟨⟨16⟩, ⟨⟨1⟩, []⟩, 1⟩], free_list := [] },
    by decide, by decide, by decide⟩

/-- C3 (distinctness), amended: a request for `(S1, A1)` in a table reached by requests,
resizes and releases puts its node in the table, and the node stays there as long as nothing
is released; and when, after any requests, resizes and releases, the handle returned is still
a node of the table that holds `(S1, A1)`, a request for a tuple `(S2, A2)` that differs in
the symbol or in some argument handle returns a different handle. -/
theorem distinct_tuples_distinct_handles_while_live (w : Nat) (D : function_symbol_members)
    (slot_address : Nat → Nat) (hinj : Function.Injective slot_address)
    (σ σ1 : term_table) (hσ : term_table.Reachable w D slot_address σ)
    (S1 : function_symbol) (A1 : List unprotected_aterm) (h1 : unprotected_aterm)
    (hreq1 : find_or_create w D slot_address σ S1 A1 = some (h1, σ1)) :
    (∀ τ, term_table.Later w D slot_address σ1 τ → (h1, (⟨S1, A1⟩ : _aterm)) ∈ τ.nodes) ∧
    (∀ (τ τ1 : term_table) (S2 : function_symbol) (A2 : List unprotected_aterm)
      (h2 : unprotected_aterm),
      term_table.Follows w D slot_address σ1 τ →
      (h1, (⟨S1, A1⟩ : _aterm)) ∈ τ.nodes →
      find_or_create w D slot_address τ S2 A2 = some (h2, τ1) →
      (S1 ≠ S2 ∨ ∃ i : Nat, A1[i]? ≠ A2[i]?) → h1 ≠ h2) := by
  have hinv := reachable_inv w D slot_address hinj σ hσ
  obtain ⟨_, f2, f3, _⟩ := find_or_create_inv w D slot_address hinj σ σ1 hinv S1 A1 h1 hreq1
  constructor
  · intro τ hl
    exact (later_inv w D slot_address hinj σ1 τ f2 hl).2 _ f3
  · intro τ τ1 S2 A2 h2 hf hlive hreq2 hne heq
    have hτ := follows_inv w D slot_address hinj σ1 τ f2 hf
    obtain ⟨_, g2, g3, g4⟩ := find_or_create_inv w D slot_address hinj τ τ1 hτ S2 A2 h2 hreq2
    have hmem : (h1, (⟨S1, A1⟩ : _aterm)) ∈ τ1.nodes := g4 _ hlive
    have := nodes_address_unique w D slot_address hinj τ1 g2 _ _ hmem g3 heq
    injection this with _ hterm
    injection hterm with hS hA
    rcases hne with h | ⟨i, hi⟩
    · exact h hS
    · exact hi (by rw [hA])

/-- Witness for C3: the constant `c` requested from an empty table of four buckets lives at
address 16; after `f(c)` was created and released, `c` is still a node, and the request for
`f(c)` returns the handle 32. -/
theorem distinct_tuples_distinct_handles_while_live_witness :
    (∀ τ, term_table.Later 64 sample_members sample_slot_address sample_table_c τ →
      ((⟨16⟩ : unprotected_aterm), (⟨⟨0⟩, []⟩ : _aterm)) ∈ τ.nodes) ∧
    (⟨16⟩ : unprotected_aterm) ≠ ⟨32⟩ :=
  ⟨(distinct_tuples_distinct_handles_while_live 64 sample_members sample_slot_address
      sample_slot_address_injective (term_table.empty (2 ^ 2)) sample_table_c
      (term_table.Reachable.empty 2) ⟨0⟩ [] ⟨16⟩ (by decide)).1,
   (distinct_tuples_distinct_handles_while_live 64 sample_members sample_slot_address
      sample_slot_address_injective (term_table.empty (2 ^ 2)) sample_table_c
      (term_table.Reachable.empty 2) ⟨0⟩ [] ⟨16⟩ (by decide)).2
      sample_table_released sample_table_fc ⟨1⟩ [⟨16⟩] ⟨32⟩
      (term_table.Follows.release sample_table_c sample_table_fc sample_table_released 2 ⟨32⟩
        (term_table.Follows.request sample_table_c sample_table_c sample_table_fc ⟨1⟩ [⟨16⟩]
          ⟨32⟩ (term_table.Follows.refl _) (by decide))
        (by decide))
      (by decide) (by decide) (Or.inl (by decide))⟩


/-! ## Claims on aterm_hash.h -/

/-- C4: for a node `t` (holding as many arguments as the arity of its symbol), a symbol `S` and
an argument array `A` with at least `arity(S)` entries, `aterm_equals(t, S, A)` returns a value,
and that value is true exactly when the symbol handle of `t` is `S` and every one of the first
`arity(S)` argument handles of `t` is the handle `A[i]`; only handles are compared. The iterator
overload, for `N` dynamic or equal to the arity, returns the same. -/
theorem aterm_equals_array_iff (w N : Nat) (D : function_symbol_members) (t : _aterm)
    (S : function_symbol) (A : List unprotected_aterm)
    (hwf : t.m_arguments.length = D.arity t.function)
    (hA : D.arity S ≤ A.length)
    (hN : N = DynamicNumberOfArguments w ∨ N = D.arity S) :
    (∃ b, aterm_equals_array D t S A = some b ∧
      (b = true ↔ (t.function = S ∧ ∀ i, i < D.arity S → t.arg i = A[i]?))) ∧
    aterm_equals_iterator w N D t S A = aterm_equals_array D t S A := by
  have hta : template_arity w N D S = D.arity S := by
    unfold template_arity
    rcases hN with h | h
    · rw [if_pos h]
    · split <;> simp [h]
  constructor
  · unfold aterm_equals_array
    by_cases hf : t.function = S
    · rw [if_pos hf]
      obtain ⟨b, hb, hiff⟩ := equal_arguments_spec t A (D.arity S) 0
        (by rw [hwf, hf]; omega) (by omega)
      refine ⟨b, hb, ?_⟩
      rw [hiff]
      constructor
      · intro h
        exact ⟨hf, fun i hi => h i (Nat.zero_le _) (by omega)⟩
      · intro h j _ hj
        exact h.2 j (by omega)
    · rw [if_neg hf]
      exact ⟨false, rfl, by simp [hf]⟩
  · unfold aterm_equals_iterator aterm_equals_array
    by_cases hf : t.function = S
    · rw [if_pos hf, if_pos hf]
      simp only [hta]
      exact equal_iterator_eq t (D.arity S) 0 A A hA (by simp)
    · rw [if_neg hf, if_neg hf]

/-- Witness for C4: the node `f(a, b)` against the key `(f, [a, b])`. -/
theorem aterm_equals_array_iff_witness :
    (∃ b, aterm_equals_array ⟨fun _ => 2, fun _ => 7⟩ ⟨⟨1⟩, [⟨16⟩, ⟨32⟩]⟩ ⟨1⟩ [⟨16⟩, ⟨32⟩] = some b ∧
      (b = true ↔ ((⟨⟨1⟩, [⟨16⟩, ⟨32⟩]⟩ : _aterm).function = ⟨1⟩ ∧
        ∀ i, i < 2 → (⟨⟨1⟩, [⟨16⟩, ⟨32⟩]⟩ : _aterm).arg i
          = ([⟨16⟩, ⟨32⟩] : List unprotected_aterm)[i]?))) ∧
    aterm_equals_iterator 64 2 ⟨fun _ => 2, fun _ => 7⟩ ⟨⟨1⟩, [⟨16⟩, ⟨32⟩]⟩ ⟨1⟩ [⟨16⟩, ⟨32⟩]
      = aterm_equals_array ⟨fun _ => 2, fun _ => 7⟩ ⟨⟨1⟩, [⟨16⟩, ⟨32⟩]⟩ ⟨1⟩ [⟨16⟩, ⟨32⟩] :=
  aterm_equals_array_iff 64 2 ⟨fun _ => 2, fun _ => 7⟩ ⟨⟨1⟩, [⟨16⟩, ⟨32⟩]⟩ ⟨1⟩ [⟨16⟩, ⟨32⟩]
    (by decide) (by decide) (Or.inr (by decide))

/-- C5, counterexample: for a symbol with hash 1 and arity 2 applied to the arguments at
addresses 16 and 32 (pointer hashes 1 and 2), `aterm_hasher` returns 9 while the right-nested
formula of the specification gives 6. -/
theorem aterm_hasher_not_right_nested :
    aterm_hasher_array 64 (DynamicNumberOfArguments 64) ⟨fun _ => 2, fun _ => 1⟩ ⟨0⟩ [⟨16⟩, ⟨32⟩]
      = some 9 ∧
    spec_nested_hash 64 1 [⟨16⟩, ⟨32⟩] = 6 ∧
    aterm_hasher_array 64 (DynamicNumberOfArguments 64) ⟨fun _ => 2, fun _ => 1⟩ ⟨0⟩ [⟨16⟩, ⟨32⟩]
      ≠ some (spec_nested_hash 64 1 [⟨16⟩, ⟨32⟩]) := by
  refine ⟨?_, ?_, ?_⟩
  · decide
  · decide
  · decide

/-- C5, amended: for a symbol `S` of arity `n` and argument handles `a_0..a_{n-1}`, the hash
that `aterm_hasher` computes (from the raw array and from the node alike) is the left-nested
combination `combine(..combine(combine(hash(S), hash(a_0)), hash(a_1)).., hash(a_{n-1}))`; it
is the right-nested combination of the specification when `n ≤ 1`. -/
theorem aterm_hasher_left_nested (w N : Nat) (D : function_symbol_members)
    (S : function_symbol) (A : List unprotected_aterm)
    (hA : A.length = D.arity S)
    (hN : N = DynamicNumberOfArguments w ∨ N = D.arity S) :
    aterm_hasher_array w N D S A
      = some (A.foldl (fun h a => combine w h (hash_unprotected_aterm a)) (D.hash S)) ∧
    aterm_hasher_term w N D ⟨S, A⟩
      = some (A.foldl (fun h a => combine w h (hash_unprotected_aterm a)) (D.hash S)) ∧
    (A.length ≤ 1 →
      A.foldl (fun h a => combine w h (hash_unprotected_aterm a)) (D.hash S)
        = spec_nested_hash w (D.hash S) A) := by
  have hta : template_arity w N D S = A.length := by
    unfold template_arity
    rcases hN with h | h
    · rw [if_pos h, hA]
    · split <;> simp [h, hA]
  have key : hash_arguments w A A.length 0 (D.hash S)
      = some (A.foldl (fun h a => combine w h (hash_unprotected_aterm a)) (D.hash S)) := by
    rw [hash_arguments_eq w A A.length 0 _ (by omega)]
    simp only [List.drop_zero, List.take_length]
    rfl
  refine ⟨?_, ?_, ?_⟩
  · unfold aterm_hasher_array aterm_hasher_symbol
    simp only [hta]
    exact key
  · unfold aterm_hasher_term aterm_hasher_symbol _aterm.function
    simp only [hta]
    exact key
  · intro hlen
    match A, hlen with
    | [], _ => rfl
    | [a], _ => rfl
    | _ :: _ :: _, h => simp at h

/-- Witness for C5, amended: a symbol of arity 2 and hash 1 on the addresses 16 and 32. -/
theorem aterm_hasher_left_nested_witness :
    aterm_hasher_array 64 2 ⟨fun _ => 2, fun _ => 1⟩ ⟨0⟩ [⟨16⟩, ⟨32⟩]
      = some (([⟨16⟩, ⟨32⟩] : List unprotected_aterm).foldl
          (fun h a => combine 64 h (hash_unprotected_aterm a)) 1) :=
  (aterm_hasher_left_nested 64 2 ⟨fun _ => 2, fun _ => 1⟩ ⟨0⟩ [⟨16⟩, ⟨32⟩]
    (by decide) (Or.inr (by decide))).1

/-- C6: `combine(seed, value)` is `(value + (seed << 1) + (seed >> 1))` modulo `2 ^ w`, which
is `value + floor(2.5 * seed)` modulo `2 ^ w`. -/
theorem combine_eq_two_and_a_half (w seed value : Nat) :
    combine w seed value = (value + (seed <<< 1) + (seed >>> 1)) % 2 ^ w ∧
    combine w seed value = (value + 5 * seed / 2) % 2 ^ w := by
  constructor
  · rw [combine_unfold, Nat.shiftLeft_eq, Nat.shiftRight_eq_div_pow]
    simp only [pow_one]
    congr 1
    omega
  · rw [combine_unfold]
    congr 1
    omega

/-- C7, counterexample: with 64-bit words, seed 0 and the distinct values
`a = (2 ^ 65 + 1) / 3` and `b = 0`, both orders give the same hash. -/
theorem combine_swap_collision :
    (12297829382473034411 : Nat) ≠ 0 ∧ 12297829382473034411 < 2 ^ 64 ∧
    combine 64 (combine 64 0 12297829382473034411) 0
      = combine 64 (combine 64 0 0) 12297829382473034411 := by
  decide

/-- C7, amended: for every seed and every two different values `a` and `b` below `2 ^ w`,
swapping them gives a different hash whenever three times their distance is more than one
away from both `2 ^ w` and `2 * 2 ^ w`; this is so whenever `a` and `b` are both below a
quarter of `2 ^ w`. -/
theorem combine_swap_ne_off_thirds (w seed a b : Nat) (ha : a < 2 ^ w) (hb : b < 2 ^ w)
    (hab : a ≠ b) :
    ((3 * ((a - b) + (b - a)) + 1 < 2 ^ w ∨
      (2 ^ w + 1 < 3 * ((a - b) + (b - a)) ∧ 3 * ((a - b) + (b - a)) + 1 < 2 * 2 ^ w) ∨
      2 * 2 ^ w + 1 < 3 * ((a - b) + (b - a))) →
      combine w (combine w seed a) b ≠ combine w (combine w seed b) a) ∧
    (a < 2 ^ w / 4 → b < 2 ^ w / 4 →
      combine w (combine w seed a) b ≠ combine w (combine w seed b) a) := by
  have key : (3 * ((a - b) + (b - a)) + 1 < 2 ^ w ∨
      (2 ^ w + 1 < 3 * ((a - b) + (b - a)) ∧ 3 * ((a - b) + (b - a)) + 1 < 2 * 2 ^ w) ∨
      2 * 2 ^ w + 1 < 3 * ((a - b) + (b - a))) →
      combine w (combine w seed a) b ≠ combine w (combine w seed b) a := by
    intro h3
    simp only [combine_unfold]
    rcases Nat.lt_or_gt_of_ne hab with hlt | hgt
    · have := swap_ne_aux (2 ^ w) (2 * seed + seed / 2) a (b - a) (by omega) (by omega)
        (by omega)
      have e1 : a + (b - a) = b := by omega
      rw [e1] at this
      have e2 : b + 2 * seed + seed / 2 = b + (2 * seed + seed / 2) := by omega
      have e3 : a + 2 * seed + seed / 2 = a + (2 * seed + seed / 2) := by omega
      rw [e2, e3]
      exact fun h => this h.symm
    · have := swap_ne_aux (2 ^ w) (2 * seed + seed / 2) b (a - b) (by omega) (by omega)
        (by omega)
      have e1 : b + (a - b) = a := by omega
      rw [e1] at this
      have e2 : b + 2 * seed + seed / 2 = b + (2 * seed + seed / 2) := by omega
      have e3 : a + 2 * seed + seed / 2 = a + (2 * seed + seed / 2) := by omega
      rw [e2, e3]
      exact this
  refine ⟨key, ?_⟩
  intro ha4 hb4
  apply key
  left
  omega

/-- Witness for C7, amended: on 64-bit words, seed 1 with the values `2 ^ 63` and 0, whose
distance lies between the two excluded bands, and seed `2 ^ 63` with the values 2 and 3. -/
theorem combine_swap_ne_off_thirds_witness :
    combine 64 (combine 64 1 (2 ^ 63)) 0 ≠ combine 64 (combine 64 1 0) (2 ^ 63) ∧
    combine 64 (combine 64 (2 ^ 63) 2) 3 ≠ combine 64 (combine 64 (2 ^ 63) 3) 2 :=
  ⟨(combine_swap_ne_off_thirds 64 1 (2 ^ 63) 0 (by decide) (by decide) (by decide)).1
      (Or.inr (Or.inl (by decide))),
   (combine_swap_ne_off_thirds 64 (2 ^ 63) 2 3 (by decide) (by decide) (by decide)).2
      (by decide) (by decide)⟩

/-- C8: for a symbol `S` of arity `n` and argument handles `a_0..a_{n-1}`, with `N` dynamic or
`N = n`, the node, raw array, iterator, `std::array` and parameter pack overloads of
`aterm_hasher` and `aterm_hasher_finite` all return the left fold `h_0 = hash(S)`,
`h_{i+1} = combine(h_i, pointer-hash(a_i))`, result `h_n` (the parameter pack overload exists
for `n ≥ 1` only). -/
theorem aterm_hasher_overloads_agree (w N : Nat) (D : function_symbol_members)
    (S : function_symbol) (A : List unprotected_aterm)
    (hA : A.length = D.arity S)
    (hN : N = DynamicNumberOfArguments w ∨ N = D.arity S)
    (hw : A.length < 2 ^ w) :
    aterm_hasher_term w N D ⟨S, A⟩
      = some (A.foldl (fun h a => combine w h (hash_aterm_ptr a.m_term)) (D.hash S)) ∧
    aterm_hasher_array w N D S A
      = some (A.foldl (fun h a => combine w h (hash_aterm_ptr a.m_term)) (D.hash S)) ∧
    aterm_hasher_iterator w N D S A
      = some (A.foldl (fun h a => combine w h (hash_aterm_ptr a.m_term)) (D.hash S)) ∧
    aterm_hasher_finite_array w A.length D S A.get
      = A.foldl (fun h a => combine w h (hash_aterm_ptr a.m_term)) (D.hash S) ∧
    (A ≠ [] → aterm_hasher_finite_pack w D S A
      = some (A.foldl (fun h a => combine w h (hash_aterm_ptr a.m_term)) (D.hash S))) := by
  have hta : template_arity w N D S = A.length := by
    unfold template_arity
    rcases hN with h | h
    · rw [if_pos h, hA]
    · split <;> simp [h, hA]
  have hfun : (fun h a => combine w h (hash_aterm_ptr a.m_term)) = combine_aterm w := rfl
  rw [hfun]
  have key : hash_arguments w A A.length 0 (D.hash S)
      = some (A.foldl (combine_aterm w) (D.hash S)) := by
    rw [hash_arguments_eq w A A.length 0 _ (by omega)]
    simp only [List.drop_zero, List.take_length]
  refine ⟨?_, ?_, ?_, ?_, ?_⟩
  · unfold aterm_hasher_term aterm_hasher_symbol _aterm.function
    simp only [hta]
    exact key
  · unfold aterm_hasher_array aterm_hasher_symbol
    simp only [hta]
    exact key
  · unfold aterm_hasher_iterator aterm_hasher_symbol
    simp only [hta]
    rw [hash_iterator_eq w A.length A _ (le_refl _), List.take_length]
  · unfold aterm_hasher_finite_array aterm_hasher_symbol
    exact finite_array_eq w (D.hash S) A
  · intro hne
    unfold aterm_hasher_finite_pack aterm_hasher_symbol
    have hpos : 0 < A.length := List.length_pos.mpr hne
    simp only
    rw [combine_args_eq w A hw A.length 0 _ hpos (by omega), List.drop_zero]

/-- Witness for C8: a symbol of arity 2 and hash 1 on the addresses 16 and 32. -/
theorem aterm_hasher_overloads_agree_witness :
    aterm_hasher_finite_pack 64 ⟨fun _ => 2, fun _ => 1⟩ ⟨0⟩ [⟨16⟩, ⟨32⟩]
      = some (([⟨16⟩, ⟨32⟩] : List unprotected_aterm).foldl
          (fun h a => combine 64 h (hash_aterm_ptr a.m_term)) 1) :=
  (aterm_hasher_overloads_agree 64 2 ⟨fun _ => 2, fun _ => 1⟩ ⟨0⟩ [⟨16⟩, ⟨32⟩]
    (by decide) (Or.inr (by decide)) (by decide)).2.2.2.2 (by decide)

/-- C9: the hash of an integer term is its value, the hash of a raw value is that value,
`aterm_int_equals` on a term and a value (on two terms) holds exactly when the values are
equal; so a node and the raw value it carries hash alike and compare equal. -/
theorem aterm_int_hash_equals (t t1 t2 : _aterm_int) (v : Nat) :
    aterm_int_hasher_term t = t.value ∧
    aterm_int_hasher_value v = v ∧
    (aterm_int_equals_value t v = true ↔ t.value = v) ∧
    (aterm_int_equals_terms t1 t2 = true ↔ t1.value = t2.value) ∧
    aterm_int_hasher_term t = aterm_int_hasher_value t.value ∧
    aterm_int_equals_value t t.value = true := by
  simp [aterm_int_hasher_term, aterm_int_hasher_value, aterm_int_equals_value,
    aterm_int_equals_terms]

/-- C10: for a symbol `S` of arity 0 (and `N` dynamic or 0), any term `t` and any argument
array `A`, also an empty one, `aterm_hasher(S, A) = aterm_hasher(S) = hash(S)` and
`aterm_equals(t, S, A) = aterm_equals(t, S)`, which tells whether the symbol of `t` is `S`;
no entry of `A` is read. -/
theorem zero_arity_lookup_by_symbol (w N : Nat) (D : function_symbol_members)
    (S : function_symbol) (t : _aterm) (A : List unprotected_aterm)
    (h0 : D.arity S = 0)
    (hN : N = DynamicNumberOfArguments w ∨ N = 0) :
    aterm_hasher_array w N D S A = some (aterm_hasher_symbol D S) ∧
    aterm_hasher_symbol D S = D.hash S ∧
    aterm_equals_array D t S A = some (aterm_equals_symbol t S) ∧
    (aterm_equals_symbol t S = true ↔ t.function = S) := by
  have hta : template_arity w N D S = 0 := by
    unfold template_arity
    rcases hN with h | h
    · rw [if_pos h, h0]
    · split <;> simp [h, h0]
  refine ⟨?_, rfl, ?_, ?_⟩
  · unfold aterm_hasher_array
    simp only [hta]
    rfl
  · unfold aterm_equals_array aterm_equals_symbol
    rw [h0]
    by_cases hf : t.function = S
    · simp [hf, equal_arguments]
    · simp [hf]
  · simp [aterm_equals_symbol]

/-- Witness for C10: a constant symbol looked up with an empty argument array. -/
theorem zero_arity_lookup_by_symbol_witness :
    aterm_hasher_array 64 0 ⟨fun _ => 0, fun _ => 5⟩ ⟨3⟩ []
      = some (aterm_hasher_symbol ⟨fun _ => 0, fun _ => 5⟩ ⟨3⟩) ∧
    aterm_equals_array ⟨fun _ => 0, fun _ => 5⟩ ⟨⟨3⟩, []⟩ ⟨3⟩ []
      = some (aterm_equals_symbol ⟨⟨3⟩, []⟩ ⟨3⟩) :=
  have h := zero_arity_lookup_by_symbol 64 0 ⟨fun _ => 0, fun _ => 5⟩ ⟨3⟩ ⟨⟨3⟩, []⟩ []
    (by decide) (Or.inr rfl)
  ⟨h.1, h.2.2.1⟩

end detail

namespace index_build

/-! ## Lemmas on the index build -/

theorem chain_congr (table table' : List _function_symbol) :
    ∀ (l : List Nat) (head : Option Nat), chain table head l →
      (∀ i ∈ l, ∀ e, table[i]? = some e → ∃ e', table'[i]? = some e' ∧ e'.next = e.next) →
      chain table' head l := by
  intro l
  induction l with
  | nil =>
    intro head hc _
    cases hc
    exact chain.nil
  | cons i rest ih =>
    intro head hc hsame
    cases hc with
    | cons _ entry _ he hrest =>
      obtain ⟨e', he', hn⟩ := hsame i (List.mem_cons_self _ _) entry he
      refine chain.cons i e' rest he' ?_
      rw [hn]
      exact ih _ hrest (fun j hj => hsame j (List.mem_cons_of_mem _ hj))

theorem find_symbol_chain (σ : administration) (name : List Nat) (arity_ : Nat) :
    ∀ (l : List Nat) (head : Option Nat) (fuel : Nat),
      chain σ.function_lookup_table head l → l.length < fuel →
      find_symbol σ name arity_ fuel head
        = .ok (l.find? (is_symbol σ.function_lookup_table name arity_)) := by
  intro l
  induction l with
  | nil =>
    intro head fuel hc _
    cases hc
    cases fuel <;> rfl
  | cons i rest ih =>
    intro head fuel hc hfuel
    cases hc with
    | cons _ entry _ he hrest =>
      cases fuel with
      | zero => simp at hfuel
      | succ fuel =>
        rw [find_symbol, he]
        simp only
        rw [List.find?_cons]
        by_cases hm : entry.arity = arity_ ∧ entry.name = name
        · rw [if_pos hm]
          have : is_symbol σ.function_lookup_table name arity_ i = true := by
            unfold is_symbol; rw [he]; simp [hm]
          rw [this]
        · rw [if_neg hm]
          have : is_symbol σ.function_lookup_table name arity_ i = false := by
            unfold is_symbol; rw [he]; simp [hm]
          rw [this]
          exact ih _ fuel hrest (by simp at hfuel; omega)

theorem members_lt (w mask : Nat) (table : List _function_symbol) (b : Nat) :
    ∀ (k i : Nat), i ∈ members w mask table b k → i < k := by
  intro k
  induction k with
  | zero => intro i hi; simp [members] at hi
  | succ k ih =>
    intro i hi
    rw [members] at hi
    split at hi
    · rcases List.mem_cons.mp hi with h | h
      · omega
      · have := ih i h; omega
    · have := ih i hi; omega

theorem members_length (w mask : Nat) (table : List _function_symbol) (b : Nat) :
    ∀ (k : Nat), (members w mask table b k).length ≤ k := by
  intro k
  induction k with
  | zero => simp [members]
  | succ k ih =>
    rw [members]
    split
    · simp; omega
    · omega

theorem mem_members (w mask : Nat) (table : List _function_symbol) (b : Nat) :
    ∀ (k i : Nat), i < k → bucket_of w mask table i = some b → i ∈ members w mask table b k := by
  intro k
  induction k with
  | zero => intro i hi; omega
  | succ k ih =>
    intro i hi hb
    rw [members]
    by_cases hik : i = k
    · subst hik
      rw [if_pos hb]
      exact List.mem_cons_self _ _
    · have := ih i (by omega) hb
      split
      · exact List.mem_cons_of_mem _ this
      · exact this

theorem rehash_entries_spec (w : Nat) (σ0 : administration)
    (hmask : ∀ h, h &&& σ0.function_symbol_table_mask < σ0.function_symbol_hashtable.length) :
    ∀ (remaining i : Nat) (σ : administration), rehashed w σ0 σ i →
      i + remaining ≤ σ0.function_lookup_table.length →
      ∃ σ', rehash_entries w remaining i σ = .ok σ' ∧ rehashed w σ0 σ' (i + remaining) := by
  intro remaining
  induction remaining with
  | zero => intro i σ h _; exact ⟨σ, rfl, h⟩
  | succ r ih =>
    intro i σ h hlen
    have hi : i < σ0.function_lookup_table.length := by omega
    obtain ⟨nx, hrec⟩ := h.records i _ (List.getElem?_eq_getElem hi)
    have hb : calculate_hash_of_function_symbol w (σ0.function_lookup_table[i]).name
        (σ0.function_lookup_table[i]).arity &&& σ.function_symbol_table_mask
          < σ.function_symbol_hashtable.length := by
      rw [h.table_mask, h.hashtable_length]; exact hmask _
    obtain ⟨head, hhead, hchain⟩ := h.chains _ hb
    have hbucket : bucket_of w σ0.function_symbol_table_mask σ0.function_lookup_table i
        = some (calculate_hash_of_function_symbol w (σ0.function_lookup_table[i]).name
            (σ0.function_lookup_table[i]).arity &&& σ.function_symbol_table_mask) := by
      unfold bucket_of
      rw [List.getElem?_eq_getElem hi, h.table_mask]
      rfl
    have hi' : i < σ.function_lookup_table.length := by rw [h.table_length]; exact hi
    rw [rehash_entries, hrec]
    simp only
    rw [hhead]
    simp only
    have hstep : rehashed w σ0
        { σ with
          function_lookup_table := σ.function_lookup_table.set i
            { name := (σ0.function_lookup_table[i]).name,
              arity := (σ0.function_lookup_table[i]).arity,
              next := head,
              reference_count := (σ0.function_lookup_table[i]).reference_count }
          function_symbol_hashtable := σ.function_symbol_hashtable.set
            (calculate_hash_of_function_symbol w (σ0.function_lookup_table[i]).name
              (σ0.function_lookup_table[i]).arity &&& σ.function_symbol_table_mask) (some i) }
        (i + 1) := by
      have hframe : ∀ (l : List Nat) (hd : Option Nat), (∀ j ∈ l, j < i) →
          chain σ.function_lookup_table hd l →
          chain (σ.function_lookup_table.set i
            { name := (σ0.function_lookup_table[i]).name,
              arity := (σ0.function_lookup_table[i]).arity,
              next := head,
              reference_count := (σ0.function_lookup_table[i]).reference_count }) hd l := by
        intro l hd hl hc
        apply chain_congr _ _ l hd hc
        intro j hj e he
        have hji : i ≠ j := by have := hl j hj; omega
        exact ⟨e, by rw [List.getElem?_set_ne hji]; exact he, rfl⟩
      constructor
      · exact h.table_size
      · exact h.table_mask
      · exact h.first_free
      · exact h.actual_size
      · exact h.lookup_size
      · exact h.allocations
      · simp only [List.length_set]; exact h.hashtable_length
      · intro j e he
        by_cases hji : i = j
        · subst hji
          rw [List.getElem?_eq_getElem hi] at he
          injection he with he
          refine ⟨head, ?_⟩
          simp only
          rw [List.getElem?_set_self hi', ← he]
        · obtain ⟨nx', hnx⟩ := h.records j e he
          exact ⟨nx', by simp only; rw [List.getElem?_set_ne hji]; exact hnx⟩
      · simp only [List.length_set]; exact h.table_length
      · intro b hblen
        simp only [List.length_set] at hblen
        simp only
        by_cases hbb : calculate_hash_of_function_symbol w (σ0.function_lookup_table[i]).name
            (σ0.function_lookup_table[i]).arity &&& σ.function_symbol_table_mask = b
        · refine ⟨some i, ?_, ?_⟩
          · rw [hbb, List.getElem?_set_self hblen]
          · rw [members, hbucket, hbb, if_pos rfl]
            refine chain.cons i _ _ (List.getElem?_set_self hi') ?_
            simp only
            rw [hbb] at hchain
            exact hframe _ _ (members_lt w _ _ b i) hchain
        · obtain ⟨hd, hhd, hc⟩ := h.chains b hblen
          refine ⟨hd, ?_, ?_⟩
          · rw [List.getElem?_set_ne hbb]; exact hhd
          · rw [members, hbucket, if_neg (by intro hcon; injection hcon with hcon; exact hbb hcon)]
            exact hframe _ _ (members_lt w _ _ b i) hc
    obtain ⟨σ', h1, h2⟩ := ih (i + 1) _ hstep (by omega)
    refine ⟨σ', h1, ?_⟩
    rw [show i + (r + 1) = i + 1 + r by omega]
    exact h2

theorem find_unique (p : Nat → Bool) (s : Nat) :
    ∀ (l : List Nat), s ∈ l → p s = true → (∀ i ∈ l, p i = true → i = s) →
      l.find? p = some s := by
  intro l
  induction l with
  | nil => intro h; simp at h
  | cons a rest ih =>
    intro hmem hp huniq
    rw [List.find?_cons]
    by_cases ha : p a = true
    · rw [ha, huniq a (List.mem_cons_self _ _) ha]
    · have hne : a ≠ s := fun h => ha (h ▸ hp)
      simp only [Bool.not_eq_true] at ha
      rw [ha]
      rcases List.mem_cons.mp hmem with h | h
      · exact absurd h.symm hne
      · exact ih h hp (fun i hi => huniq i (List.mem_cons_of_mem _ hi))

theorem find_none (p : Nat → Bool) (l : List Nat) (h : ∀ i ∈ l, p i = false) :
    l.find? p = none := by
  rw [List.find?_eq_none]
  intro i hi
  simp [h i hi]

theorem doubled_size (w T : Nat) (hT : 0 < T) (hw : 2 * T < 2 ^ w) :
    T <<< 1 % 2 ^ w = 2 * T ∧ (2 * T + (2 ^ w - 1)) % 2 ^ w = 2 * T - 1 := by
  have h1 : T <<< 1 % 2 ^ w = 2 * T := by
    rw [Nat.shiftLeft_eq, pow_one, Nat.mod_eq_of_lt (by omega)]
    omega
  refine ⟨h1, ?_⟩
  have : 2 * T + (2 ^ w - 1) = (2 * T - 1) + 2 ^ w := by omega
  rw [this, Nat.add_mod_right, Nat.mod_eq_of_lt (by omega)]

theorem resize_function_symbol_hashtable_spec (w : Nat) (memory : Nat → Bool) (σ : administration)
    (hT : 0 < σ.function_symbol_table_size)
    (hw : 2 * σ.function_symbol_table_size < 2 ^ w)
    (hmem : memory σ.allocations = true)
    (hlen : σ.function_lookup_table.length = σ.function_lookup_table_size) :
    ∃ σ', resize_function_symbol_hashtable w memory σ = .ok σ' ∧
      σ'.function_symbol_table_size = 2 * σ.function_symbol_table_size ∧
      σ'.function_symbol_table_mask = 2 * σ.function_symbol_table_size - 1 ∧
      σ'.first_free = σ.first_free ∧
      σ'.function_lookup_table_size = σ.function_lookup_table_size ∧
      σ'.function_symbol_hashtable.length = 2 * σ.function_symbol_table_size ∧
      σ'.function_lookup_table.length = σ.function_lookup_table.length ∧
      (∀ (i : Nat) (e : _function_symbol), σ.function_lookup_table[i]? = some e →
        ∃ next, σ'.function_lookup_table[i]? = some { e with next := next }) ∧
      (∀ b, b < 2 * σ.function_symbol_table_size →
        ∃ head, σ'.function_symbol_hashtable[b]? = some head ∧
          chain σ'.function_lookup_table head
            (members w (2 * σ.function_symbol_table_size - 1) σ.function_lookup_table b
              σ.function_lookup_table_size)) := by
  obtain ⟨hsize, hmask⟩ := doubled_size w _ hT hw
  unfold resize_function_symbol_hashtable
  simp only [hmem, if_true, hsize, hmask]
  have hstart : rehashed w
      { σ with
        function_symbol_table_size := 2 * σ.function_symbol_table_size
        function_symbol_table_mask := 2 * σ.function_symbol_table_size - 1
        function_symbol_hashtable := List.replicate (2 * σ.function_symbol_table_size) none
        allocations := σ.allocations + 1 }
      { σ with
        function_symbol_table_size := 2 * σ.function_symbol_table_size
        function_symbol_table_mask := 2 * σ.function_symbol_table_size - 1
        function_symbol_hashtable := List.replicate (2 * σ.function_symbol_table_size) none
        allocations := σ.allocations + 1 } 0 := by
    constructor <;> try rfl
    · intro i e he; exact ⟨e.next, he⟩
    · intro b hb
      simp only [List.length_replicate] at hb
      refine ⟨none, ?_, ?_⟩
      · simp [List.getElem?_replicate, hb]
      · rw [members]; exact chain.nil
  obtain ⟨σ', h1, h2⟩ := rehash_entries_spec w _
    (by
      intro h
      simp only [List.length_replicate]
      have := @Nat.and_le_right h (2 * σ.function_symbol_table_size - 1)
      omega)
    σ.function_lookup_table_size 0 _ hstart (by simp [hlen])
  refine ⟨σ', h1, h2.table_size, h2.table_mask, h2.first_free, h2.lookup_size, ?_,
    h2.table_length, h2.records, ?_⟩
  · rw [h2.hashtable_length]; simp
  · intro b hb
    have := h2.chains b (by rw [h2.hashtable_length]; simpa using hb)
    simpa using this

theorem function_symbol_initialised (w : Nat) (memory : Nat → Bool)
    (builtin : List (List Nat × Nat)) (depth : Nat) (name : List Nat) (arity_ : Nat)
    (σ : administration) (h : σ.function_symbol_table_size ≠ 0) :
    function_symbol w memory builtin (depth + 1) name arity_ σ
      = function_symbol_lookup_or_insert w memory name arity_ σ := by
  rw [function_symbol, if_neg h]

theorem land_lt_doubled (h T : Nat) (hT : 0 < T) : h &&& (2 * T - 1) < 2 * T := by
  have := @Nat.and_le_right h (2 * T - 1)
  omega

end index_build

namespace index_build

/-! ## Filling the table of the index build -/

theorem initial_size_eq : INITIAL_FUNCTION_HASH_TABLE_SIZE = 16384 := by decide

theorem chain_mem_valid (table : List _function_symbol) :
    ∀ (l : List Nat) (head : Option Nat), chain table head l →
      ∀ i ∈ l, ∃ e, table[i]? = some e := by
  intro l
  induction l with
  | nil => intro _ _ i hi; simp at hi
  | cons a rest ih =>
    intro head hc i hi
    cases hc with
    | cons _ entry _ he hrest =>
      rcases List.mem_cons.mp hi with h | h
      · exact ⟨entry, by rw [h]; exact he⟩
      · exact ih _ hrest i h

theorem filling_hit (σ : administration) (bound : Nat) (hσ : filling σ bound) (c : Nat)
    (e : _function_symbol) (he : σ.function_lookup_table[c]? = some e) :
    ∃ σ', increase_reference_count c σ = .ok σ' ∧ filling σ' bound ∧
      σ'.function_lookup_table_size = σ.function_lookup_table_size := by
  have hc : c < σ.function_lookup_table.length := by
    by_contra hcon
    rw [List.getElem?_eq_none (by omega)] at he
    cases he
  refine ⟨{ σ with
      function_lookup_table := σ.function_lookup_table.set c
        ⟨e.name, e.arity, e.next, e.reference_count + 1⟩ },
    by rw [increase_reference_count, he], ?_, rfl⟩
  constructor
  · exact hσ.table_size
  · exact hσ.table_mask
  · exact hσ.hashtable_length
  · simp only [List.length_set]; exact hσ.table_length
  · exact hσ.first_free
  · exact hσ.actual_pos
  · exact hσ.actual_ge
  · exact hσ.actual_le
  · intro i e' he'
    simp only at he'
    by_cases hic : c = i
    · subst hic
      rw [List.getElem?_set_self hc] at he'
      injection he' with he'
      rw [← he']
      exact hσ.arities c e he
    · rw [List.getElem?_set_ne hic] at he'
      exact hσ.arities i e' he'
  · intro b hb
    obtain ⟨head, l, h1, h2, h3⟩ := hσ.chains b hb
    refine ⟨head, l, h1, ?_, h3⟩
    apply chain_congr _ _ l head h2
    intro i _ e' he'
    by_cases hic : c = i
    · subst hic
      rw [he] at he'
      injection he' with he'
      exact ⟨_, List.getElem?_set_self hc, by rw [← he']⟩
    · exact ⟨e', by simp only; rw [List.getElem?_set_ne hic]; exact he', rfl⟩

theorem create_free_entry_spec (w : Nat) (memory : Nat → Bool) (σ : administration)
    (bound : Nat) (hσ : filling σ bound) (hmem : ∀ k, memory k = true)
    (hw : 4 * INITIAL_FUNCTION_HASH_TABLE_SIZE ≤ 2 ^ w)
    (hn : σ.function_lookup_table_size < INITIAL_FUNCTION_HASH_TABLE_SIZE) :
    ∃ actual allocations,
      function_lookup_table_create_free_entry_at_end w memory σ
        = .ok (σ.function_lookup_table_size,
            { σ with
              function_lookup_table_actual_size := actual
              function_lookup_table_size := σ.function_lookup_table_size + 1
              allocations := allocations }) ∧
      σ.function_lookup_table_size < actual ∧
      actual ≤ 2 * INITIAL_FUNCTION_HASH_TABLE_SIZE := by
  unfold function_lookup_table_create_free_entry_at_end
  by_cases hfull : σ.function_lookup_table_actual_size ≤ σ.function_lookup_table_size
  · have heq : σ.function_lookup_table_actual_size = σ.function_lookup_table_size :=
      Nat.le_antisymm hfull hσ.actual_ge
    have hpos := hσ.actual_pos
    have hdouble : σ.function_lookup_table_actual_size <<< 1 % 2 ^ w
        = 2 * σ.function_lookup_table_size := by
      rw [Nat.shiftLeft_eq, pow_one, Nat.mod_eq_of_lt (by omega), heq]
      omega
    rw [if_pos hfull, hmem, if_pos rfl, hdouble]
    exact ⟨_, _, rfl, by omega, by omega⟩
  · rw [if_neg hfull]
    exact ⟨_, _, rfl, by omega, hσ.actual_le⟩

theorem filling_append (w : Nat) (memory : Nat → Bool) (σ : administration)
    (bound bound' : Nat) (name : List Nat) (ar hnr : Nat)
    (hσ : filling σ bound) (hmem : ∀ k, memory k = true)
    (hw : 4 * INITIAL_FUNCTION_HASH_TABLE_SIZE ≤ 2 ^ w)
    (hn : σ.function_lookup_table_size < INITIAL_FUNCTION_HASH_TABLE_SIZE)
    (hb : bound ≤ bound') (har : ar < bound')
    (hhnr : hnr < INITIAL_FUNCTION_HASH_TABLE_SIZE) :
    ∃ head σ', insert_symbol w memory name ar hnr σ = .ok (σ.function_lookup_table_size, σ') ∧
      filling σ' bound' ∧
      σ'.function_lookup_table_size = σ.function_lookup_table_size + 1 ∧
      σ'.function_lookup_table[σ.function_lookup_table_size]? = some ⟨name, ar, head, 1⟩ ∧
      σ'.function_symbol_hashtable[hnr]? = some (some σ.function_lookup_table_size) ∧
      (∀ (i : Nat), i < σ.function_lookup_table_size →
        σ'.function_lookup_table[i]? = σ.function_lookup_table[i]?) := by
  obtain ⟨head, l, hhead, hchain, hl⟩ := hσ.chains hnr hhnr
  obtain ⟨actual, allocations, hcreate, hact1, hact2⟩ :=
    create_free_entry_spec w memory σ bound hσ hmem hw hn
  have hlen := hσ.table_length
  have hold : ∀ (i : Nat), i < σ.function_lookup_table_size →
      ((σ.function_lookup_table ++ [_function_symbol.create name ar head]).set
        σ.function_lookup_table_size ⟨name, ar, head, 1⟩)[i]? = σ.function_lookup_table[i]? := by
    intro i hi
    rw [List.getElem?_set_ne (by omega), List.getElem?_append_left (by omega)]
  have hnew : ((σ.function_lookup_table ++ [_function_symbol.create name ar head]).set
        σ.function_lookup_table_size ⟨name, ar, head, 1⟩)[σ.function_lookup_table_size]?
        = some ⟨name, ar, head, 1⟩ :=
    List.getElem?_set_self (by simp [hlen])
  have hframe : ∀ (l' : List Nat) (hd : Option Nat), chain σ.function_lookup_table hd l' →
      chain ((σ.function_lookup_table ++ [_function_symbol.create name ar head]).set
        σ.function_lookup_table_size ⟨name, ar, head, 1⟩) hd l' := by
    intro l' hd hc
    apply chain_congr _ _ l' hd hc
    intro i _ e he
    have hi : i < σ.function_lookup_table_size := by
      rw [← hlen]
      by_contra hcon
      rw [List.getElem?_eq_none (by omega)] at he
      cases he
    exact ⟨e, by rw [hold i hi]; exact he, rfl⟩
  refine ⟨head, { σ with
      function_lookup_table_actual_size := actual
      function_lookup_table_size := σ.function_lookup_table_size + 1
      allocations := allocations
      function_lookup_table :=
        (σ.function_lookup_table ++ [_function_symbol.create name ar head]).set
          σ.function_lookup_table_size ⟨name, ar, head, 1⟩
      function_symbol_hashtable :=
        σ.function_symbol_hashtable.set hnr (some σ.function_lookup_table_size) },
    ?_, ?_, rfl, hnew, ?_, hold⟩
  · unfold insert_symbol
    rw [hhead]
    simp only [hσ.first_free, hcreate]
    rw [if_pos ⟨hlen.symm, hact1⟩]
    have hget : (σ.function_lookup_table ++ [(⟨name, ar, head, 0⟩ : _function_symbol)])[
        σ.function_lookup_table_size]? = some ⟨name, ar, head, 0⟩ := by
      rw [List.getElem?_append_right (by omega), hlen]
      simp
    simp only [increase_reference_count, _function_symbol.create, hget, Nat.zero_add]
  · constructor
    · exact hσ.table_size
    · exact hσ.table_mask
    · simp only [List.length_set]; exact hσ.hashtable_length
    · simp [hlen]
    · exact hσ.first_free
    · simp only; omega
    · simp only; omega
    · exact hact2
    · intro i e he
      simp only at he
      by_cases hi : i < σ.function_lookup_table_size
      · rw [hold i hi] at he
        have := hσ.arities i e he
        omega
      · by_cases hi' : i = σ.function_lookup_table_size
        · rw [hi', hnew] at he
          injection he with he
          rw [← he]
          exact har
        · rw [List.getElem?_eq_none (by simp [hlen]; omega)] at he
          cases he
    · intro b hb'
      simp only
      by_cases hbb : hnr = b
      · subst hbb
        refine ⟨some σ.function_lookup_table_size, σ.function_lookup_table_size :: l,
          List.getElem?_set_self (by rw [hσ.hashtable_length]; exact hhnr), ?_, ?_⟩
        · exact chain.cons _ _ _ hnew (hframe l head hchain)
        · simp only [List.length_cons]; omega
      · obtain ⟨hd, l', h1, h2, h3⟩ := hσ.chains b hb'
        refine ⟨hd, l', ?_, hframe l' hd h2, by omega⟩
        rw [List.getElem?_set_ne hbb]
        exact h1
  · exact List.getElem?_set_self (by rw [hσ.hashtable_length]; exact hhnr)

theorem land_initial_mask_lt (h : Nat) :
    h &&& (INITIAL_FUNCTION_HASH_TABLE_SIZE - 1) < INITIAL_FUNCTION_HASH_TABLE_SIZE := by
  have := @Nat.and_le_right h (INITIAL_FUNCTION_HASH_TABLE_SIZE - 1)
  have := initial_size_eq
  omega

theorem filling_construct (w : Nat) (memory : Nat → Bool) (σ : administration)
    (bound : Nat) (name : List Nat) (ar : Nat)
    (hσ : filling σ bound) (hmem : ∀ k, memory k = true)
    (hw : 4 * INITIAL_FUNCTION_HASH_TABLE_SIZE ≤ 2 ^ w)
    (hn : σ.function_lookup_table_size < INITIAL_FUNCTION_HASH_TABLE_SIZE)
    (har : ar < bound) :
    ∃ h σ', function_symbol_lookup_or_insert w memory name ar σ = .ok (h, σ') ∧
      filling σ' bound ∧ σ'.function_lookup_table_size ≤ σ.function_lookup_table_size + 1 := by
  have hhnr := land_initial_mask_lt (calculate_hash_of_function_symbol w name ar)
  obtain ⟨head, l, hhead, hchain, hl⟩ := hσ.chains _ hhnr
  unfold function_symbol_lookup_or_insert
  rw [if_neg (by rw [hσ.table_size]; omega)]
  simp only [hσ.table_mask]
  rw [hhead]
  simp only
  rw [find_symbol_chain σ name ar l head _ hchain (by omega)]
  cases hfind : l.find? (is_symbol σ.function_lookup_table name ar) with
  | some c =>
    simp only
    obtain ⟨e, he⟩ := chain_mem_valid _ l head hchain c (List.mem_of_find?_eq_some hfind)
    obtain ⟨σ', h1, h2, h3⟩ := filling_hit σ bound hσ c e he
    rw [h1]
    exact ⟨c, σ', rfl, h2, by omega⟩
  | none =>
    simp only
    obtain ⟨hd, σ', h1, h2, h3, _⟩ := filling_append w memory σ bound bound name ar _
      hσ hmem hw hn (le_refl _) har hhnr
    exact ⟨_, σ', h1, h2, by omega⟩

theorem filling_construct_fresh (w : Nat) (memory : Nat → Bool) (σ : administration)
    (bound : Nat) (name : List Nat)
    (hσ : filling σ bound) (hmem : ∀ k, memory k = true)
    (hw : 4 * INITIAL_FUNCTION_HASH_TABLE_SIZE ≤ 2 ^ w)
    (hn : σ.function_lookup_table_size < INITIAL_FUNCTION_HASH_TABLE_SIZE) :
    ∃ head σ', function_symbol_lookup_or_insert w memory name bound σ
        = .ok (σ.function_lookup_table_size, σ') ∧
      filling σ' (bound + 1) ∧
      σ'.function_lookup_table_size = σ.function_lookup_table_size + 1 ∧
      σ'.function_lookup_table[σ.function_lookup_table_size]? = some ⟨name, bound, head, 1⟩ ∧
      σ'.function_symbol_hashtable[calculate_hash_of_function_symbol w name bound &&&
        (INITIAL_FUNCTION_HASH_TABLE_SIZE - 1)]? = some (some σ.function_lookup_table_size) ∧
      (∀ (i : Nat), i < σ.function_lookup_table_size →
        σ'.function_lookup_table[i]? = σ.function_lookup_table[i]?) := by
  have hhnr := land_initial_mask_lt (calculate_hash_of_function_symbol w name bound)
  obtain ⟨head, l, hhead, hchain, hl⟩ := hσ.chains _ hhnr
  have hfind : l.find? (is_symbol σ.function_lookup_table name bound) = none := by
    apply find_none
    intro i hi
    obtain ⟨e, he⟩ := chain_mem_valid _ l head hchain i hi
    unfold is_symbol
    rw [he]
    have := hσ.arities i e he
    simp only [decide_eq_false_iff_not, not_and]
    intro hcon
    omega
  obtain ⟨hd, σ', h1, h2, h3, h4, h5, h6⟩ := filling_append w memory σ bound (bound + 1)
    name bound _ hσ hmem hw hn (by omega) (by omega) hhnr
  refine ⟨hd, σ', ?_, h2, h3, h4, h5, h6⟩
  unfold function_symbol_lookup_or_insert
  rw [if_neg (by rw [hσ.table_size]; omega)]
  simp only [hσ.table_mask]
  rw [hhead]
  simp only
  rw [find_symbol_chain σ name bound l head _ hchain (by omega), hfind]
  exact h1

theorem filling_builtin (w : Nat) (memory : Nat → Bool) (builtin : List (List Nat × Nat))
    (depth : Nat) (bound : Nat) (hmem : ∀ k, memory k = true)
    (hw : 4 * INITIAL_FUNCTION_HASH_TABLE_SIZE ≤ 2 ^ w) :
    ∀ (symbols : List (List Nat × Nat)) (σ : administration), filling σ bound →
      (∀ p ∈ symbols, p.2 < bound) →
      σ.function_lookup_table_size + symbols.length ≤ INITIAL_FUNCTION_HASH_TABLE_SIZE →
      ∃ σ', initialise_function_symbols (function_symbol w memory builtin (depth + 1)) symbols σ
          = .ok σ' ∧ filling σ' bound ∧
        σ'.function_lookup_table_size ≤ σ.function_lookup_table_size + symbols.length := by
  intro symbols
  induction symbols with
  | nil => intro σ hσ _ _; exact ⟨σ, rfl, hσ, by simp⟩
  | cons p rest ih =>
    intro σ hσ har hlen
    obtain ⟨name, ar⟩ := p
    simp only [List.length_cons] at hlen
    have hne : σ.function_symbol_table_size ≠ 0 := by
      rw [hσ.table_size, initial_size_eq]; decide
    obtain ⟨h, σ1, h1, h2, h3⟩ := filling_construct w memory σ bound name ar hσ hmem hw
      (by omega) (har (name, ar) (List.mem_cons_self _ _))
    obtain ⟨σ', g1, g2, g3⟩ := ih σ1 h2 (fun q hq => har q (List.mem_cons_of_mem _ hq))
      (by omega)
    refine ⟨σ', ?_, g2, by simp only [List.length_cons]; omega⟩
    rw [initialise_function_symbols, function_symbol_initialised w memory builtin depth name ar σ
      hne, h1]
    exact g1

theorem initialise_administration_spec (w : Nat) (memory : Nat → Bool)
    (builtin : List (List Nat × Nat)) (depth : Nat) (bound : Nat)
    (hmem : ∀ k, memory k = true) (hw : 4 * INITIAL_FUNCTION_HASH_TABLE_SIZE ≤ 2 ^ w)
    (hlen : builtin.length < INITIAL_FUNCTION_HASH_TABLE_SIZE)
    (hM : ∀ p ∈ builtin, p.2 < bound) :
    ∃ σ', initialise_administration memory builtin (function_symbol w memory builtin (depth + 1))
        administration.start = .ok σ' ∧ filling σ' bound ∧
      σ'.function_lookup_table_size ≤ builtin.length := by
  have hstart : filling
      { administration.start with
        function_symbol_table_size := INITIAL_FUNCTION_HASH_TABLE_SIZE
        function_symbol_table_mask := INITIAL_FUNCTION_HASH_TABLE_SIZE - 1
        function_symbol_hashtable := List.replicate INITIAL_FUNCTION_HASH_TABLE_SIZE none
        function_lookup_table_actual_size := INITIAL_FUNCTION_LOOKUP_TABLE_SIZE
        allocations := administration.start.allocations + 2 } bound := by
    constructor
    · rfl
    · rfl
    · simp
    · rfl
    · rfl
    · decide
    · decide
    · decide
    · intro i e he
      simp [administration.start] at he
    · intro b hb
      refine ⟨none, [], ?_, chain.nil, Nat.zero_le _⟩
      simp [List.getElem?_replicate, hb]
  obtain ⟨σ', h1, h2, h3⟩ := filling_builtin w memory builtin depth bound hmem hw builtin _
    hstart hM (by simp [administration.start]; omega)
  refine ⟨σ', ?_, h2, by simpa [administration.start] using h3⟩
  unfold initialise_administration
  rw [if_pos (show administration.start.function_symbol_table_size = 0 from rfl), hmem, hmem,
    if_pos rfl, if_pos rfl]
  exact h1

theorem first_construct_spec (w : Nat) (memory : Nat → Bool)
    (builtin : List (List Nat × Nat)) (bound : Nat) (name : List Nat)
    (hmem : ∀ k, memory k = true) (hw : 4 * INITIAL_FUNCTION_HASH_TABLE_SIZE ≤ 2 ^ w)
    (hlen : builtin.length < INITIAL_FUNCTION_HASH_TABLE_SIZE)
    (hM : ∀ p ∈ builtin, p.2 < bound) :
    ∃ n head σ', function_symbol w memory builtin 2 name bound administration.start
        = .ok (n, σ') ∧ n < INITIAL_FUNCTION_HASH_TABLE_SIZE ∧
      filling σ' (bound + 1) ∧
      σ'.function_lookup_table_size = n + 1 ∧
      σ'.function_lookup_table[n]? = some ⟨name, bound, head, 1⟩ ∧
      σ'.function_symbol_hashtable[calculate_hash_of_function_symbol w name bound &&&
        (INITIAL_FUNCTION_HASH_TABLE_SIZE - 1)]? = some (some n) ∧
      (∀ (i : Nat) (e : _function_symbol), i < n → σ'.function_lookup_table[i]? = some e →
        e.arity < bound) := by
  obtain ⟨σi, h1, h2, h3⟩ := initialise_administration_spec w memory builtin 0 bound hmem hw
    hlen hM
  obtain ⟨head, σ', g1, g2, g3, g4, g5, g6⟩ := filling_construct_fresh w memory σi bound name
    h2 hmem hw (by omega)
  refine ⟨σi.function_lookup_table_size, head, σ', ?_, by omega, g2, g3, g4, g5, ?_⟩
  · rw [function_symbol,
      if_pos (show administration.start.function_symbol_table_size = 0 from rfl), h1]
    exact g1
  · intro i e hi he
    rw [g6 i hi] at he
    exact h2.arities i e he

theorem construct_fresh_spec (w : Nat) (memory : Nat → Bool)
    (builtin : List (List Nat × Nat)) (name : List Nat)
    (hmem : ∀ k, memory k = true) (hw : 4 * INITIAL_FUNCTION_HASH_TABLE_SIZE ≤ 2 ^ w) :
    ∀ (count bound : Nat) (σ : administration), filling σ bound →
      σ.function_lookup_table_size + count + 1 = INITIAL_FUNCTION_HASH_TABLE_SIZE →
      ∃ head σ', construct_fresh w memory builtin name count bound σ
          = .ok (INITIAL_FUNCTION_HASH_TABLE_SIZE - 1, σ') ∧
        filling σ' (bound + count + 1) ∧
        σ'.function_lookup_table_size = INITIAL_FUNCTION_HASH_TABLE_SIZE ∧
        σ'.function_lookup_table[INITIAL_FUNCTION_HASH_TABLE_SIZE - 1]?
          = some ⟨name, bound + count, head, 1⟩ ∧
        σ'.function_symbol_hashtable[calculate_hash_of_function_symbol w name (bound + count)
          &&& (INITIAL_FUNCTION_HASH_TABLE_SIZE - 1)]?
            = some (some (INITIAL_FUNCTION_HASH_TABLE_SIZE - 1)) ∧
        (∀ (i : Nat) (e : _function_symbol), i < INITIAL_FUNCTION_HASH_TABLE_SIZE - 1 →
          σ'.function_lookup_table[i]? = some e → e.arity < bound + count) := by
  intro count
  induction count with
  | zero =>
    intro bound σ hσ hn
    have hne : σ.function_symbol_table_size ≠ 0 := by
      rw [hσ.table_size, initial_size_eq]; decide
    obtain ⟨head, σ', g1, g2, g3, g4, g5, g6⟩ := filling_construct_fresh w memory σ bound name
      hσ hmem hw (by omega)
    have hs : σ.function_lookup_table_size = INITIAL_FUNCTION_HASH_TABLE_SIZE - 1 := by omega
    rw [hs] at g1 g4 g5 g6
    refine ⟨head, σ', ?_, g2, by omega, g4, g5, ?_⟩
    · rw [construct_fresh, function_symbol_initialised w memory builtin 1 name bound σ hne]
      exact g1
    · intro i e hi he
      rw [g6 i hi] at he
      exact hσ.arities i e he
  | succ c ih =>
    intro bound σ hσ hn
    have hne : σ.function_symbol_table_size ≠ 0 := by
      rw [hσ.table_size, initial_size_eq]; decide
    obtain ⟨_, σ1, g1, g2, g3, _, _, _⟩ := filling_construct_fresh w memory σ bound name
      hσ hmem hw (by omega)
    obtain ⟨head, σ', f1, f2, f3, f4, f5, f6⟩ := ih (bound + 1) σ1 g2 (by omega)
    have hb : bound + 1 + c = bound + (c + 1) := by omega
    rw [hb] at f2 f4 f5 f6
    refine ⟨head, σ', ?_, f2, f3, f4, f5, f6⟩
    rw [construct_fresh, function_symbol_initialised w memory builtin 1 name bound σ hne, g1]
    exact f1

theorem release_head_spec (w : Nat) (σ : administration) (s : Nat) (X : List Nat) (aX : Nat)
    (head : Option Nat)
    (hrec : σ.function_lookup_table[s]? = some ⟨X, aX, head, 1⟩)
    (hhead : σ.function_symbol_hashtable[calculate_hash_of_function_symbol w X aX &&&
      σ.function_symbol_table_mask]? = some (some s)) :
    decrease_reference_count w s σ
      = .ok { σ with
          function_symbol_hashtable := σ.function_symbol_hashtable.set
            (calculate_hash_of_function_symbol w X aX &&& σ.function_symbol_table_mask) head
          function_lookup_table := σ.function_lookup_table.set s ⟨X, aX, σ.first_free, 0⟩
          first_free := some s } := by
  have hs : s < σ.function_lookup_table.length := by
    by_contra hcon
    rw [List.getElem?_eq_none (by omega)] at hrec
    cases hrec
  have hs1 : s < (σ.function_lookup_table.set s ⟨X, aX, head, 0⟩).length := by
    simp only [List.length_set]; exact hs
  have hzero : (1 + (2 ^ w - 1)) % 2 ^ w = 0 := by
    have : 0 < 2 ^ w := Nat.two_pow_pos w
    rw [show 1 + (2 ^ w - 1) = 2 ^ w by omega, Nat.mod_self]
  unfold decrease_reference_count
  rw [hrec]
  simp only [hzero, if_true]
  unfold free_function_symbol
  simp only [List.getElem?_set_self hs, hhead, if_true, List.set_set]

end index_build

namespace index_build

/-! ## The released record that a resize links again -/

/-- Let the hash table be due for a resize (as many records as buckets), let
record `s` have been released (it heads the free list and still carries its old name `X` and
arity `aX`, which no other record carries), and let `(Z, aZ)` be in no record. Then
`function_symbol(X, aX)` resizes the table, which links the released record again, finds it
and returns `s` without taking it from the free list, and the following
`function_symbol(Z, aZ)` takes `s` from the free list and returns `s` as well: two live
symbols with different names have the same handle. -/
theorem released_slot_found_then_reused (w : Nat) (memory : Nat → Bool)
    (builtin : List (List Nat × Nat)) (depth : Nat) (σ : administration) (s : Nat)
    (X Z : List Nat) (aX aZ : Nat) (nxt : Option Nat)
    (hT : 0 < σ.function_symbol_table_size)
    (hw : 2 * σ.function_symbol_table_size < 2 ^ w)
    (hfull : σ.function_symbol_table_size ≤ σ.function_lookup_table_size)
    (hlt : σ.function_lookup_table_size < 2 * σ.function_symbol_table_size)
    (hlen : σ.function_lookup_table.length = σ.function_lookup_table_size)
    (hmem : memory σ.allocations = true)
    (hfree : σ.first_free = some s)
    (hs : σ.function_lookup_table[s]? = some ⟨X, aX, nxt, 0⟩)
    (huniq : ∀ (i : Nat) (e : _function_symbol), σ.function_lookup_table[i]? = some e →
      e.name = X → e.arity = aX → i = s)
    (hZ : ∀ (i : Nat) (e : _function_symbol), σ.function_lookup_table[i]? = some e →
      ¬ (e.name = Z ∧ e.arity = aZ)) :
    ∃ σ1 σ2 next1 next2,
      function_symbol w memory builtin (depth + 1) X aX σ = .ok (s, σ1) ∧
      function_symbol w memory builtin (depth + 1) Z aZ σ1 = .ok (s, σ2) ∧
      (X, aX) ≠ (Z, aZ) ∧
      σ1.function_lookup_table[s]? = some ⟨X, aX, next1, 1⟩ ∧
      σ1.first_free = some s ∧
      σ2.function_lookup_table[s]? = some ⟨Z, aZ, next2, 1⟩ := by
  obtain ⟨σr, hr, hrsize, hrmask, hrfree, hrn, hrhl, hrtl, hrrec, hrchain⟩ :=
    resize_function_symbol_hashtable_spec w memory σ hT hw hmem hlen
  have hsn : s < σ.function_lookup_table_size := by
    rw [← hlen]
    by_contra hcon
    rw [List.getElem?_eq_none (by omega)] at hs
    cases hs
  -- the first call
  obtain ⟨nxs, hrs0⟩ := hrrec s _ hs
  have hrs : σr.function_lookup_table[s]? = some ⟨X, aX, nxs, 0⟩ := hrs0
  have hbX := land_lt_doubled (calculate_hash_of_function_symbol w X aX)
    σ.function_symbol_table_size hT
  obtain ⟨headX, hheadX, hchainX⟩ := hrchain _ hbX
  have hsmem : s ∈ members w (2 * σ.function_symbol_table_size - 1) σ.function_lookup_table
      (calculate_hash_of_function_symbol w X aX &&& (2 * σ.function_symbol_table_size - 1))
      σ.function_lookup_table_size := by
    apply mem_members _ _ _ _ _ _ hsn
    unfold bucket_of
    rw [hs]
    rfl
  have hnames : ∀ (i : Nat) (name : List Nat) (ar : Nat),
      is_symbol σr.function_lookup_table name ar i = true →
      ∃ e, σ.function_lookup_table[i]? = some e ∧ e.name = name ∧ e.arity = ar := by
    intro i name ar hi
    unfold is_symbol at hi
    cases hri : σr.function_lookup_table[i]? with
    | none => rw [hri] at hi; cases hi
    | some e' =>
      rw [hri] at hi
      simp only [decide_eq_true_eq] at hi
      have hilt : i < σ.function_lookup_table.length := by
        rw [← hrtl]
        by_contra hcon
        rw [List.getElem?_eq_none (by omega)] at hri
        cases hri
      obtain ⟨nx, hnx⟩ := hrrec i _ (List.getElem?_eq_getElem hilt)
      rw [hri] at hnx
      injection hnx with hnx
      refine ⟨_, List.getElem?_eq_getElem hilt, ?_, ?_⟩
      · rw [← hi.2, hnx]
      · rw [← hi.1, hnx]
  have hfindX : (members w (2 * σ.function_symbol_table_size - 1) σ.function_lookup_table
      (calculate_hash_of_function_symbol w X aX &&& (2 * σ.function_symbol_table_size - 1))
      σ.function_lookup_table_size).find? (is_symbol σr.function_lookup_table X aX)
        = some s := by
    apply find_unique _ s _ hsmem
    · unfold is_symbol; rw [hrs]; simp
    · intro i _ hi
      obtain ⟨e, he, h1, h2⟩ := hnames i X aX hi
      exact huniq i e he h1 h2
  have hcall1 : function_symbol_lookup_or_insert w memory X aX σ
      = .ok (s, { σr with function_lookup_table :=
          σr.function_lookup_table.set s ⟨X, aX, nxs, 1⟩ }) := by
    unfold function_symbol_lookup_or_insert
    rw [if_pos hfull, hr]
    simp only [hrmask]
    rw [hheadX]
    simp only
    rw [find_symbol_chain σr X aX _ _ _ hchainX
      (by have := members_length w (2 * σ.function_symbol_table_size - 1)
            σ.function_lookup_table (calculate_hash_of_function_symbol w X aX &&&
              (2 * σ.function_symbol_table_size - 1)) σ.function_lookup_table_size
          omega), hfindX]
    simp only [increase_reference_count, hrs, hrmask, Nat.zero_add]
  -- the second call
  have hsr : s < σr.function_lookup_table.length := by rw [hrtl, hlen]; exact hsn
  have hbZ := land_lt_doubled (calculate_hash_of_function_symbol w Z aZ)
    σ.function_symbol_table_size hT
  obtain ⟨headZ, hheadZ, hchainZ⟩ := hrchain _ hbZ
  have hchainZ1 : chain (σr.function_lookup_table.set s ⟨X, aX, nxs, 1⟩) headZ
      (members w (2 * σ.function_symbol_table_size - 1) σ.function_lookup_table
        (calculate_hash_of_function_symbol w Z aZ &&& (2 * σ.function_symbol_table_size - 1))
        σ.function_lookup_table_size) := by
    apply chain_congr _ _ _ _ hchainZ
    intro i _ e he
    by_cases his : s = i
    · subst his
      rw [hrs] at he
      injection he with he
      exact ⟨_, List.getElem?_set_self hsr, by rw [← he]⟩
    · exact ⟨e, by rw [List.getElem?_set_ne his]; exact he, rfl⟩
  have hfindZ : (members w (2 * σ.function_symbol_table_size - 1) σ.function_lookup_table
      (calculate_hash_of_function_symbol w Z aZ &&& (2 * σ.function_symbol_table_size - 1))
      σ.function_lookup_table_size).find?
        (is_symbol (σr.function_lookup_table.set s ⟨X, aX, nxs, 1⟩) Z aZ) = none := by
    apply find_none
    intro i _
    by_contra hcon
    simp only [Bool.not_eq_false] at hcon
    by_cases his : s = i
    · subst his
      unfold is_symbol at hcon
      rw [List.getElem?_set_self hsr] at hcon
      simp only [decide_eq_true_eq] at hcon
      exact hZ s _ hs ⟨hcon.2, hcon.1⟩
    · have hcon' : is_symbol σr.function_lookup_table Z aZ i = true := by
        unfold is_symbol at hcon ⊢
        rw [List.getElem?_set_ne his] at hcon
        exact hcon
      obtain ⟨e, he, h1, h2⟩ := hnames i Z aZ hcon'
      exact hZ i e he ⟨h1, h2⟩
  have hcall2 : function_symbol_lookup_or_insert w memory Z aZ
      { σr with function_lookup_table := σr.function_lookup_table.set s ⟨X, aX, nxs, 1⟩ }
      = .ok (s, { σr with
          first_free := nxs
          function_lookup_table := σr.function_lookup_table.set s ⟨Z, aZ, headZ, 1⟩
          function_symbol_hashtable := σr.function_symbol_hashtable.set
            (calculate_hash_of_function_symbol w Z aZ &&&
              (2 * σ.function_symbol_table_size - 1)) (some s) }) := by
    unfold function_symbol_lookup_or_insert
    simp only
    rw [if_neg (by rw [hrn, hrsize]; omega)]
    simp only [hrmask]
    rw [hheadZ]
    simp only
    rw [find_symbol_chain _ Z aZ _ _ _ hchainZ1
      (by have := members_length w (2 * σ.function_symbol_table_size - 1)
            σ.function_lookup_table (calculate_hash_of_function_symbol w Z aZ &&&
              (2 * σ.function_symbol_table_size - 1)) σ.function_lookup_table_size
          simp only [hrn]
          omega), hfindZ]
    have hsr1 : s < (σr.function_lookup_table.set s ⟨X, aX, nxs, 1⟩).length := by
      simp only [List.length_set]; exact hsr
    have hsr2 : s < ((σr.function_lookup_table.set s ⟨X, aX, nxs, 1⟩).set s
        ⟨Z, aZ, headZ, 0⟩).length := by
      simp only [List.length_set]; exact hsr
    simp only [insert_symbol, hheadZ, hrfree, hfree, List.getElem?_set_self hsr,
      List.getElem?_set_self hsr1, List.getElem?_set_self hsr2,
      increase_reference_count, _function_symbol.create, List.set_set, Nat.zero_add]
  have hne0 : σ.function_symbol_table_size ≠ 0 := by omega
  have hne1 : ({ σr with function_lookup_table :=
      σr.function_lookup_table.set s ⟨X, aX, nxs, 1⟩ } : administration).function_symbol_table_size
        ≠ 0 := by
    simp only [hrsize]; omega
  refine ⟨{ σr with function_lookup_table := σr.function_lookup_table.set s ⟨X, aX, nxs, 1⟩ },
    { σr with
      first_free := nxs
      function_lookup_table := σr.function_lookup_table.set s ⟨Z, aZ, headZ, 1⟩
      function_symbol_hashtable := σr.function_symbol_hashtable.set
        (calculate_hash_of_function_symbol w Z aZ &&&
          (2 * σ.function_symbol_table_size - 1)) (some s) },
    nxs, headZ, ?_, ?_, ?_, ?_, ?_, ?_⟩
  · rw [function_symbol_initialised w memory builtin depth X aX σ hne0]
    exact hcall1
  · rw [function_symbol_initialised w memory builtin depth Z aZ _ hne1]
    exact hcall2
  · intro hcon
    injection hcon with h1 h2
    exact hZ s _ hs ⟨h1, h2⟩
  · exact List.getElem?_set_self hsr
  · simp only [hrfree, hfree]
  · exact List.getElem?_set_self hsr

/-! ## Claim on the function symbol table -/

/-- C1, evaluated on the index build (`FUNCTION_SYMBOL_AS_POINTER` not defined), for any
built-in symbols (fewer than 16384, arities below `M`) and with every allocation succeeding:
the client constructs the symbols `name/M`, ..., `name/(M+count)` until the table holds 16384
records, releases the last one (record `s`), constructs `name/(M+count)` again and then
constructs the new symbol `name/(M+count+1)`. The two last constructor calls both return
`s`, and neither symbol is released: two live symbols of different arity share a handle. -/
theorem index_build_shares_handle (w : Nat) (memory : Nat → Bool)
    (builtin : List (List Nat × Nat)) (M : Nat) (name : List Nat)
    (hw : 16 ≤ w) (hmem : ∀ k, memory k = true)
    (hlen : builtin.length < INITIAL_FUNCTION_HASH_TABLE_SIZE)
    (hM : ∀ p ∈ builtin, p.2 < M) :
    ∃ count s σ0 σ0' σ1 σ2 next1 next2,
      construct_fresh w memory builtin name count M administration.start = .ok (s, σ0) ∧
      decrease_reference_count w s σ0 = .ok σ0' ∧
      function_symbol w memory builtin 2 name (M + count) σ0' = .ok (s, σ1) ∧
      function_symbol w memory builtin 2 name (M + count + 1) σ1 = .ok (s, σ2) ∧
      σ1.function_lookup_table[s]? = some ⟨name, M + count, next1, 1⟩ ∧
      σ2.function_lookup_table[s]? = some ⟨name, M + count + 1, next2, 1⟩ := by
  have hw4 : 4 * INITIAL_FUNCTION_HASH_TABLE_SIZE ≤ 2 ^ w := by
    rw [initial_size_eq]
    calc 4 * 16384 = 2 ^ 16 := by norm_num
      _ ≤ 2 ^ w := Nat.pow_le_pow_right (by decide) hw
  have hT := initial_size_eq
  -- fill the table
  have hfill : ∃ count head σ0,
      construct_fresh w memory builtin name count M administration.start
        = .ok (INITIAL_FUNCTION_HASH_TABLE_SIZE - 1, σ0) ∧
      filling σ0 (M + count + 1) ∧
      σ0.function_lookup_table_size = INITIAL_FUNCTION_HASH_TABLE_SIZE ∧
      σ0.function_lookup_table[INITIAL_FUNCTION_HASH_TABLE_SIZE - 1]?
        = some ⟨name, M + count, head, 1⟩ ∧
      σ0.function_symbol_hashtable[calculate_hash_of_function_symbol w name (M + count)
        &&& (INITIAL_FUNCTION_HASH_TABLE_SIZE - 1)]?
          = some (some (INITIAL_FUNCTION_HASH_TABLE_SIZE - 1)) ∧
      (∀ (i : Nat) (e : _function_symbol), i < INITIAL_FUNCTION_HASH_TABLE_SIZE - 1 →
        σ0.function_lookup_table[i]? = some e → e.arity < M + count) := by
    obtain ⟨n, head, σa, f1, f2, f3, f4, f5, f6, f7⟩ :=
      first_construct_spec w memory builtin M name hmem hw4 hlen hM
    by_cases hlast : n + 1 = INITIAL_FUNCTION_HASH_TABLE_SIZE
    · have hn : n = INITIAL_FUNCTION_HASH_TABLE_SIZE - 1 := by omega
      rw [hn] at f1 f5 f6 f7
      exact ⟨0, head, σa, f1, f3, by omega, f5, f6, f7⟩
    · obtain ⟨c, hc⟩ : ∃ c, n + 1 + c + 1 = INITIAL_FUNCTION_HASH_TABLE_SIZE :=
        ⟨INITIAL_FUNCTION_HASH_TABLE_SIZE - n - 2, by omega⟩
      obtain ⟨head', σ0, g1, g2, g3, g4, g5, g6⟩ :=
        construct_fresh_spec w memory builtin name hmem hw4 c (M + 1) σa f3 (by omega)
      have hb : M + 1 + c = M + (c + 1) := by omega
      rw [hb] at g2 g4 g5 g6
      refine ⟨c + 1, head', σ0, ?_, g2, g3, g4, g5, g6⟩
      rw [construct_fresh, f1]
      exact g1
  obtain ⟨count, head, σ0, h1, h2, h3, h4, h5, h6⟩ := hfill
  -- release the last record
  have hs0 : INITIAL_FUNCTION_HASH_TABLE_SIZE - 1 < σ0.function_lookup_table.length := by
    rw [h2.table_length, h3]; omega
  have hrel := release_head_spec w σ0 (INITIAL_FUNCTION_HASH_TABLE_SIZE - 1) name (M + count)
    head h4 (by rw [h2.table_mask]; exact h5)
  rw [h2.first_free] at hrel
  -- the two constructor calls
  obtain ⟨σ1, σ2, next1, next2, c1, c2, _, c4, _, c6⟩ :=
    released_slot_found_then_reused w memory builtin 1
      { σ0 with
        function_symbol_hashtable := σ0.function_symbol_hashtable.set
          (calculate_hash_of_function_symbol w name (M + count) &&&
            σ0.function_symbol_table_mask) head
        function_lookup_table := σ0.function_lookup_table.set
          (INITIAL_FUNCTION_HASH_TABLE_SIZE - 1) ⟨name, M + count, none, 0⟩
        first_free := some (INITIAL_FUNCTION_HASH_TABLE_SIZE - 1) }
      (INITIAL_FUNCTION_HASH_TABLE_SIZE - 1) name name (M + count) (M + count + 1) none
      (by simp only [h2.table_size]; omega)
      (by
        simp only [h2.table_size, hT]
        calc 2 * 16384 < 2 ^ 16 := by norm_num
          _ ≤ 2 ^ w := Nat.pow_le_pow_right (by decide) hw)
      (by simp only [h2.table_size, h3]; exact le_refl _)
      (by simp only [h2.table_size, h3]; omega)
      (by simp only [List.length_set]; exact h2.table_length)
      (hmem _)
      rfl
      (List.getElem?_set_self hs0)
      (by
        intro i e he _ har
        simp only at he
        by_contra hne
        rw [List.getElem?_set_ne (fun h => hne h.symm)] at he
        have hi : i < INITIAL_FUNCTION_HASH_TABLE_SIZE - 1 := by
          have : i < σ0.function_lookup_table.length := by
            by_contra hcon
            rw [List.getElem?_eq_none (by omega)] at he
            cases he
          rw [h2.table_length, h3] at this
          omega
        have := h6 i e hi he
        omega)
      (by
        intro i e he hcon
        simp only at he
        by_cases his : INITIAL_FUNCTION_HASH_TABLE_SIZE - 1 = i
        · rw [← his, List.getElem?_set_self hs0] at he
          injection he with he
          rw [← he] at hcon
          simp only at hcon
          omega
        · rw [List.getElem?_set_ne his] at he
          have := h2.arities i e he
          omega)
  exact ⟨count, _, σ0, _, σ1, σ2, next1, next2, h1, hrel, c1, c2, c4, c6⟩

/-- Witness for C1: 64-bit words, the built-in symbols `<undefined_term>/0`, `<aterm_int>/1`,
`<list_constructor>/2` and `<empty_list>/0`, and the symbols `f/3`, `f/4`, ... -/
theorem index_build_shares_handle_witness :
    ∃ count s σ0 σ0' σ1 σ2 next1 next2,
      construct_fresh 64 (fun _ => true)
        [([60, 117, 110, 100, 101, 102, 105, 110, 101, 100, 95, 116, 101, 114, 109, 62], 0),
         ([60, 97, 116, 101, 114, 109, 95, 105, 110, 116, 62], 1),
         ([60, 108, 105, 115, 116, 95, 99, 111, 110, 115, 116, 114, 117, 99, 116, 111, 114, 62], 2),
         ([60, 101, 109, 112, 116, 121, 95, 108, 105, 115, 116, 62], 0)]
        [102] count 3 administration.start = .ok (s, σ0) ∧
      decrease_reference_count 64 s σ0 = .ok σ0' ∧
      function_symbol 64 (fun _ => true)
        [([60, 117, 110, 100, 101, 102, 105, 110, 101, 100, 95, 116, 101, 114, 109, 62], 0),
         ([60, 97, 116, 101, 114, 109, 95, 105, 110, 116, 62], 1),
         ([60, 108, 105, 115, 116, 95, 99, 111, 110, 115, 116, 114, 117, 99, 116, 111, 114, 62], 2),
         ([60, 101, 109, 112, 116, 121, 95, 108, 105, 115, 116, 62], 0)]
        2 [102] (3 + count) σ0' = .ok (s, σ1) ∧
      function_symbol 64 (fun _ => true)
        [([60, 117, 110, 100, 101, 102, 105, 110, 101, 100, 95, 116, 101, 114, 109, 62], 0),
         ([60, 97, 116, 101, 114, 109, 95, 105, 110, 116, 62], 1),
         ([60, 108, 105, 115, 116, 95, 99, 111, 110, 115, 116, 114, 117, 99, 116, 111, 114, 62], 2),
         ([60, 101, 109, 112, 116, 121, 95, 108, 105, 115, 116, 62], 0)]
        2 [102] (3 + count + 1) σ1 = .ok (s, σ2) ∧
      σ1.function_lookup_table[s]? = some ⟨[102], 3 + count, next1, 1⟩ ∧
      σ2.function_lookup_table[s]? = some ⟨[102], 3 + count + 1, next2, 1⟩ :=
  index_build_shares_handle 64 (fun _ => true)
    [([60, 117, 110, 100, 101, 102, 105, 110, 101, 100, 95, 116, 101, 114, 109, 62], 0),
     ([60, 97, 116, 101, 114, 109, 95, 105, 110, 116, 62], 1),
     ([60, 108, 105, 115, 116, 95, 99, 111, 110, 115, 116, 114, 117, 99, 116, 111, 114, 62], 2),
     ([60, 101, 109, 112, 116, 121, 95, 108, 105, 115, 116, 62], 0)]
    3 [102] (by decide) (fun _ => rfl) (by decide) (by decide)

end index_build

namespace index_build

/-! ## Chains of the index build -/

theorem idx_chain_unique (table : List _function_symbol) :
    ∀ (l l' : List Nat) (head : Option Nat), chain table head l → chain table head l' →
      l = l' := by
  intro l
  induction l with
  | nil =>
    intro l' head h h'
    cases h
    cases h'
    rfl
  | cons a rest ih =>
    intro l' head h h'
    cases h with
    | cons _ e _ he hrest =>
      cases h' with
      | cons _ e' rest' he' hrest' =>
        rw [he] at he'
        injection he' with he'
        subst he'
        rw [ih _ _ hrest hrest']

theorem idx_chain_from_member (table : List _function_symbol) :
    ∀ (l : List Nat) (head : Option Nat), chain table head l → ∀ i ∈ l,
      ∃ l2, chain table (some i) l2 ∧ l2.length ≤ l.length := by
  intro l
  induction l with
  | nil => intro _ _ i hi; simp at hi
  | cons a rest ih =>
    intro head hc i hi
    cases hc with
    | cons _ e _ he hrest =>
      rcases List.mem_cons.mp hi with h | h
      · subst h
        exact ⟨i :: rest, chain.cons i e rest he hrest, le_refl _⟩
      · obtain ⟨l2, h1, h2⟩ := ih _ hrest i h
        exact ⟨l2, h1, by simp only [List.length_cons]; omega⟩

theorem idx_chain_nodup (table : List _function_symbol) :
    ∀ (l : List Nat) (head : Option Nat), chain table head l → l.Nodup := by
  intro l
  induction l with
  | nil => intro _ _; exact List.nodup_nil
  | cons a rest ih =>
    intro head hc
    cases hc with
    | cons _ e _ he hrest =>
      refine List.nodup_cons.mpr ⟨?_, ih _ hrest⟩
      intro hmem
      obtain ⟨l2, h1, h2⟩ := idx_chain_from_member table rest _ hrest a hmem
      have := idx_chain_unique table _ _ _ h1 (chain.cons a e rest he hrest)
      rw [this] at h2
      simp only [List.length_cons] at h2
      omega

theorem idx_chain_length_le (table : List _function_symbol) (l : List Nat) (head : Option Nat)
    (hc : chain table head l) : l.length ≤ table.length := by
  have hn := idx_chain_nodup table l head hc
  have hv := chain_mem_valid table l head hc
  have hsub : l ⊆ List.range table.length := by
    intro i hi
    obtain ⟨e, he⟩ := hv i hi
    refine List.mem_range.mpr ?_
    by_contra hcon
    rw [List.getElem?_eq_none (by omega)] at he
    cases he
  have := (List.subperm_of_subset hn hsub).length_le
  simpa using this

theorem idx_find_previous_spec (σ : administration) (m : Nat) (sym : _function_symbol)
    (hsym : σ.function_lookup_table[m]? = some sym) :
    ∀ (L : List Nat) (head : Option Nat) (fuel : Nat), chain σ.function_lookup_table head L → m ∈ L →
      head ≠ some m → L.length ≤ fuel →
      ∃ prev eprev, find_previous σ m fuel head = .ok prev ∧
        σ.function_lookup_table[prev]? = some eprev ∧ prev ∈ L ∧ prev ≠ m ∧
        ∀ (table' : List _function_symbol),
          (∃ e', table'[prev]? = some e' ∧ e'.next = sym.next) →
          (∀ i ∈ L, i ≠ prev → i ≠ m → ∀ e, σ.function_lookup_table[i]? = some e →
            ∃ e', table'[i]? = some e' ∧ e'.next = e.next) →
          chain table' head (L.erase m) := by
  intro L
  induction L with
  | nil => intro _ _ _ hm; simp at hm
  | cons a rest ih =>
    intro head fuel hc hm hne hfuel
    have hnd := idx_chain_nodup _ _ _ hc
    cases hc with
    | cons _ ea _ he hrest =>
      have ham : a ≠ m := fun h => hne (by rw [h])
      have hmrest : m ∈ rest := by
        rcases List.mem_cons.mp hm with h | h
        · exact absurd h.symm ham
        · exact h
      have harest : a ∉ rest := (List.nodup_cons.mp hnd).1
      have hndrest : rest.Nodup := (List.nodup_cons.mp hnd).2
      cases fuel with
      | zero => simp at hfuel
      | succ fuel =>
        rw [find_previous, he]
        simp only
        have herase : (a :: rest).erase m = a :: rest.erase m :=
          List.erase_cons_tail (by simpa using ham)
        rw [herase]
        by_cases hnext : ea.next = some m
        · rw [if_pos hnext]
          rw [hnext] at hrest
          cases hrest with
          | cons _ e2 post he2 hpost =>
            rw [hsym] at he2
            injection he2 with he2
            subst he2
            refine ⟨a, ea, rfl, he, List.mem_cons_self _ _, ham, ?_⟩
            intro table' hprev hagree
            obtain ⟨e', he', hn'⟩ := hprev
            rw [List.erase_cons_head]
            refine chain.cons a e' post he' ?_
            rw [hn']
            apply chain_congr _ _ post _ hpost
            intro i hi e hie
            have hia : i ≠ a := fun h => harest (by rw [← h]; exact List.mem_cons_of_mem _ hi)
            have him : i ≠ m := fun h => (List.nodup_cons.mp hndrest).1 (by rw [← h]; exact hi)
            exact hagree i (List.mem_cons_of_mem _ (List.mem_cons_of_mem _ hi)) hia him e hie
        · rw [if_neg hnext]
          obtain ⟨prev, eprev, h1, h2, h3, h4, h5⟩ :=
            ih ea.next fuel hrest hmrest hnext (by simp only [List.length_cons] at hfuel; omega)
          refine ⟨prev, eprev, h1, h2, List.mem_cons_of_mem _ h3, h4, ?_⟩
          intro table' hprev hagree
          have hap : a ≠ prev := fun h => harest (by rw [h]; exact h3)
          obtain ⟨e', he', hn'⟩ := hagree a (List.mem_cons_self _ _) hap ham ea he
          refine chain.cons a e' _ he' ?_
          rw [hn']
          exact h5 table' hprev
            (fun i hi => hagree i (List.mem_cons_of_mem _ hi))

theorem idx_free_function_symbol_spec (w : Nat) (m : Nat) (σ : administration)
    (sym : _function_symbol) (head : Option Nat) (L : List Nat)
    (hsym : σ.function_lookup_table[m]? = some sym)
    (hhead : σ.function_symbol_hashtable[calculate_hash_of_function_symbol w sym.name sym.arity
      &&& σ.function_symbol_table_mask]? = some head)
    (hchain : chain σ.function_lookup_table head L) (hm : m ∈ L)
    (hlen : σ.function_lookup_table.length = σ.function_lookup_table_size) :
    ∃ σ' head',
      free_function_symbol w m σ = .ok σ' ∧
      σ'.function_symbol_table_size = σ.function_symbol_table_size ∧
      σ'.function_symbol_table_mask = σ.function_symbol_table_mask ∧
      σ'.function_symbol_hashtable.length = σ.function_symbol_hashtable.length ∧
      σ'.function_lookup_table.length = σ.function_lookup_table.length ∧
      σ'.function_symbol_hashtable[calculate_hash_of_function_symbol w sym.name sym.arity
        &&& σ.function_symbol_table_mask]? = some head' ∧
      chain σ'.function_lookup_table head' (L.erase m) ∧
      (∀ b, b ≠ calculate_hash_of_function_symbol w sym.name sym.arity
          &&& σ.function_symbol_table_mask →
        σ'.function_symbol_hashtable[b]? = σ.function_symbol_hashtable[b]?) ∧
      (∀ i, i ∉ L → σ'.function_lookup_table[i]? = σ.function_lookup_table[i]?) ∧
      (∀ (i : Nat) (e : _function_symbol), i ≠ m → σ.function_lookup_table[i]? = some e →
        ∃ nx, σ'.function_lookup_table[i]? = some { e with next := nx }) ∧
      σ'.function_lookup_table_actual_size = σ.function_lookup_table_actual_size ∧
      σ'.function_lookup_table_size = σ.function_lookup_table_size ∧
      σ'.allocations = σ.allocations ∧
      σ'.first_free = some m ∧
      σ'.function_lookup_table[m]? = some { sym with next := σ.first_free } := by
  have hmlt : m < σ.function_lookup_table.length := by
    by_contra hcon
    rw [List.getElem?_eq_none (by omega)] at hsym
    cases hsym
  have hblt : calculate_hash_of_function_symbol w sym.name sym.arity
      &&& σ.function_symbol_table_mask < σ.function_symbol_hashtable.length := by
    by_contra hcon
    rw [List.getElem?_eq_none (by omega)] at hhead
    cases hhead
  have hnd := idx_chain_nodup _ _ _ hchain
  by_cases hh : head = some m
  · -- the symbol is the head of its chain
    subst hh
    cases hchain with
    | cons _ e post he hpost =>
      rw [hsym] at he
      injection he with he
      subst he
      have hmpost : m ∉ post := (List.nodup_cons.mp hnd).1
      refine ⟨{ σ with
          function_symbol_hashtable := σ.function_symbol_hashtable.set
            (calculate_hash_of_function_symbol w sym.name sym.arity
              &&& σ.function_symbol_table_mask) sym.next
          function_lookup_table := σ.function_lookup_table.set m { sym with next := σ.first_free }
          first_free := some m }, sym.next, ?_, rfl, rfl, ?_, ?_, ?_, ?_, ?_, ?_, ?_, rfl, rfl, rfl, rfl, ?_⟩
      · unfold free_function_symbol
        simp only [hsym, hhead, if_true]
      · simp only [List.length_set]
      · simp only [List.length_set]
      · simp only
        rw [List.getElem?_set_self hblt]
      · rw [List.erase_cons_head]
        apply chain_congr _ _ post _ hpost
        intro i hi e hie
        have him : m ≠ i := fun h => hmpost (by rw [h]; exact hi)
        exact ⟨e, by simp only; rw [List.getElem?_set_ne him]; exact hie, rfl⟩
      · intro b hb
        simp only
        rw [List.getElem?_set_ne (fun h => hb h.symm)]
      · intro i hi
        have him : m ≠ i := fun h => hi (by rw [← h]; exact List.mem_cons_self _ _)
        simp only
        rw [List.getElem?_set_ne him]
      · intro i e him hie
        refine ⟨e.next, ?_⟩
        simp only
        rw [List.getElem?_set_ne (fun h => him h.symm)]
        exact hie
      · simp only
        rw [List.getElem?_set_self hmlt]
  · -- the symbol comes later in its chain
    obtain ⟨prev, eprev, h1, h2, h3, h4, h5⟩ :=
      idx_find_previous_spec σ m sym hsym L head (σ.function_lookup_table_size + 1) hchain hm hh
        (by have := idx_chain_length_le _ _ _ hchain; omega)
    have hplt : prev < σ.function_lookup_table.length := by
      by_contra hcon
      rw [List.getElem?_eq_none (by omega)] at h2
      cases h2
    have hmlt1 : m < (σ.function_lookup_table.set prev { eprev with next := sym.next }).length := by
      simp only [List.length_set]; exact hmlt
    have hsym1 : (σ.function_lookup_table.set prev { eprev with next := sym.next })[m]? = some sym := by
      rw [List.getElem?_set_ne h4]; exact hsym
    refine ⟨{ σ with
        function_lookup_table := (σ.function_lookup_table.set prev { eprev with next := sym.next }).set m
          { sym with next := σ.first_free }
        first_free := some m }, head, ?_, rfl, rfl, rfl, ?_, hhead, ?_, ?_, ?_, ?_, rfl, rfl, rfl, rfl, ?_⟩
    · unfold free_function_symbol
      simp only [hsym, hhead, if_neg hh, h1, h2, hsym1]
    · simp only [List.length_set]
    · apply h5
      · refine ⟨{ eprev with next := sym.next }, ?_, rfl⟩
        simp only
        rw [List.getElem?_set_ne (fun h => h4 h.symm), List.getElem?_set_self hplt]
      · intro i _ hip him e hie
        refine ⟨e, ?_, rfl⟩
        simp only
        rw [List.getElem?_set_ne (fun h => him h.symm), List.getElem?_set_ne (fun h => hip h.symm)]
        exact hie
    · intro b _
      rfl
    · intro i hi
      have him : m ≠ i := fun h => hi (by rw [← h]; exact hm)
      have hip : prev ≠ i := fun h => hi (by rw [← h]; exact h3)
      simp only
      rw [List.getElem?_set_ne him, List.getElem?_set_ne hip]
    · intro i e him hie
      simp only
      rw [List.getElem?_set_ne (fun h => him h.symm)]
      by_cases hip : prev = i
      · subst hip
        rw [h2] at hie
        injection hie with hie
        subst hie
        exact ⟨sym.next, List.getElem?_set_self hplt⟩
      · exact ⟨e.next, by rw [List.getElem?_set_ne hip]; exact hie⟩
    · simp only
      rw [List.getElem?_set_self hmlt1]

theorem idx_free_function_symbol_unlinks (w : Nat) (m : Nat) (σ : administration)
    (sym : _function_symbol) (head : Option Nat) (L : List Nat)
    (hsym : σ.function_lookup_table[m]? = some sym)
    (hhead : σ.function_symbol_hashtable[calculate_hash_of_function_symbol w sym.name sym.arity
      &&& σ.function_symbol_table_mask]? = some head)
    (hchain : chain σ.function_lookup_table head L) (hm : m ∈ L)
    (hlen : σ.function_lookup_table.length = σ.function_lookup_table_size)
    (huniq : ∀ i ∈ L, is_symbol σ.function_lookup_table sym.name sym.arity i = true → i = m) :
    ∃ σ' head',
      free_function_symbol w m σ = .ok σ' ∧
      σ'.function_symbol_table_size = σ.function_symbol_table_size ∧
      σ'.function_symbol_table_mask = σ.function_symbol_table_mask ∧
      σ'.function_symbol_hashtable[calculate_hash_of_function_symbol w sym.name sym.arity
        &&& σ'.function_symbol_table_mask]? = some head' ∧
      chain σ'.function_lookup_table head' (L.erase m) ∧
      (∀ b, b ≠ calculate_hash_of_function_symbol w sym.name sym.arity
          &&& σ.function_symbol_table_mask →
        σ'.function_symbol_hashtable[b]? = σ.function_symbol_hashtable[b]?) ∧
      (∀ i, i ∉ L → σ'.function_lookup_table[i]? = σ.function_lookup_table[i]?) ∧
      (∀ hd l, chain σ.function_lookup_table hd l → (∀ i ∈ l, i ∉ L) → chain σ'.function_lookup_table hd l) ∧
      σ'.first_free = some m ∧
      σ'.function_lookup_table[m]? = some { sym with next := σ.first_free } ∧
      find_symbol σ' sym.name sym.arity (σ'.function_lookup_table_size + 1) head' = .ok none := by
  obtain ⟨σ', head', h1, h2, h3, _, h5, h6, h7, h8, h9, h10, _, hsz, _, h11, h12⟩ :=
    idx_free_function_symbol_spec w m σ sym head L hsym hhead hchain hm hlen
  have hnd := idx_chain_nodup _ _ _ hchain
  refine ⟨σ', head', h1, h2, h3, by rw [h3]; exact h6, h7, h8, h9, ?_, h11, h12, ?_⟩
  · intro hd l hc hl
    apply chain_congr _ _ l hd hc
    intro i hi e hie
    exact ⟨e, by rw [h9 i (hl i hi)]; exact hie, rfl⟩
  · rw [find_symbol_chain σ' sym.name sym.arity (L.erase m) head' _ h7
      (by
        have := idx_chain_length_le _ _ _ h7
        rw [h5, hlen, ← hsz] at this; omega)]
    rw [index_build.find_none]
    intro i hi
    obtain ⟨him, hiL⟩ := (List.Nodup.mem_erase_iff hnd).mp hi
    by_contra hcon
    simp only [Bool.not_eq_false] at hcon
    apply him
    apply huniq i hiL
    obtain ⟨e, hie⟩ := chain_mem_valid _ _ _ hchain i hiL
    obtain ⟨nx, hie'⟩ := h10 i e him hie
    unfold is_symbol at hcon ⊢
    rw [hie'] at hcon
    rw [hie]
    exact hcon

end index_build

namespace index_build

/-! ## What the loops of the index build leave alone -/

theorem idx_resize_failure (w : Nat) (memory : Nat → Bool)
    (σ : administration) (hw : 2 * σ.function_symbol_table_size < 2 ^ w)
    (hm : memory σ.allocations = false) :
    resize_function_symbol_hashtable w memory σ
      = .ok { σ with allocations := σ.allocations + 1 } := by
  have hsize : (σ.function_symbol_table_size <<< 1 % 2 ^ w) >>> 1
      = σ.function_symbol_table_size := by
    rw [Nat.shiftLeft_eq, Nat.mod_eq_of_lt (by omega), Nat.shiftRight_eq_div_pow]
    omega
  unfold resize_function_symbol_hashtable
  simp only [hm, hsize]
  rfl

theorem idx_find_symbol_congr (σ σ' : administration)
    (h : σ'.function_lookup_table = σ.function_lookup_table)
    (name : List Nat) (arity_ : Nat) :
    ∀ (fuel : Nat) (head : Option Nat),
      find_symbol σ' name arity_ fuel head = find_symbol σ name arity_ fuel head := by
  intro fuel
  induction fuel with
  | zero => intro head; cases head <;> rfl
  | succ fuel ih =>
    intro head
    cases head with
    | none => rfl
    | some c =>
      rw [find_symbol, find_symbol, h]
      cases σ.function_lookup_table[c]? with
      | none => rfl
      | some e => simp only [ih]

end index_build

namespace index_build

/-! ## Two released records and a resize that is due -/

theorem filling_construct_fresh_explicit (w : Nat) (memory : Nat → Bool) (σ : administration)
    (bound : Nat) (name : List Nat)
    (hσ : filling σ bound) (hmem : ∀ k, memory k = true)
    (hw : 4 * INITIAL_FUNCTION_HASH_TABLE_SIZE ≤ 2 ^ w)
    (hn : σ.function_lookup_table_size < INITIAL_FUNCTION_HASH_TABLE_SIZE) :
    ∃ head actual allocations,
      σ.function_symbol_hashtable[calculate_hash_of_function_symbol w name bound &&&
        (INITIAL_FUNCTION_HASH_TABLE_SIZE - 1)]? = some head ∧
      function_symbol_lookup_or_insert w memory name bound σ
        = .ok (σ.function_lookup_table_size,
          { σ with
            function_lookup_table_actual_size := actual
            function_lookup_table_size := σ.function_lookup_table_size + 1
            allocations := allocations
            function_lookup_table :=
              (σ.function_lookup_table ++ [_function_symbol.create name bound head]).set
                σ.function_lookup_table_size ⟨name, bound, head, 1⟩
            function_symbol_hashtable :=
              σ.function_symbol_hashtable.set
                (calculate_hash_of_function_symbol w name bound &&&
                  (INITIAL_FUNCTION_HASH_TABLE_SIZE - 1))
                (some σ.function_lookup_table_size) }) := by
  have hhnr := land_initial_mask_lt (calculate_hash_of_function_symbol w name bound)
  obtain ⟨head, l, hhead, hchain, hl⟩ := hσ.chains _ hhnr
  have hfind : l.find? (is_symbol σ.function_lookup_table name bound) = none := by
    apply find_none
    intro i hi
    obtain ⟨e, he⟩ := chain_mem_valid _ l head hchain i hi
    unfold is_symbol
    rw [he]
    have := hσ.arities i e he
    simp only [decide_eq_false_iff_not, not_and]
    intro hcon
    omega
  obtain ⟨actual, allocations, hcreate, hact1, _⟩ :=
    create_free_entry_spec w memory σ bound hσ hmem hw hn
  have hlen := hσ.table_length
  refine ⟨head, actual, allocations, hhead, ?_⟩
  unfold function_symbol_lookup_or_insert
  rw [if_neg (by rw [hσ.table_size]; omega)]
  simp only [hσ.table_mask]
  rw [hhead]
  simp only
  rw [find_symbol_chain σ name bound l head _ hchain (by omega), hfind]
  simp only
  unfold insert_symbol
  rw [hhead]
  simp only [hσ.first_free, hcreate]
  rw [if_pos ⟨hlen.symm, hact1⟩]
  have hget : (σ.function_lookup_table ++ [(⟨name, bound, head, 0⟩ : _function_symbol)])[
      σ.function_lookup_table_size]? = some ⟨name, bound, head, 0⟩ := by
    rw [List.getElem?_append_right (by omega), hlen]
    simp
  simp only [increase_reference_count, _function_symbol.create, hget, Nat.zero_add,
    hσ.first_free, hσ.table_mask]

theorem construct_fresh_upto (w : Nat) (memory : Nat → Bool)
    (builtin : List (List Nat × Nat)) (name : List Nat)
    (hmem : ∀ k, memory k = true) (hw : 4 * INITIAL_FUNCTION_HASH_TABLE_SIZE ≤ 2 ^ w) :
    ∀ (count bound : Nat) (σ : administration), filling σ bound →
      σ.function_lookup_table_size + count + 1 ≤ INITIAL_FUNCTION_HASH_TABLE_SIZE →
      ∃ head σ', construct_fresh w memory builtin name count bound σ
          = .ok (σ.function_lookup_table_size + count, σ') ∧
        filling σ' (bound + count + 1) ∧
        σ'.function_lookup_table_size = σ.function_lookup_table_size + count + 1 ∧
        σ'.function_lookup_table[σ.function_lookup_table_size + count]?
          = some ⟨name, bound + count, head, 1⟩ ∧
        σ'.function_symbol_hashtable[calculate_hash_of_function_symbol w name (bound + count)
          &&& (INITIAL_FUNCTION_HASH_TABLE_SIZE - 1)]?
            = some (some (σ.function_lookup_table_size + count)) ∧
        (∀ (i : Nat) (e : _function_symbol), i < σ.function_lookup_table_size + count →
          σ'.function_lookup_table[i]? = some e → e.arity < bound + count) := by
  intro count
  induction count with
  | zero =>
    intro bound σ hσ hn
    have hne : σ.function_symbol_table_size ≠ 0 := by
      rw [hσ.table_size, initial_size_eq]; decide
    obtain ⟨head, σ', g1, g2, g3, g4, g5, g6⟩ := filling_construct_fresh w memory σ bound name
      hσ hmem hw (by omega)
    refine ⟨head, σ', ?_, g2, by omega, g4, g5, ?_⟩
    · rw [construct_fresh, function_symbol_initialised w memory builtin 1 name bound σ hne]
      exact g1
    · intro i e hi he
      rw [g6 i hi] at he
      exact hσ.arities i e he
  | succ c ih =>
    intro bound σ hσ hn
    have hne : σ.function_symbol_table_size ≠ 0 := by
      rw [hσ.table_size, initial_size_eq]; decide
    obtain ⟨_, σ1, g1, g2, g3, _, _, _⟩ := filling_construct_fresh w memory σ bound name
      hσ hmem hw (by omega)
    obtain ⟨head, σ', f1, f2, f3, f4, f5, f6⟩ := ih (bound + 1) σ1 g2 (by omega)
    have hb : bound + 1 + c = bound + (c + 1) := by omega
    have hs : σ1.function_lookup_table_size + c = σ.function_lookup_table_size + (c + 1) := by
      omega
    rw [hb] at f2 f4 f5 f6
    rw [hs] at f1 f3 f4 f5 f6
    refine ⟨head, σ', ?_, f2, f3, f4, f5, f6⟩
    rw [construct_fresh, function_symbol_initialised w memory builtin 1 name bound σ hne, g1]
    exact f1

/-- When the table is due for a resize and record `r` is the only record with the name `X`
and arity `aX`, and it is released, the constructor resizes the table, which links record `r`
again, and then finds `r` and returns it. -/
theorem released_slot_found (w : Nat) (memory : Nat → Bool)
    (builtin : List (List Nat × Nat)) (depth : Nat) (σ : administration) (r : Nat)
    (X : List Nat) (aX : Nat) (nxt : Option Nat)
    (hT : 0 < σ.function_symbol_table_size)
    (hw : 2 * σ.function_symbol_table_size < 2 ^ w)
    (hfull : σ.function_symbol_table_size ≤ σ.function_lookup_table_size)
    (hlen : σ.function_lookup_table.length = σ.function_lookup_table_size)
    (hmem : memory σ.allocations = true)
    (hs : σ.function_lookup_table[r]? = some ⟨X, aX, nxt, 0⟩)
    (huniq : ∀ (i : Nat) (e : _function_symbol), σ.function_lookup_table[i]? = some e →
      e.name = X → e.arity = aX → i = r) :
    ∃ σ1 next1,
      function_symbol w memory builtin (depth + 1) X aX σ = .ok (r, σ1) ∧
      σ1.function_lookup_table[r]? = some ⟨X, aX, next1, 1⟩ ∧
      σ1.first_free = σ.first_free := by
  obtain ⟨σr, hr, hrsize, hrmask, hrfree, hrn, hrhl, hrtl, hrrec, hrchain⟩ :=
    resize_function_symbol_hashtable_spec w memory σ hT hw hmem hlen
  have hsn : r < σ.function_lookup_table_size := by
    rw [← hlen]
    by_contra hcon
    rw [List.getElem?_eq_none (by omega)] at hs
    cases hs
  obtain ⟨nxs, hrs0⟩ := hrrec r _ hs
  have hrs : σr.function_lookup_table[r]? = some ⟨X, aX, nxs, 0⟩ := hrs0
  have hbX := land_lt_doubled (calculate_hash_of_function_symbol w X aX)
    σ.function_symbol_table_size hT
  obtain ⟨headX, hheadX, hchainX⟩ := hrchain _ hbX
  have hsmem : r ∈ members w (2 * σ.function_symbol_table_size - 1) σ.function_lookup_table
      (calculate_hash_of_function_symbol w X aX &&& (2 * σ.function_symbol_table_size - 1))
      σ.function_lookup_table_size := by
    apply mem_members _ _ _ _ _ _ hsn
    unfold bucket_of
    rw [hs]
    rfl
  have hnames : ∀ (i : Nat) (name : List Nat) (ar : Nat),
      is_symbol σr.function_lookup_table name ar i = true →
      ∃ e, σ.function_lookup_table[i]? = some e ∧ e.name = name ∧ e.arity = ar := by
    intro i name ar hi
    unfold is_symbol at hi
    cases hri : σr.function_lookup_table[i]? with
    | none => rw [hri] at hi; cases hi
    | some e' =>
      rw [hri] at hi
      simp only [decide_eq_true_eq] at hi
      have hilt : i < σ.function_lookup_table.length := by
        rw [← hrtl]
        by_contra hcon
        rw [List.getElem?_eq_none (by omega)] at hri
        cases hri
      obtain ⟨nx, hnx⟩ := hrrec i _ (List.getElem?_eq_getElem hilt)
      rw [hri] at hnx
      injection hnx with hnx
      refine ⟨_, List.getElem?_eq_getElem hilt, ?_, ?_⟩
      · rw [← hi.2, hnx]
      · rw [← hi.1, hnx]
  have hfindX : (members w (2 * σ.function_symbol_table_size - 1) σ.function_lookup_table
      (calculate_hash_of_function_symbol w X aX &&& (2 * σ.function_symbol_table_size - 1))
      σ.function_lookup_table_size).find? (is_symbol σr.function_lookup_table X aX)
        = some r := by
    apply find_unique _ r _ hsmem
    · unfold is_symbol; rw [hrs]; simp
    · intro i _ hi
      obtain ⟨e, he, h1, h2⟩ := hnames i X aX hi
      exact huniq i e he h1 h2
  have hcall1 : function_symbol_lookup_or_insert w memory X aX σ
      = .ok (r, { σr with function_lookup_table :=
          σr.function_lookup_table.set r ⟨X, aX, nxs, 1⟩ }) := by
    unfold function_symbol_lookup_or_insert
    rw [if_pos hfull, hr]
    simp only [hrmask]
    rw [hheadX]
    simp only
    rw [find_symbol_chain σr X aX _ _ _ hchainX
      (by have := members_length w (2 * σ.function_symbol_table_size - 1)
            σ.function_lookup_table (calculate_hash_of_function_symbol w X aX &&&
              (2 * σ.function_symbol_table_size - 1)) σ.function_lookup_table_size
          omega), hfindX]
    simp only [increase_reference_count, hrs, hrmask, Nat.zero_add]
  have hsr : r < σr.function_lookup_table.length := by rw [hrtl, hlen]; exact hsn
  have hne0 : σ.function_symbol_table_size ≠ 0 := by omega
  refine ⟨{ σr with function_lookup_table := σr.function_lookup_table.set r ⟨X, aX, nxs, 1⟩ },
    nxs, ?_, List.getElem?_set_self hsr, hrfree⟩
  rw [function_symbol_initialised w memory builtin depth X aX σ hne0]
  exact hcall1

end index_build

namespace index_build

theorem lt_of_getElem?_some {α : Type} (l : List α) (i : Nat) (x : α) (h : l[i]? = some x) :
    i < l.length := by
  by_contra hcon
  rw [List.getElem?_eq_none (by omega)] at h
  cases h

theorem members_split (w mask : Nat) (table : List _function_symbol) (b : Nat) :
    ∀ (k a : Nat), a ∈ members w mask table b k →
      ∃ pre, members w mask table b k = pre ++ a :: members w mask table b a := by
  intro k
  induction k with
  | zero => intro a ha; simp [members] at ha
  | succ k ih =>
    intro a ha
    rw [members] at ha ⊢
    split at ha
    · rename_i hb
      rw [if_pos hb]
      rcases List.mem_cons.mp ha with h | h
      · subst h
        exact ⟨[], rfl⟩
      · obtain ⟨pre, hpre⟩ := ih a h
        exact ⟨k :: pre, by rw [hpre]; rfl⟩
    · rename_i hb
      rw [if_neg hb]
      exact ih a ha

theorem chain_suffix (table : List _function_symbol) :
    ∀ (pre : List Nat) (head : Option Nat) (a : Nat) (post : List Nat),
      chain table head (pre ++ a :: post) →
      ∃ e, table[a]? = some e ∧ chain table e.next post := by
  intro pre
  induction pre with
  | nil =>
    intro head a post h
    cases h with
    | cons _ e _ he hrest => exact ⟨e, he, hrest⟩
  | cons x pre ih =>
    intro head a post h
    cases h with
    | cons _ e _ he hrest => exact ih _ a post hrest

/-- After a resize, the `next` field of a record is `END_OF_LIST` or a smaller index: the
rehash loop links each record in front of the records before it. -/
theorem resized_next_lt (w mask : Nat) (table table' : List _function_symbol) (b k a : Nat)
    (head : Option Nat) (e : _function_symbol)
    (hchain : chain table' head (members w mask table b k))
    (ha : a ∈ members w mask table b k) (he : table'[a]? = some e) :
    ∀ j, e.next = some j → j < a := by
  obtain ⟨pre, hpre⟩ := members_split w mask table b k a ha
  rw [hpre] at hchain
  obtain ⟨e', he', hpost⟩ := chain_suffix table' pre head a _ hchain
  rw [he] at he'
  injection he' with he'
  subst he'
  intro j hj
  rw [hj] at hpost
  cases hm : members w mask table b a with
  | nil =>
    rw [hm] at hpost
    cases hpost
  | cons x rest =>
    rw [hm] at hpost
    cases hpost
    exact members_lt w mask table b a j (by rw [hm]; exact List.mem_cons_self _ _)

theorem release_last_two (w : Nat) (σ0 : administration) (name : List Nat) (aA aB : Nat)
    (headA headB : Option Nat) (a b : Nat) (hab : a ≠ b)
    (h0a : σ0.function_lookup_table[a]? = some ⟨name, aA, headA, 1⟩)
    (h0b : σ0.function_lookup_table[b]? = some ⟨name, aB, headB, 1⟩)
    (h0hB : σ0.function_symbol_hashtable[calculate_hash_of_function_symbol w name aB &&&
      σ0.function_symbol_table_mask]? = some (some b))
    (h0hA : calculate_hash_of_function_symbol w name aA &&& σ0.function_symbol_table_mask
        ≠ calculate_hash_of_function_symbol w name aB &&& σ0.function_symbol_table_mask →
      σ0.function_symbol_hashtable[calculate_hash_of_function_symbol w name aA &&&
        σ0.function_symbol_table_mask]? = some (some a))
    (h0head : calculate_hash_of_function_symbol w name aA &&& σ0.function_symbol_table_mask
        = calculate_hash_of_function_symbol w name aB &&& σ0.function_symbol_table_mask →
      headB = some a)
    (h0ff : σ0.first_free = none) :
    ∃ σ1 σ2, decrease_reference_count w b σ0 = .ok σ1 ∧
      decrease_reference_count w a σ1 = .ok σ2 ∧
      σ2.first_free = some a ∧
      σ2.function_lookup_table[a]? = some ⟨name, aA, some b, 0⟩ ∧
      σ2.function_lookup_table[b]? = some ⟨name, aB, none, 0⟩ ∧
      (∀ i, i ≠ a → i ≠ b → σ2.function_lookup_table[i]? = σ0.function_lookup_table[i]?) ∧
      σ2.function_symbol_table_size = σ0.function_symbol_table_size ∧
      σ2.function_lookup_table_size = σ0.function_lookup_table_size ∧
      σ2.function_lookup_table.length = σ0.function_lookup_table.length := by
  have hb := lt_of_getElem?_some _ _ _ h0b
  have ha := lt_of_getElem?_some _ _ _ h0a
  have hrel1 := release_head_spec w σ0 b name aB headB h0b h0hB
  rw [h0ff] at hrel1
  have hbucket : (σ0.function_symbol_hashtable.set
      (calculate_hash_of_function_symbol w name aB &&& σ0.function_symbol_table_mask) headB)[
        calculate_hash_of_function_symbol w name aA &&& σ0.function_symbol_table_mask]?
        = some (some a) := by
    have hblt := lt_of_getElem?_some _ _ _ h0hB
    by_cases hbb : calculate_hash_of_function_symbol w name aA &&& σ0.function_symbol_table_mask
        = calculate_hash_of_function_symbol w name aB &&& σ0.function_symbol_table_mask
    · rw [hbb, List.getElem?_set_self hblt, h0head hbb]
    · rw [List.getElem?_set_ne (fun h => hbb h.symm)]
      exact h0hA hbb
  have hrel2 := release_head_spec w
    { σ0 with
      function_symbol_hashtable := σ0.function_symbol_hashtable.set
        (calculate_hash_of_function_symbol w name aB &&& σ0.function_symbol_table_mask) headB
      function_lookup_table := σ0.function_lookup_table.set b ⟨name, aB, none, 0⟩
      first_free := some b }
    a name aA headA
    (by simp only; rw [List.getElem?_set_ne (fun h => hab h.symm)]; exact h0a)
    hbucket
  refine ⟨_, _, hrel1, hrel2, rfl, ?_, ?_, ?_, rfl, rfl, ?_⟩
  · simp only
    exact List.getElem?_set_self (by simp only [List.length_set]; exact ha)
  · simp only
    rw [List.getElem?_set_ne hab]
    exact List.getElem?_set_self hb
  · intro i hia hib
    simp only
    rw [List.getElem?_set_ne (fun h => hia h.symm), List.getElem?_set_ne (fun h => hib h.symm)]
  · simp only [List.length_set]

end index_build

namespace index_build

/-- The run that fills the table and releases its two last records. With every allocation
succeeding and at most 16382 built-in symbols (arities below `M`), the client constructs
`name/M`, ..., `name/(M+count)` until the table holds 16383 records, then `name/(M+count+1)`
(record 16383, the table is now due for a resize), and releases first this last symbol and
then `name/(M+count)` (record 16382). Both records are then released, record 16382 heads the
free list and links to record 16383. -/
theorem two_released_spec (w : Nat) (memory : Nat → Bool)
    (builtin : List (List Nat × Nat)) (M : Nat) (name : List Nat)
    (hw : 16 ≤ w) (hmem : ∀ k, memory k = true)
    (hlen : builtin.length + 1 < INITIAL_FUNCTION_HASH_TABLE_SIZE)
    (hM : ∀ p ∈ builtin, p.2 < M) :
    ∃ count σA σ0 σ1 σ2,
      construct_fresh w memory builtin name count M administration.start
        = .ok (INITIAL_FUNCTION_HASH_TABLE_SIZE - 2, σA) ∧
      function_symbol w memory builtin 2 name (M + count + 1) σA
        = .ok (INITIAL_FUNCTION_HASH_TABLE_SIZE - 1, σ0) ∧
      decrease_reference_count w (INITIAL_FUNCTION_HASH_TABLE_SIZE - 1) σ0 = .ok σ1 ∧
      decrease_reference_count w (INITIAL_FUNCTION_HASH_TABLE_SIZE - 2) σ1 = .ok σ2 ∧
      σ2.function_symbol_table_size = INITIAL_FUNCTION_HASH_TABLE_SIZE ∧
      σ2.function_lookup_table_size = INITIAL_FUNCTION_HASH_TABLE_SIZE ∧
      σ2.function_lookup_table.length = INITIAL_FUNCTION_HASH_TABLE_SIZE ∧
      σ2.first_free = some (INITIAL_FUNCTION_HASH_TABLE_SIZE - 2) ∧
      σ2.function_lookup_table[INITIAL_FUNCTION_HASH_TABLE_SIZE - 2]?
        = some ⟨name, M + count, some (INITIAL_FUNCTION_HASH_TABLE_SIZE - 1), 0⟩ ∧
      σ2.function_lookup_table[INITIAL_FUNCTION_HASH_TABLE_SIZE - 1]?
        = some ⟨name, M + count + 1, none, 0⟩ ∧
      (∀ (i : Nat) (e : _function_symbol), i < INITIAL_FUNCTION_HASH_TABLE_SIZE - 2 →
        σ2.function_lookup_table[i]? = some e → e.arity < M + count) := by
  have hT := initial_size_eq
  have hw4 : 4 * INITIAL_FUNCTION_HASH_TABLE_SIZE ≤ 2 ^ w := by
    rw [initial_size_eq]
    calc 4 * 16384 = 2 ^ 16 := by norm_num
      _ ≤ 2 ^ w := Nat.pow_le_pow_right (by decide) hw
  obtain ⟨σi, h1, h2, h3⟩ := initialise_administration_spec w memory builtin 0 M hmem hw4
    (by omega) hM
  obtain ⟨c, hc⟩ : ∃ c, σi.function_lookup_table_size + c + 1
      = INITIAL_FUNCTION_HASH_TABLE_SIZE - 1 :=
    ⟨INITIAL_FUNCTION_HASH_TABLE_SIZE - 2 - σi.function_lookup_table_size, by omega⟩
  obtain ⟨headA, σA, f1, f2, f3, f4, f5, f6⟩ :=
    construct_fresh_upto w memory builtin name hmem hw4 c M σi h2 (by omega)
  have ha : σi.function_lookup_table_size + c = INITIAL_FUNCTION_HASH_TABLE_SIZE - 2 := by omega
  have hAs : σA.function_lookup_table_size = INITIAL_FUNCTION_HASH_TABLE_SIZE - 1 := by omega
  rw [ha] at f1 f4 f5 f6
  have hnei : σi.function_symbol_table_size ≠ 0 := by
    rw [h2.table_size, initial_size_eq]; decide
  have hneA : σA.function_symbol_table_size ≠ 0 := by
    rw [f2.table_size, initial_size_eq]; decide
  have hcall : function_symbol w memory builtin 2 name M administration.start
      = function_symbol w memory builtin 2 name M σi := by
    rw [function_symbol_initialised w memory builtin 1 name M σi hnei, function_symbol,
      if_pos (show administration.start.function_symbol_table_size = 0 from rfl), h1]
  have hstart : construct_fresh w memory builtin name c M administration.start
      = construct_fresh w memory builtin name c M σi := by
    cases c with
    | zero => rw [construct_fresh, construct_fresh, hcall]
    | succ c => rw [construct_fresh, construct_fresh, hcall]
  -- the last symbol
  obtain ⟨headB, actual, allocations, g1, g2⟩ :=
    filling_construct_fresh_explicit w memory σA (M + c + 1) name f2 hmem hw4 (by omega)
  have hAlen := f2.table_length
  have hblt := lt_of_getElem?_some _ _ _ g1
  obtain ⟨σ0, hσ0⟩ : ∃ σ0 : administration, σ0 =
      { σA with
        function_lookup_table_actual_size := actual
        function_lookup_table_size := σA.function_lookup_table_size + 1
        allocations := allocations
        function_lookup_table :=
          (σA.function_lookup_table ++ [_function_symbol.create name (M + c + 1) headB]).set
            σA.function_lookup_table_size ⟨name, M + c + 1, headB, 1⟩
        function_symbol_hashtable :=
          σA.function_symbol_hashtable.set
            (calculate_hash_of_function_symbol w name (M + c + 1) &&&
              (INITIAL_FUNCTION_HASH_TABLE_SIZE - 1))
            (some σA.function_lookup_table_size) } := ⟨_, rfl⟩
  rw [← hσ0] at g2
  have h0mask : σ0.function_symbol_table_mask = INITIAL_FUNCTION_HASH_TABLE_SIZE - 1 := by
    rw [hσ0]; exact f2.table_mask
  have h0size : σ0.function_symbol_table_size = INITIAL_FUNCTION_HASH_TABLE_SIZE := by
    rw [hσ0]; exact f2.table_size
  have h0n : σ0.function_lookup_table_size = INITIAL_FUNCTION_HASH_TABLE_SIZE := by
    rw [hσ0]; simp only; omega
  have h0len : σ0.function_lookup_table.length = INITIAL_FUNCTION_HASH_TABLE_SIZE := by
    rw [hσ0]; simp only [List.length_set, List.length_append, List.length_singleton]; omega
  have h0ff : σ0.first_free = none := by
    rw [hσ0]; exact f2.first_free
  have h0old : ∀ i, i < INITIAL_FUNCTION_HASH_TABLE_SIZE - 1 →
      σ0.function_lookup_table[i]? = σA.function_lookup_table[i]? := by
    intro i hi
    rw [hσ0]
    simp only
    rw [List.getElem?_set_ne (by omega), List.getElem?_append_left (by omega)]
  have h0a : σ0.function_lookup_table[INITIAL_FUNCTION_HASH_TABLE_SIZE - 2]?
      = some ⟨name, M + c, headA, 1⟩ := by
    rw [h0old _ (by omega)]; exact f4
  have h0b : σ0.function_lookup_table[INITIAL_FUNCTION_HASH_TABLE_SIZE - 1]?
      = some ⟨name, M + c + 1, headB, 1⟩ := by
    rw [hσ0, ← hAs]
    exact List.getElem?_set_self (by simp only [List.length_append, List.length_singleton]; omega)
  have h0hB : σ0.function_symbol_hashtable[calculate_hash_of_function_symbol w name (M + c + 1)
      &&& σ0.function_symbol_table_mask]? = some (some (INITIAL_FUNCTION_HASH_TABLE_SIZE - 1)) := by
    rw [h0mask, hσ0]
    simp only
    rw [hAs]
    exact List.getElem?_set_self hblt
  have h0hA : calculate_hash_of_function_symbol w name (M + c) &&& σ0.function_symbol_table_mask
        ≠ calculate_hash_of_function_symbol w name (M + c + 1) &&& σ0.function_symbol_table_mask →
      σ0.function_symbol_hashtable[calculate_hash_of_function_symbol w name (M + c) &&&
        σ0.function_symbol_table_mask]? = some (some (INITIAL_FUNCTION_HASH_TABLE_SIZE - 2)) := by
    rw [h0mask]
    intro hne
    rw [hσ0]
    simp only
    rw [List.getElem?_set_ne (fun h => hne h.symm)]
    exact f5
  have h0head : calculate_hash_of_function_symbol w name (M + c) &&& σ0.function_symbol_table_mask
        = calculate_hash_of_function_symbol w name (M + c + 1) &&& σ0.function_symbol_table_mask →
      headB = some (INITIAL_FUNCTION_HASH_TABLE_SIZE - 2) := by
    rw [h0mask]
    intro heq
    rw [heq, g1] at f5
    injection f5
  obtain ⟨σ1, σ2, r1, r2, r3, r4, r5, r6, r7, r8, r9⟩ :=
    release_last_two w σ0 name (M + c) (M + c + 1) headA headB
      (INITIAL_FUNCTION_HASH_TABLE_SIZE - 2) (INITIAL_FUNCTION_HASH_TABLE_SIZE - 1) (by omega)
      h0a h0b h0hB h0hA h0head h0ff
  refine ⟨c, σA, σ0, σ1, σ2, by rw [hstart]; exact f1, ?_, r1, r2, by rw [r7, h0size],
    by rw [r8, h0n], by rw [r9, h0len], r3, r4, r5, ?_⟩
  · rw [function_symbol_initialised w memory builtin 1 name (M + c + 1) σA hneA, g2, hAs]
  · intro i e hi he
    rw [r6 i (by omega) (by omega), h0old i (by omega)] at he
    exact f6 i e hi he

end index_build

/-! ## The hash of a function symbol -/

namespace pointer_build

/-! ## Chains of the pointer build -/

theorem ptr_chain_congr (table table' : List _function_symbol) :
    ∀ (l : List Nat) (head : Option Nat), chain table head l →
      (∀ i ∈ l, ∀ e, table[i]? = some e → ∃ e', table'[i]? = some e' ∧ e'.next = e.next) →
      chain table' head l := by
  intro l
  induction l with
  | nil =>
    intro head hc _
    cases hc
    exact chain.nil
  | cons i rest ih =>
    intro head hc hsame
    cases hc with
    | cons _ entry _ he hrest =>
      obtain ⟨e', he', hn⟩ := hsame i (List.mem_cons_self _ _) entry he
      refine chain.cons i e' rest he' ?_
      rw [hn]
      exact ih _ hrest (fun j hj => hsame j (List.mem_cons_of_mem _ hj))

theorem ptr_find_symbol_chain (σ : administration) (name : List Nat) (arity_ : Nat) :
    ∀ (l : List Nat) (head : Option Nat) (fuel : Nat),
      chain σ.function_symbol_index_table head l → l.length < fuel →
      find_symbol σ name arity_ fuel head
        = .ok (l.find? (is_symbol σ.function_symbol_index_table name arity_)) := by
  intro l
  induction l with
  | nil =>
    intro head fuel hc _
    cases hc
    cases fuel <;> rfl
  | cons i rest ih =>
    intro head fuel hc hfuel
    cases hc with
    | cons _ entry _ he hrest =>
      cases fuel with
      | zero => simp at hfuel
      | succ fuel =>
        rw [find_symbol, he]
        simp only
        rw [List.find?_cons]
        by_cases hm : entry.arity = arity_ ∧ entry.name = name
        · rw [if_pos hm]
          have : is_symbol σ.function_symbol_index_table name arity_ i = true := by
            unfold is_symbol; rw [he]; simp [hm]
          rw [this]
        · rw [if_neg hm]
          have : is_symbol σ.function_symbol_index_table name arity_ i = false := by
            unfold is_symbol; rw [he]; simp [hm]
          rw [this]
          exact ih _ fuel hrest (by simp at hfuel; omega)

theorem ptr_chain_mem_valid (table : List _function_symbol) :
    ∀ (l : List Nat) (head : Option Nat), chain table head l →
      ∀ i ∈ l, ∃ e, table[i]? = some e := by
  intro l
  induction l with
  | nil => intro _ _ i hi; simp at hi
  | cons a rest ih =>
    intro head hc i hi
    cases hc with
    | cons _ entry _ he hrest =>
      rcases List.mem_cons.mp hi with h | h
      · exact ⟨entry, by rw [h]; exact he⟩
      · exact ih _ hrest i h

theorem ptr_chain_unique (table : List _function_symbol) :
    ∀ (l l' : List Nat) (head : Option Nat), chain table head l → chain table head l' →
      l = l' := by
  intro l
  induction l with
  | nil =>
    intro l' head h h'
    cases h
    cases h'
    rfl
  | cons a rest ih =>
    intro l' head h h'
    cases h with
    | cons _ e _ he hrest =>
      cases h' with
      | cons _ e' rest' he' hrest' =>
        rw [he] at he'
        injection he' with he'
        subst he'
        rw [ih _ _ hrest hrest']

theorem ptr_chain_from_member (table : List _function_symbol) :
    ∀ (l : List Nat) (head : Option Nat), chain table head l → ∀ i ∈ l,
      ∃ l2, chain table (some i) l2 ∧ l2.length ≤ l.length := by
  intro l
  induction l with
  | nil => intro _ _ i hi; simp at hi
  | cons a rest ih =>
    intro head hc i hi
    cases hc with
    | cons _ e _ he hrest =>
      rcases List.mem_cons.mp hi with h | h
      · subst h
        exact ⟨i :: rest, chain.cons i e rest he hrest, le_refl _⟩
      · obtain ⟨l2, h1, h2⟩ := ih _ hrest i h
        exact ⟨l2, h1, by simp only [List.length_cons]; omega⟩

theorem ptr_chain_nodup (table : List _function_symbol) :
    ∀ (l : List Nat) (head : Option Nat), chain table head l → l.Nodup := by
  intro l
  induction l with
  | nil => intro _ _; exact List.nodup_nil
  | cons a rest ih =>
    intro head hc
    cases hc with
    | cons _ e _ he hrest =>
      refine List.nodup_cons.mpr ⟨?_, ih _ hrest⟩
      intro hmem
      obtain ⟨l2, h1, h2⟩ := ptr_chain_from_member table rest _ hrest a hmem
      have := ptr_chain_unique table _ _ _ h1 (chain.cons a e rest he hrest)
      rw [this] at h2
      simp only [List.length_cons] at h2
      omega

theorem ptr_chain_length_le (table : List _function_symbol) (l : List Nat) (head : Option Nat)
    (hc : chain table head l) : l.length ≤ table.length := by
  have hn := ptr_chain_nodup table l head hc
  have hv := ptr_chain_mem_valid table l head hc
  have hsub : l ⊆ List.range table.length := by
    intro i hi
    obtain ⟨e, he⟩ := hv i hi
    refine List.mem_range.mpr ?_
    by_contra hcon
    rw [List.getElem?_eq_none (by omega)] at he
    cases he
  have := (List.subperm_of_subset hn hsub).length_le
  simpa using this

theorem ptr_find_previous_spec (σ : administration) (m : Nat) (sym : _function_symbol)
    (hsym : σ.function_symbol_index_table[m]? = some sym) :
    ∀ (L : List Nat) (head : Option Nat) (fuel : Nat), chain σ.function_symbol_index_table head L → m ∈ L →
      head ≠ some m → L.length ≤ fuel →
      ∃ prev eprev, find_previous σ m fuel head = .ok prev ∧
        σ.function_symbol_index_table[prev]? = some eprev ∧ prev ∈ L ∧ prev ≠ m ∧
        ∀ (table' : List _function_symbol),
          (∃ e', table'[prev]? = some e' ∧ e'.next = sym.next) →
          (∀ i ∈ L, i ≠ prev → i ≠ m → ∀ e, σ.function_symbol_index_table[i]? = some e →
            ∃ e', table'[i]? = some e' ∧ e'.next = e.next) →
          chain table' head (L.erase m) := by
  intro L
  induction L with
  | nil => intro _ _ _ hm; simp at hm
  | cons a rest ih =>
    intro head fuel hc hm hne hfuel
    have hnd := ptr_chain_nodup _ _ _ hc
    cases hc with
    | cons _ ea _ he hrest =>
      have ham : a ≠ m := fun h => hne (by rw [h])
      have hmrest : m ∈ rest := by
        rcases List.mem_cons.mp hm with h | h
        · exact absurd h.symm ham
        · exact h
      have harest : a ∉ rest := (List.nodup_cons.mp hnd).1
      have hndrest : rest.Nodup := (List.nodup_cons.mp hnd).2
      cases fuel with
      | zero => simp at hfuel
      | succ fuel =>
        rw [find_previous, he]
        simp only
        have herase : (a :: rest).erase m = a :: rest.erase m :=
          List.erase_cons_tail (by simpa using ham)
        rw [herase]
        by_cases hnext : ea.next = some m
        · rw [if_pos hnext]
          rw [hnext] at hrest
          cases hrest with
          | cons _ e2 post he2 hpost =>
            rw [hsym] at he2
            injection he2 with he2
            subst he2
            refine ⟨a, ea, rfl, he, List.mem_cons_self _ _, ham, ?_⟩
            intro table' hprev hagree
            obtain ⟨e', he', hn'⟩ := hprev
            rw [List.erase_cons_head]
            refine chain.cons a e' post he' ?_
            rw [hn']
            apply ptr_chain_congr _ _ post _ hpost
            intro i hi e hie
            have hia : i ≠ a := fun h => harest (by rw [← h]; exact List.mem_cons_of_mem _ hi)
            have him : i ≠ m := fun h => (List.nodup_cons.mp hndrest).1 (by rw [← h]; exact hi)
            exact hagree i (List.mem_cons_of_mem _ (List.mem_cons_of_mem _ hi)) hia him e hie
        · rw [if_neg hnext]
          obtain ⟨prev, eprev, h1, h2, h3, h4, h5⟩ :=
            ih ea.next fuel hrest hmrest hnext (by simp only [List.length_cons] at hfuel; omega)
          refine ⟨prev, eprev, h1, h2, List.mem_cons_of_mem _ h3, h4, ?_⟩
          intro table' hprev hagree
          have hap : a ≠ prev := fun h => harest (by rw [h]; exact h3)
          obtain ⟨e', he', hn'⟩ := hagree a (List.mem_cons_self _ _) hap ham ea he
          refine chain.cons a e' _ he' ?_
          rw [hn']
          exact h5 table' hprev
            (fun i hi => hagree i (List.mem_cons_of_mem _ hi))

theorem ptr_free_function_symbol_spec (w : Nat) (m : Nat) (σ : administration)
    (sym : _function_symbol) (head : Option Nat) (L : List Nat)
    (hsym : σ.function_symbol_index_table[m]? = some sym)
    (hhead : σ.function_symbol_hashtable[calculate_hash_of_function_symbol w sym.name sym.arity
      &&& σ.function_symbol_table_mask]? = some head)
    (hchain : chain σ.function_symbol_index_table head L) (hm : m ∈ L) :
    ∃ σ' head',
      free_function_symbol w m σ = .ok σ' ∧
      σ'.function_symbol_table_size = σ.function_symbol_table_size ∧
      σ'.function_symbol_table_mask = σ.function_symbol_table_mask ∧
      σ'.function_symbol_hashtable.length = σ.function_symbol_hashtable.length ∧
      σ'.function_symbol_index_table.length = σ.function_symbol_index_table.length ∧
      σ'.function_symbol_hashtable[calculate_hash_of_function_symbol w sym.name sym.arity
        &&& σ.function_symbol_table_mask]? = some head' ∧
      chain σ'.function_symbol_index_table head' (L.erase m) ∧
      (∀ b, b ≠ calculate_hash_of_function_symbol w sym.name sym.arity
          &&& σ.function_symbol_table_mask →
        σ'.function_symbol_hashtable[b]? = σ.function_symbol_hashtable[b]?) ∧
      (∀ i, i ∉ L → σ'.function_symbol_index_table[i]? = σ.function_symbol_index_table[i]?) ∧
      (∀ (i : Nat) (e : _function_symbol), i ≠ m → σ.function_symbol_index_table[i]? = some e →
        ∃ nx, σ'.function_symbol_index_table[i]? = some { e with next := nx }) ∧
      σ'.function_symbol_index_table_size = σ.function_symbol_index_table_size ∧
      σ'.index_table_capacity = σ.index_table_capacity ∧
      σ'.allocations = σ.allocations ∧
      σ'.function_symbol_free_list = some m ∧
      σ'.function_symbol_index_table[m]? = some { sym with next := σ.function_symbol_free_list } := by
  have hmlt : m < σ.function_symbol_index_table.length := by
    by_contra hcon
    rw [List.getElem?_eq_none (by omega)] at hsym
    cases hsym
  have hblt : calculate_hash_of_function_symbol w sym.name sym.arity
      &&& σ.function_symbol_table_mask < σ.function_symbol_hashtable.length := by
    by_contra hcon
    rw [List.getElem?_eq_none (by omega)] at hhead
    cases hhead
  have hnd := ptr_chain_nodup _ _ _ hchain
  by_cases hh : head = some m
  · -- the symbol is the head of its chain
    subst hh
    cases hchain with
    | cons _ e post he hpost =>
      rw [hsym] at he
      injection he with he
      subst he
      have hmpost : m ∉ post := (List.nodup_cons.mp hnd).1
      refine ⟨{ σ with
          function_symbol_hashtable := σ.function_symbol_hashtable.set
            (calculate_hash_of_function_symbol w sym.name sym.arity
              &&& σ.function_symbol_table_mask) sym.next
          function_symbol_index_table := σ.function_symbol_index_table.set m { sym with next := σ.function_symbol_free_list }
          function_symbol_free_list := some m }, sym.next, ?_, rfl, rfl, ?_, ?_, ?_, ?_, ?_, ?_, ?_, rfl, rfl, rfl, rfl, ?_⟩
      · unfold free_function_symbol
        simp only [hsym, hhead, if_true]
      · simp only [List.length_set]
      · simp only [List.length_set]
      · simp only
        rw [List.getElem?_set_self hblt]
      · rw [List.erase_cons_head]
        apply ptr_chain_congr _ _ post _ hpost
        intro i hi e hie
        have him : m ≠ i := fun h => hmpost (by rw [h]; exact hi)
        exact ⟨e, by simp only; rw [List.getElem?_set_ne him]; exact hie, rfl⟩
      · intro b hb
        simp only
        rw [List.getElem?_set_ne (fun h => hb h.symm)]
      · intro i hi
        have him : m ≠ i := fun h => hi (by rw [← h]; exact List.mem_cons_self _ _)
        simp only
        rw [List.getElem?_set_ne him]
      · intro i e him hie
        refine ⟨e.next, ?_⟩
        simp only
        rw [List.getElem?_set_ne (fun h => him h.symm)]
        exact hie
      · simp only
        rw [List.getElem?_set_self hmlt]
  · -- the symbol comes later in its chain
    obtain ⟨prev, eprev, h1, h2, h3, h4, h5⟩ :=
      ptr_find_previous_spec σ m sym hsym L head (σ.function_symbol_index_table.length + 1) hchain hm hh
        (by have := ptr_chain_length_le _ _ _ hchain; omega)
    have hplt : prev < σ.function_symbol_index_table.length := by
      by_contra hcon
      rw [List.getElem?_eq_none (by omega)] at h2
      cases h2
    have hmlt1 : m < (σ.function_symbol_index_table.set prev { eprev with next := sym.next }).length := by
      simp only [List.length_set]; exact hmlt
    have hsym1 : (σ.function_symbol_index_table.set prev { eprev with next := sym.next })[m]? = some sym := by
      rw [List.getElem?_set_ne h4]; exact hsym
    refine ⟨{ σ with
        function_symbol_index_table := (σ.function_symbol_index_table.set prev { eprev with next := sym.next }).set m
          { sym with next := σ.function_symbol_free_list }
        function_symbol_free_list := some m }, head, ?_, rfl, rfl, rfl, ?_, hhead, ?_, ?_, ?_, ?_, rfl, rfl, rfl, rfl, ?_⟩
    · unfold free_function_symbol
      simp only [hsym, hhead, if_neg hh, h1, h2, hsym1]
    · simp only [List.length_set]
    · apply h5
      · refine ⟨{ eprev with next := sym.next }, ?_, rfl⟩
        simp only
        rw [List.getElem?_set_ne (fun h => h4 h.symm), List.getElem?_set_self hplt]
      · intro i _ hip him e hie
        refine ⟨e, ?_, rfl⟩
        simp only
        rw [List.getElem?_set_ne (fun h => him h.symm), List.getElem?_set_ne (fun h => hip h.symm)]
        exact hie
    · intro b _
      rfl
    · intro i hi
      have him : m ≠ i := fun h => hi (by rw [← h]; exact hm)
      have hip : prev ≠ i := fun h => hi (by rw [← h]; exact h3)
      simp only
      rw [List.getElem?_set_ne him, List.getElem?_set_ne hip]
    · intro i e him hie
      simp only
      rw [List.getElem?_set_ne (fun h => him h.symm)]
      by_cases hip : prev = i
      · subst hip
        rw [h2] at hie
        injection hie with hie
        subst hie
        exact ⟨sym.next, List.getElem?_set_self hplt⟩
      · exact ⟨e.next, by rw [List.getElem?_set_ne hip]; exact hie⟩
    · simp only
      rw [List.getElem?_set_self hmlt1]

theorem ptr_free_function_symbol_unlinks (w : Nat) (m : Nat) (σ : administration)
    (sym : _function_symbol) (head : Option Nat) (L : List Nat)
    (hsym : σ.function_symbol_index_table[m]? = some sym)
    (hhead : σ.function_symbol_hashtable[calculate_hash_of_function_symbol w sym.name sym.arity
      &&& σ.function_symbol_table_mask]? = some head)
    (hchain : chain σ.function_symbol_index_table head L) (hm : m ∈ L)
    (huniq : ∀ i ∈ L, is_symbol σ.function_symbol_index_table sym.name sym.arity i = true → i = m) :
    ∃ σ' head',
      free_function_symbol w m σ = .ok σ' ∧
      σ'.function_symbol_table_size = σ.function_symbol_table_size ∧
      σ'.function_symbol_table_mask = σ.function_symbol_table_mask ∧
      σ'.function_symbol_hashtable[calculate_hash_of_function_symbol w sym.name sym.arity
        &&& σ'.function_symbol_table_mask]? = some head' ∧
      chain σ'.function_symbol_index_table head' (L.erase m) ∧
      (∀ b, b ≠ calculate_hash_of_function_symbol w sym.name sym.arity
          &&& σ.function_symbol_table_mask →
        σ'.function_symbol_hashtable[b]? = σ.function_symbol_hashtable[b]?) ∧
      (∀ i, i ∉ L → σ'.function_symbol_index_table[i]? = σ.function_symbol_index_table[i]?) ∧
      (∀ hd l, chain σ.function_symbol_index_table hd l → (∀ i ∈ l, i ∉ L) → chain σ'.function_symbol_index_table hd l) ∧
      σ'.function_symbol_free_list = some m ∧
      σ'.function_symbol_index_table[m]? = some { sym with next := σ.function_symbol_free_list } ∧
      find_symbol σ' sym.name sym.arity (σ'.function_symbol_index_table.length + 1) head' = .ok none := by
  obtain ⟨σ', head', h1, h2, h3, _, h5, h6, h7, h8, h9, h10, _, _, _, h11, h12⟩ :=
    ptr_free_function_symbol_spec w m σ sym head L hsym hhead hchain hm
  have hnd := ptr_chain_nodup _ _ _ hchain
  refine ⟨σ', head', h1, h2, h3, by rw [h3]; exact h6, h7, h8, h9, ?_, h11, h12, ?_⟩
  · intro hd l hc hl
    apply ptr_chain_congr _ _ l hd hc
    intro i hi e hie
    exact ⟨e, by rw [h9 i (hl i hi)]; exact hie, rfl⟩
  · rw [ptr_find_symbol_chain σ' sym.name sym.arity (L.erase m) head' _ h7
      (by
        have := ptr_chain_length_le _ _ _ h7
        omega)]
    rw [index_build.find_none]
    intro i hi
    obtain ⟨him, hiL⟩ := (List.Nodup.mem_erase_iff hnd).mp hi
    by_contra hcon
    simp only [Bool.not_eq_false] at hcon
    apply him
    apply huniq i hiL
    obtain ⟨e, hie⟩ := ptr_chain_mem_valid _ _ _ hchain i hiL
    obtain ⟨nx, hie'⟩ := h10 i e him hie
    unfold is_symbol at hcon ⊢
    rw [hie'] at hcon
    rw [hie]
    exact hcon

end pointer_build

namespace pointer_build

/-! ## What the loops of the pointer build leave alone -/

theorem clear_block_frame (base : Nat) : ∀ (i : Nat) (σ : administration),
    (clear_block base i σ).function_symbol_table_size = σ.function_symbol_table_size ∧
    (clear_block base i σ).function_symbol_table_mask = σ.function_symbol_table_mask ∧
    (clear_block base i σ).function_symbol_hashtable = σ.function_symbol_hashtable ∧
    (clear_block base i σ).function_symbol_index_table_size
      = σ.function_symbol_index_table_size ∧
    (clear_block base i σ).index_table_capacity = σ.index_table_capacity ∧
    (clear_block base i σ).allocations = σ.allocations ∧
    (clear_block base i σ).function_symbol_index_table.length
      = σ.function_symbol_index_table.length := by
  intro i
  induction i with
  | zero => intro σ; exact ⟨rfl, rfl, rfl, rfl, rfl, rfl, rfl⟩
  | succ i ih =>
    intro σ
    rw [clear_block]
    obtain ⟨h1, h2, h3, h4, h5, h6, h7⟩ := ih
      { σ with
        function_symbol_index_table := σ.function_symbol_index_table.set (base + i)
          { arity := 0, name := [], reference_count := 0, next := σ.function_symbol_free_list,
            number := base + i }
        function_symbol_free_list := some (base + i) }
    refine ⟨h1, h2, h3, h4, h5, h6, ?_⟩
    rw [h7]
    simp only [List.length_set]

theorem create_new_function_symbol_block_frame (P : block_macros) (memory : Nat → Bool)
    (σ σ' : administration) (h : create_new_function_symbol_block P memory σ = .ok σ') :
    σ'.function_symbol_table_size = σ.function_symbol_table_size ∧
    σ'.function_symbol_table_mask = σ.function_symbol_table_mask ∧
    σ'.function_symbol_hashtable = σ.function_symbol_hashtable ∧
    σ'.function_symbol_index_table_size = σ.function_symbol_index_table_size + 1 ∧
    σ'.index_table_capacity = σ.index_table_capacity ∧
    σ'.allocations = σ.allocations + 1 ∧
    σ'.function_symbol_index_table.length
      = σ.function_symbol_index_table.length + P.FUNCTION_SYMBOL_BLOCK_SIZE ∧
    σ.function_symbol_index_table_size < σ.index_table_capacity ∧
    memory σ.allocations = true := by
  unfold create_new_function_symbol_block at h
  split at h
  · rename_i hcap
    split at h
    · rename_i hmem
      injection h with h
      subst h
      obtain ⟨h1, h2, h3, _, h5, h6, h7⟩ := clear_block_frame
        (P.FUNCTION_SYMBOL_BLOCK_SIZE * σ.function_symbol_index_table_size)
        P.FUNCTION_SYMBOL_BLOCK_SIZE
        { σ with
          function_symbol_index_table :=
            σ.function_symbol_index_table ++ List.replicate P.FUNCTION_SYMBOL_BLOCK_SIZE
              { arity := 0, name := [], reference_count := 0, next := none, number := 0 }
          allocations := σ.allocations + 1 }
      refine ⟨h1, h2, h3, rfl, h5, h6, ?_, hcap, hmem⟩
      simp only
      rw [h7]
      simp only [List.length_append, List.length_replicate]
    · cases h
  · cases h

theorem rehash_block_frame (P : block_macros) (w : Nat) (i : Nat) :
    ∀ (remaining j : Nat) (σ σ' : administration),
      rehash_block P w i remaining j σ = .ok σ' →
      σ'.function_symbol_table_size = σ.function_symbol_table_size ∧
      σ'.function_symbol_table_mask = σ.function_symbol_table_mask ∧
      σ'.function_symbol_index_table_size = σ.function_symbol_index_table_size ∧
      σ'.index_table_capacity = σ.index_table_capacity ∧
      σ'.function_symbol_free_list = σ.function_symbol_free_list ∧
      σ'.allocations = σ.allocations ∧
      σ'.function_symbol_hashtable.length = σ.function_symbol_hashtable.length ∧
      σ'.function_symbol_index_table.length = σ.function_symbol_index_table.length := by
  intro remaining
  induction remaining with
  | zero =>
    intro j σ σ' h
    rw [rehash_block] at h
    injection h with h
    subst h
    exact ⟨rfl, rfl, rfl, rfl, rfl, rfl, rfl, rfl⟩
  | succ r ih =>
    intro j σ σ' h
    rw [rehash_block] at h
    split at h
    · cases h
    · split at h
      · simp only at h
        split at h
        · cases h
        · obtain ⟨h1, h2, h3, h4, h5, h6, h7, h8⟩ := ih _ _ _ h
          refine ⟨h1, h2, h3, h4, h5, h6, ?_, ?_⟩
          · rw [h7]; simp only [List.length_set]
          · rw [h8]; simp only [List.length_set]
      · exact ih _ _ _ h

theorem rehash_blocks_frame (P : block_macros) (w : Nat) :
    ∀ (remaining i : Nat) (σ σ' : administration),
      rehash_blocks P w remaining i σ = .ok σ' →
      σ'.function_symbol_table_size = σ.function_symbol_table_size ∧
      σ'.function_symbol_table_mask = σ.function_symbol_table_mask ∧
      σ'.function_symbol_index_table_size = σ.function_symbol_index_table_size ∧
      σ'.index_table_capacity = σ.index_table_capacity ∧
      σ'.function_symbol_free_list = σ.function_symbol_free_list ∧
      σ'.allocations = σ.allocations ∧
      σ'.function_symbol_hashtable.length = σ.function_symbol_hashtable.length ∧
      σ'.function_symbol_index_table.length = σ.function_symbol_index_table.length := by
  intro remaining
  induction remaining with
  | zero =>
    intro i σ σ' h
    rw [rehash_blocks] at h
    injection h with h
    subst h
    exact ⟨rfl, rfl, rfl, rfl, rfl, rfl, rfl, rfl⟩
  | succ r ih =>
    intro i σ σ' h
    rw [rehash_blocks] at h
    split at h
    · cases h
    · rename_i σ1 h1
      obtain ⟨a1, a2, a3, a4, a5, a6, a7, a8⟩ := rehash_block_frame P w i _ _ _ _ h1
      obtain ⟨b1, b2, b3, b4, b5, b6, b7, b8⟩ := ih _ _ _ h
      exact ⟨b1.trans a1, b2.trans a2, b3.trans a3, b4.trans a4, b5.trans a5, b6.trans a6,
        b7.trans a7, b8.trans a8⟩

theorem ptr_resize_failure (P : block_macros) (w : Nat) (memory : Nat → Bool)
    (σ : administration) (hw : 2 * σ.function_symbol_table_size < 2 ^ w)
    (hm : memory σ.allocations = false) :
    resize_function_symbol_hashtable P w memory σ
      = .ok { σ with allocations := σ.allocations + 1 } := by
  have hsize : (σ.function_symbol_table_size <<< 1 % 2 ^ w) >>> 1
      = σ.function_symbol_table_size := by
    rw [Nat.shiftLeft_eq, Nat.mod_eq_of_lt (by omega), Nat.shiftRight_eq_div_pow]
    omega
  unfold resize_function_symbol_hashtable
  simp only [hm, hsize]
  rfl

theorem ptr_find_symbol_congr (σ σ' : administration)
    (h : σ'.function_symbol_index_table = σ.function_symbol_index_table)
    (name : List Nat) (arity_ : Nat) :
    ∀ (fuel : Nat) (head : Option Nat),
      find_symbol σ' name arity_ fuel head = find_symbol σ name arity_ fuel head := by
  intro fuel
  induction fuel with
  | zero => intro head; cases head <;> rfl
  | succ fuel ih =>
    intro head
    cases head with
    | none => rfl
    | some c =>
      rw [find_symbol, find_symbol, h]
      cases σ.function_symbol_index_table[c]? with
      | none => rfl
      | some e => simp only [ih]

theorem ptr_increase_reference_count_spec (c : Nat) (σ σ' : administration)
    (h : increase_reference_count c σ = .ok σ') :
    ∃ e, σ.function_symbol_index_table[c]? = some e ∧
      σ' = { σ with
        function_symbol_index_table := σ.function_symbol_index_table.set c
          { e with reference_count := e.reference_count + 1 } } := by
  unfold increase_reference_count at h
  split at h
  · cases h
  · rename_i e he
    injection h with h
    exact ⟨e, he, h.symm⟩

end pointer_build

namespace pointer_build

/-! ## The rehash loops of the pointer build -/

theorem live_members_spec (w mask : Nat) (table : List _function_symbol) (b : Nat) :
    ∀ (k i : Nat), i ∈ live_members w mask table b k ↔
      i < k ∧ ∃ e, table[i]? = some e ∧ 0 < e.reference_count ∧
        calculate_hash_of_function_symbol w e.name e.arity &&& mask = b := by
  intro k
  induction k with
  | zero => intro i; simp [live_members]
  | succ k ih =>
    intro i
    rw [live_members]
    cases hk : table[k]? with
    | none =>
      simp only
      rw [ih]
      constructor
      · rintro ⟨h1, h2⟩
        exact ⟨by omega, h2⟩
      · rintro ⟨h1, e, h2, h3⟩
        refine ⟨?_, e, h2, h3⟩
        by_contra hcon
        have : i = k := by omega
        rw [this, hk] at h2
        cases h2
    | some ek =>
      simp only
      split
      · rename_i hlive
        rw [List.mem_cons, ih]
        constructor
        · rintro (h | ⟨h1, h2⟩)
          · subst h
            exact ⟨by omega, ek, hk, hlive⟩
          · exact ⟨by omega, h2⟩
        · rintro ⟨h1, e, h2, h3⟩
          by_cases hik : i = k
          · exact Or.inl hik
          · exact Or.inr ⟨by omega, e, h2, h3⟩
      · rename_i hlive
        rw [ih]
        constructor
        · rintro ⟨h1, h2⟩
          exact ⟨by omega, h2⟩
        · rintro ⟨h1, e, h2, h3⟩
          refine ⟨?_, e, h2, h3⟩
          by_contra hcon
          have : i = k := by omega
          rw [this, hk] at h2
          injection h2 with h2
          subst h2
          exact hlive h3

theorem rehash_block_spec (P : block_macros) (w : Nat) (σ0 : administration)
    (hmask : ∀ h, h &&& σ0.function_symbol_table_mask < σ0.function_symbol_hashtable.length)
    (i : Nat) :
    ∀ (remaining j : Nat) (σ : administration),
      rehashed w σ0 σ (j + P.FUNCTION_SYMBOL_BLOCK_SIZE * i) →
      j + remaining + P.FUNCTION_SYMBOL_BLOCK_SIZE * i ≤ σ0.function_symbol_index_table.length →
      ∃ σ', rehash_block P w i remaining j σ = .ok σ' ∧
        rehashed w σ0 σ' (j + remaining + P.FUNCTION_SYMBOL_BLOCK_SIZE * i) := by
  intro remaining
  induction remaining with
  | zero => intro j σ h _; exact ⟨σ, rfl, h⟩
  | succ r ih =>
    intro j σ h hlen
    have hk : j + P.FUNCTION_SYMBOL_BLOCK_SIZE * i < σ0.function_symbol_index_table.length := by
      omega
    generalize hkd : j + P.FUNCTION_SYMBOL_BLOCK_SIZE * i = k at h hk
    have hnext : j + 1 + P.FUNCTION_SYMBOL_BLOCK_SIZE * i = k + 1 := by omega
    have hend : j + (r + 1) + P.FUNCTION_SYMBOL_BLOCK_SIZE * i
        = j + 1 + r + P.FUNCTION_SYMBOL_BLOCK_SIZE * i := by omega
    obtain ⟨nx, hrec⟩ := h.records k _ (List.getElem?_eq_getElem hk)
    have hk' : k < σ.function_symbol_index_table.length := by rw [h.table_length]; exact hk
    rw [rehash_block, hkd, hrec, hend]
    simp only
    by_cases hlive : (σ0.function_symbol_index_table[k]).reference_count > 0
    · rw [if_pos hlive]
      have hb : calculate_hash_of_function_symbol w (σ0.function_symbol_index_table[k]).name
          (σ0.function_symbol_index_table[k]).arity &&& σ.function_symbol_table_mask
            < σ.function_symbol_hashtable.length := by
        rw [h.table_mask, h.hashtable_length]; exact hmask _
      obtain ⟨head, hhead, hchain⟩ := h.chains _ hb
      rw [hhead]
      simp only
      apply ih (j + 1)
      · rw [hnext]
        have hframe : ∀ (l : List Nat) (hd : Option Nat), (∀ x ∈ l, x < k) →
            chain σ.function_symbol_index_table hd l →
            chain (σ.function_symbol_index_table.set k
              { σ0.function_symbol_index_table[k] with next := head }) hd l := by
          intro l hd hl hc
          apply ptr_chain_congr _ _ l hd hc
          intro x hx e he
          have hxk : k ≠ x := by have := hl x hx; omega
          exact ⟨e, by rw [List.getElem?_set_ne hxk]; exact he, rfl⟩
        have hlt : ∀ b, ∀ x ∈ live_members w σ0.function_symbol_table_mask
            σ0.function_symbol_index_table b k, x < k :=
          fun b x hx => ((live_members_spec w _ _ b k x).mp hx).1
        constructor
        · exact h.table_size
        · exact h.table_mask
        · exact h.index_table_size
        · exact h.free_list
        · exact h.capacity
        · exact h.allocations
        · simp only [List.length_set]; exact h.hashtable_length
        · intro x e he
          by_cases hxk : k = x
          · subst hxk
            rw [List.getElem?_eq_getElem hk] at he
            injection he with he
            refine ⟨head, ?_⟩
            simp only
            rw [List.getElem?_set_self hk', ← he]
          · obtain ⟨nx', hnx⟩ := h.records x e he
            exact ⟨nx', by simp only; rw [List.getElem?_set_ne hxk]; exact hnx⟩
        · intro x e he hdead
          have hxk : k ≠ x := by
            intro hcon
            subst hcon
            rw [List.getElem?_eq_getElem hk] at he
            injection he with he
            rw [he] at hlive
            omega
          simp only
          rw [List.getElem?_set_ne hxk]
          exact h.released x e he hdead
        · simp only [List.length_set]; exact h.table_length
        · intro b hblen
          simp only [List.length_set] at hblen
          simp only
          rw [live_members, List.getElem?_eq_getElem hk]
          simp only
          by_cases hbb : calculate_hash_of_function_symbol w
              (σ0.function_symbol_index_table[k]).name
              (σ0.function_symbol_index_table[k]).arity &&& σ.function_symbol_table_mask = b
          · refine ⟨some k, ?_, ?_⟩
            · rw [hbb, List.getElem?_set_self hblen]
            · rw [if_pos ⟨hlive, by rw [← h.table_mask]; exact hbb⟩]
              refine chain.cons k _ _ (List.getElem?_set_self hk') ?_
              simp only
              rw [hbb] at hchain
              exact hframe _ _ (hlt b) hchain
          · obtain ⟨hd, hhd, hc⟩ := h.chains b hblen
            refine ⟨hd, ?_, ?_⟩
            · rw [List.getElem?_set_ne hbb]; exact hhd
            · rw [if_neg (by rw [← h.table_mask]; exact fun hcon => hbb hcon.2)]
              exact hframe _ _ (hlt b) hc
      · omega
    · rw [if_neg hlive]
      apply ih (j + 1)
      · rw [hnext]
        refine { h with chains := ?_ }
        intro b hblen
        obtain ⟨hd, hhd, hc⟩ := h.chains b hblen
        refine ⟨hd, hhd, ?_⟩
        rw [live_members, List.getElem?_eq_getElem hk]
        simp only
        rw [if_neg (fun hcon => hlive hcon.1)]
        exact hc
      · omega

theorem rehash_blocks_spec (P : block_macros) (w : Nat) (σ0 : administration)
    (hmask : ∀ h, h &&& σ0.function_symbol_table_mask < σ0.function_symbol_hashtable.length) :
    ∀ (remaining i : Nat) (σ : administration),
      rehashed w σ0 σ (P.FUNCTION_SYMBOL_BLOCK_SIZE * i) →
      P.FUNCTION_SYMBOL_BLOCK_SIZE * (i + remaining) ≤ σ0.function_symbol_index_table.length →
      ∃ σ', rehash_blocks P w remaining i σ = .ok σ' ∧
        rehashed w σ0 σ' (P.FUNCTION_SYMBOL_BLOCK_SIZE * (i + remaining)) := by
  intro remaining
  induction remaining with
  | zero => intro i σ h _; exact ⟨σ, rfl, h⟩
  | succ r ih =>
    intro i σ h hlen
    have e1 : P.FUNCTION_SYMBOL_BLOCK_SIZE * (i + (r + 1))
        = P.FUNCTION_SYMBOL_BLOCK_SIZE * (i + 1 + r) := by
      rw [show i + (r + 1) = i + 1 + r by omega]
    have e2 : 0 + P.FUNCTION_SYMBOL_BLOCK_SIZE + P.FUNCTION_SYMBOL_BLOCK_SIZE * i
        = P.FUNCTION_SYMBOL_BLOCK_SIZE * (i + 1) := by
      rw [Nat.mul_add, Nat.mul_one]; omega
    have hle : P.FUNCTION_SYMBOL_BLOCK_SIZE * (i + 1)
        ≤ P.FUNCTION_SYMBOL_BLOCK_SIZE * (i + (r + 1)) :=
      Nat.mul_le_mul_left _ (by omega)
    obtain ⟨σ1, h1, h2⟩ := rehash_block_spec P w σ0 hmask i P.FUNCTION_SYMBOL_BLOCK_SIZE 0 σ
      (by rw [Nat.zero_add]; exact h) (by rw [e2]; omega)
    rw [e2] at h2
    rw [rehash_blocks, h1, e1]
    simp only
    exact ih (i + 1) σ1 h2 (by rw [← e1]; exact hlen)

theorem ptr_resize_spec (P : block_macros) (w : Nat) (memory : Nat → Bool) (σ : administration)
    (hT : 0 < σ.function_symbol_table_size)
    (hw : 2 * σ.function_symbol_table_size < 2 ^ w)
    (hmem : memory σ.allocations = true)
    (hlen : σ.function_symbol_index_table.length
      = P.FUNCTION_SYMBOL_BLOCK_SIZE * σ.function_symbol_index_table_size) :
    ∃ σ', resize_function_symbol_hashtable P w memory σ = .ok σ' ∧
      rehashed w
        { σ with
          function_symbol_table_size := 2 * σ.function_symbol_table_size
          function_symbol_table_mask := 2 * σ.function_symbol_table_size - 1
          function_symbol_hashtable := List.replicate (2 * σ.function_symbol_table_size) none
          allocations := σ.allocations + 1 }
        σ' σ.function_symbol_index_table.length := by
  obtain ⟨hsize, hmask⟩ := index_build.doubled_size w _ hT hw
  unfold resize_function_symbol_hashtable
  simp only [hmem, if_true, hsize, hmask]
  have hstart : rehashed w
      { σ with
        function_symbol_table_size := 2 * σ.function_symbol_table_size
        function_symbol_table_mask := 2 * σ.function_symbol_table_size - 1
        function_symbol_hashtable := List.replicate (2 * σ.function_symbol_table_size) none
        allocations := σ.allocations + 1 }
      { σ with
        function_symbol_table_size := 2 * σ.function_symbol_table_size
        function_symbol_table_mask := 2 * σ.function_symbol_table_size - 1
        function_symbol_hashtable := List.replicate (2 * σ.function_symbol_table_size) none
        allocations := σ.allocations + 1 } (P.FUNCTION_SYMBOL_BLOCK_SIZE * 0) := by
    constructor <;> try rfl
    · intro i e he; exact ⟨e.next, he⟩
    · intro i e he _; exact he
    · intro b hb
      simp only [List.length_replicate] at hb
      refine ⟨none, ?_, ?_⟩
      · simp [List.getElem?_replicate, hb]
      · rw [Nat.mul_zero, live_members]; exact chain.nil
  obtain ⟨σ', h1, h2⟩ := rehash_blocks_spec P w _
    (by
      intro h
      simp only [List.length_replicate]
      have := @Nat.and_le_right h (2 * σ.function_symbol_table_size - 1)
      omega)
    σ.function_symbol_index_table_size 0 _ hstart (by simp only [Nat.zero_add]; omega)
  rw [Nat.zero_add, ← hlen] at h2
  exact ⟨σ', h1, h2⟩

end pointer_build

namespace pointer_build

/-! ## Initialisation of the pointer build -/

theorem ptr_resize_frame (P : block_macros) (w : Nat) (memory : Nat → Bool)
    (σ σ' : administration) (hs : 0 < σ.function_symbol_table_size)
    (hw : 2 * σ.function_symbol_table_size < 2 ^ w)
    (h : resize_function_symbol_hashtable P w memory σ = .ok σ') :
    (σ'.function_symbol_table_size = σ.function_symbol_table_size ∨
      σ'.function_symbol_table_size = 2 * σ.function_symbol_table_size) ∧
    σ'.function_symbol_index_table_size = σ.function_symbol_index_table_size ∧
    σ'.index_table_capacity = σ.index_table_capacity := by
  by_cases hm : memory σ.allocations = true
  · obtain ⟨h1, h2⟩ := index_build.doubled_size w _ hs hw
    unfold resize_function_symbol_hashtable at h
    simp only [hm, if_true, h1, h2] at h
    obtain ⟨a1, _, a3, a4, _⟩ := rehash_blocks_frame P w _ _ _ _ h
    exact ⟨Or.inr a1, a3, a4⟩
  · simp only [Bool.not_eq_true] at hm
    rw [ptr_resize_failure P w memory σ hw hm] at h
    injection h with h
    subst h
    exact ⟨Or.inl rfl, rfl, rfl⟩

theorem ptr_insert_symbol_frame (P : block_macros) (memory : Nat → Bool) (name : List Nat)
    (arity_ hnr : Nat) (σ σ' : administration) (handle : Nat)
    (h : insert_symbol P memory name arity_ hnr σ = .ok (handle, σ')) :
    σ'.function_symbol_table_size = σ.function_symbol_table_size ∧
    σ'.function_symbol_table_mask = σ.function_symbol_table_mask ∧
    σ'.index_table_capacity = σ.index_table_capacity ∧
    (σ'.function_symbol_index_table_size = σ.function_symbol_index_table_size ∨
      (σ.function_symbol_index_table_size < σ.index_table_capacity ∧
        σ'.function_symbol_index_table_size = σ.function_symbol_index_table_size + 1)) := by
  unfold insert_symbol at h
  split at h
  · cases h
  · rename_i σ2 hblock
    have hσ2 : σ2.function_symbol_table_size = σ.function_symbol_table_size ∧
        σ2.function_symbol_table_mask = σ.function_symbol_table_mask ∧
        σ2.index_table_capacity = σ.index_table_capacity ∧
        (σ2.function_symbol_index_table_size = σ.function_symbol_index_table_size ∨
          (σ.function_symbol_index_table_size < σ.index_table_capacity ∧
            σ2.function_symbol_index_table_size = σ.function_symbol_index_table_size + 1)) := by
      split at hblock
      · obtain ⟨a, b, _, d, e, _, _, f, _⟩ :=
          create_new_function_symbol_block_frame P memory _ _ hblock
        exact ⟨a, b, e, Or.inr ⟨f, d⟩⟩
      · injection hblock with hblock
        subst hblock
        exact ⟨rfl, rfl, rfl, Or.inl rfl⟩
    split at h
    · cases h
    · split at h
      · cases h
      · split at h
        · cases h
        · simp only at h
          split at h
          · cases h
          · rename_i σ3 hinc
            injection h with h
            injection h with h1 h2
            subst h2
            obtain ⟨e, _, hσ3⟩ := ptr_increase_reference_count_spec _ _ _ hinc
            subst hσ3
            exact hσ2

theorem ptr_lookup_or_insert_frame (P : block_macros) (w : Nat) (memory : Nat → Bool)
    (name : List Nat) (arity_ : Nat) (σ σ' : administration) (handle : Nat)
    (hs : 0 < σ.function_symbol_table_size)
    (hw : σ.function_symbol_index_table_size <<< (P.FUNCTION_SYMBOL_BLOCK_CLASS + 1) % 2 ^ w
      > σ.function_symbol_table_size → 2 * σ.function_symbol_table_size < 2 ^ w)
    (h : function_symbol_lookup_or_insert P w memory name arity_ σ = .ok (handle, σ')) :
    (σ'.function_symbol_table_size = σ.function_symbol_table_size ∨
      (σ.function_symbol_index_table_size <<< (P.FUNCTION_SYMBOL_BLOCK_CLASS + 1) % 2 ^ w
          > σ.function_symbol_table_size ∧
        σ'.function_symbol_table_size = 2 * σ.function_symbol_table_size)) ∧
    σ'.index_table_capacity = σ.index_table_capacity ∧
    (σ'.function_symbol_index_table_size = σ.function_symbol_index_table_size ∨
      (σ.function_symbol_index_table_size < σ.index_table_capacity ∧
        σ'.function_symbol_index_table_size = σ.function_symbol_index_table_size + 1)) := by
  unfold function_symbol_lookup_or_insert at h
  split at h
  · cases h
  · rename_i σ1 hres
    have hσ1 : (σ1.function_symbol_table_size = σ.function_symbol_table_size ∨
          (σ.function_symbol_index_table_size <<< (P.FUNCTION_SYMBOL_BLOCK_CLASS + 1) % 2 ^ w
              > σ.function_symbol_table_size ∧
            σ1.function_symbol_table_size = 2 * σ.function_symbol_table_size)) ∧
        σ1.function_symbol_index_table_size = σ.function_symbol_index_table_size ∧
        σ1.index_table_capacity = σ.index_table_capacity := by
      split at hres
      · rename_i htrig
        obtain ⟨a, b, c⟩ := ptr_resize_frame P w memory σ σ1 hs (hw htrig) hres
        rcases a with a | a
        · exact ⟨Or.inl a, b, c⟩
        · exact ⟨Or.inr ⟨htrig, a⟩, b, c⟩
      · injection hres with hres
        subst hres
        exact ⟨Or.inl rfl, rfl, rfl⟩
    obtain ⟨hsz, hbl, hcap⟩ := hσ1
    simp only at h
    split at h
    · cases h
    · split at h
      · cases h
      · split at h
        · cases h
        · rename_i σ2 hinc
          injection h with h
          injection h with h1 h2
          subst h2
          obtain ⟨e, _, hσ2⟩ := ptr_increase_reference_count_spec _ _ _ hinc
          subst hσ2
          exact ⟨hsz, hcap, Or.inl hbl⟩
      · obtain ⟨a, _, c, d⟩ := ptr_insert_symbol_frame P memory name arity_ _ _ _ _ h
        rw [hbl, hcap] at d
        exact ⟨by rw [a]; exact hsz, by rw [c]; exact hcap, d⟩

theorem ptr_lookup_or_insert_initialised (P : block_macros) (w : Nat) (memory : Nat → Bool)
    (hP : P.FUNCTION_SYMBOL_BLOCK_CLASS + 9 ≤ w)
    (name : List Nat) (arity_ : Nat) (σ σ' : administration) (handle : Nat)
    (hs : 0 < σ.function_symbol_table_size)
    (hb : σ.function_symbol_table_size < 2 ^ (P.FUNCTION_SYMBOL_BLOCK_CLASS + 9))
    (hblocks : σ.function_symbol_index_table_size ≤ 128)
    (hcap : σ.index_table_capacity = 128)
    (h : function_symbol_lookup_or_insert P w memory name arity_ σ = .ok (handle, σ')) :
    0 < σ'.function_symbol_table_size ∧
    σ'.function_symbol_table_size < 2 ^ (P.FUNCTION_SYMBOL_BLOCK_CLASS + 9) ∧
    σ'.function_symbol_index_table_size ≤ 128 ∧
    σ'.index_table_capacity = 128 := by
  have hpw : 2 ^ (P.FUNCTION_SYMBOL_BLOCK_CLASS + 9) ≤ 2 ^ w :=
    Nat.pow_le_pow_right (by decide) hP
  have hp8 : 2 ^ (P.FUNCTION_SYMBOL_BLOCK_CLASS + 9)
      = 2 ^ (P.FUNCTION_SYMBOL_BLOCK_CLASS + 1) * 256 := by
    rw [show P.FUNCTION_SYMBOL_BLOCK_CLASS + 9 = (P.FUNCTION_SYMBOL_BLOCK_CLASS + 1) + 8 by omega,
      Nat.pow_add]
  have htrig : σ.function_symbol_index_table_size <<< (P.FUNCTION_SYMBOL_BLOCK_CLASS + 1) % 2 ^ w
      > σ.function_symbol_table_size →
      2 * σ.function_symbol_table_size < 2 ^ (P.FUNCTION_SYMBOL_BLOCK_CLASS + 9) := by
    intro ht
    have h1 : σ.function_symbol_index_table_size <<< (P.FUNCTION_SYMBOL_BLOCK_CLASS + 1) % 2 ^ w
        ≤ σ.function_symbol_index_table_size * 2 ^ (P.FUNCTION_SYMBOL_BLOCK_CLASS + 1) := by
      rw [Nat.shiftLeft_eq]
      exact Nat.mod_le _ _
    have h2 : σ.function_symbol_index_table_size * 2 ^ (P.FUNCTION_SYMBOL_BLOCK_CLASS + 1)
        ≤ 128 * 2 ^ (P.FUNCTION_SYMBOL_BLOCK_CLASS + 1) :=
      Nat.mul_le_mul_right _ hblocks
    rw [hp8]
    omega
  obtain ⟨a, b, c⟩ := ptr_lookup_or_insert_frame P w memory name arity_ σ σ' handle hs
    (fun ht => by have := htrig ht; omega) h
  refine ⟨?_, ?_, ?_, by rw [b]; exact hcap⟩
  · rcases a with a | ⟨_, a⟩ <;> omega
  · rcases a with a | ⟨ht, a⟩
    · omega
    · have := htrig ht
      omega
  · rcases c with c | ⟨c1, c2⟩ <;> omega

theorem ptr_function_symbol_initialised (P : block_macros) (w : Nat) (memory : Nat → Bool)
    (builtin : List (List Nat × Nat)) (depth : Nat) (name : List Nat) (arity_ : Nat)
    (σ : administration) (h : σ.function_symbol_table_size ≠ 0) :
    function_symbol P w memory builtin (depth + 1) name arity_ σ
      = function_symbol_lookup_or_insert P w memory name arity_ σ := by
  rw [function_symbol, if_neg h]

theorem ptr_builtin_initialised (P : block_macros) (w : Nat) (memory : Nat → Bool)
    (hP : P.FUNCTION_SYMBOL_BLOCK_CLASS + 9 ≤ w)
    (builtin : List (List Nat × Nat)) (depth : Nat) :
    ∀ (rest : List (List Nat × Nat)) (σ : administration),
      0 < σ.function_symbol_table_size →
      σ.function_symbol_table_size < 2 ^ (P.FUNCTION_SYMBOL_BLOCK_CLASS + 9) →
      σ.function_symbol_index_table_size ≤ 128 →
      σ.index_table_capacity = 128 →
      initialise_function_symbols (function_symbol P w memory builtin (depth + 1)) rest σ
        = initialise_function_symbols (function_symbol_lookup_or_insert P w memory) rest σ ∧
      ∀ σ', initialise_function_symbols (function_symbol_lookup_or_insert P w memory) rest σ
          = .ok σ' →
        0 < σ'.function_symbol_table_size ∧
        σ'.function_symbol_table_size < 2 ^ (P.FUNCTION_SYMBOL_BLOCK_CLASS + 9) ∧
        σ'.function_symbol_index_table_size ≤ 128 ∧
        σ'.index_table_capacity = 128 := by
  intro rest
  induction rest with
  | nil =>
    intro σ h1 h2 h3 h4
    refine ⟨rfl, ?_⟩
    intro σ' h
    rw [initialise_function_symbols] at h
    injection h with h
    subst h
    exact ⟨h1, h2, h3, h4⟩
  | cons first rest ih =>
    intro σ h1 h2 h3 h4
    obtain ⟨name, arity_⟩ := first
    rw [initialise_function_symbols, initialise_function_symbols,
      ptr_function_symbol_initialised P w memory builtin depth name arity_ σ (by omega)]
    cases hrun : function_symbol_lookup_or_insert P w memory name arity_ σ with
    | error e =>
      simp only
      exact ⟨trivial, fun σ' h => by cases h⟩
    | ok r =>
      obtain ⟨handle, σ1⟩ := r
      simp only
      obtain ⟨a1, a2, a3, a4⟩ :=
        ptr_lookup_or_insert_initialised P w memory hP name arity_ σ σ1 handle h1 h2 h3 h4 hrun
      exact ih σ1 a1 a2 a3 a4

theorem ptr_initial_size (P : block_macros) (w : Nat)
    (hP : P.FUNCTION_SYMBOL_BLOCK_CLASS + 9 ≤ w) :
    INITIAL_FUNCTION_HASH_TABLE_SIZE P w = 2 ^ P.FUNCTION_SYMBOL_BLOCK_CLASS := by
  unfold INITIAL_FUNCTION_HASH_TABLE_SIZE
  rw [Nat.shiftLeft_eq, Nat.one_mul]
  exact Nat.mod_eq_of_lt (Nat.pow_lt_pow_right (by decide) (by omega))

end pointer_build

namespace pointer_build

/-! ## Out of memory in the pointer build -/

theorem rehash_block_not_out_of_memory (P : block_macros) (w : Nat) (i : Nat) (what : String) :
    ∀ (remaining j : Nat) (σ : administration),
      rehash_block P w i remaining j σ ≠ .error (.out_of_memory what) := by
  intro remaining
  induction remaining with
  | zero => intro j σ h; rw [rehash_block] at h; cases h
  | succ r ih =>
    intro j σ h
    rw [rehash_block] at h
    split at h
    · cases h
    · split at h
      · simp only at h
        split at h
        · cases h
        · exact ih _ _ h
      · exact ih _ _ h

theorem rehash_blocks_not_out_of_memory (P : block_macros) (w : Nat) (what : String) :
    ∀ (remaining i : Nat) (σ : administration),
      rehash_blocks P w remaining i σ ≠ .error (.out_of_memory what) := by
  intro remaining
  induction remaining with
  | zero => intro i σ h; rw [rehash_blocks] at h; cases h
  | succ r ih =>
    intro i σ h
    rw [rehash_blocks] at h
    split at h
    · rename_i e he
      injection h with h
      subst h
      exact rehash_block_not_out_of_memory P w i what _ _ _ he
    · exact ih _ _ h

theorem ptr_resize_not_out_of_memory (P : block_macros) (w : Nat) (memory : Nat → Bool)
    (what : String) (σ : administration) :
    resize_function_symbol_hashtable P w memory σ ≠ .error (.out_of_memory what) := by
  intro h
  unfold resize_function_symbol_hashtable at h
  simp only at h
  split at h
  · exact rehash_blocks_not_out_of_memory P w what _ _ _ h
  · cases h

theorem ptr_find_symbol_not_out_of_memory (σ : administration) (name : List Nat) (arity_ : Nat)
    (what : String) :
    ∀ (fuel : Nat) (head : Option Nat),
      find_symbol σ name arity_ fuel head ≠ .error (.out_of_memory what) := by
  intro fuel
  induction fuel with
  | zero =>
    intro head h
    cases head with
    | none => simp [find_symbol] at h
    | some c => simp [find_symbol] at h
  | succ fuel ih =>
    intro head h
    cases head with
    | none => simp [find_symbol] at h
    | some c =>
      rw [find_symbol] at h
      split at h
      · cases h
      · split at h
        · cases h
        · exact ih _ h

theorem ptr_increase_reference_count_not_out_of_memory (c : Nat) (σ : administration)
    (what : String) : increase_reference_count c σ ≠ .error (.out_of_memory what) := by
  intro h
  unfold increase_reference_count at h
  split at h <;> cases h

theorem create_block_out_of_memory (P : block_macros) (memory : Nat → Bool)
    (σ : administration) (hcap : σ.function_symbol_index_table_size < σ.index_table_capacity)
    (hm : memory σ.allocations = false) :
    create_new_function_symbol_block P memory σ
      = .error (.out_of_memory "Out of memory. Fail to resize function_lookup_table.") := by
  unfold create_new_function_symbol_block
  rw [if_pos hcap, hm]
  rfl

theorem create_block_returns (P : block_macros) (memory : Nat → Bool)
    (σ : administration) (hcap : σ.function_symbol_index_table_size < σ.index_table_capacity)
    (hm : memory σ.allocations = true) :
    ∃ σ', create_new_function_symbol_block P memory σ = .ok σ' := by
  unfold create_new_function_symbol_block
  rw [if_pos hcap, if_pos hm]
  exact ⟨_, rfl⟩

theorem create_block_not_out_of_memory (P : block_macros) (memory : Nat → Bool)
    (hm : ∀ k, memory k = true) (σ : administration) (what : String) :
    create_new_function_symbol_block P memory σ ≠ .error (.out_of_memory what) := by
  intro h
  unfold create_new_function_symbol_block at h
  rw [hm] at h
  simp only [if_true] at h
  split at h <;> cases h

theorem ptr_insert_symbol_not_out_of_memory (P : block_macros) (memory : Nat → Bool)
    (hm : ∀ k, memory k = true) (name : List Nat) (arity_ hnr : Nat) (σ : administration)
    (what : String) :
    insert_symbol P memory name arity_ hnr σ ≠ .error (.out_of_memory what) := by
  intro h
  unfold insert_symbol at h
  split at h
  · rename_i e he
    injection h with h
    subst h
    split at he
    · exact create_block_not_out_of_memory P memory hm σ what he
    · cases he
  · split at h
    · cases h
    · split at h
      · cases h
      · split at h
        · cases h
        · simp only at h
          split at h
          · rename_i e he
            injection h with h
            subst h
            exact ptr_increase_reference_count_not_out_of_memory _ _ what he
          · cases h

theorem ptr_lookup_or_insert_not_out_of_memory (P : block_macros) (w : Nat)
    (memory : Nat → Bool) (hm : ∀ k, memory k = true) (name : List Nat) (arity_ : Nat)
    (σ : administration) (what : String) :
    function_symbol_lookup_or_insert P w memory name arity_ σ
      ≠ .error (.out_of_memory what) := by
  intro h
  unfold function_symbol_lookup_or_insert at h
  split at h
  · rename_i e he
    injection h with h
    subst h
    split at he
    · exact ptr_resize_not_out_of_memory P w memory what σ he
    · cases he
  · simp only at h
    split at h
    · cases h
    · split at h
      · rename_i e he
        injection h with h
        subst h
        exact ptr_find_symbol_not_out_of_memory _ _ _ what _ _ he
      · split at h
        · rename_i e he
          injection h with h
          subst h
          exact ptr_increase_reference_count_not_out_of_memory _ _ what he
        · cases h
      · exact ptr_insert_symbol_not_out_of_memory P memory hm name arity_ _ _ what h

theorem ptr_builtin_not_out_of_memory (what : String)
    (construct : List Nat → Nat → administration → Except failure (Nat × administration))
    (hc : ∀ name arity_ σ, construct name arity_ σ ≠ .error (.out_of_memory what)) :
    ∀ (rest : List (List Nat × Nat)) (σ : administration),
      initialise_function_symbols construct rest σ ≠ .error (.out_of_memory what) := by
  intro rest
  induction rest with
  | nil => intro σ h; rw [initialise_function_symbols] at h; cases h
  | cons first rest ih =>
    intro σ h
    obtain ⟨name, arity_⟩ := first
    rw [initialise_function_symbols] at h
    split at h
    · rename_i e he
      injection h with h
      subst h
      exact hc _ _ _ he
    · exact ih _ h

theorem ptr_initialise_not_out_of_memory (P : block_macros) (w : Nat) (memory : Nat → Bool)
    (hm : ∀ k, memory k = true) (builtin : List (List Nat × Nat)) (what : String)
    (construct : List Nat → Nat → administration → Except failure (Nat × administration))
    (hc : ∀ name arity_ σ, construct name arity_ σ ≠ .error (.out_of_memory what))
    (σ : administration) :
    initialise_administration P w memory builtin construct σ
      ≠ .error (.out_of_memory what) := by
  intro h
  unfold initialise_administration at h
  simp only [hm, if_true] at h
  split at h
  · split at h
    · rename_i e he
      injection h with h
      subst h
      exact create_block_not_out_of_memory P memory hm _ what he
    · exact ptr_builtin_not_out_of_memory what construct hc _ _ h
  · cases h

theorem ptr_function_symbol_not_out_of_memory (P : block_macros) (w : Nat)
    (memory : Nat → Bool) (hm : ∀ k, memory k = true) (builtin : List (List Nat × Nat))
    (what : String) :
    ∀ (depth : Nat) (name : List Nat) (arity_ : Nat) (σ : administration),
      function_symbol P w memory builtin depth name arity_ σ
        ≠ .error (.out_of_memory what) := by
  intro depth
  induction depth with
  | zero => intro name arity_ σ h; rw [function_symbol] at h; cases h
  | succ depth ih =>
    intro name arity_ σ h
    rw [function_symbol] at h
    split at h
    · rename_i e he
      injection h with h
      subst h
      split at he
      · exact ptr_initialise_not_out_of_memory P w memory hm builtin what _ ih σ he
      · cases he
    · exact ptr_lookup_or_insert_not_out_of_memory P w memory hm name arity_ _ what h

theorem ptr_initialise_out_of_memory (P : block_macros) (w : Nat) (memory : Nat → Bool)
    (builtin : List (List Nat × Nat))
    (construct : List Nat → Nat → administration → Except failure (Nat × administration))
    (σ : administration) (hz : σ.function_symbol_table_size = 0) :
    (memory σ.allocations = false →
      initialise_administration P w memory builtin construct σ
        = .error (.out_of_memory "Out of memory. Cannot create function symbol hashtable.")) ∧
    (memory σ.allocations = true → memory (σ.allocations + 1) = false →
      initialise_administration P w memory builtin construct σ
        = .error (.out_of_memory
            "Out of memory. Cannot create function symbol index table.")) ∧
    (memory σ.allocations = true → memory (σ.allocations + 1) = true →
      memory (σ.allocations + 2) = false →
      initialise_administration P w memory builtin construct σ
        = .error (.out_of_memory "Out of memory. Fail to resize function_lookup_table.")) := by
  refine ⟨?_, ?_, ?_⟩
  · intro h0
    unfold initialise_administration
    rw [if_pos hz, h0]
    rfl
  · intro h0 h1
    unfold initialise_administration
    rw [if_pos hz, if_pos h0, h1]
    rfl
  · intro h0 h1 h2
    unfold initialise_administration
    rw [if_pos hz, if_pos h0, if_pos h1, create_block_out_of_memory P memory _
      (show (0 : Nat) < 128 from by decide) h2]

end pointer_build

namespace index_build

/-! ## Out of memory in the index build -/

theorem rehash_entries_not_out_of_memory (w : Nat) (what : String) :
    ∀ (remaining i : Nat) (σ : administration),
      rehash_entries w remaining i σ ≠ .error (.out_of_memory what) := by
  intro remaining
  induction remaining with
  | zero => intro i σ h; rw [rehash_entries] at h; cases h
  | succ r ih =>
    intro i σ h
    rw [rehash_entries] at h
    split at h
    · cases h
    · simp only at h
      split at h
      · cases h
      · exact ih _ _ h

theorem idx_resize_not_out_of_memory (w : Nat) (memory : Nat → Bool)
    (what : String) (σ : administration) :
    resize_function_symbol_hashtable w memory σ ≠ .error (.out_of_memory what) := by
  intro h
  unfold resize_function_symbol_hashtable at h
  simp only at h
  split at h
  · exact rehash_entries_not_out_of_memory w what _ _ _ h
  · cases h

theorem idx_find_symbol_not_out_of_memory (σ : administration) (name : List Nat) (arity_ : Nat)
    (what : String) :
    ∀ (fuel : Nat) (head : Option Nat),
      find_symbol σ name arity_ fuel head ≠ .error (.out_of_memory what) := by
  intro fuel
  induction fuel with
  | zero =>
    intro head h
    cases head with
    | none => simp [find_symbol] at h
    | some c => simp [find_symbol] at h
  | succ fuel ih =>
    intro head h
    cases head with
    | none => simp [find_symbol] at h
    | some c =>
      rw [find_symbol] at h
      split at h
      · cases h
      · split at h
        · cases h
        · exact ih _ h

theorem idx_increase_reference_count_not_out_of_memory (c : Nat) (σ : administration)
    (what : String) : increase_reference_count c σ ≠ .error (.out_of_memory what) := by
  intro h
  unfold increase_reference_count at h
  split at h <;> cases h

theorem create_free_entry_out_of_memory (w : Nat) (memory : Nat → Bool) (σ : administration)
    (hfull : σ.function_lookup_table_actual_size ≤ σ.function_lookup_table_size)
    (hm : memory σ.allocations = false) :
    function_lookup_table_create_free_entry_at_end w memory σ
      = .error (.out_of_memory "Out of memory. Fail to resize function_lookup_table.") := by
  unfold function_lookup_table_create_free_entry_at_end
  rw [if_pos hfull, hm]
  rfl

theorem create_free_entry_returns (w : Nat) (memory : Nat → Bool) (σ : administration)
    (hm : memory σ.allocations = true) :
    ∃ r, function_lookup_table_create_free_entry_at_end w memory σ = .ok r := by
  unfold function_lookup_table_create_free_entry_at_end
  rw [if_pos hm]
  split
  · exact ⟨_, rfl⟩
  · exact ⟨_, rfl⟩

theorem idx_insert_symbol_not_out_of_memory (w : Nat) (memory : Nat → Bool)
    (hm : ∀ k, memory k = true) (name : List Nat) (arity_ hnr : Nat) (σ : administration)
    (what : String) :
    insert_symbol w memory name arity_ hnr σ ≠ .error (.out_of_memory what) := by
  intro h
  unfold insert_symbol at h
  split at h
  · cases h
  · split at h
    · split at h
      · cases h
      · split at h
        · rename_i e he
          injection h with h
          subst h
          exact idx_increase_reference_count_not_out_of_memory _ _ what he
        · cases h
    · split at h
      · rename_i e he
        obtain ⟨r, hr⟩ := create_free_entry_returns w memory σ (hm _)
        rw [hr] at he
        cases he
      · split at h
        · split at h
          · rename_i e he
            injection h with h
            subst h
            exact idx_increase_reference_count_not_out_of_memory _ _ what he
          · cases h
        · cases h

theorem idx_lookup_or_insert_not_out_of_memory (w : Nat)
    (memory : Nat → Bool) (hm : ∀ k, memory k = true) (name : List Nat) (arity_ : Nat)
    (σ : administration) (what : String) :
    function_symbol_lookup_or_insert w memory name arity_ σ
      ≠ .error (.out_of_memory what) := by
  intro h
  unfold function_symbol_lookup_or_insert at h
  split at h
  · rename_i e he
    injection h with h
    subst h
    split at he
    · exact idx_resize_not_out_of_memory w memory what σ he
    · cases he
  · simp only at h
    split at h
    · cases h
    · split at h
      · rename_i e he
        injection h with h
        subst h
        exact idx_find_symbol_not_out_of_memory _ _ _ what _ _ he
      · split at h
        · rename_i e he
          injection h with h
          subst h
          exact idx_increase_reference_count_not_out_of_memory _ _ what he
        · cases h
      · exact idx_insert_symbol_not_out_of_memory w memory hm name arity_ _ _ what h

theorem idx_builtin_not_out_of_memory (what : String)
    (construct : List Nat → Nat → administration → Except failure (Nat × administration))
    (hc : ∀ name arity_ σ, construct name arity_ σ ≠ .error (.out_of_memory what)) :
    ∀ (rest : List (List Nat × Nat)) (σ : administration),
      initialise_function_symbols construct rest σ ≠ .error (.out_of_memory what) := by
  intro rest
  induction rest with
  | nil => intro σ h; rw [initialise_function_symbols] at h; cases h
  | cons first rest ih =>
    intro σ h
    obtain ⟨name, arity_⟩ := first
    rw [initialise_function_symbols] at h
    split at h
    · rename_i e he
      injection h with h
      subst h
      exact hc _ _ _ he
    · exact ih _ h

theorem idx_initialise_not_out_of_memory (memory : Nat → Bool)
    (hm : ∀ k, memory k = true) (builtin : List (List Nat × Nat)) (what : String)
    (construct : List Nat → Nat → administration → Except failure (Nat × administration))
    (hc : ∀ name arity_ σ, construct name arity_ σ ≠ .error (.out_of_memory what))
    (σ : administration) :
    initialise_administration memory builtin construct σ
      ≠ .error (.out_of_memory what) := by
  intro h
  unfold initialise_administration at h
  simp only [hm, if_true] at h
  split at h
  · exact idx_builtin_not_out_of_memory what construct hc _ _ h
  · cases h

theorem idx_function_symbol_not_out_of_memory (w : Nat)
    (memory : Nat → Bool) (hm : ∀ k, memory k = true) (builtin : List (List Nat × Nat))
    (what : String) :
    ∀ (depth : Nat) (name : List Nat) (arity_ : Nat) (σ : administration),
      function_symbol w memory builtin depth name arity_ σ
        ≠ .error (.out_of_memory what) := by
  intro depth
  induction depth with
  | zero => intro name arity_ σ h; rw [function_symbol] at h; cases h
  | succ depth ih =>
    intro name arity_ σ h
    rw [function_symbol] at h
    split at h
    · rename_i e he
      injection h with h
      subst h
      split at he
      · exact idx_initialise_not_out_of_memory memory hm builtin what _ ih σ he
      · cases he
    · exact idx_lookup_or_insert_not_out_of_memory w memory hm name arity_ _ what h

theorem idx_initialise_out_of_memory (memory : Nat → Bool)
    (builtin : List (List Nat × Nat))
    (construct : List Nat → Nat → administration → Except failure (Nat × administration))
    (σ : administration) (hz : σ.function_symbol_table_size = 0) :
    (memory σ.allocations = false →
      initialise_administration memory builtin construct σ
        = .error (.out_of_memory "Out of memory. Cannot create function symbol hashtable.")) ∧
    (memory σ.allocations = true → memory (σ.allocations + 1) = false →
      initialise_administration memory builtin construct σ
        = .error (.out_of_memory "Out of memory. Cannot create function lookup table.")) := by
  refine ⟨?_, ?_⟩
  · intro h0
    unfold initialise_administration
    rw [if_pos hz, h0]
    rfl
  · intro h0 h1
    unfold initialise_administration
    rw [if_pos hz, if_pos h0, h1]
    rfl

end index_build

namespace pointer_build

/-! ## The invariant of the pointer build -/

theorem getElem?_lt_of_some {α : Type} (l : List α) (i : Nat) (a : α) (h : l[i]? = some a) :
    i < l.length := by
  by_contra hcon
  rw [List.getElem?_eq_none (by omega)] at h
  cases h

theorem wf_congr (P : block_macros) (w : Nat) (σ σ' : administration)
    (hσ : well_formed P w σ)
    (h1 : σ'.function_symbol_table_size = σ.function_symbol_table_size)
    (h2 : σ'.function_symbol_table_mask = σ.function_symbol_table_mask)
    (h3 : σ'.function_symbol_hashtable = σ.function_symbol_hashtable)
    (h4 : σ'.function_symbol_index_table_size = σ.function_symbol_index_table_size)
    (h5 : σ'.function_symbol_free_list = σ.function_symbol_free_list)
    (h6 : σ'.index_table_capacity = σ.index_table_capacity)
    (hlen : σ'.function_symbol_index_table.length = σ.function_symbol_index_table.length)
    (hrec : ∀ (i : Nat) (e : _function_symbol), σ.function_symbol_index_table[i]? = some e →
      ∃ e', σ'.function_symbol_index_table[i]? = some e' ∧ e'.next = e.next ∧
        e'.name = e.name ∧ e'.arity = e.arity ∧
        (e'.reference_count = 0 ↔ e.reference_count = 0)) :
    well_formed P w σ' := by
  have hback : ∀ (i : Nat) (e' : _function_symbol),
      σ'.function_symbol_index_table[i]? = some e' →
      ∃ e, σ.function_symbol_index_table[i]? = some e ∧ e'.next = e.next ∧
        e'.name = e.name ∧ e'.arity = e.arity ∧
        (e'.reference_count = 0 ↔ e.reference_count = 0) := by
    intro i e' he'
    have hi := getElem?_lt_of_some _ _ _ he'
    rw [hlen] at hi
    obtain ⟨e'', h1, h2⟩ := hrec i _ (List.getElem?_eq_getElem hi)
    rw [he'] at h1
    injection h1 with h1
    subst h1
    exact ⟨_, List.getElem?_eq_getElem hi, h2⟩
  have hchain : ∀ (hd : Option Nat) (l : List Nat),
      chain σ.function_symbol_index_table hd l →
      chain σ'.function_symbol_index_table hd l := by
    intro hd l hc
    apply ptr_chain_congr _ _ l hd hc
    intro i _ e he
    obtain ⟨e', a, b, _⟩ := hrec i e he
    exact ⟨e', a, b⟩
  constructor
  · rw [h1]; exact hσ.size_pow
  · rw [h1]; exact hσ.size_bound
  · rw [h1, h2]; exact hσ.mask_eq
  · rw [h1, h3]; exact hσ.hashtable_length
  · rw [h6]; exact hσ.capacity_eq
  · rw [h4]; exact hσ.blocks_le
  · rw [hlen, h4]; exact hσ.table_length
  · obtain ⟨F, hF, hmem⟩ := hσ.free_chain
    refine ⟨F, by rw [h5]; exact hchain _ _ hF, ?_⟩
    intro i
    rw [hmem]
    constructor
    · rintro ⟨e, he, hd⟩
      obtain ⟨e', a, _, _, _, b⟩ := hrec i e he
      exact ⟨e', a, b.mpr hd⟩
    · rintro ⟨e', he', hd⟩
      obtain ⟨e, a, _, _, _, b⟩ := hback i e' he'
      exact ⟨e, a, b.mp hd⟩
  · intro b hb
    rw [h1] at hb
    obtain ⟨head, L, hh, hL, hmem⟩ := hσ.buckets b hb
    refine ⟨head, L, by rw [h3]; exact hh, hchain _ _ hL, ?_⟩
    intro i
    rw [hmem, h2]
    constructor
    · rintro ⟨e, he, hl, hbk⟩
      obtain ⟨e', a, _, b1, b2, b3⟩ := hrec i e he
      refine ⟨e', a, ?_, by rw [b1, b2]; exact hbk⟩
      by_contra hcon
      have := b3.mp (by omega)
      omega
    · rintro ⟨e', he', hl, hbk⟩
      obtain ⟨e, a, _, b1, b2, b3⟩ := hback i e' he'
      refine ⟨e, a, ?_, by rw [← b1, ← b2]; exact hbk⟩
      by_contra hcon
      have := b3.mpr (by omega)
      omega
  · intro i j ei ej hi hj hli hlj hn ha
    obtain ⟨ei0, a1, _, a2, a3, a4⟩ := hback i ei hi
    obtain ⟨ej0, b1, _, b2, b3, b4⟩ := hback j ej hj
    refine hσ.unique i j ei0 ej0 a1 b1 ?_ ?_ (by rw [← a2, ← b2]; exact hn)
      (by rw [← a3, ← b3]; exact ha)
    · by_contra hcon
      have := a4.mpr (by omega)
      omega
    · by_contra hcon
      have := b4.mpr (by omega)
      omega

theorem wf_set_count (P : block_macros) (w : Nat) (σ : administration)
    (hσ : well_formed P w σ) (c : Nat) (e : _function_symbol) (count : Nat)
    (he : σ.function_symbol_index_table[c]? = some e)
    (hcount : count = 0 ↔ e.reference_count = 0) :
    well_formed P w
      { σ with
        function_symbol_index_table := σ.function_symbol_index_table.set c
          { e with reference_count := count } } := by
  have hc := getElem?_lt_of_some _ _ _ he
  refine wf_congr P w σ _ hσ rfl rfl rfl rfl rfl rfl ?_ ?_
  · simp only [List.length_set]
  · intro i e0 he0
    by_cases hic : c = i
    · subst hic
      rw [he] at he0
      injection he0 with he0
      subst he0
      exact ⟨_, List.getElem?_set_self hc, rfl, rfl, rfl, hcount⟩
    · exact ⟨e0, by simp only; rw [List.getElem?_set_ne hic]; exact he0, rfl, rfl, rfl,
        Iff.rfl⟩

theorem wf_pos (P : block_macros) (w : Nat) (σ : administration) (hσ : well_formed P w σ) :
    0 < σ.function_symbol_table_size := by
  obtain ⟨k, hk⟩ := hσ.size_pow
  rw [hk]
  exact Nat.two_pow_pos k

theorem wf_bucket_lt (P : block_macros) (w : Nat) (σ : administration)
    (hσ : well_formed P w σ) (h : Nat) :
    h &&& σ.function_symbol_table_mask < σ.function_symbol_table_size := by
  rw [hσ.mask_eq]
  have := @Nat.and_le_right h (σ.function_symbol_table_size - 1)
  have := wf_pos P w σ hσ
  omega

theorem wf_resize (P : block_macros) (w : Nat) (memory : Nat → Bool)
    (hP : P.FUNCTION_SYMBOL_BLOCK_CLASS + 9 ≤ w) (σ σ' : administration)
    (hσ : well_formed P w σ)
    (hdue : 2 * σ.function_symbol_table_size < 2 ^ (P.FUNCTION_SYMBOL_BLOCK_CLASS + 9))
    (h : resize_function_symbol_hashtable P w memory σ = .ok σ') :
    well_formed P w σ' ∧
    σ'.function_symbol_index_table_size = σ.function_symbol_index_table_size ∧
    σ'.function_symbol_free_list = σ.function_symbol_free_list ∧
    σ'.function_symbol_index_table.length = σ.function_symbol_index_table.length ∧
    (∀ (i : Nat) (e : _function_symbol), σ.function_symbol_index_table[i]? = some e →
      ∃ next, σ'.function_symbol_index_table[i]? = some { e with next := next }) ∧
    (∀ (i : Nat) (e : _function_symbol), σ.function_symbol_index_table[i]? = some e →
      e.reference_count = 0 → σ'.function_symbol_index_table[i]? = some e) := by
  have hpw : 2 ^ (P.FUNCTION_SYMBOL_BLOCK_CLASS + 9) ≤ 2 ^ w :=
    Nat.pow_le_pow_right (by decide) hP
  have hw : 2 * σ.function_symbol_table_size < 2 ^ w := by omega
  have hT := wf_pos P w σ hσ
  by_cases hm : memory σ.allocations = true
  · obtain ⟨σ1, hrun, hr⟩ := ptr_resize_spec P w memory σ hT hw hm hσ.table_length
    rw [hrun] at h
    injection h with h
    subst h
    have hsize : σ1.function_symbol_table_size = 2 * σ.function_symbol_table_size :=
      hr.table_size
    have hmask : σ1.function_symbol_table_mask = 2 * σ.function_symbol_table_size - 1 :=
      hr.table_mask
    have hrec : ∀ (i : Nat) (e : _function_symbol),
        σ.function_symbol_index_table[i]? = some e →
        ∃ next, σ1.function_symbol_index_table[i]? = some { e with next := next } :=
      fun i e he => hr.records i e he
    have hlen : σ1.function_symbol_index_table.length
        = σ.function_symbol_index_table.length := hr.table_length
    have hback : ∀ (i : Nat) (e' : _function_symbol),
        σ1.function_symbol_index_table[i]? = some e' →
        ∃ e, σ.function_symbol_index_table[i]? = some e ∧ e'.name = e.name ∧
          e'.arity = e.arity ∧ e'.reference_count = e.reference_count := by
      intro i e' he'
      have hi := getElem?_lt_of_some _ _ _ he'
      rw [hlen] at hi
      obtain ⟨nx, h1⟩ := hrec i _ (List.getElem?_eq_getElem hi)
      rw [he'] at h1
      injection h1 with h1
      subst h1
      exact ⟨_, List.getElem?_eq_getElem hi, rfl, rfl, rfl⟩
    refine ⟨?_, hr.index_table_size, hr.free_list, hlen, hrec, hr.released⟩
    constructor
    · obtain ⟨k, hk⟩ := hσ.size_pow
      exact ⟨k + 1, by rw [hsize, hk, Nat.pow_succ]; omega⟩
    · rw [hsize]; exact hdue
    · rw [hsize, hmask]
    · rw [hr.hashtable_length, hsize]
      simp only [List.length_replicate]
    · rw [hr.capacity]; exact hσ.capacity_eq
    · rw [hr.index_table_size]; exact hσ.blocks_le
    · rw [hlen, hr.index_table_size]; exact hσ.table_length
    · obtain ⟨F, hF, hmem⟩ := hσ.free_chain
      refine ⟨F, ?_, ?_⟩
      · rw [hr.free_list]
        apply ptr_chain_congr _ _ F _ hF
        intro i hi e he
        obtain ⟨e0, he0, hd⟩ := (hmem i).mp hi
        rw [he] at he0
        injection he0 with he0
        subst he0
        exact ⟨e, hr.released i e he hd, rfl⟩
      · intro i
        rw [hmem]
        constructor
        · rintro ⟨e, he, hd⟩
          exact ⟨e, hr.released i e he hd, hd⟩
        · rintro ⟨e', he', hd⟩
          obtain ⟨e, a, _, _, b⟩ := hback i e' he'
          exact ⟨e, a, by rw [← b]; exact hd⟩
    · intro b hb
      obtain ⟨head, hh, hc⟩ := hr.chains b
        (by rw [hr.hashtable_length]; simp only [List.length_replicate]; rw [← hsize]; exact hb)
      refine ⟨head, _, hh, hc, ?_⟩
      intro i
      rw [live_members_spec, hmask]
      constructor
      · rintro ⟨_, e, he, hl, hbk⟩
        obtain ⟨nx, hnx⟩ := hrec i e he
        exact ⟨_, hnx, hl, hbk⟩
      · rintro ⟨e', he', hl, hbk⟩
        obtain ⟨e, a, b1, b2, b3⟩ := hback i e' he'
        refine ⟨getElem?_lt_of_some _ _ _ a, e, a, by rw [← b3]; exact hl, ?_⟩
        rw [← b1, ← b2]
        exact hbk
    · intro i j ei ej hi hj hli hlj hn ha
      obtain ⟨ei0, a1, a2, a3, a4⟩ := hback i ei hi
      obtain ⟨ej0, b1, b2, b3, b4⟩ := hback j ej hj
      exact hσ.unique i j ei0 ej0 a1 b1 (by rw [← a4]; exact hli) (by rw [← b4]; exact hlj)
        (by rw [← a2, ← b2]; exact hn) (by rw [← a3, ← b3]; exact ha)
  · simp only [Bool.not_eq_true] at hm
    rw [ptr_resize_failure P w memory σ hw hm] at h
    injection h with h
    subst h
    refine ⟨?_, rfl, rfl, rfl, fun i e he => ⟨e.next, he⟩, fun i e he _ => he⟩
    exact wf_congr P w σ _ hσ rfl rfl rfl rfl rfl rfl rfl
      (fun i e he => ⟨e, he, rfl, rfl, rfl, Iff.rfl⟩)

end pointer_build

namespace pointer_build

/-! ## A new block -/

theorem clear_block_spec (base : Nat) : ∀ (i : Nat) (σ : administration) (F : List Nat),
    base + i ≤ σ.function_symbol_index_table.length →
    chain σ.function_symbol_index_table σ.function_symbol_free_list F →
    (∀ x ∈ F, x < base ∨ base + i ≤ x) →
    chain (clear_block base i σ).function_symbol_index_table
      (clear_block base i σ).function_symbol_free_list (List.range' base i ++ F) ∧
    (∀ x, x < base ∨ base + i ≤ x →
      (clear_block base i σ).function_symbol_index_table[x]?
        = σ.function_symbol_index_table[x]?) ∧
    (∀ x, base ≤ x → x < base + i →
      ∃ nx, (clear_block base i σ).function_symbol_index_table[x]?
        = some ⟨0, [], 0, nx, x⟩) := by
  intro i
  induction i with
  | zero =>
    intro σ F _ hF _
    refine ⟨?_, fun _ _ => rfl, fun x h1 h2 => by omega⟩
    simpa [clear_block] using hF
  | succ i ih =>
    intro σ F hlen hF hout
    rw [clear_block]
    have hlt : base + i < σ.function_symbol_index_table.length := by omega
    have hF1 : chain
        (σ.function_symbol_index_table.set (base + i)
          ⟨0, [], 0, σ.function_symbol_free_list, base + i⟩)
        (some (base + i)) ((base + i) :: F) := by
      refine chain.cons (base + i) _ F (List.getElem?_set_self hlt) ?_
      apply ptr_chain_congr _ _ F _ hF
      intro x hx e he
      have : base + i ≠ x := by
        rcases hout x hx with h | h <;> omega
      exact ⟨e, by rw [List.getElem?_set_ne this]; exact he, rfl⟩
    obtain ⟨a1, a2, a3⟩ := ih
      { σ with
        function_symbol_index_table := σ.function_symbol_index_table.set (base + i)
          ⟨0, [], 0, σ.function_symbol_free_list, base + i⟩
        function_symbol_free_list := some (base + i) }
      ((base + i) :: F)
      (by simp only [List.length_set]; omega) hF1
      (by
        intro x hx
        rcases List.mem_cons.mp hx with h | h
        · right; omega
        · rcases hout x h with h' | h'
          · left; exact h'
          · right; omega)
    refine ⟨?_, ?_, ?_⟩
    · rw [List.range'_1_concat, List.append_assoc]
      exact a1
    · intro x hx
      rw [a2 x (hx.elim (fun h => Or.inl h) (fun h => Or.inr (by omega)))]
      simp only
      rw [List.getElem?_set_ne (by rcases hx with h | h <;> omega)]
    · intro x hx1 hx2
      by_cases hxi : x = base + i
      · subst hxi
        rw [a2 (base + i) (Or.inr (le_refl _))]
        exact ⟨_, List.getElem?_set_self hlt⟩
      · exact a3 x hx1 (by omega)

theorem wf_create_block (P : block_macros) (w : Nat) (memory : Nat → Bool)
    (σ σ' : administration) (hσ : well_formed P w σ)
    (hfree : σ.function_symbol_free_list = none)
    (h : create_new_function_symbol_block P memory σ = .ok σ') :
    well_formed P w σ' ∧
    σ'.function_symbol_table_size = σ.function_symbol_table_size ∧
    σ'.function_symbol_table_mask = σ.function_symbol_table_mask ∧
    σ'.function_symbol_hashtable = σ.function_symbol_hashtable ∧
    σ'.function_symbol_index_table_size = σ.function_symbol_index_table_size + 1 ∧
    σ.function_symbol_index_table_size < σ.index_table_capacity ∧
    (∃ F, chain σ'.function_symbol_index_table σ'.function_symbol_free_list F ∧
      F.length = P.FUNCTION_SYMBOL_BLOCK_SIZE) ∧
    (∀ (i : Nat) (e : _function_symbol), σ'.function_symbol_index_table[i]? = some e →
      0 < e.reference_count → σ.function_symbol_index_table[i]? = some e) ∧
    (∀ (i : Nat) (e : _function_symbol), σ.function_symbol_index_table[i]? = some e →
      σ'.function_symbol_index_table[i]? = some e) := by
  obtain ⟨f1, f2, f3, f4, f5, _, f7, f8, f9⟩ :=
    create_new_function_symbol_block_frame P memory σ σ' h
  unfold create_new_function_symbol_block at h
  rw [if_pos f8, if_pos f9] at h
  injection h with h
  have hbase : P.FUNCTION_SYMBOL_BLOCK_SIZE * σ.function_symbol_index_table_size
      = σ.function_symbol_index_table.length := hσ.table_length.symm
  rw [hbase] at h
  obtain ⟨c1, c2, c3⟩ := clear_block_spec σ.function_symbol_index_table.length
    P.FUNCTION_SYMBOL_BLOCK_SIZE
    { σ with
      function_symbol_index_table :=
        σ.function_symbol_index_table ++ List.replicate P.FUNCTION_SYMBOL_BLOCK_SIZE
          { arity := 0, name := [], reference_count := 0, next := none, number := 0 }
      allocations := σ.allocations + 1 } []
    (by simp only [List.length_append, List.length_replicate]; omega)
    (by simp only; rw [hfree]; exact chain.nil)
    (by intro x hx; simp at hx)
  have htab : σ'.function_symbol_index_table
      = (clear_block σ.function_symbol_index_table.length P.FUNCTION_SYMBOL_BLOCK_SIZE
        { σ with
          function_symbol_index_table :=
            σ.function_symbol_index_table ++ List.replicate P.FUNCTION_SYMBOL_BLOCK_SIZE
              { arity := 0, name := [], reference_count := 0, next := none, number := 0 }
          allocations := σ.allocations + 1 }).function_symbol_index_table := by
    rw [← h]
  have hfl : σ'.function_symbol_free_list
      = (clear_block σ.function_symbol_index_table.length P.FUNCTION_SYMBOL_BLOCK_SIZE
        { σ with
          function_symbol_index_table :=
            σ.function_symbol_index_table ++ List.replicate P.FUNCTION_SYMBOL_BLOCK_SIZE
              { arity := 0, name := [], reference_count := 0, next := none, number := 0 }
          allocations := σ.allocations + 1 }).function_symbol_free_list := by
    rw [← h]
  rw [← htab] at c1 c2 c3
  rw [← hfl] at c1
  simp only [List.append_nil] at c1
  simp only at c2
  -- the old records are unchanged, the new ones are cleared
  have hold : ∀ x, x < σ.function_symbol_index_table.length →
      σ'.function_symbol_index_table[x]? = σ.function_symbol_index_table[x]? := by
    intro x hx
    rw [c2 x (Or.inl hx), List.getElem?_append_left hx]
  have hFold : ∀ (i : Nat) (e : _function_symbol),
      σ.function_symbol_index_table[i]? = some e →
      0 < e.reference_count := by
    intro i e he
    by_contra hcon
    obtain ⟨F, hF, hmem⟩ := hσ.free_chain
    rw [hfree] at hF
    cases hF
    have := (hmem i).mpr ⟨e, he, by omega⟩
    simp at this
  have hlive : ∀ (i : Nat) (e : _function_symbol),
      σ'.function_symbol_index_table[i]? = some e →
      0 < e.reference_count → σ.function_symbol_index_table[i]? = some e := by
    intro i e he hl
    by_cases hi : i < σ.function_symbol_index_table.length
    · rw [← hold i hi]; exact he
    · have hi' := getElem?_lt_of_some _ _ _ he
      rw [f7] at hi'
      obtain ⟨nx, hnx⟩ := c3 i (by omega) hi'
      rw [he] at hnx
      injection hnx with hnx
      subst hnx
      simp at hl
  have hkeep : ∀ (i : Nat) (e : _function_symbol),
      σ.function_symbol_index_table[i]? = some e →
      σ'.function_symbol_index_table[i]? = some e := by
    intro i e he
    rw [hold i (getElem?_lt_of_some _ _ _ he)]
    exact he
  have hchain : ∀ (hd : Option Nat) (l : List Nat),
      chain σ.function_symbol_index_table hd l →
      chain σ'.function_symbol_index_table hd l := by
    intro hd l hc
    apply ptr_chain_congr _ _ l hd hc
    intro i _ e he
    exact ⟨e, hkeep i e he, rfl⟩
  refine ⟨?_, f1, f2, f3, f4, f8, ⟨_, c1, by simp⟩, hlive, hkeep⟩
  constructor
  · rw [f1]; exact hσ.size_pow
  · rw [f1]; exact hσ.size_bound
  · rw [f1, f2]; exact hσ.mask_eq
  · rw [f1, f3]; exact hσ.hashtable_length
  · rw [f5]; exact hσ.capacity_eq
  · rw [f4]
    have := hσ.capacity_eq
    unfold INITIAL_FUNCTION_INDEX_TABLE_SIZE at this ⊢
    omega
  · rw [f7, f4, Nat.mul_add, Nat.mul_one, hbase]
  · refine ⟨_, c1, ?_⟩
    intro i
    rw [List.mem_range'_1]
    constructor
    · rintro ⟨h1, h2⟩
      obtain ⟨nx, hnx⟩ := c3 i h1 h2
      exact ⟨_, hnx, rfl⟩
    · rintro ⟨e, he, hd⟩
      have hi' := getElem?_lt_of_some _ _ _ he
      rw [f7] at hi'
      refine ⟨?_, hi'⟩
      by_contra hcon
      have hi : i < σ.function_symbol_index_table.length := by omega
      rw [hold i hi] at he
      have := hFold i e he
      omega
  · intro b hb
    rw [f1] at hb
    obtain ⟨head, L, hh, hL, hmem⟩ := hσ.buckets b hb
    refine ⟨head, L, by rw [f3]; exact hh, hchain _ _ hL, ?_⟩
    intro i
    rw [hmem, f2]
    constructor
    · rintro ⟨e, he, hl, hbk⟩
      exact ⟨e, hkeep i e he, hl, hbk⟩
    · rintro ⟨e, he, hl, hbk⟩
      exact ⟨e, hlive i e he hl, hl, hbk⟩
  · intro i j ei ej hi hj hli hlj hn ha
    exact hσ.unique i j ei ej (hlive i ei hi hli) (hlive j ej hj hlj) hli hlj hn ha

end pointer_build

namespace pointer_build

/-! ## Linking a new symbol -/

theorem wf_link (P : block_macros) (w : Nat) (memory : Nat → Bool) (σ : administration)
    (hσ : well_formed P w σ) (name : List Nat) (arity_ : Nat) (cur : Nat)
    (entry : _function_symbol) (head : Option Nat)
    (hfree : σ.function_symbol_free_list = some cur)
    (hentry : σ.function_symbol_index_table[cur]? = some entry)
    (hhead : σ.function_symbol_hashtable[calculate_hash_of_function_symbol w name arity_
      &&& σ.function_symbol_table_mask]? = some head)
    (hfresh : ∀ (i : Nat) (e : _function_symbol), σ.function_symbol_index_table[i]? = some e →
      0 < e.reference_count → ¬ (e.arity = arity_ ∧ e.name = name)) :
    insert_symbol P memory name arity_
        (calculate_hash_of_function_symbol w name arity_ &&& σ.function_symbol_table_mask) σ
      = .ok (cur,
        { σ with
          function_symbol_free_list := entry.next
          function_symbol_index_table := σ.function_symbol_index_table.set cur
            ⟨arity_, name, 1, head, entry.number⟩
          function_symbol_hashtable := σ.function_symbol_hashtable.set
            (calculate_hash_of_function_symbol w name arity_ &&& σ.function_symbol_table_mask)
            (some cur) }) ∧
    well_formed P w
      { σ with
        function_symbol_free_list := entry.next
        function_symbol_index_table := σ.function_symbol_index_table.set cur
          ⟨arity_, name, 1, head, entry.number⟩
        function_symbol_hashtable := σ.function_symbol_hashtable.set
          (calculate_hash_of_function_symbol w name arity_ &&& σ.function_symbol_table_mask)
          (some cur) } := by
  have hcur := getElem?_lt_of_some _ _ _ hentry
  obtain ⟨F, hF, hFmem⟩ := hσ.free_chain
  have hdead : entry.reference_count = 0 := by
    rw [hfree] at hF
    cases hF with
    | cons _ e rest he _ =>
      obtain ⟨e0, he0, hd⟩ := (hFmem cur).mp (List.mem_cons_self _ _)
      rw [hentry] at he0
      injection he0 with he0
      rw [he0]
      exact hd
  generalize hb : calculate_hash_of_function_symbol w name arity_
    &&& σ.function_symbol_table_mask = hnr at hhead
  have hhnr : hnr < σ.function_symbol_hashtable.length := getElem?_lt_of_some _ _ _ hhead
  constructor
  · unfold insert_symbol
    rw [if_neg (by rw [hfree]; exact fun h => by cases h)]
    simp only [hfree, hentry, hhead]
    unfold increase_reference_count
    simp only [List.getElem?_set_self hcur, List.set_set, hdead]
  · -- the records other than `cur` are untouched
    have hother : ∀ i, i ≠ cur →
        (σ.function_symbol_index_table.set cur ⟨arity_, name, 1, head, entry.number⟩)[i]?
          = σ.function_symbol_index_table[i]? :=
      fun i hi => List.getElem?_set_ne (fun h => hi h.symm)
    have hnew : (σ.function_symbol_index_table.set cur
        ⟨arity_, name, 1, head, entry.number⟩)[cur]?
          = some ⟨arity_, name, 1, head, entry.number⟩ := List.getElem?_set_self hcur
    have hchain : ∀ (hd : Option Nat) (l : List Nat), cur ∉ l →
        chain σ.function_symbol_index_table hd l →
        chain (σ.function_symbol_index_table.set cur ⟨arity_, name, 1, head, entry.number⟩)
          hd l := by
      intro hd l hl hc
      apply ptr_chain_congr _ _ l hd hc
      intro i hi e he
      have : i ≠ cur := fun h => hl (h ▸ hi)
      exact ⟨e, by rw [hother i this]; exact he, rfl⟩
    have hlivecur : ∀ (L : List Nat),
        (∀ i, i ∈ L → ∃ e, σ.function_symbol_index_table[i]? = some e ∧
          0 < e.reference_count) → cur ∉ L := by
      intro L hL hmem
      obtain ⟨e, he, hl⟩ := hL cur hmem
      rw [hentry] at he
      injection he with he
      rw [← he] at hl
      omega
    constructor
    · exact hσ.size_pow
    · exact hσ.size_bound
    · exact hσ.mask_eq
    · simp only [List.length_set]; exact hσ.hashtable_length
    · exact hσ.capacity_eq
    · exact hσ.blocks_le
    · simp only [List.length_set]; exact hσ.table_length
    · rw [hfree] at hF
      cases hF with
      | cons _ e rest he hrest =>
        rw [hentry] at he
        injection he with he
        subst he
        have hnd := ptr_chain_nodup _ _ _ (chain.cons cur entry rest hentry hrest)
        have hcr : cur ∉ rest := (List.nodup_cons.mp hnd).1
        refine ⟨rest, hchain _ _ hcr hrest, ?_⟩
        intro i
        simp only
        constructor
        · intro hi
          have hic : i ≠ cur := fun h => hcr (h ▸ hi)
          obtain ⟨e, he, hd⟩ := (hFmem i).mp (List.mem_cons_of_mem _ hi)
          exact ⟨e, by rw [hother i hic]; exact he, hd⟩
        · rintro ⟨e, he, hd⟩
          by_cases hic : i = cur
          · subst hic
            rw [hnew] at he
            injection he with he
            subst he
            simp at hd
          · rw [hother i hic] at he
            rcases List.mem_cons.mp ((hFmem i).mpr ⟨e, he, hd⟩) with h | h
            · exact absurd h hic
            · exact h
    · intro b hblt
      simp only at hblt ⊢
      obtain ⟨hd, L, hh, hL, hmem⟩ := hσ.buckets b hblt
      have hcL : cur ∉ L := hlivecur L (fun i hi => by
        obtain ⟨e, he, hl, _⟩ := (hmem i).mp hi
        exact ⟨e, he, hl⟩)
      by_cases hbb : hnr = b
      · subst hbb
        rw [hhead] at hh
        injection hh with hh
        subst hh
        refine ⟨some cur, cur :: L, List.getElem?_set_self hhnr, ?_, ?_⟩
        · exact chain.cons cur _ L hnew (hchain _ _ hcL hL)
        · intro i
          rw [List.mem_cons, hmem]
          constructor
          · rintro (h | ⟨e, he, hl, hbk⟩)
            · subst h
              exact ⟨_, hnew, by simp, hb⟩
            · have hic : i ≠ cur := by
                intro h
                subst h
                rw [hentry] at he
                injection he with he
                rw [← he] at hl
                omega
              exact ⟨e, by rw [hother i hic]; exact he, hl, hbk⟩
          · rintro ⟨e, he, hl, hbk⟩
            by_cases hic : i = cur
            · exact Or.inl hic
            · rw [hother i hic] at he
              exact Or.inr ⟨e, he, hl, hbk⟩
      · refine ⟨hd, L, by rw [List.getElem?_set_ne hbb]; exact hh, hchain _ _ hcL hL, ?_⟩
        intro i
        rw [hmem]
        constructor
        · rintro ⟨e, he, hl, hbk⟩
          have hic : i ≠ cur := by
            intro h
            subst h
            rw [hentry] at he
            injection he with he
            rw [← he] at hl
            omega
          exact ⟨e, by rw [hother i hic]; exact he, hl, hbk⟩
        · rintro ⟨e, he, hl, hbk⟩
          by_cases hic : i = cur
          · subst hic
            rw [hnew] at he
            injection he with he
            subst he
            simp only at hbk
            exact absurd (hb.symm.trans hbk) hbb
          · rw [hother i hic] at he
            exact ⟨e, he, hl, hbk⟩
    · intro i j ei ej hi hj hli hlj hn ha
      simp only at hi hj
      by_cases hic : i = cur
      · by_cases hjc : j = cur
        · rw [hic, hjc]
        · subst hic
          rw [hnew] at hi
          injection hi with hi
          subst hi
          rw [hother j hjc] at hj
          exact absurd ⟨ha.symm, hn.symm⟩ (hfresh j ej hj hlj)
      · by_cases hjc : j = cur
        · subst hjc
          rw [hnew] at hj
          injection hj with hj
          subst hj
          rw [hother i hic] at hi
          exact absurd ⟨ha, hn⟩ (hfresh i ei hi hli)
        · rw [hother i hic] at hi
          rw [hother j hjc] at hj
          exact hσ.unique i j ei ej hi hj hli hlj hn ha

theorem wf_miss_fresh (P : block_macros) (w : Nat) (σ : administration)
    (hσ : well_formed P w σ) (name : List Nat) (arity_ : Nat) (head : Option Nat)
    (hhead : σ.function_symbol_hashtable[calculate_hash_of_function_symbol w name arity_
      &&& σ.function_symbol_table_mask]? = some head) :
    (∃ r, find_symbol σ name arity_ (σ.function_symbol_index_table.length + 1) head
      = .ok r) ∧
    (find_symbol σ name arity_ (σ.function_symbol_index_table.length + 1) head = .ok none ↔
      ∀ (i : Nat) (e : _function_symbol), σ.function_symbol_index_table[i]? = some e →
        0 < e.reference_count → ¬ (e.arity = arity_ ∧ e.name = name)) ∧
    (∀ c, find_symbol σ name arity_ (σ.function_symbol_index_table.length + 1) head
        = .ok (some c) →
      ∃ e, σ.function_symbol_index_table[c]? = some e ∧ 0 < e.reference_count ∧
        e.arity = arity_ ∧ e.name = name) := by
  obtain ⟨hd, L, hh, hL, hmem⟩ := hσ.buckets _ (wf_bucket_lt P w σ hσ
    (calculate_hash_of_function_symbol w name arity_))
  rw [hhead] at hh
  injection hh with hh
  subst hh
  have hfind := ptr_find_symbol_chain σ name arity_ L head
    (σ.function_symbol_index_table.length + 1) hL
    (by have := ptr_chain_length_le _ _ _ hL; omega)
  rw [hfind]
  refine ⟨⟨_, rfl⟩, ?_, ?_⟩
  · constructor
    · intro hnone i e he hl hsym
      injection hnone with hnone
      rw [List.find?_eq_none] at hnone
      have hi : i ∈ L := (hmem i).mpr ⟨e, he, hl, by rw [hsym.1, hsym.2]⟩
      apply hnone i hi
      unfold is_symbol
      rw [he]
      simp [hsym]
    · intro hfresh
      congr 1
      rw [List.find?_eq_none]
      intro i hi hsym
      obtain ⟨e, he, hl, _⟩ := (hmem i).mp hi
      unfold is_symbol at hsym
      rw [he] at hsym
      simp only [decide_eq_true_eq] at hsym
      exact hfresh i e he hl hsym
  · intro c hc
    injection hc with hc
    have hcL := List.mem_of_find?_eq_some hc
    have hsym := List.find?_some hc
    obtain ⟨e, he, hl, _⟩ := (hmem c).mp hcL
    unfold is_symbol at hsym
    rw [he] at hsym
    simp only [decide_eq_true_eq] at hsym
    exact ⟨e, he, hl, hsym⟩

end pointer_build

namespace pointer_build

/-! ## The constructor on a well-formed table -/

theorem link_free_chain (table : List _function_symbol) (cur : Nat)
    (entry x : _function_symbol) (F : List Nat) (hentry : table[cur]? = some entry)
    (hF : chain table (some cur) F) : chain (table.set cur x) entry.next F.tail := by
  have hnd := ptr_chain_nodup _ _ _ hF
  cases hF with
  | cons _ e rest he hrest =>
    rw [hentry] at he
    injection he with he
    subst he
    have hcr : cur ∉ rest := (List.nodup_cons.mp hnd).1
    apply ptr_chain_congr _ _ rest _ hrest
    intro i hi e he
    have : cur ≠ i := fun h => hcr (h ▸ hi)
    exact ⟨e, by rw [List.getElem?_set_ne this]; exact he, rfl⟩

theorem wf_insert_free (P : block_macros) (w : Nat) (memory : Nat → Bool)
    (σ : administration) (hσ : well_formed P w σ) (name : List Nat) (arity_ : Nat)
    (s : Nat) (hs : σ.function_symbol_free_list = some s)
    (hfresh : ∀ (i : Nat) (e : _function_symbol), σ.function_symbol_index_table[i]? = some e →
      0 < e.reference_count → ¬ (e.arity = arity_ ∧ e.name = name)) :
    ∃ σ', insert_symbol P memory name arity_
        (calculate_hash_of_function_symbol w name arity_ &&& σ.function_symbol_table_mask) σ
        = .ok (s, σ') ∧
      well_formed P w σ' ∧
      σ'.function_symbol_table_size = σ.function_symbol_table_size ∧
      σ'.function_symbol_table_mask = σ.function_symbol_table_mask ∧
      σ'.function_symbol_index_table_size = σ.function_symbol_index_table_size ∧
      σ'.function_symbol_index_table.length = σ.function_symbol_index_table.length ∧
      (∃ nx nr, σ'.function_symbol_index_table[s]? = some ⟨arity_, name, 1, nx, nr⟩) ∧
      (∀ i, i ≠ s → σ'.function_symbol_index_table[i]? = σ.function_symbol_index_table[i]?) ∧
      (∀ F, chain σ.function_symbol_index_table (some s) F →
        chain σ'.function_symbol_index_table σ'.function_symbol_free_list F.tail) ∧
      (∀ entry, σ.function_symbol_index_table[s]? = some entry →
        σ'.function_symbol_free_list = entry.next) := by
  obtain ⟨F, hF, _⟩ := hσ.free_chain
  rw [hs] at hF
  obtain ⟨entry, hentry⟩ := ptr_chain_mem_valid _ _ _ hF s (by cases hF; exact List.mem_cons_self _ _)
  have hb := wf_bucket_lt P w σ hσ (calculate_hash_of_function_symbol w name arity_)
  rw [← hσ.hashtable_length] at hb
  obtain ⟨hrun, hwf⟩ := wf_link P w memory σ hσ name arity_ s entry _ hs hentry
    (List.getElem?_eq_getElem hb) hfresh
  refine ⟨_, hrun, hwf, rfl, rfl, rfl, by simp only [List.length_set], ?_, ?_, ?_, ?_⟩
  · exact ⟨_, _, List.getElem?_set_self (getElem?_lt_of_some _ _ _ hentry)⟩
  · intro i hi
    exact List.getElem?_set_ne (fun h => hi h.symm)
  · intro F' hF'
    exact link_free_chain _ s entry _ F' hentry hF'
  · intro entry' h'
    rw [hentry] at h'
    injection h' with h'
    rw [← h']

theorem insert_symbol_after_block (P : block_macros) (memory : Nat → Bool) (name : List Nat)
    (arity_ hnr : Nat) (σ σ1 : administration)
    (hfree : σ.function_symbol_free_list = none)
    (hc : create_new_function_symbol_block P memory σ = .ok σ1)
    (h1 : σ1.function_symbol_free_list ≠ none) :
    insert_symbol P memory name arity_ hnr σ = insert_symbol P memory name arity_ hnr σ1 := by
  unfold insert_symbol
  rw [if_pos hfree, hc, if_neg h1]

theorem insert_symbol_overrun (P : block_macros) (memory : Nat → Bool) (name : List Nat)
    (arity_ hnr : Nat) (σ : administration)
    (hfree : σ.function_symbol_free_list = none)
    (hfull : σ.index_table_capacity ≤ σ.function_symbol_index_table_size) :
    insert_symbol P memory name arity_ hnr σ = .error .undefined_behaviour := by
  unfold insert_symbol create_new_function_symbol_block
  rw [if_pos hfree, if_neg (by omega)]

theorem wf_insert_block (P : block_macros) (w : Nat) (memory : Nat → Bool)
    (σ σ1 : administration) (hσ : well_formed P w σ) (name : List Nat) (arity_ : Nat)
    (hBS : 0 < P.FUNCTION_SYMBOL_BLOCK_SIZE)
    (hfree : σ.function_symbol_free_list = none)
    (hc : create_new_function_symbol_block P memory σ = .ok σ1)
    (hfresh : ∀ (i : Nat) (e : _function_symbol), σ.function_symbol_index_table[i]? = some e →
      0 < e.reference_count → ¬ (e.arity = arity_ ∧ e.name = name)) :
    ∃ s σ', insert_symbol P memory name arity_
        (calculate_hash_of_function_symbol w name arity_ &&& σ.function_symbol_table_mask) σ
        = .ok (s, σ') ∧
      well_formed P w σ' ∧
      σ'.function_symbol_table_size = σ.function_symbol_table_size ∧
      σ'.function_symbol_table_mask = σ.function_symbol_table_mask ∧
      σ'.function_symbol_index_table_size = σ.function_symbol_index_table_size + 1 ∧
      σ.function_symbol_index_table_size < INITIAL_FUNCTION_INDEX_TABLE_SIZE ∧
      (∃ nx nr, σ'.function_symbol_index_table[s]? = some ⟨arity_, name, 1, nx, nr⟩) ∧
      (∀ (i : Nat) (e : _function_symbol), i ≠ s → σ'.function_symbol_index_table[i]? = some e →
        0 < e.reference_count → σ.function_symbol_index_table[i]? = some e) ∧
      (∀ (i : Nat) (e : _function_symbol), σ.function_symbol_index_table[i]? = some e →
        0 < e.reference_count → σ'.function_symbol_index_table[i]? = some e) ∧
      (∃ F, chain σ'.function_symbol_index_table σ'.function_symbol_free_list F ∧
        F.length + 1 = P.FUNCTION_SYMBOL_BLOCK_SIZE) := by
  obtain ⟨hwf1, b1, b2, b3, b4, b5, ⟨F, hF, hFlen⟩, b7, b8⟩ :=
    wf_create_block P w memory σ σ1 hσ hfree hc
  cases hfl : σ1.function_symbol_free_list with
  | none =>
    rw [hfl] at hF
    cases hF
    simp at hFlen
    omega
  | some s =>
    have hfresh1 : ∀ (i : Nat) (e : _function_symbol),
        σ1.function_symbol_index_table[i]? = some e →
        0 < e.reference_count → ¬ (e.arity = arity_ ∧ e.name = name) :=
      fun i e he hl => hfresh i e (b7 i e he hl) hl
    obtain ⟨σ', c1, c2, c3, c4, c5, c6, c7, c8, c9, _⟩ :=
      wf_insert_free P w memory σ1 hwf1 name arity_ s hfl hfresh1
    rw [hfl] at hF
    have hsdead : ∀ e, σ1.function_symbol_index_table[s]? = some e → e.reference_count = 0 := by
      intro e he
      obtain ⟨F1, hF1, hmem⟩ := hwf1.free_chain
      rw [hfl] at hF1
      have : s ∈ F1 := by cases hF1; exact List.mem_cons_self _ _
      obtain ⟨e0, he0, hd⟩ := (hmem s).mp this
      rw [he] at he0
      injection he0 with he0
      rw [he0]; exact hd
    refine ⟨s, σ', ?_, c2, by rw [c3, b1], by rw [c4, b2], by rw [c5, b4], ?_, c7, ?_, ?_, ?_⟩
    · rw [insert_symbol_after_block P memory name arity_ _ σ σ1 hfree hc
        (by rw [hfl]; exact fun h => by cases h), ← b2]
      exact c1
    · rw [← hσ.capacity_eq]; exact b5
    · intro i e hi he hl
      rw [c8 i hi] at he
      exact b7 i e he hl
    · intro i e he hl
      have h1 := b8 i e he
      have hi : i ≠ s := by
        intro h
        subst h
        have := hsdead e h1
        omega
      rw [c8 i hi]
      exact h1
    · refine ⟨F.tail, c9 F hF, ?_⟩
      cases hF
      simp only [List.tail_cons]
      simp only [List.length_cons] at hFlen
      exact hFlen

theorem wf_resize_step (P : block_macros) (w : Nat) (memory : Nat → Bool)
    (hP : P.FUNCTION_SYMBOL_BLOCK_CLASS + 9 ≤ w) (σ : administration)
    (hσ : well_formed P w σ) :
    ∃ σr, (if σ.function_symbol_index_table_size <<< (P.FUNCTION_SYMBOL_BLOCK_CLASS + 1) % 2 ^ w
          > σ.function_symbol_table_size
        then resize_function_symbol_hashtable P w memory σ else .ok σ) = .ok σr ∧
      well_formed P w σr ∧
      σr.function_symbol_index_table_size = σ.function_symbol_index_table_size ∧
      σr.function_symbol_free_list = σ.function_symbol_free_list ∧
      σr.function_symbol_index_table.length = σ.function_symbol_index_table.length ∧
      (∀ (i : Nat) (e : _function_symbol), σ.function_symbol_index_table[i]? = some e →
        ∃ next, σr.function_symbol_index_table[i]? = some { e with next := next }) ∧
      (∀ (i : Nat) (e : _function_symbol), σ.function_symbol_index_table[i]? = some e →
        e.reference_count = 0 → σr.function_symbol_index_table[i]? = some e) := by
  have hpw : 2 ^ (P.FUNCTION_SYMBOL_BLOCK_CLASS + 9) ≤ 2 ^ w :=
    Nat.pow_le_pow_right (by decide) hP
  have hp8 : 2 ^ (P.FUNCTION_SYMBOL_BLOCK_CLASS + 9)
      = 2 ^ (P.FUNCTION_SYMBOL_BLOCK_CLASS + 1) * 256 := by
    rw [show P.FUNCTION_SYMBOL_BLOCK_CLASS + 9 = (P.FUNCTION_SYMBOL_BLOCK_CLASS + 1) + 8 by omega,
      Nat.pow_add]
  by_cases ht : σ.function_symbol_index_table_size <<< (P.FUNCTION_SYMBOL_BLOCK_CLASS + 1) % 2 ^ w
      > σ.function_symbol_table_size
  · have hdue : 2 * σ.function_symbol_table_size < 2 ^ (P.FUNCTION_SYMBOL_BLOCK_CLASS + 9) := by
      have h1 : σ.function_symbol_index_table_size <<< (P.FUNCTION_SYMBOL_BLOCK_CLASS + 1) % 2 ^ w
          ≤ σ.function_symbol_index_table_size * 2 ^ (P.FUNCTION_SYMBOL_BLOCK_CLASS + 1) := by
        rw [Nat.shiftLeft_eq]
        exact Nat.mod_le _ _
      have h2 : σ.function_symbol_index_table_size * 2 ^ (P.FUNCTION_SYMBOL_BLOCK_CLASS + 1)
          ≤ 128 * 2 ^ (P.FUNCTION_SYMBOL_BLOCK_CLASS + 1) :=
        Nat.mul_le_mul_right _ hσ.blocks_le
      rw [hp8]
      omega
    rw [if_pos ht]
    have hret : ∃ σr, resize_function_symbol_hashtable P w memory σ = .ok σr := by
      by_cases hm : memory σ.allocations = true
      · obtain ⟨σ1, hrun, _⟩ := ptr_resize_spec P w memory σ (wf_pos P w σ hσ) (by omega) hm
          hσ.table_length
        exact ⟨σ1, hrun⟩
      · simp only [Bool.not_eq_true] at hm
        exact ⟨_, ptr_resize_failure P w memory σ (by omega) hm⟩
    obtain ⟨σr, hr⟩ := hret
    exact ⟨σr, hr, wf_resize P w memory hP σ σr hσ hdue hr⟩
  · rw [if_neg ht]
    exact ⟨σ, rfl, hσ, rfl, rfl, rfl, fun i e he => ⟨e.next, he⟩, fun i e he _ => he⟩

theorem wf_lookup_or_insert_cases (P : block_macros) (w : Nat) (memory : Nat → Bool)
    (hP : P.FUNCTION_SYMBOL_BLOCK_CLASS + 9 ≤ w) (σ : administration)
    (hσ : well_formed P w σ) (name : List Nat) (arity_ : Nat) :
    ∃ σr, well_formed P w σr ∧
      σr.function_symbol_index_table_size = σ.function_symbol_index_table_size ∧
      σr.function_symbol_free_list = σ.function_symbol_free_list ∧
      σr.function_symbol_index_table.length = σ.function_symbol_index_table.length ∧
      (∀ (i : Nat) (e : _function_symbol), σ.function_symbol_index_table[i]? = some e →
        ∃ next, σr.function_symbol_index_table[i]? = some { e with next := next }) ∧
      (∀ (i : Nat) (e : _function_symbol), σ.function_symbol_index_table[i]? = some e →
        e.reference_count = 0 → σr.function_symbol_index_table[i]? = some e) ∧
      ((∃ c e, σr.function_symbol_index_table[c]? = some e ∧ 0 < e.reference_count ∧
          e.arity = arity_ ∧ e.name = name ∧
          function_symbol_lookup_or_insert P w memory name arity_ σ
            = .ok (c, { σr with
              function_symbol_index_table := σr.function_symbol_index_table.set c
                { e with reference_count := e.reference_count + 1 } })) ∨
       ((∀ (i : Nat) (e : _function_symbol), σr.function_symbol_index_table[i]? = some e →
          0 < e.reference_count → ¬ (e.arity = arity_ ∧ e.name = name)) ∧
        function_symbol_lookup_or_insert P w memory name arity_ σ
          = insert_symbol P memory name arity_
            (calculate_hash_of_function_symbol w name arity_ &&& σr.function_symbol_table_mask)
            σr)) := by
  obtain ⟨σr, hstep, hwf, r1, r2, r3, r4, r5⟩ := wf_resize_step P w memory hP σ hσ
  refine ⟨σr, hwf, r1, r2, r3, r4, r5, ?_⟩
  have hb := wf_bucket_lt P w σr hwf (calculate_hash_of_function_symbol w name arity_)
  rw [← hwf.hashtable_length] at hb
  obtain ⟨⟨r, hr⟩, hnone, hsome⟩ := wf_miss_fresh P w σr hwf name arity_ _
    (List.getElem?_eq_getElem hb)
  cases r with
  | none =>
    right
    refine ⟨hnone.mp hr, ?_⟩
    unfold function_symbol_lookup_or_insert
    rw [hstep]
    simp only [List.getElem?_eq_getElem hb, hr]
  | some c =>
    left
    obtain ⟨e, he, hl, ha, hn⟩ := hsome c hr
    refine ⟨c, e, he, hl, ha, hn, ?_⟩
    unfold function_symbol_lookup_or_insert
    rw [hstep]
    simp only [List.getElem?_eq_getElem hb, hr, increase_reference_count, he]

end pointer_build

namespace pointer_build

theorem wf_lookup_or_insert (P : block_macros) (w : Nat) (memory : Nat → Bool)
    (hP : P.FUNCTION_SYMBOL_BLOCK_CLASS + 9 ≤ w) (name : List Nat) (arity_ : Nat)
    (σ σ' : administration) (handle : Nat) (hσ : well_formed P w σ)
    (h : function_symbol_lookup_or_insert P w memory name arity_ σ = .ok (handle, σ')) :
    well_formed P w σ' ∧
    (∃ e, σ'.function_symbol_index_table[handle]? = some e ∧ 0 < e.reference_count ∧
      e.arity = arity_ ∧ e.name = name) ∧
    (∀ (i : Nat) (e' : _function_symbol), i ≠ handle →
      σ'.function_symbol_index_table[i]? = some e' → 0 < e'.reference_count →
      ∃ e, σ.function_symbol_index_table[i]? = some e ∧ 0 < e.reference_count ∧
        e.arity = e'.arity ∧ e.name = e'.name) := by
  obtain ⟨σr, hwf, r1, r2, r3, r4, r5, hcases⟩ :=
    wf_lookup_or_insert_cases P w memory hP σ hσ name arity_
  have hback : ∀ (i : Nat) (e' : _function_symbol),
      σr.function_symbol_index_table[i]? = some e' →
      ∃ e, σ.function_symbol_index_table[i]? = some e ∧ e.reference_count = e'.reference_count ∧
        e.arity = e'.arity ∧ e.name = e'.name := by
    intro i e' he'
    have hi := getElem?_lt_of_some _ _ _ he'
    rw [r3] at hi
    obtain ⟨nx, h1⟩ := r4 i _ (List.getElem?_eq_getElem hi)
    rw [he'] at h1
    injection h1 with h1
    subst h1
    exact ⟨_, List.getElem?_eq_getElem hi, rfl, rfl, rfl⟩
  rcases hcases with ⟨c, e, he, hl, ha, hn, hrun⟩ | ⟨hfresh, hrun⟩
  · rw [hrun] at h
    injection h with h
    injection h with h1 h2
    subst h1
    subst h2
    have hc := getElem?_lt_of_some _ _ _ he
    refine ⟨wf_set_count P w σr hwf c e _ he (by omega), ?_, ?_⟩
    · exact ⟨_, List.getElem?_set_self hc, by simp, ha, hn⟩
    · intro i e' hi he' hl'
      simp only at he'
      rw [List.getElem?_set_ne (fun h => hi h.symm)] at he'
      obtain ⟨e0, a, b, c1, d⟩ := hback i e' he'
      exact ⟨e0, a, by omega, c1, d⟩
  · rw [hrun] at h
    cases hfl : σr.function_symbol_free_list with
    | some s =>
      obtain ⟨σ2, c1, c2, _, _, _, _, ⟨nx, nr, c7⟩, c8, _⟩ :=
        wf_insert_free P w memory σr hwf name arity_ s hfl hfresh
      rw [c1] at h
      injection h with h
      injection h with h1 h2
      subst h1
      subst h2
      refine ⟨c2, ⟨_, c7, by simp, rfl, rfl⟩, ?_⟩
      intro i e' hi he' hl'
      rw [c8 i hi] at he'
      obtain ⟨e0, a, b, c1, d⟩ := hback i e' he'
      exact ⟨e0, a, by omega, c1, d⟩
    | none =>
      cases hc : create_new_function_symbol_block P memory σr with
      | error err =>
        unfold insert_symbol at h
        rw [if_pos hfl, hc] at h
        cases h
      | ok σ1 =>
        have hBS : 0 < P.FUNCTION_SYMBOL_BLOCK_SIZE := by
          by_contra hcon
          obtain ⟨_, _, _, _, _, _, ⟨F, hF, hFlen⟩, _, _⟩ :=
            wf_create_block P w memory σr σ1 hwf hfl hc
          have hF0 : F = [] := List.eq_nil_of_length_eq_zero (by omega)
          subst hF0
          cases hfl1 : σ1.function_symbol_free_list with
          | none =>
            unfold insert_symbol at h
            rw [if_pos hfl, hc] at h
            simp only [hfl1] at h
            cases h
          | some x =>
            rw [hfl1] at hF
            cases hF
        obtain ⟨s, σ2, c1, c2, _, _, _, _, ⟨nx, nr, c7⟩, c8, _, _⟩ :=
          wf_insert_block P w memory σr σ1 hwf name arity_ hBS hfl hc hfresh
        rw [c1] at h
        injection h with h
        injection h with h1 h2
        subst h1
        subst h2
        refine ⟨c2, ⟨_, c7, by simp, rfl, rfl⟩, ?_⟩
        intro i e' hi he' hl'
        obtain ⟨e0, a, b, c1, d⟩ := hback i e' (c8 i e' hi he' hl')
        exact ⟨e0, a, by omega, c1, d⟩

/-! ## Releasing a handle of a well-formed table -/

theorem wf_free (P : block_macros) (w : Nat) (σ : administration) (hσ : well_formed P w σ)
    (m : Nat) (e : _function_symbol)
    (he : σ.function_symbol_index_table[m]? = some e) (hlive : 0 < e.reference_count) :
    ∃ σ', free_function_symbol w m
        { σ with
          function_symbol_index_table := σ.function_symbol_index_table.set m
            { e with reference_count := 0 } } = .ok σ' ∧
      well_formed P w σ' ∧
      σ'.function_symbol_free_list = some m ∧
      σ'.function_symbol_index_table_size = σ.function_symbol_index_table_size ∧
      σ'.function_symbol_index_table.length = σ.function_symbol_index_table.length ∧
      σ'.function_symbol_table_size = σ.function_symbol_table_size ∧
      σ'.function_symbol_table_mask = σ.function_symbol_table_mask ∧
      σ'.function_symbol_index_table[m]?
        = some { e with reference_count := 0, next := σ.function_symbol_free_list } ∧
      (∀ (i : Nat) (x : _function_symbol), i ≠ m → σ.function_symbol_index_table[i]? = some x →
        ∃ nx, σ'.function_symbol_index_table[i]? = some { x with next := nx }) := by
  have hm := getElem?_lt_of_some _ _ _ he
  have hb := wf_bucket_lt P w σ hσ (calculate_hash_of_function_symbol w e.name e.arity)
  obtain ⟨head, L, hh, hL, hmem⟩ := hσ.buckets _ hb
  have hmL : m ∈ L := (hmem m).mpr ⟨e, he, hlive, rfl⟩
  -- the state in which the count has reached zero
  have hset : ∀ i, i ≠ m →
      (σ.function_symbol_index_table.set m { e with reference_count := 0 })[i]?
        = σ.function_symbol_index_table[i]? :=
    fun i hi => List.getElem?_set_ne (fun h => hi h.symm)
  have hsetm : (σ.function_symbol_index_table.set m { e with reference_count := 0 })[m]?
      = some { e with reference_count := 0 } := List.getElem?_set_self hm
  have hL1 : chain (σ.function_symbol_index_table.set m { e with reference_count := 0 })
      head L := by
    apply ptr_chain_congr _ _ L _ hL
    intro i _ x hx
    by_cases hi : i = m
    · subst hi
      rw [he] at hx
      injection hx with hx
      subst hx
      exact ⟨_, hsetm, rfl⟩
    · exact ⟨x, by rw [hset i hi]; exact hx, rfl⟩
  obtain ⟨σ', head', f1, f2, f3, f4, f5, f6, f7, f8, f9, f10, f11, f12, _, f14, f15⟩ :=
    ptr_free_function_symbol_spec w m
      { σ with
        function_symbol_index_table := σ.function_symbol_index_table.set m
          { e with reference_count := 0 } }
      { e with reference_count := 0 } head L hsetm hh hL1 hmL
  simp only [List.length_set] at f2 f3 f4 f5 f6 f7 f8 f9 f10 f11 f12 f14 f15
  have hrec : ∀ (i : Nat) (x : _function_symbol), i ≠ m →
      σ.function_symbol_index_table[i]? = some x →
      ∃ nx, σ'.function_symbol_index_table[i]? = some { x with next := nx } := by
    intro i x hi hx
    exact f10 i x hi (by rw [hset i hi]; exact hx)
  have hback : ∀ (i : Nat) (x' : _function_symbol), i ≠ m →
      σ'.function_symbol_index_table[i]? = some x' →
      ∃ x, σ.function_symbol_index_table[i]? = some x ∧ x'.name = x.name ∧
        x'.arity = x.arity ∧ x'.reference_count = x.reference_count := by
    intro i x' hi hx'
    have hlt := getElem?_lt_of_some _ _ _ hx'
    rw [f5] at hlt
    obtain ⟨nx, h1⟩ := hrec i _ hi (List.getElem?_eq_getElem hlt)
    rw [hx'] at h1
    injection h1 with h1
    subst h1
    exact ⟨_, List.getElem?_eq_getElem hlt, rfl, rfl, rfl⟩
  have hkeep : ∀ i, i ∉ L → σ'.function_symbol_index_table[i]? = σ.function_symbol_index_table[i]? := by
    intro i hi
    rw [f9 i hi]
    exact hset i (fun h => hi (h ▸ hmL))
  refine ⟨σ', f1, ?_, f14, f11, f5, f2, f3, f15, hrec⟩
  obtain ⟨F, hF, hFmem⟩ := hσ.free_chain
  have hFL : ∀ i, i ∈ F → i ∉ L := by
    intro i hi hiL
    obtain ⟨x, hx, hd⟩ := (hFmem i).mp hi
    obtain ⟨y, hy, hl, _⟩ := (hmem i).mp hiL
    rw [hx] at hy
    injection hy with hy
    subst hy
    omega
  constructor
  · rw [f2]; exact hσ.size_pow
  · rw [f2]; exact hσ.size_bound
  · rw [f2, f3]; exact hσ.mask_eq
  · rw [f4, f2]; exact hσ.hashtable_length
  · rw [f12]; exact hσ.capacity_eq
  · rw [f11]; exact hσ.blocks_le
  · rw [f5, f11]; exact hσ.table_length
  · refine ⟨m :: F, ?_, ?_⟩
    · rw [f14]
      refine chain.cons m _ F f15 ?_
      apply ptr_chain_congr _ _ F _ hF
      intro i hi x hx
      exact ⟨x, by rw [hkeep i (hFL i hi)]; exact hx, rfl⟩
    · intro i
      rw [List.mem_cons, hFmem]
      constructor
      · rintro (h | ⟨x, hx, hd⟩)
        · subst h
          exact ⟨_, f15, rfl⟩
        · have hi : i ≠ m := by
            intro h
            subst h
            rw [he] at hx
            injection hx with hx
            subst hx
            omega
          obtain ⟨nx, hnx⟩ := hrec i x hi hx
          exact ⟨_, hnx, hd⟩
      · rintro ⟨x', hx', hd⟩
        by_cases hi : i = m
        · exact Or.inl hi
        · obtain ⟨x, a, _, _, b⟩ := hback i x' hi hx'
          exact Or.inr ⟨x, a, by rw [← b]; exact hd⟩
  · intro b hblt
    rw [f2] at hblt
    by_cases hbb : b = calculate_hash_of_function_symbol w e.name e.arity
        &&& σ.function_symbol_table_mask
    · subst hbb
      refine ⟨head', L.erase m, f6, f7, ?_⟩
      intro i
      have hnd := ptr_chain_nodup _ _ _ hL
      rw [hnd.mem_erase_iff, hmem, f3]
      constructor
      · rintro ⟨hi, x, hx, hl, hbk⟩
        obtain ⟨nx, hnx⟩ := hrec i x hi hx
        exact ⟨_, hnx, hl, hbk⟩
      · rintro ⟨x', hx', hl, hbk⟩
        have hi : i ≠ m := by
          intro h
          subst h
          rw [f15] at hx'
          injection hx' with hx'
          subst hx'
          simp at hl
        obtain ⟨x, a, b1, b2, b3⟩ := hback i x' hi hx'
        exact ⟨hi, x, a, by rw [← b3]; exact hl, by rw [← b1, ← b2]; exact hbk⟩
    · obtain ⟨hd, Lb, hhb, hLb, hmemb⟩ := hσ.buckets b hblt
      have hdis : ∀ i, i ∈ Lb → i ∉ L := by
        intro i hi hiL
        obtain ⟨x, hx, _, hbx⟩ := (hmemb i).mp hi
        obtain ⟨y, hy, _, hby⟩ := (hmem i).mp hiL
        rw [hx] at hy
        injection hy with hy
        subst hy
        exact hbb (hbx.symm.trans hby)
      refine ⟨hd, Lb, by rw [f8 b hbb]; exact hhb, ?_, ?_⟩
      · apply ptr_chain_congr _ _ Lb _ hLb
        intro i hi x hx
        exact ⟨x, by rw [hkeep i (hdis i hi)]; exact hx, rfl⟩
      · intro i
        rw [hmemb, f3]
        constructor
        · rintro ⟨x, hx, hl, hbk⟩
          have hi : i ≠ m := by
            intro h
            subst h
            rw [he] at hx
            injection hx with hx
            subst hx
            exact hbb hbk.symm
          obtain ⟨nx, hnx⟩ := hrec i x hi hx
          exact ⟨_, hnx, hl, hbk⟩
        · rintro ⟨x', hx', hl, hbk⟩
          have hi : i ≠ m := by
            intro h
            subst h
            rw [f15] at hx'
            injection hx' with hx'
            subst hx'
            simp at hl
          obtain ⟨x, a, b1, b2, b3⟩ := hback i x' hi hx'
          exact ⟨x, a, by rw [← b3]; exact hl, by rw [← b1, ← b2]; exact hbk⟩
  · intro i j ei ej hi hj hli hlj hn ha
    have him : i ≠ m := by
      intro h
      subst h
      rw [f15] at hi
      injection hi with hi
      subst hi
      simp at hli
    have hjm : j ≠ m := by
      intro h
      subst h
      rw [f15] at hj
      injection hj with hj
      subst hj
      simp at hlj
    obtain ⟨xi, a1, a2, a3, a4⟩ := hback i ei him hi
    obtain ⟨xj, b1, b2, b3, b4⟩ := hback j ej hjm hj
    exact hσ.unique i j xi xj a1 b1 (by rw [← a4]; exact hli) (by rw [← b4]; exact hlj)
      (by rw [← a2, ← b2]; exact hn) (by rw [← a3, ← b3]; exact ha)

theorem wf_release (P : block_macros) (w : Nat) (σ : administration) (hσ : well_formed P w σ)
    (m : Nat) (e : _function_symbol)
    (he : σ.function_symbol_index_table[m]? = some e) (hlive : 0 < e.reference_count) :
    ∃ σ', decrease_reference_count w m σ = .ok σ' ∧ well_formed P w σ' := by
  unfold decrease_reference_count
  rw [he]
  simp only
  by_cases hz : (e.reference_count + (2 ^ w - 1)) % 2 ^ w = 0
  · rw [if_pos hz, hz]
    obtain ⟨σ', h1, h2, _⟩ := wf_free P w σ hσ m e he hlive
    exact ⟨σ', h1, h2⟩
  · rw [if_neg hz]
    exact ⟨_, rfl, wf_set_count P w σ hσ m e _ he (by omega)⟩

end pointer_build

namespace pointer_build

/-! ## Every reachable table is well-formed -/

theorem wf_blank (P : block_macros) (w : Nat) (hP : P.FUNCTION_SYMBOL_BLOCK_CLASS + 9 ≤ w) :
    well_formed P w
      { administration.start with
        function_symbol_table_size := INITIAL_FUNCTION_HASH_TABLE_SIZE P w
        function_symbol_table_mask :=
          (INITIAL_FUNCTION_HASH_TABLE_SIZE P w + (2 ^ w - 1)) % 2 ^ w
        function_symbol_hashtable :=
          List.replicate (INITIAL_FUNCTION_HASH_TABLE_SIZE P w) none
        index_table_capacity := INITIAL_FUNCTION_INDEX_TABLE_SIZE
        function_symbol_index_table_size := 0
        allocations := administration.start.allocations + 2 } := by
  have hsize := ptr_initial_size P w hP
  have hpos : 0 < 2 ^ P.FUNCTION_SYMBOL_BLOCK_CLASS := Nat.two_pow_pos _
  have hlt : 2 ^ P.FUNCTION_SYMBOL_BLOCK_CLASS < 2 ^ w :=
    Nat.pow_lt_pow_right (by decide) (by omega)
  have hmask : (2 ^ P.FUNCTION_SYMBOL_BLOCK_CLASS + (2 ^ w - 1)) % 2 ^ w
      = 2 ^ P.FUNCTION_SYMBOL_BLOCK_CLASS - 1 := by
    rw [show 2 ^ P.FUNCTION_SYMBOL_BLOCK_CLASS + (2 ^ w - 1)
      = (2 ^ P.FUNCTION_SYMBOL_BLOCK_CLASS - 1) + 2 ^ w by omega, Nat.add_mod_right]
    exact Nat.mod_eq_of_lt (by omega)
  rw [hsize, hmask]
  constructor
  · exact ⟨_, rfl⟩
  · exact Nat.pow_lt_pow_right (by decide) (by omega)
  · rfl
  · simp only [List.length_replicate]
  · rfl
  · exact Nat.zero_le _
  · simp only [administration.start, List.length_nil, Nat.mul_zero]
  · refine ⟨[], chain.nil, ?_⟩
    intro i
    simp [administration.start]
  · intro b hb
    simp only at hb
    refine ⟨none, [], ?_, chain.nil, ?_⟩
    · simp only
      rw [List.getElem?_replicate]
      simp [hb]
    · intro i
      simp [administration.start]
  · intro i j ei ej hi
    simp [administration.start] at hi

theorem wf_builtin (P : block_macros) (w : Nat) (memory : Nat → Bool)
    (hP : P.FUNCTION_SYMBOL_BLOCK_CLASS + 9 ≤ w) (builtin : List (List Nat × Nat))
    (depth : Nat) :
    ∀ (rest : List (List Nat × Nat)) (σ σ' : administration), well_formed P w σ →
      initialise_function_symbols (function_symbol P w memory builtin depth) rest σ = .ok σ' →
      well_formed P w σ' := by
  intro rest
  induction rest with
  | nil =>
    intro σ σ' hσ h
    rw [initialise_function_symbols] at h
    injection h with h
    rw [← h]
    exact hσ
  | cons p rest ih =>
    intro σ σ' hσ h
    obtain ⟨name, arity_⟩ := p
    rw [initialise_function_symbols] at h
    cases depth with
    | zero =>
      rw [function_symbol] at h
      cases h
    | succ d =>
      have hne : σ.function_symbol_table_size ≠ 0 := by
        have := wf_pos P w σ hσ
        omega
      rw [ptr_function_symbol_initialised P w memory builtin d name arity_ σ hne] at h
      cases hc : function_symbol_lookup_or_insert P w memory name arity_ σ with
      | error err =>
        rw [hc] at h
        cases h
      | ok r =>
        obtain ⟨handle, σ1⟩ := r
        rw [hc] at h
        exact ih σ1 σ' (wf_lookup_or_insert P w memory hP name arity_ σ σ1 handle hσ hc).1 h

theorem wf_initialise (P : block_macros) (w : Nat) (memory : Nat → Bool)
    (hP : P.FUNCTION_SYMBOL_BLOCK_CLASS + 9 ≤ w) (builtin : List (List Nat × Nat))
    (depth : Nat) (σ' : administration)
    (h : initialise_administration P w memory builtin
      (function_symbol P w memory builtin depth) administration.start = .ok σ') :
    well_formed P w σ' := by
  unfold initialise_administration at h
  rw [if_pos (show administration.start.function_symbol_table_size = 0 from rfl)] at h
  split at h
  · split at h
    · cases hc : create_new_function_symbol_block P memory
          { administration.start with
            function_symbol_table_size := INITIAL_FUNCTION_HASH_TABLE_SIZE P w
            function_symbol_table_mask :=
              (INITIAL_FUNCTION_HASH_TABLE_SIZE P w + (2 ^ w - 1)) % 2 ^ w
            function_symbol_hashtable :=
              List.replicate (INITIAL_FUNCTION_HASH_TABLE_SIZE P w) none
            index_table_capacity := INITIAL_FUNCTION_INDEX_TABLE_SIZE
            function_symbol_index_table_size := 0
            allocations := administration.start.allocations + 2 } with
      | error err =>
        rw [hc] at h
        cases h
      | ok σ1 =>
        rw [hc] at h
        have hwf1 := (wf_create_block P w memory _ σ1 (wf_blank P w hP) rfl hc).1
        exact wf_builtin P w memory hP builtin depth builtin σ1 σ' hwf1 h
    · cases h
  · cases h

theorem wf_function_symbol (P : block_macros) (w : Nat) (memory : Nat → Bool)
    (hP : P.FUNCTION_SYMBOL_BLOCK_CLASS + 9 ≤ w) (builtin : List (List Nat × Nat))
    (depth : Nat) (name : List Nat) (arity_ : Nat) (σ σ' : administration) (handle : Nat)
    (hσ : σ = administration.start ∨ well_formed P w σ)
    (h : function_symbol P w memory builtin depth name arity_ σ = .ok (handle, σ')) :
    well_formed P w σ' ∧
    ∃ e, σ'.function_symbol_index_table[handle]? = some e ∧ 0 < e.reference_count ∧
      e.arity = arity_ ∧ e.name = name := by
  cases depth with
  | zero =>
    rw [function_symbol] at h
    cases h
  | succ d =>
    rcases hσ with hσ | hσ
    · subst hσ
      rw [function_symbol,
        if_pos (show administration.start.function_symbol_table_size = 0 from rfl)] at h
      cases hi : initialise_administration P w memory builtin
          (function_symbol P w memory builtin d) administration.start with
      | error err =>
        rw [hi] at h
        cases h
      | ok σ1 =>
        rw [hi] at h
        have hwf1 := wf_initialise P w memory hP builtin d σ1 hi
        have := wf_lookup_or_insert P w memory hP name arity_ σ1 σ' handle hwf1 h
        exact ⟨this.1, this.2.1⟩
    · have hne : σ.function_symbol_table_size ≠ 0 := by
        have := wf_pos P w σ hσ
        omega
      rw [ptr_function_symbol_initialised P w memory builtin d name arity_ σ hne] at h
      have := wf_lookup_or_insert P w memory hP name arity_ σ σ' handle hσ h
      exact ⟨this.1, this.2.1⟩

theorem reachable_well_formed (P : block_macros) (w : Nat) (memory : Nat → Bool)
    (hP : P.FUNCTION_SYMBOL_BLOCK_CLASS + 9 ≤ w) (builtin : List (List Nat × Nat))
    (σ : administration) (h : reachable P w memory builtin σ) :
    σ = administration.start ∨ well_formed P w σ := by
  induction h with
  | start => exact Or.inl rfl
  | construct σ σ' depth name arity_ handle _ hrun ih =>
    exact Or.inr (wf_function_symbol P w memory hP builtin depth name arity_ σ σ' handle ih hrun).1
  | copy σ σ' handle e _ he hl hrun ih =>
    right
    rcases ih with ih | ih
    · subst ih
      simp [administration.start] at he
    · obtain ⟨e0, he0, hσ'⟩ := ptr_increase_reference_count_spec handle σ σ' hrun
      rw [he] at he0
      injection he0 with he0
      subst he0
      rw [hσ']
      exact wf_set_count P w σ ih handle e _ he (by omega)
  | release σ σ' handle e _ he hl hrun ih =>
    right
    rcases ih with ih | ih
    · subst ih
      simp [administration.start] at he
    · obtain ⟨σ2, h1, h2⟩ := wf_release P w σ ih handle e he hl
      rw [hrun] at h1
      injection h1 with h1
      rw [h1]
      exact h2

end pointer_build

namespace pointer_build

/-! ## New symbols on a well-formed table -/

theorem free_chain_kept (P : block_macros) (w : Nat) (σ : administration)
    (hσ : well_formed P w σ) (table' : List _function_symbol)
    (hrel : ∀ (i : Nat) (e : _function_symbol), σ.function_symbol_index_table[i]? = some e →
      e.reference_count = 0 → table'[i]? = some e)
    (F : List Nat) (hF : chain σ.function_symbol_index_table σ.function_symbol_free_list F) :
    chain table' σ.function_symbol_free_list F := by
  obtain ⟨F0, hF0, hmem⟩ := hσ.free_chain
  have := ptr_chain_unique _ _ _ _ hF hF0
  subst this
  apply ptr_chain_congr _ _ F _ hF
  intro i hi e he
  obtain ⟨e0, he0, hd⟩ := (hmem i).mp hi
  rw [he] at he0
  injection he0 with he0
  subst he0
  exact ⟨e, hrel i e he hd, rfl⟩

theorem fresh_after_resize (σ σr : administration) (name : List Nat) (arity_ : Nat)
    (r3 : σr.function_symbol_index_table.length = σ.function_symbol_index_table.length)
    (r4 : ∀ (i : Nat) (e : _function_symbol), σ.function_symbol_index_table[i]? = some e →
      ∃ next, σr.function_symbol_index_table[i]? = some { e with next := next })
    (hfresh : ∀ (i : Nat) (e : _function_symbol), σ.function_symbol_index_table[i]? = some e →
      0 < e.reference_count → ¬ (e.arity = arity_ ∧ e.name = name)) :
    ∀ (i : Nat) (e : _function_symbol), σr.function_symbol_index_table[i]? = some e →
      0 < e.reference_count → ¬ (e.arity = arity_ ∧ e.name = name) := by
  intro i e' he' hl
  have hi := getElem?_lt_of_some _ _ _ he'
  rw [r3] at hi
  obtain ⟨nx, h1⟩ := r4 i _ (List.getElem?_eq_getElem hi)
  rw [he'] at h1
  injection h1 with h1
  subst h1
  exact hfresh i (σ.function_symbol_index_table[i]) (List.getElem?_eq_getElem hi) hl

theorem wf_miss (P : block_macros) (w : Nat) (memory : Nat → Bool)
    (hP : P.FUNCTION_SYMBOL_BLOCK_CLASS + 9 ≤ w) (σ : administration)
    (hσ : well_formed P w σ) (name : List Nat) (arity_ : Nat)
    (hfresh : ∀ (i : Nat) (e : _function_symbol), σ.function_symbol_index_table[i]? = some e →
      0 < e.reference_count → ¬ (e.arity = arity_ ∧ e.name = name)) :
    ∃ σr, well_formed P w σr ∧
      σr.function_symbol_index_table_size = σ.function_symbol_index_table_size ∧
      σr.function_symbol_free_list = σ.function_symbol_free_list ∧
      σr.function_symbol_index_table.length = σ.function_symbol_index_table.length ∧
      (∀ (i : Nat) (e : _function_symbol), σ.function_symbol_index_table[i]? = some e →
        e.reference_count = 0 → σr.function_symbol_index_table[i]? = some e) ∧
      (∀ (i : Nat) (e : _function_symbol), σr.function_symbol_index_table[i]? = some e →
        0 < e.reference_count → ¬ (e.arity = arity_ ∧ e.name = name)) ∧
      function_symbol_lookup_or_insert P w memory name arity_ σ
        = insert_symbol P memory name arity_
          (calculate_hash_of_function_symbol w name arity_ &&& σr.function_symbol_table_mask)
          σr := by
  obtain ⟨σr, hwf, r1, r2, r3, r4, r5, hcases⟩ :=
    wf_lookup_or_insert_cases P w memory hP σ hσ name arity_
  have hfr := fresh_after_resize σ σr name arity_ r3 r4 hfresh
  rcases hcases with ⟨c, e, he, hl, ha, hn, _⟩ | ⟨_, hrun⟩
  · exact absurd ⟨ha, hn⟩ (hfr c e he hl)
  · exact ⟨σr, hwf, r1, r2, r3, r5, hfr, hrun⟩

/-- On a well-formed table whose free list starts with record `s`, the constructor for a
symbol that no referenced record carries returns `s`, takes `s` from the free list and creates
no block. -/
theorem wf_construct_reuses (P : block_macros) (w : Nat) (memory : Nat → Bool)
    (hP : P.FUNCTION_SYMBOL_BLOCK_CLASS + 9 ≤ w) (σ : administration)
    (hσ : well_formed P w σ) (name : List Nat) (arity_ : Nat) (s : Nat)
    (entry : _function_symbol)
    (hs : σ.function_symbol_free_list = some s)
    (hentry : σ.function_symbol_index_table[s]? = some entry)
    (hfresh : ∀ (i : Nat) (e : _function_symbol), σ.function_symbol_index_table[i]? = some e →
      0 < e.reference_count → ¬ (e.arity = arity_ ∧ e.name = name)) :
    ∃ σ' nx nr, function_symbol_lookup_or_insert P w memory name arity_ σ = .ok (s, σ') ∧
      well_formed P w σ' ∧
      σ'.function_symbol_index_table[s]? = some ⟨arity_, name, 1, nx, nr⟩ ∧
      σ'.function_symbol_free_list = entry.next ∧
      σ'.function_symbol_index_table_size = σ.function_symbol_index_table_size ∧
      σ'.function_symbol_index_table.length = σ.function_symbol_index_table.length ∧
      (∀ F, chain σ.function_symbol_index_table (some s) F →
        chain σ'.function_symbol_index_table σ'.function_symbol_free_list F.tail) := by
  obtain ⟨σr, hwf, r1, r2, r3, r5, hfr, hrun⟩ := wf_miss P w memory hP σ hσ name arity_ hfresh
  have hdead : entry.reference_count = 0 := by
    obtain ⟨F, hF, hmem⟩ := hσ.free_chain
    rw [hs] at hF
    have : s ∈ F := by cases hF; exact List.mem_cons_self _ _
    obtain ⟨e0, he0, hd⟩ := (hmem s).mp this
    rw [hentry] at he0
    injection he0 with he0
    rw [he0]; exact hd
  obtain ⟨σ', c1, c2, _, _, c5, c6, ⟨nx, nr, c7⟩, _, c9, c10⟩ :=
    wf_insert_free P w memory σr hwf name arity_ s (by rw [r2]; exact hs) hfr
  refine ⟨σ', nx, nr, by rw [hrun]; exact c1, c2, c7, c10 entry (r5 s entry hentry hdead),
    by rw [c5, r1], by rw [c6, r3], ?_⟩
  intro F hF
  apply c9
  have := free_chain_kept P w σ hσ σr.function_symbol_index_table r5 F (by rw [hs]; exact hF)
  rw [hs] at this
  exact this

/-- On a well-formed table with an empty free list and fewer than 128 blocks, the constructor
for a symbol that no referenced record carries creates a block. -/
theorem wf_construct_block (P : block_macros) (w : Nat) (memory : Nat → Bool)
    (hP : P.FUNCTION_SYMBOL_BLOCK_CLASS + 9 ≤ w) (hBS : 0 < P.FUNCTION_SYMBOL_BLOCK_SIZE)
    (hmem : ∀ k, memory k = true) (σ : administration)
    (hσ : well_formed P w σ) (name : List Nat) (arity_ : Nat)
    (hs : σ.function_symbol_free_list = none)
    (hroom : σ.function_symbol_index_table_size < INITIAL_FUNCTION_INDEX_TABLE_SIZE)
    (hfresh : ∀ (i : Nat) (e : _function_symbol), σ.function_symbol_index_table[i]? = some e →
      0 < e.reference_count → ¬ (e.arity = arity_ ∧ e.name = name)) :
    ∃ handle σ', function_symbol_lookup_or_insert P w memory name arity_ σ = .ok (handle, σ') ∧
      σ'.function_symbol_index_table_size = σ.function_symbol_index_table_size + 1 ∧
      (∃ F, chain σ'.function_symbol_index_table σ'.function_symbol_free_list F ∧
        F.length + 1 = P.FUNCTION_SYMBOL_BLOCK_SIZE) := by
  obtain ⟨σr, hwf, r1, r2, r3, r5, hfr, hrun⟩ := wf_miss P w memory hP σ hσ name arity_ hfresh
  obtain ⟨σ1, hc⟩ := create_block_returns P memory σr
    (by rw [hwf.capacity_eq, r1]; exact hroom) (hmem _)
  obtain ⟨handle, σ', c1, _, _, _, c5, _, _, _, _, c10⟩ :=
    wf_insert_block P w memory σr σ1 hwf name arity_ hBS (by rw [r2]; exact hs) hc hfr
  exact ⟨handle, σ', by rw [hrun]; exact c1, by rw [c5, r1], c10⟩

/-- On a well-formed table with an empty free list and 128 blocks, the constructor for a
symbol that no referenced record carries calls `create_new_function_symbol_block()`, which
writes `function_symbol_index_table[128]`. -/
theorem wf_construct_overrun (P : block_macros) (w : Nat) (memory : Nat → Bool)
    (hP : P.FUNCTION_SYMBOL_BLOCK_CLASS + 9 ≤ w) (σ : administration)
    (hσ : well_formed P w σ) (name : List Nat) (arity_ : Nat)
    (hs : σ.function_symbol_free_list = none)
    (hfull : σ.function_symbol_index_table_size = INITIAL_FUNCTION_INDEX_TABLE_SIZE)
    (hfresh : ∀ (i : Nat) (e : _function_symbol), σ.function_symbol_index_table[i]? = some e →
      0 < e.reference_count → ¬ (e.arity = arity_ ∧ e.name = name)) :
    function_symbol_lookup_or_insert P w memory name arity_ σ = .error .undefined_behaviour := by
  obtain ⟨σr, hwf, r1, r2, r3, r5, hfr, hrun⟩ := wf_miss P w memory hP σ hσ name arity_ hfresh
  rw [hrun]
  exact insert_symbol_overrun P memory name arity_ _ σr (by rw [r2]; exact hs)
    (by rw [hwf.capacity_eq, r1, hfull])

/-- Let `n` be the number of records that can still be handed out before a block beyond the
128th is needed: the records on the free list and those of the blocks not yet created. The
client that constructs `n` new symbols and keeps the handles ends with 128 blocks and an empty
free list. -/
theorem wf_construct_fresh (P : block_macros) (w : Nat) (memory : Nat → Bool)
    (hP : P.FUNCTION_SYMBOL_BLOCK_CLASS + 9 ≤ w) (hBS : 0 < P.FUNCTION_SYMBOL_BLOCK_SIZE)
    (hmem : ∀ k, memory k = true) (builtin : List (List Nat × Nat)) (name : List Nat) :
    ∀ (n : Nat) (σ : administration) (M : Nat), well_formed P w σ →
      (∀ (i : Nat) (e : _function_symbol), σ.function_symbol_index_table[i]? = some e →
        0 < e.reference_count → e.arity < M) →
      (∃ F, chain σ.function_symbol_index_table σ.function_symbol_free_list F ∧
        (INITIAL_FUNCTION_INDEX_TABLE_SIZE - σ.function_symbol_index_table_size)
          * P.FUNCTION_SYMBOL_BLOCK_SIZE + F.length = n) →
      ∃ σ1, construct_symbols P w memory builtin name n M σ = .ok σ1 ∧
        well_formed P w σ1 ∧
        σ1.function_symbol_index_table_size = INITIAL_FUNCTION_INDEX_TABLE_SIZE ∧
        σ1.function_symbol_free_list = none ∧
        (∀ (i : Nat) (e : _function_symbol), σ1.function_symbol_index_table[i]? = some e →
          0 < e.reference_count → e.arity < M + n) := by
  intro n
  induction n with
  | zero =>
    intro σ M hσ hM ⟨F, hF, hn⟩
    have hFn : F = [] := List.eq_nil_of_length_eq_zero (by omega)
    subst hFn
    have hblocks : INITIAL_FUNCTION_INDEX_TABLE_SIZE - σ.function_symbol_index_table_size = 0 := by
      have h0 : (INITIAL_FUNCTION_INDEX_TABLE_SIZE - σ.function_symbol_index_table_size)
          * P.FUNCTION_SYMBOL_BLOCK_SIZE = 0 := by
        simp only [List.length_nil, Nat.add_zero] at hn
        exact hn
      rcases Nat.mul_eq_zero.mp h0 with h | h
      · exact h
      · omega
    have hle := hσ.blocks_le
    refine ⟨σ, rfl, hσ, by omega, ?_, hM⟩
    cases hfl : σ.function_symbol_free_list with
    | none => rfl
    | some x =>
      rw [hfl] at hF
      cases hF
  | succ n ih =>
    intro σ M hσ hM ⟨F, hF, hn⟩
    have hfresh : ∀ (i : Nat) (e : _function_symbol),
        σ.function_symbol_index_table[i]? = some e →
        0 < e.reference_count → ¬ (e.arity = M ∧ e.name = name) := by
      intro i e he hl hcon
      have := hM i e he hl
      omega
    have hne : σ.function_symbol_table_size ≠ 0 := by
      have := wf_pos P w σ hσ
      omega
    have hstep : ∃ handle σ', function_symbol_lookup_or_insert P w memory name M σ
          = .ok (handle, σ') ∧
        ∃ F', chain σ'.function_symbol_index_table σ'.function_symbol_free_list F' ∧
          (INITIAL_FUNCTION_INDEX_TABLE_SIZE - σ'.function_symbol_index_table_size)
            * P.FUNCTION_SYMBOL_BLOCK_SIZE + F'.length = n := by
      cases hfl : σ.function_symbol_free_list with
      | some s =>
        rw [hfl] at hF
        obtain ⟨entry, hentry⟩ := ptr_chain_mem_valid _ _ _ hF s
          (by cases hF; exact List.mem_cons_self _ _)
        obtain ⟨σ', nx, nr, c1, _, _, _, c5, _, c7⟩ :=
          wf_construct_reuses P w memory hP σ hσ name M s entry hfl hentry hfresh
        refine ⟨s, σ', c1, F.tail, c7 F hF, ?_⟩
        rw [c5]
        cases hF
        simp only [List.tail_cons]
        simp only [List.length_cons] at hn
        omega
      | none =>
        rw [hfl] at hF
        cases hF
        simp only [List.length_nil, Nat.add_zero] at hn
        have hroom : σ.function_symbol_index_table_size < INITIAL_FUNCTION_INDEX_TABLE_SIZE := by
          by_contra hcon
          have : INITIAL_FUNCTION_INDEX_TABLE_SIZE - σ.function_symbol_index_table_size = 0 := by
            omega
          rw [this, Nat.zero_mul] at hn
          omega
        obtain ⟨handle, σ', c1, c2, F', c3, c4⟩ :=
          wf_construct_block P w memory hP hBS hmem σ hσ name M hfl hroom hfresh
        refine ⟨handle, σ', c1, F', c3, ?_⟩
        rw [c2]
        obtain ⟨k, hk⟩ : ∃ k, INITIAL_FUNCTION_INDEX_TABLE_SIZE
            - σ.function_symbol_index_table_size = k + 1 :=
          ⟨INITIAL_FUNCTION_INDEX_TABLE_SIZE - σ.function_symbol_index_table_size - 1, by omega⟩
        have hk' : INITIAL_FUNCTION_INDEX_TABLE_SIZE
            - (σ.function_symbol_index_table_size + 1) = k := by omega
        rw [hk, Nat.succ_mul] at hn
        rw [hk']
        omega
    obtain ⟨handle, σ', hrun, hslack⟩ := hstep
    obtain ⟨hwf', ⟨e, he, _, ha, _⟩, hlive⟩ :=
      wf_lookup_or_insert P w memory hP name M σ σ' handle hσ hrun
    have hM' : ∀ (i : Nat) (x : _function_symbol),
        σ'.function_symbol_index_table[i]? = some x → 0 < x.reference_count →
        x.arity < M + 1 := by
      intro i x hx hl
      by_cases hi : i = handle
      · subst hi
        rw [he] at hx
        injection hx with hx
        subst hx
        omega
      · obtain ⟨x0, hx0, hl0, ha0, _⟩ := hlive i x hi hx hl
        have := hM i x0 hx0 hl0
        omega
    obtain ⟨σ1, g1, g2, g3, g4, g5⟩ := ih σ' (M + 1) hwf' hM' hslack
    refine ⟨σ1, ?_, g2, g3, g4, ?_⟩
    · rw [construct_symbols, ptr_function_symbol_initialised P w memory builtin 1 name M σ hne,
        hrun]
      exact g1
    · intro i x hx hl
      have := g5 i x hx hl
      omega

theorem wf_slack (P : block_macros) (w : Nat) (σ : administration)
    (hσ : well_formed P w σ) :
    ∃ n F, chain σ.function_symbol_index_table σ.function_symbol_free_list F ∧
      (INITIAL_FUNCTION_INDEX_TABLE_SIZE - σ.function_symbol_index_table_size)
        * P.FUNCTION_SYMBOL_BLOCK_SIZE + F.length = n := by
  obtain ⟨F, hF, _⟩ := hσ.free_chain
  exact ⟨_, F, hF, rfl⟩

end pointer_build

/-! ## The hash of a function symbol and its bucket -/

/-- C13: when the reallocation inside `resize_function_symbol_hashtable` fails, the function
returns normally and no global has changed: the size, the mask, the bucket array and every
record are as before (the model only counts the allocation request), so the search loop of a
lookup does exactly what it did before. This holds in both builds; the doubled size is taken
to fit a word, as it does for every table that fits the address space. -/
theorem resize_failure_is_atomic (P : pointer_build.block_macros) (w : Nat)
    (memory : Nat → Bool)
    (σp : pointer_build.administration) (σi : index_build.administration)
    (hwp : 2 * σp.function_symbol_table_size < 2 ^ w)
    (hfp : memory σp.allocations = false)
    (hwi : 2 * σi.function_symbol_table_size < 2 ^ w)
    (hfi : memory σi.allocations = false) :
    (∃ σ', pointer_build.resize_function_symbol_hashtable P w memory σp = .ok σ' ∧
      σ'.function_symbol_table_size = σp.function_symbol_table_size ∧
      σ'.function_symbol_table_mask = σp.function_symbol_table_mask ∧
      σ'.function_symbol_hashtable = σp.function_symbol_hashtable ∧
      σ'.function_symbol_index_table = σp.function_symbol_index_table ∧
      σ'.function_symbol_index_table_size = σp.function_symbol_index_table_size ∧
      σ'.function_symbol_free_list = σp.function_symbol_free_list ∧
      ∀ name arity_ fuel head,
        pointer_build.find_symbol σ' name arity_ fuel head
          = pointer_build.find_symbol σp name arity_ fuel head) ∧
    (∃ σ', index_build.resize_function_symbol_hashtable w memory σi = .ok σ' ∧
      σ'.function_symbol_table_size = σi.function_symbol_table_size ∧
      σ'.function_symbol_table_mask = σi.function_symbol_table_mask ∧
      σ'.function_symbol_hashtable = σi.function_symbol_hashtable ∧
      σ'.function_lookup_table = σi.function_lookup_table ∧
      σ'.function_lookup_table_size = σi.function_lookup_table_size ∧
      σ'.first_free = σi.first_free ∧
      ∀ name arity_ fuel head,
        index_build.find_symbol σ' name arity_ fuel head
          = index_build.find_symbol σi name arity_ fuel head) :=
  ⟨⟨_, pointer_build.ptr_resize_failure P w memory σp hwp hfp, rfl, rfl, rfl, rfl, rfl, rfl,
      fun name arity_ => pointer_build.ptr_find_symbol_congr σp
        { σp with allocations := σp.allocations + 1 } rfl name arity_⟩,
    ⟨_, index_build.idx_resize_failure w memory σi hwi hfi, rfl, rfl, rfl, rfl, rfl, rfl,
      fun name arity_ => index_build.idx_find_symbol_congr σi
        { σi with allocations := σi.allocations + 1 } rfl name arity_⟩⟩

/-- Witness for C13: the sample tables, which hold `f/1`, and no memory to be had. The resize
returns and `f/1` is still found from the head of bucket 1, in both builds. -/
theorem resize_failure_is_atomic_witness :
    (∃ σ', pointer_build.resize_function_symbol_hashtable pointer_build.sample_macros 64
        (fun _ => false) pointer_build.sample_administration = .ok σ' ∧
      pointer_build.find_symbol σ' [102] 1 3 (some 0) = .ok (some 0)) ∧
    (∃ σ', index_build.resize_function_symbol_hashtable 64 (fun _ => false)
        index_build.sample_administration = .ok σ' ∧
      index_build.find_symbol σ' [102] 1 2 (some 0) = .ok (some 0)) :=
  have h := resize_failure_is_atomic pointer_build.sample_macros 64 (fun _ => false)
    pointer_build.sample_administration index_build.sample_administration
    (by decide) rfl (by decide) rfl
  ⟨h.1.imp fun _ h1 => ⟨h1.1, (h1.2.2.2.2.2.2.2 [102] 1 3 (some 0)).trans rfl⟩,
    h.2.imp fun _ h1 => ⟨h1.1, (h1.2.2.2.2.2.2.2 [102] 1 2 (some 0)).trans rfl⟩⟩

/-! ## Releasing a symbol -/

/-- C14: `free_function_symbol`, applied to a record `m` that is in the chain `L` of the bucket
of its hash, returns, and afterwards that bucket heads the chain `L` without `m`, in the
order it had; the heads of all other buckets, the records outside `L` and hence every chain
that shares no record with `L` are as before; `m` is the head of the free list and its `next`
is the old head of the free list; and the search loop of the constructor misses the name and
arity of `m` (no other record of `L` has them). This holds in both builds, whatever the
reference count of `m` is. -/
theorem free_function_symbol_unlinks_exactly (w : Nat)
    (σp : pointer_build.administration) (mp : Nat) (symp : pointer_build._function_symbol)
    (headp : Option Nat) (Lp : List Nat)
    (σi : index_build.administration) (mi : Nat) (symi : index_build._function_symbol)
    (headi : Option Nat) (Li : List Nat)
    (hsymp : σp.function_symbol_index_table[mp]? = some symp)
    (hheadp : σp.function_symbol_hashtable[
      pointer_build.calculate_hash_of_function_symbol w symp.name symp.arity
        &&& σp.function_symbol_table_mask]? = some headp)
    (hchainp : pointer_build.chain σp.function_symbol_index_table headp Lp) (hmp : mp ∈ Lp)
    (huniqp : ∀ i ∈ Lp,
      pointer_build.is_symbol σp.function_symbol_index_table symp.name symp.arity i = true →
        i = mp)
    (hsymi : σi.function_lookup_table[mi]? = some symi)
    (hheadi : σi.function_symbol_hashtable[
      index_build.calculate_hash_of_function_symbol w symi.name symi.arity
        &&& σi.function_symbol_table_mask]? = some headi)
    (hchaini : index_build.chain σi.function_lookup_table headi Li) (hmi : mi ∈ Li)
    (hleni : σi.function_lookup_table.length = σi.function_lookup_table_size)
    (huniqi : ∀ i ∈ Li,
      index_build.is_symbol σi.function_lookup_table symi.name symi.arity i = true → i = mi) :
    (∃ σ' head',
      pointer_build.free_function_symbol w mp σp = .ok σ' ∧
      σ'.function_symbol_table_size = σp.function_symbol_table_size ∧
      σ'.function_symbol_table_mask = σp.function_symbol_table_mask ∧
      σ'.function_symbol_hashtable[
        pointer_build.calculate_hash_of_function_symbol w symp.name symp.arity
          &&& σ'.function_symbol_table_mask]? = some head' ∧
      pointer_build.chain σ'.function_symbol_index_table head' (Lp.erase mp) ∧
      (∀ b, b ≠ pointer_build.calculate_hash_of_function_symbol w symp.name symp.arity
          &&& σp.function_symbol_table_mask →
        σ'.function_symbol_hashtable[b]? = σp.function_symbol_hashtable[b]?) ∧
      (∀ i, i ∉ Lp → σ'.function_symbol_index_table[i]? = σp.function_symbol_index_table[i]?) ∧
      (∀ hd l, pointer_build.chain σp.function_symbol_index_table hd l → (∀ i ∈ l, i ∉ Lp) →
        pointer_build.chain σ'.function_symbol_index_table hd l) ∧
      σ'.function_symbol_free_list = some mp ∧
      σ'.function_symbol_index_table[mp]?
        = some { symp with next := σp.function_symbol_free_list } ∧
      pointer_build.find_symbol σ' symp.name symp.arity
        (σ'.function_symbol_index_table.length + 1) head' = .ok none) ∧
    (∃ σ' head',
      index_build.free_function_symbol w mi σi = .ok σ' ∧
      σ'.function_symbol_table_size = σi.function_symbol_table_size ∧
      σ'.function_symbol_table_mask = σi.function_symbol_table_mask ∧
      σ'.function_symbol_hashtable[
        index_build.calculate_hash_of_function_symbol w symi.name symi.arity
          &&& σ'.function_symbol_table_mask]? = some head' ∧
      index_build.chain σ'.function_lookup_table head' (Li.erase mi) ∧
      (∀ b, b ≠ index_build.calculate_hash_of_function_symbol w symi.name symi.arity
          &&& σi.function_symbol_table_mask →
        σ'.function_symbol_hashtable[b]? = σi.function_symbol_hashtable[b]?) ∧
      (∀ i, i ∉ Li → σ'.function_lookup_table[i]? = σi.function_lookup_table[i]?) ∧
      (∀ hd l, index_build.chain σi.function_lookup_table hd l → (∀ i ∈ l, i ∉ Li) →
        index_build.chain σ'.function_lookup_table hd l) ∧
      σ'.first_free = some mi ∧
      σ'.function_lookup_table[mi]? = some { symi with next := σi.first_free } ∧
      index_build.find_symbol σ' symi.name symi.arity
        (σ'.function_lookup_table_size + 1) head' = .ok none) :=
  ⟨pointer_build.ptr_free_function_symbol_unlinks w mp σp symp headp Lp hsymp hheadp hchainp hmp
      huniqp,
    index_build.idx_free_function_symbol_unlinks w mi σi symi headi Li hsymi hheadi hchaini hmi
      hleni huniqi⟩

/-- Witness for C14: in the sample tables the chain of bucket 1 is `g/0`, `f/1`; releasing
`f/1` (record 0) leaves the chain `g/0` and makes record 0 the free list. -/
theorem free_function_symbol_unlinks_exactly_witness :
    (∃ σ' head',
      pointer_build.free_function_symbol 64 0 pointer_build.sample_released = .ok σ' ∧
      σ'.function_symbol_hashtable[1]? = some head' ∧
      pointer_build.chain σ'.function_symbol_index_table head' [1] ∧
      σ'.function_symbol_free_list = some 0 ∧
      pointer_build.find_symbol σ' [102] 1 3 head' = .ok none) ∧
    (∃ σ' head',
      index_build.free_function_symbol 64 0 index_build.sample_released = .ok σ' ∧
      σ'.function_symbol_hashtable[1]? = some head' ∧
      index_build.chain σ'.function_lookup_table head' [1] ∧
      σ'.first_free = some 0 ∧
      index_build.find_symbol σ' [102] 1 3 head' = .ok none) :=
  have h := free_function_symbol_unlinks_exactly 64
    pointer_build.sample_released 0 ⟨1, [102], 0, none, 0⟩ (some 1) [1, 0]
    index_build.sample_released 0 ⟨[102], 1, none, 0⟩ (some 1) [1, 0]
    rfl rfl
    (pointer_build.chain.cons 1 ⟨0, [103], 1, some 0, 1⟩ [0] rfl
      (pointer_build.chain.cons 0 ⟨1, [102], 0, none, 0⟩ [] rfl pointer_build.chain.nil))
    (by decide) (by decide)
    rfl rfl
    (index_build.chain.cons 1 ⟨[103], 0, some 0, 1⟩ [0] rfl
      (index_build.chain.cons 0 ⟨[102], 1, none, 0⟩ [] rfl index_build.chain.nil))
    (by decide) rfl (by decide)
  ⟨by
      obtain ⟨σ', head', h1, _, h3, h4, h5, _, _, _, h9, _, h11⟩ := h.1
      have hσ : σ'.function_symbol_index_table.length = 2 := by
        have := h1
        injection this with this
        subst this
        rfl
      have hm : σ'.function_symbol_table_mask = 1 := h3
      rw [hσ] at h11
      rw [hm] at h4
      exact ⟨σ', head', h1, h4, h5, h9, h11⟩,
    by
      obtain ⟨σ', head', h1, _, h3, h4, h5, _, _, _, h9, _, h11⟩ := h.2
      have hσ : σ'.function_lookup_table_size = 2 := by
        have := h1
        injection this with this
        subst this
        rfl
      have hm : σ'.function_symbol_table_mask = 1 := h3
      rw [hσ] at h11
      rw [hm] at h4
      exact ⟨σ', head', h1, h4, h5, h9, h11⟩⟩

/-! ## A resize that succeeds -/

/-- C12: in the pointer build, a resize that gets its memory returns with the table size
doubled and the mask one less. Every bucket then heads a chain, and the members of the chain
of bucket `b` are records that were referenced before the resize and whose hash
`AND (new size - 1)` is `b`; every record keeps its name, arity and count; and every record
that was referenced is exactly once in the chain of the bucket of its hash, where the search
loop of the constructor finds it under its name and arity. The table is taken to hold whole
blocks, no two referenced records to have the same name and arity, and the doubled size to fit
a word. -/
theorem resize_keeps_every_live_symbol (P : pointer_build.block_macros) (w : Nat)
    (memory : Nat → Bool) (σ : pointer_build.administration)
    (hT : 0 < σ.function_symbol_table_size)
    (hw : 2 * σ.function_symbol_table_size < 2 ^ w)
    (hmem : memory σ.allocations = true)
    (hlen : σ.function_symbol_index_table.length
      = P.FUNCTION_SYMBOL_BLOCK_SIZE * σ.function_symbol_index_table_size)
    (huniq : ∀ (i j : Nat) (ei ej : pointer_build._function_symbol),
      σ.function_symbol_index_table[i]? = some ei →
      σ.function_symbol_index_table[j]? = some ej →
      0 < ei.reference_count → 0 < ej.reference_count →
      ei.name = ej.name → ei.arity = ej.arity → i = j) :
    ∃ σ', pointer_build.resize_function_symbol_hashtable P w memory σ = .ok σ' ∧
      σ'.function_symbol_table_size = 2 * σ.function_symbol_table_size ∧
      σ'.function_symbol_table_mask = σ'.function_symbol_table_size - 1 ∧
      σ'.function_symbol_hashtable.length = σ'.function_symbol_table_size ∧
      σ'.function_symbol_free_list = σ.function_symbol_free_list ∧
      (∀ (i : Nat) (e : pointer_build._function_symbol),
        σ.function_symbol_index_table[i]? = some e →
        ∃ next, σ'.function_symbol_index_table[i]? = some { e with next := next }) ∧
      (∀ b, b < σ'.function_symbol_table_size →
        ∃ head l, σ'.function_symbol_hashtable[b]? = some head ∧
          pointer_build.chain σ'.function_symbol_index_table head l ∧
          ∀ i ∈ l, ∃ e, σ.function_symbol_index_table[i]? = some e ∧ 0 < e.reference_count ∧
            pointer_build.calculate_hash_of_function_symbol w e.name e.arity
              &&& (σ'.function_symbol_table_size - 1) = b) ∧
      (∀ (i : Nat) (e : pointer_build._function_symbol),
        σ.function_symbol_index_table[i]? = some e → 0 < e.reference_count →
        ∃ head l,
          σ'.function_symbol_hashtable[
            pointer_build.calculate_hash_of_function_symbol w e.name e.arity
              &&& (σ'.function_symbol_table_size - 1)]? = some head ∧
          pointer_build.chain σ'.function_symbol_index_table head l ∧
          l.count i = 1 ∧
          pointer_build.find_symbol σ' e.name e.arity
            (σ'.function_symbol_index_table.length + 1) head = .ok (some i)) := by
  obtain ⟨σ', hrun, hr⟩ := pointer_build.ptr_resize_spec P w memory σ hT hw hmem hlen
  have hsize : σ'.function_symbol_table_size = 2 * σ.function_symbol_table_size :=
    hr.table_size
  have hmask : σ'.function_symbol_table_mask = 2 * σ.function_symbol_table_size - 1 :=
    hr.table_mask
  have hhl : σ'.function_symbol_hashtable.length = 2 * σ.function_symbol_table_size := by
    rw [hr.hashtable_length]
    simp only [List.length_replicate]
  have hrec : ∀ (i : Nat) (e : pointer_build._function_symbol),
      σ.function_symbol_index_table[i]? = some e →
      ∃ next, σ'.function_symbol_index_table[i]? = some { e with next := next } :=
    fun i e he => hr.records i e he
  have hchains : ∀ b, b < 2 * σ.function_symbol_table_size →
      ∃ head, σ'.function_symbol_hashtable[b]? = some head ∧
        pointer_build.chain σ'.function_symbol_index_table head
          (pointer_build.live_members w (2 * σ.function_symbol_table_size - 1)
            σ.function_symbol_index_table b σ.function_symbol_index_table.length) := by
    intro b hb
    exact hr.chains b (by rw [hhl]; exact hb)
  refine ⟨σ', hrun, hsize, by rw [hmask, hsize], by rw [hhl, hsize], hr.free_list, hrec,
    ?_, ?_⟩
  · intro b hb
    rw [hsize] at hb
    obtain ⟨head, h1, h2⟩ := hchains b hb
    refine ⟨head, _, h1, h2, ?_⟩
    intro i hi
    obtain ⟨_, e, he, hlive, hbk⟩ := (pointer_build.live_members_spec w _ _ b _ i).mp hi
    exact ⟨e, he, hlive, by rw [hsize]; exact hbk⟩
  · intro i e he hlive
    have hi : i < σ.function_symbol_index_table.length := by
      by_contra hcon
      rw [List.getElem?_eq_none (by omega)] at he
      cases he
    rw [hsize]
    obtain ⟨head, h1, h2⟩ := hchains
      (pointer_build.calculate_hash_of_function_symbol w e.name e.arity
        &&& (2 * σ.function_symbol_table_size - 1))
      (index_build.land_lt_doubled _ _ hT)
    have hmem : i ∈ pointer_build.live_members w (2 * σ.function_symbol_table_size - 1)
        σ.function_symbol_index_table
        (pointer_build.calculate_hash_of_function_symbol w e.name e.arity
          &&& (2 * σ.function_symbol_table_size - 1))
        σ.function_symbol_index_table.length :=
      (pointer_build.live_members_spec w _ _ _ _ i).mpr ⟨hi, e, he, hlive, rfl⟩
    have hnd := pointer_build.ptr_chain_nodup _ _ _ h2
    refine ⟨head, _, h1, h2, List.count_eq_one_of_mem hnd hmem, ?_⟩
    rw [pointer_build.ptr_find_symbol_chain σ' e.name e.arity _ head _ h2
      (by have := pointer_build.ptr_chain_length_le _ _ _ h2; omega)]
    rw [index_build.find_unique _ i _ hmem]
    · obtain ⟨nx, hnx⟩ := hrec i e he
      unfold pointer_build.is_symbol
      rw [hnx]
      simp
    · intro j hj hsym
      obtain ⟨_, ej, hej, hlivej, _⟩ := (pointer_build.live_members_spec w _ _ _ _ j).mp hj
      obtain ⟨nx, hnx⟩ := hrec j ej hej
      unfold pointer_build.is_symbol at hsym
      rw [hnx] at hsym
      simp only [decide_eq_true_eq] at hsym
      exact huniq j i ej e hej he hlivej hlive hsym.2 hsym.1

/-- Witness for C12: the sample table with two buckets and two blocks of two records, where
`f/1` and `g/0` are referenced. After the resize there are four buckets, the hash `5985` of
`f/1` selects bucket 1 and the search loop finds `f/1` in record 0 there. -/
theorem resize_keeps_every_live_symbol_witness :
    ∃ σ', pointer_build.resize_function_symbol_hashtable pointer_build.sample_macros 64
        (fun _ => true) pointer_build.sample_full = .ok σ' ∧
      σ'.function_symbol_table_size = 4 ∧
      ∃ head l, σ'.function_symbol_hashtable[5985 &&& 3]? = some head ∧
        pointer_build.chain σ'.function_symbol_index_table head l ∧
        l.count 0 = 1 ∧
        pointer_build.find_symbol σ' [102] 1 (σ'.function_symbol_index_table.length + 1) head
          = .ok (some 0) := by
  obtain ⟨σ', h1, h2, _, _, _, _, _, h8⟩ :=
    resize_keeps_every_live_symbol pointer_build.sample_macros 64 (fun _ => true)
      pointer_build.sample_full (by decide) (by decide) rfl rfl
      (by
        intro i j ei ej hi hj hli hlj hn ha
        have hi4 : i < 4 := by
          by_contra hcon
          rw [List.getElem?_eq_none (by simp [pointer_build.sample_full]; omega)] at hi
          cases hi
        have hj4 : j < 4 := by
          by_contra hcon
          rw [List.getElem?_eq_none (by simp [pointer_build.sample_full]; omega)] at hj
          cases hj
        interval_cases i <;> interval_cases j <;>
          simp [pointer_build.sample_full] at hi hj <;> subst hi <;> subst hj <;>
          simp at hli hlj hn ha ⊢)
  have h9 := h8 0 ⟨1, [102], 1, none, 0⟩ rfl (by decide)
  rw [h2] at h9
  exact ⟨σ', h1, h2, h9⟩

/-! ## Initialisation happens once -/

/-- C15: in the pointer build, `initialise_administration` returns the state it was given when
`function_symbol_table_size` is not zero. When it does initialise, the constructors that
register the built-in symbols behave as the constructor without its initialisation test (at
any nesting depth they are allowed): none of them starts a second initialisation, so the
bucket array and the first block are allocated by the outer call only. After an
initialisation that returns, and after every constructor call made from then on (with a name
and an arity, or the default constructor), the size is still not zero, so no later call
initialises again. The macro `FUNCTION_SYMBOL_BLOCK_CLASS`
is taken to be at most `w - 9`, so that the table of a full index table fits a word. -/
theorem initialisation_happens_once (P : pointer_build.block_macros) (w : Nat)
    (memory : Nat → Bool) (builtin : List (List Nat × Nat))
    (hP : P.FUNCTION_SYMBOL_BLOCK_CLASS + 9 ≤ w) :
    (∀ construct σ, σ.function_symbol_table_size ≠ 0 →
      pointer_build.initialise_administration P w memory builtin construct σ = .ok σ) ∧
    (∀ depth σ,
      pointer_build.initialise_administration P w memory builtin
          (pointer_build.function_symbol P w memory builtin (depth + 1)) σ
        = pointer_build.initialise_administration P w memory builtin
          (pointer_build.function_symbol_lookup_or_insert P w memory) σ) ∧
    (∀ depth σ σ', σ.function_symbol_table_size = 0 →
      pointer_build.initialise_administration P w memory builtin
          (pointer_build.function_symbol P w memory builtin (depth + 1)) σ = .ok σ' →
      0 < σ'.function_symbol_table_size ∧
      σ'.function_symbol_table_size < 2 ^ (P.FUNCTION_SYMBOL_BLOCK_CLASS + 9) ∧
      σ'.function_symbol_index_table_size ≤ 128 ∧
      σ'.index_table_capacity = 128) ∧
    (∀ depth name arity_ σ handle σ',
      0 < σ.function_symbol_table_size →
      σ.function_symbol_table_size < 2 ^ (P.FUNCTION_SYMBOL_BLOCK_CLASS + 9) →
      σ.function_symbol_index_table_size ≤ 128 →
      σ.index_table_capacity = 128 →
      pointer_build.function_symbol P w memory builtin (depth + 1) name arity_ σ
        = .ok (handle, σ') →
      0 < σ'.function_symbol_table_size ∧
      σ'.function_symbol_table_size < 2 ^ (P.FUNCTION_SYMBOL_BLOCK_CLASS + 9) ∧
      σ'.function_symbol_index_table_size ≤ 128 ∧
      σ'.index_table_capacity = 128) ∧
    (∀ depth σ handle σ', σ.function_symbol_table_size ≠ 0 →
      pointer_build.function_symbol_default P w memory builtin depth σ = .ok (handle, σ') →
      pointer_build.increase_reference_count 0 σ = .ok σ' ∧
      σ'.function_symbol_table_size = σ.function_symbol_table_size) := by
  have hinit : ∀ depth (σ : pointer_build.administration),
      pointer_build.initialise_administration P w memory builtin
          (pointer_build.function_symbol P w memory builtin (depth + 1)) σ
        = pointer_build.initialise_administration P w memory builtin
          (pointer_build.function_symbol_lookup_or_insert P w memory) σ ∧
      ∀ σ', σ.function_symbol_table_size = 0 →
        pointer_build.initialise_administration P w memory builtin
          (pointer_build.function_symbol_lookup_or_insert P w memory) σ = .ok σ' →
        0 < σ'.function_symbol_table_size ∧
        σ'.function_symbol_table_size < 2 ^ (P.FUNCTION_SYMBOL_BLOCK_CLASS + 9) ∧
        σ'.function_symbol_index_table_size ≤ 128 ∧
        σ'.index_table_capacity = 128 := by
    intro depth σ
    unfold pointer_build.initialise_administration
    by_cases hz : σ.function_symbol_table_size = 0
    · rw [if_pos hz, if_pos hz]
      by_cases hm0 : memory σ.allocations = true
      · rw [if_pos hm0, if_pos hm0]
        by_cases hm1 : memory (σ.allocations + 1) = true
        · rw [if_pos hm1, if_pos hm1]
          cases hblock : pointer_build.create_new_function_symbol_block P memory
              { σ with
                function_symbol_table_size := pointer_build.INITIAL_FUNCTION_HASH_TABLE_SIZE P w
                function_symbol_table_mask :=
                  (pointer_build.INITIAL_FUNCTION_HASH_TABLE_SIZE P w + (2 ^ w - 1)) % 2 ^ w
                function_symbol_hashtable :=
                  List.replicate (pointer_build.INITIAL_FUNCTION_HASH_TABLE_SIZE P w) none
                index_table_capacity := pointer_build.INITIAL_FUNCTION_INDEX_TABLE_SIZE
                function_symbol_index_table_size := 0
                allocations := σ.allocations + 2 } with
          | error e => exact ⟨rfl, fun σ' _ h => by cases h⟩
          | ok σ1 =>
            simp only
            obtain ⟨a1, _, _, a4, a5, _⟩ :=
              pointer_build.create_new_function_symbol_block_frame P memory _ _ hblock
            simp only at a1 a4 a5
            rw [pointer_build.ptr_initial_size P w hP] at a1
            have hpos : 0 < 2 ^ P.FUNCTION_SYMBOL_BLOCK_CLASS := Nat.two_pow_pos _
            have hlt : 2 ^ P.FUNCTION_SYMBOL_BLOCK_CLASS
                < 2 ^ (P.FUNCTION_SYMBOL_BLOCK_CLASS + 9) :=
              Nat.pow_lt_pow_right (by decide) (by omega)
            obtain ⟨b1, b2⟩ := pointer_build.ptr_builtin_initialised P w memory hP builtin depth
              builtin σ1 (by omega) (by omega) (by omega) (by rw [a5]; rfl)
            exact ⟨b1, fun σ' _ h => b2 σ' h⟩
        · rw [if_neg hm1, if_neg hm1]
          exact ⟨rfl, fun σ' _ h => by cases h⟩
      · rw [if_neg hm0, if_neg hm0]
        exact ⟨rfl, fun σ' _ h => by cases h⟩
    · rw [if_neg hz, if_neg hz]
      exact ⟨rfl, fun σ' hcon _ => absurd hcon hz⟩
  refine ⟨?_, fun depth σ => (hinit depth σ).1, ?_, ?_, ?_⟩
  · intro construct σ h
    rw [pointer_build.initialise_administration, if_neg h]
  · intro depth σ σ' hz h
    rw [(hinit depth σ).1] at h
    exact (hinit depth σ).2 σ' hz h
  · intro depth name arity_ σ handle σ' h1 h2 h3 h4 h
    rw [pointer_build.ptr_function_symbol_initialised P w memory builtin depth name arity_ σ
      (by omega)] at h
    exact pointer_build.ptr_lookup_or_insert_initialised P w memory hP name arity_ σ σ' handle
      h1 h2 h3 h4 h
  · intro depth σ handle σ' hz h
    rw [pointer_build.function_symbol_default, if_neg hz] at h
    simp only at h
    split at h
    · cases h
    · rename_i σ2 hinc
      injection h with h
      injection h with h1 h2
      subst h2
      obtain ⟨e, _, hσ2⟩ := pointer_build.ptr_increase_reference_count_spec _ _ _ hinc
      refine ⟨hinc, ?_⟩
      rw [hσ2]

/-- Witness for C15: 64-bit words, blocks of two records and the built-in symbols `f/1` and
`g/0`. The initialisation from the start state returns, with a size that is not zero. -/
theorem initialisation_happens_once_witness :
    ∃ σ', pointer_build.initialise_administration pointer_build.sample_macros 64 (fun _ => true)
        [([102], 1), ([103], 0)]
        (pointer_build.function_symbol pointer_build.sample_macros 64 (fun _ => true)
          [([102], 1), ([103], 0)] 1) pointer_build.administration.start = .ok σ' ∧
      pointer_build.initialise_administration pointer_build.sample_macros 64 (fun _ => true)
        [([102], 1), ([103], 0)]
        (pointer_build.function_symbol_lookup_or_insert pointer_build.sample_macros 64
          (fun _ => true)) pointer_build.administration.start = .ok σ' ∧
      0 < σ'.function_symbol_table_size :=
  have h := initialisation_happens_once pointer_build.sample_macros 64 (fun _ => true)
    [([102], 1), ([103], 0)] (by decide)
  ⟨_, rfl, (h.2.1 0 pointer_build.administration.start).symm.trans rfl,
    (h.2.2.1 0 pointer_build.administration.start _ rfl rfl).1⟩

/-! ## Storage exhaustion during set-up -/

/-- C16: when the allocation of the bucket array, of the index table (lookup table in the
index build) or of the first block fails, `initialise_administration` throws the
out-of-memory error of that allocation; so do `create_new_function_symbol_block` and
`function_lookup_table_create_free_entry_at_end` when their allocation fails. When every
allocation succeeds, none of them throws: the initialisation, with the constructor at any
nesting depth registering the built-in symbols, does not end in an out-of-memory error, and
the two functions that create room return. -/
theorem storage_exhaustion_is_fatal (P : pointer_build.block_macros) (w : Nat)
    (memory : Nat → Bool) (builtin : List (List Nat × Nat))
    (constructp : List Nat → Nat → pointer_build.administration →
      Except pointer_build.failure (Nat × pointer_build.administration))
    (constructi : List Nat → Nat → index_build.administration →
      Except index_build.failure (Nat × index_build.administration))
    (σp : pointer_build.administration) (σi : index_build.administration) :
    (σp.function_symbol_table_size = 0 → memory σp.allocations = false →
      pointer_build.initialise_administration P w memory builtin constructp σp
        = .error (.out_of_memory "Out of memory. Cannot create function symbol hashtable.")) ∧
    (σp.function_symbol_table_size = 0 → memory σp.allocations = true →
      memory (σp.allocations + 1) = false →
      pointer_build.initialise_administration P w memory builtin constructp σp
        = .error (.out_of_memory
            "Out of memory. Cannot create function symbol index table.")) ∧
    (σp.function_symbol_table_size = 0 → memory σp.allocations = true →
      memory (σp.allocations + 1) = true → memory (σp.allocations + 2) = false →
      pointer_build.initialise_administration P w memory builtin constructp σp
        = .error (.out_of_memory "Out of memory. Fail to resize function_lookup_table.")) ∧
    (σp.function_symbol_index_table_size < σp.index_table_capacity →
      memory σp.allocations = false →
      pointer_build.create_new_function_symbol_block P memory σp
        = .error (.out_of_memory "Out of memory. Fail to resize function_lookup_table.")) ∧
    (σi.function_symbol_table_size = 0 → memory σi.allocations = false →
      index_build.initialise_administration memory builtin constructi σi
        = .error (.out_of_memory "Out of memory. Cannot create function symbol hashtable.")) ∧
    (σi.function_symbol_table_size = 0 → memory σi.allocations = true →
      memory (σi.allocations + 1) = false →
      index_build.initialise_administration memory builtin constructi σi
        = .error (.out_of_memory "Out of memory. Cannot create function lookup table.")) ∧
    (σi.function_lookup_table_actual_size ≤ σi.function_lookup_table_size →
      memory σi.allocations = false →
      index_build.function_lookup_table_create_free_entry_at_end w memory σi
        = .error (.out_of_memory "Out of memory. Fail to resize function_lookup_table.")) ∧
    ((∀ k, memory k = true) →
      (∀ what depth,
        pointer_build.initialise_administration P w memory builtin
          (pointer_build.function_symbol P w memory builtin depth) σp
            ≠ .error (.out_of_memory what)) ∧
      (σp.function_symbol_index_table_size < σp.index_table_capacity →
        ∃ σ', pointer_build.create_new_function_symbol_block P memory σp = .ok σ') ∧
      (∀ what depth,
        index_build.initialise_administration memory builtin
          (index_build.function_symbol w memory builtin depth) σi
            ≠ .error (.out_of_memory what)) ∧
      (∃ r, index_build.function_lookup_table_create_free_entry_at_end w memory σi = .ok r)) := by
  refine ⟨?_, ?_, ?_, ?_, ?_, ?_, ?_, ?_⟩
  · intro hz
    exact (pointer_build.ptr_initialise_out_of_memory P w memory builtin constructp σp hz).1
  · intro hz
    exact (pointer_build.ptr_initialise_out_of_memory P w memory builtin constructp σp hz).2.1
  · intro hz
    exact (pointer_build.ptr_initialise_out_of_memory P w memory builtin constructp σp hz).2.2
  · exact pointer_build.create_block_out_of_memory P memory σp
  · intro hz
    exact (index_build.idx_initialise_out_of_memory memory builtin constructi σi hz).1
  · intro hz
    exact (index_build.idx_initialise_out_of_memory memory builtin constructi σi hz).2
  · exact index_build.create_free_entry_out_of_memory w memory σi
  · intro hm
    refine ⟨?_, ?_, ?_, ?_⟩
    · intro what depth
      exact pointer_build.ptr_initialise_not_out_of_memory P w memory hm builtin what _
        (pointer_build.ptr_function_symbol_not_out_of_memory P w memory hm builtin what depth) σp
    · intro hcap
      exact pointer_build.create_block_returns P memory σp hcap (hm _)
    · intro what depth
      exact index_build.idx_initialise_not_out_of_memory memory hm builtin what _
        (index_build.idx_function_symbol_not_out_of_memory w memory hm builtin what depth) σi
    · exact index_build.create_free_entry_returns w memory σi (hm _)

/-- Witness for C16: from the start state, with memory for two allocations only, the pointer
build fails on the first block, and the index build cannot double a lookup table of one
record that is full. -/
theorem storage_exhaustion_is_fatal_witness :
    pointer_build.initialise_administration pointer_build.sample_macros 64
        (fun k => decide (k < 2)) [([102], 1)]
        (pointer_build.function_symbol pointer_build.sample_macros 64
          (fun k => decide (k < 2)) [([102], 1)] 1) pointer_build.administration.start
      = .error (.out_of_memory "Out of memory. Fail to resize function_lookup_table.") ∧
    index_build.function_lookup_table_create_free_entry_at_end 64 (fun k => decide (k < 2))
        ⟨2, 1, [none, some 0], none, 1, 1, [⟨[102], 1, none, 1⟩], 2⟩
      = .error (.out_of_memory "Out of memory. Fail to resize function_lookup_table.") :=
  have h := storage_exhaustion_is_fatal pointer_build.sample_macros 64
    (fun k => decide (k < 2)) [([102], 1)]
    (pointer_build.function_symbol pointer_build.sample_macros 64
      (fun k => decide (k < 2)) [([102], 1)] 1)
    (index_build.function_symbol 64 (fun k => decide (k < 2)) [([102], 1)] 1)
    pointer_build.administration.start
    ⟨2, 1, [none, some 0], none, 1, 1, [⟨[102], 1, none, 1⟩], 2⟩
  ⟨h.2.2.1 rfl rfl rfl rfl, h.2.2.2.2.2.2.1 (by decide) rfl⟩

namespace detail

/-! ## Integer terms -/

theorem int_node_of_mem (σ : int_table) (s : int_slot) (hs : s ∈ σ.slots) :
    ∃ t, σ.node s.address = some t := by
  unfold int_table.node
  cases hfind : σ.slots.find? (fun x => decide (x.address = s.address)) with
  | none =>
    rw [List.find?_eq_none] at hfind
    have := hfind s hs
    simp at this
  | some x => exact ⟨x.term, rfl⟩

theorem find_int_in_chain_spec (σ : int_table) (value : Nat) :
    ∀ (l : List unprotected_aterm), (∀ e ∈ l, ∃ s ∈ σ.slots, s.address = e) →
      find_int_in_chain σ value l = some none ∨
      ∃ e t, find_int_in_chain σ value l = some (some e) ∧ σ.node e = some t ∧
        t.value = value := by
  intro l
  induction l with
  | nil => intro _; exact Or.inl rfl
  | cons e rest ih =>
    intro hl
    obtain ⟨s, hs, hse⟩ := hl e (List.mem_cons_self _ _)
    obtain ⟨t, ht⟩ := int_node_of_mem σ s hs
    rw [hse] at ht
    rw [find_int_in_chain, ht]
    simp only
    by_cases heq : aterm_int_equals_value t value = true
    · rw [if_pos heq]
      refine Or.inr ⟨e, t, rfl, ht, ?_⟩
      unfold aterm_int_equals_value at heq
      simpa using heq
    · rw [if_neg heq]
      exact ih (fun e' he' => hl e' (List.mem_cons_of_mem _ he'))

theorem int_node_append (σ σ' : int_table) (s : int_slot) (hs : σ'.slots = σ.slots ++ [s])
    (h : unprotected_aterm) (t : _aterm_int) (hnode : σ.node h = some t) :
    σ'.node h = some t := by
  unfold int_table.node at hnode ⊢
  rw [hs, List.find?_append]
  cases hfind : σ.slots.find? (fun x => decide (x.address = h)) with
  | none => rw [hfind] at hnode; cases hnode
  | some x =>
    rw [hfind] at hnode
    exact hnode

theorem int_node_new (slot_address : Nat → Nat) (hinj : Function.Injective slot_address)
    (σ σ' : int_table) (hσ : int_table.Inv slot_address σ) (t : _aterm_int)
    (hs : σ'.slots = σ.slots ++ [⟨⟨slot_address σ.slots.length⟩, t⟩]) :
    σ'.node ⟨slot_address σ.slots.length⟩ = some t := by
  unfold int_table.node
  rw [hs, List.find?_append]
  have hnone : σ.slots.find?
      (fun x => decide (x.address = (⟨slot_address σ.slots.length⟩ : unprotected_aterm)))
        = none := by
    rw [List.find?_eq_none]
    intro x hx
    obtain ⟨i, hi, hxi⟩ := List.getElem_of_mem hx
    have haddr := hσ.address_eq i x (by rw [List.getElem?_eq_getElem hi, hxi])
    simp only [decide_eq_true_eq]
    intro hcon
    rw [haddr] at hcon
    injection hcon with hcon
    have := hinj hcon
    omega
  rw [hnone]
  simp

theorem make_int_term_spec (slot_address : Nat → Nat) (hinj : Function.Injective slot_address)
    (σ : int_table) (hσ : int_table.Inv slot_address σ) (value : Nat) :
    ∃ t σ', make_int_term slot_address σ value = some (t, σ') ∧
      term_int_value σ' t = some value ∧
      int_table.Inv slot_address σ' ∧
      ∀ t0 v0, term_int_value σ t0 = some v0 → term_int_value σ' t0 = some v0 := by
  unfold make_int_term
  simp only
  rcases find_int_in_chain_spec σ value
      (σ.chain (aterm_int_hasher_value value &&& (σ.table_size - 1)))
      (hσ.chain_live _) with hmiss | ⟨e, t, hhit, hnode, hval⟩
  · rw [hmiss]
    simp only
    refine ⟨_, _, rfl, ?_, ?_, ?_⟩
    · unfold term_int_value
      rw [int_node_new slot_address hinj σ _ hσ ⟨value⟩ rfl]
      rfl
    · constructor
      · intro i s hs
        simp only at hs
        by_cases hi : i < σ.slots.length
        · rw [List.getElem?_append_left hi] at hs
          exact hσ.address_eq i s hs
        · rw [List.getElem?_append_right (by omega)] at hs
          have hi0 : i - σ.slots.length = 0 := by
            by_contra hcon
            rw [List.getElem?_eq_none (by simp; omega)] at hs
            cases hs
          rw [hi0] at hs
          simp only [List.getElem?_cons_zero] at hs
          injection hs with hs
          rw [← hs]
          have : i = σ.slots.length := by omega
          rw [this]
      · intro b e he
        unfold int_table.chain at he
        simp only at he
        simp only [List.mem_append, List.mem_singleton]
        by_cases hb : aterm_int_hasher_value value &&& (σ.table_size - 1) = b
        · by_cases hlen : b < σ.buckets.length
          · rw [hb] at he
            rw [List.getD_eq_getElem?_getD, List.getElem?_set_self hlen] at he
            simp only [Option.getD_some] at he
            rcases List.mem_cons.mp he with h | h
            · exact ⟨_, Or.inr rfl, h.symm⟩
            · obtain ⟨s, hs, hse⟩ := hσ.chain_live b e h
              exact ⟨s, Or.inl hs, hse⟩
          · rw [List.getD_eq_getElem?_getD, List.getElem?_eq_none (by simp; omega)] at he
            simp at he
        · rw [List.getD_eq_getElem?_getD, List.getElem?_set_ne hb] at he
          obtain ⟨s, hs, hse⟩ := hσ.chain_live b e
            (by unfold int_table.chain; rw [List.getD_eq_getElem?_getD]; exact he)
          exact ⟨s, Or.inl hs, hse⟩
    · intro t0 v0 h0
      unfold term_int_value at h0 ⊢
      cases hn : σ.node t0 with
      | none => rw [hn] at h0; cases h0
      | some n =>
        rw [hn] at h0
        rw [int_node_append σ _ ⟨⟨slot_address σ.slots.length⟩, ⟨value⟩⟩ rfl t0 n hn]
        exact h0
  · rw [hhit]
    simp only
    refine ⟨e, σ, rfl, ?_, hσ, fun _ _ h => h⟩
    unfold term_int_value
    rw [hnode, ← hval]
    rfl

theorem int_reachable_inv (slot_address : Nat → Nat) (hinj : Function.Injective slot_address)
    (σ : int_table) (hσ : int_table.Reachable slot_address σ) :
    int_table.Inv slot_address σ := by
  induction hσ with
  | empty size =>
    constructor
    · intro i s hs
      simp [int_table.empty] at hs
    · intro b e he
      unfold int_table.chain int_table.empty at he
      simp only at he
      rw [List.getD_eq_getElem?_getD, List.getElem?_replicate] at he
      split at he <;> simp at he
  | request σ σ' value t _ hreq ih =>
    obtain ⟨t', σ'', h1, _, h3, _⟩ := make_int_term_spec slot_address hinj σ ih value
    rw [hreq] at h1
    injection h1 with h1
    injection h1 with h1 h2
    rw [h2]
    exact h3

/-- C17: in the table of integer terms as the specification describes it, the integer term
built from a value `v` reports `v` as its value, whatever terms were built before: the request
returns a term, the value of that term is `v`, and the terms that were there before keep their
values. The addresses of different slots are taken to be different. -/
theorem int_term_reports_its_value (slot_address : Nat → Nat)
    (hinj : Function.Injective slot_address) (σ : int_table)
    (hσ : int_table.Reachable slot_address σ) (v : Nat) :
    ∃ t σ', make_int_term slot_address σ v = some (t, σ') ∧
      term_int_value σ' t = some v ∧
      ∀ t0 v0, term_int_value σ t0 = some v0 → term_int_value σ' t0 = some v0 := by
  obtain ⟨t, σ', h1, h2, _, h4⟩ :=
    make_int_term_spec slot_address hinj σ (int_reachable_inv slot_address hinj σ hσ) v
  exact ⟨t, σ', h1, h2, h4⟩

/-- Witness for C17: the value 10 of the test, in an empty table of four buckets whose slot
`k` lives at address `16 * (k + 1)`. -/
theorem int_term_reports_its_value_witness :
    ∃ t σ', make_int_term sample_slot_address (int_table.empty 4) 10 = some (t, σ') ∧
      term_int_value σ' t = some 10 ∧
      ∀ t0 v0, term_int_value (int_table.empty 4) t0 = some v0 →
        term_int_value σ' t0 = some v0 :=
  int_term_reports_its_value sample_slot_address
    (fun a b h => by unfold sample_slot_address at h; omega)
    (int_table.empty 4) (int_table.Reachable.empty 4) 10

end detail

namespace detail

/-! ## More claims on aterm_hash.h -/

theorem equal_arguments_true (term : _aterm) (arguments : List unprotected_aterm) :
    ∀ (k i : Nat), equal_arguments term arguments k i = some true →
      ∀ j, i ≤ j → j < i + k →
        ∃ a, term.m_arguments[j]? = some a ∧ arguments[j]? = some a := by
  intro k
  induction k with
  | zero => intro i _ j h1 h2; omega
  | succ k ih =>
    intro i h j h1 h2
    rw [equal_arguments] at h
    unfold _aterm.arg at h
    cases ha : term.m_arguments[i]? with
    | none => rw [ha] at h; simp at h
    | some a =>
      cases hb : arguments[i]? with
      | none => rw [ha, hb] at h; simp at h
      | some b =>
        rw [ha, hb] at h
        simp only at h
        by_cases hne : a ≠ b
        · rw [if_pos hne] at h
          cases h
        · rw [if_neg hne] at h
          push_neg at hne
          rcases Nat.eq_or_lt_of_le h1 with heq | hlt
          · subst heq
            exact ⟨a, ha, by rw [hb, hne]⟩
          · exact ih (i + 1) h j hlt (by omega)

theorem equal_nodes_eq (first second : _aterm) :
    ∀ (k i : Nat), equal_nodes first second k i
      = equal_arguments first second.m_arguments k i := by
  intro k
  induction k with
  | zero => intro i; rfl
  | succ k ih =>
    intro i
    rw [equal_nodes, equal_arguments]
    unfold _aterm.arg
    cases first.m_arguments[i]? with
    | none => rfl
    | some a =>
      cases second.m_arguments[i]? with
      | none => rfl
      | some b =>
        simp only
        rw [ih]

theorem hash_arguments_agree (w : Nat) (l1 l2 : List unprotected_aterm) :
    ∀ (k i hnr : Nat),
      (∀ j, i ≤ j → j < i + k → ∃ a, l1[j]? = some a ∧ l2[j]? = some a) →
      ∃ h, hash_arguments w l1 k i hnr = some h ∧ hash_arguments w l2 k i hnr = some h := by
  intro k
  induction k with
  | zero => intro i hnr _; exact ⟨hnr, rfl, rfl⟩
  | succ k ih =>
    intro i hnr hsame
    obtain ⟨a, h1, h2⟩ := hsame i (le_refl _) (by omega)
    rw [hash_arguments, hash_arguments, h1, h2]
    exact ih (i + 1) _ (fun j hj1 hj2 => hsame j (by omega) (by omega))

/-- C25: on words of at least 64 bits, for every seed and all values `a` and `b` below `2^60`
with `a ≠ b`, `combine(combine(seed, a), b)` differs from `combine(combine(seed, b), a)`: no
addition wraps, and the two sums differ. -/
theorem combine_not_symmetric_below_2_60 (w seed a b : Nat) (hw : 64 ≤ w)
    (hseed : seed < 2 ^ 60) (ha : a < 2 ^ 60) (hb : b < 2 ^ 60) (hab : a ≠ b) :
    combine w (combine w seed a) b ≠ combine w (combine w seed b) a := by
  have hpow : (2 : Nat) ^ 64 ≤ 2 ^ w := Nat.pow_le_pow_right (by decide) hw
  have h60 : (2 : Nat) ^ 60 = 1152921504606846976 := by norm_num
  have h64 : (2 : Nat) ^ 64 = 18446744073709551616 := by norm_num
  rw [h60] at hseed ha hb
  rw [h64] at hpow
  have hca : combine w seed a = a + 2 * seed + seed / 2 := by
    rw [combine_unfold]; exact Nat.mod_eq_of_lt (by omega)
  have hcb : combine w seed b = b + 2 * seed + seed / 2 := by
    rw [combine_unfold]; exact Nat.mod_eq_of_lt (by omega)
  rw [hca, hcb, combine_unfold, combine_unfold, Nat.mod_eq_of_lt (by omega),
    Nat.mod_eq_of_lt (by omega)]
  omega

/-- Witness for C25: 64-bit words, seed `2^60 - 1` and the values `2^60 - 1` and `2^60 - 2`. -/
theorem combine_not_symmetric_below_2_60_witness :
    combine 64 (combine 64 1152921504606846975 1152921504606846975) 1152921504606846974
      ≠ combine 64 (combine 64 1152921504606846975 1152921504606846974) 1152921504606846975 :=
  combine_not_symmetric_below_2_60 64 1152921504606846975 1152921504606846975
    1152921504606846974 (by decide) (by decide) (by decide) (by decide) (by decide)

/-- C26: when `aterm_equals(t, S, A)` is true, `aterm_hasher(t)` and `aterm_hasher(S, A)`
return the same hash, and when `aterm_equals(t1, t2)` is true, `aterm_hasher(t1)` and
`aterm_hasher(t2)` are the same. The template parameter `N` of the hasher is dynamic or at
most the arity of `S` (the array equality always compares `arity(S)` arguments), and one
address holds one node. -/
theorem equal_terms_have_equal_hash (w N : Nat) (D : function_symbol_members) (t : _aterm)
    (S : function_symbol) (A : List unprotected_aterm)
    (address1 address2 : Nat) (t1 t2 : _aterm)
    (hN : N = DynamicNumberOfArguments w ∨ N ≤ D.arity S)
    (hnode : address1 = address2 → t1 = t2) :
    (aterm_equals_array D t S A = some true →
      ∃ h, aterm_hasher_term w N D t = some h ∧ aterm_hasher_array w N D S A = some h) ∧
    (aterm_equals_terms w N D address1 address2 t1 t2 = some true →
      aterm_hasher_term w N D t1 = aterm_hasher_term w N D t2) := by
  have hta : template_arity w N D S ≤ D.arity S := by
    unfold template_arity
    rcases hN with h | h
    · rw [if_pos h]
    · split
      · exact le_refl _
      · exact h
  constructor
  · intro heq
    unfold aterm_equals_array at heq
    by_cases hf : t.function = S
    · rw [if_pos hf] at heq
      have hargs := equal_arguments_true t A (D.arity S) 0 heq
      unfold aterm_hasher_term aterm_hasher_array
      simp only [hf]
      exact hash_arguments_agree w t.m_arguments A _ 0 _
        (fun j hj1 hj2 => hargs j hj1 (by omega))
    · rw [if_neg hf] at heq
      cases heq
  · intro heq
    unfold aterm_equals_terms at heq
    by_cases haddr : address1 = address2
    · rw [hnode haddr]
    · rw [if_neg haddr] at heq
      by_cases hf : t1.function = t2.function
      · rw [if_pos hf, equal_nodes_eq] at heq
        have hargs := equal_arguments_true t1 t2.m_arguments _ 0 heq
        obtain ⟨h, h1, h2⟩ := hash_arguments_agree w t1.m_arguments t2.m_arguments
          (template_arity w N D t1.function) 0 (aterm_hasher_symbol D t1.function) hargs
        unfold aterm_hasher_term
        simp only
        rw [← hf, h1, h2]
      · rw [if_neg hf] at heq
        cases heq

/-- Witness for C26: with `N = 1`, the node `f(a, b)` against the key `(f, [a, b])`, and
against the node `f(a, c)` at another address, which `aterm_equals<1>` takes for equal. -/
theorem equal_terms_have_equal_hash_witness :
    (∃ h, aterm_hasher_term 64 1 sample_members ⟨⟨2⟩, [⟨16⟩, ⟨32⟩]⟩ = some h ∧
      aterm_hasher_array 64 1 sample_members ⟨2⟩ [⟨16⟩, ⟨32⟩] = some h) ∧
    aterm_hasher_term 64 1 sample_members ⟨⟨2⟩, [⟨16⟩, ⟨32⟩]⟩
      = aterm_hasher_term 64 1 sample_members ⟨⟨2⟩, [⟨16⟩, ⟨48⟩]⟩ :=
  have h := equal_terms_have_equal_hash 64 1 sample_members
    ⟨⟨2⟩, [⟨16⟩, ⟨32⟩]⟩ ⟨2⟩ [⟨16⟩, ⟨32⟩] 64 80 ⟨⟨2⟩, [⟨16⟩, ⟨32⟩]⟩ ⟨⟨2⟩, [⟨16⟩, ⟨48⟩]⟩
    (Or.inr (by decide)) (fun h => absurd h (by decide))
  ⟨h.1 (by decide), h.2 (by decide)⟩

/-- C30: `std::hash<_aterm*>` returns the address shifted right by four, which is the address
divided by 16; the specialisations for `unprotected_aterm` and `aterm` return the same for
the same address; and two addresses that are at least 16 apart have different hashes. -/
theorem pointer_hash_separates_terms (address1 address2 : Nat)
    (hapart : address1 + 16 ≤ address2 ∨ address2 + 16 ≤ address1) :
    hash_aterm_ptr address1 = address1 / 16 ∧
    hash_unprotected_aterm ⟨address1⟩ = hash_aterm_ptr address1 ∧
    hash_aterm ⟨address1⟩ = hash_aterm_ptr address1 ∧
    hash_aterm_ptr address1 ≠ hash_aterm_ptr address2 := by
  have hshift : ∀ a, hash_aterm_ptr a = a / 16 := by
    intro a
    unfold hash_aterm_ptr
    rw [Nat.shiftRight_eq_div_pow]
  refine ⟨hshift _, rfl, rfl, ?_⟩
  rw [hshift, hshift]
  omega

/-- Witness for C30: the addresses 4096 and 4112 hash to 256 and 257. -/
theorem pointer_hash_separates_terms_witness :
    hash_aterm_ptr 4096 = 4096 / 16 ∧
    hash_unprotected_aterm ⟨4096⟩ = hash_aterm_ptr 4096 ∧
    hash_aterm ⟨4096⟩ = hash_aterm_ptr 4096 ∧
    hash_aterm_ptr 4096 ≠ hash_aterm_ptr 4112 :=
  pointer_hash_separates_terms 4096 4112 (Or.inl (by decide))

end detail

/-! ## Claims on the reachable states of the pointer build -/

/-- C23, on the pointer build (the build of the cited lines), with words of `w` bits that hold
`2^(FUNCTION_SYMBOL_BLOCK_CLASS + 9)`. Let `σ` be a state that the program reaches by
constructing, copying and releasing symbols. Then (1) a call of `initialise_administration()`
that returns leaves a size that is a power of two, a mask that is the size minus one and
every `h AND mask` below the size; (2) when the table is initialised and the constructor's
test calls for a resize, `resize_function_symbol_hashtable()` returns, and afterwards the
size is again a power of two, the mask is the size minus one, and every `h AND mask` is below
the size, both when the allocation succeeds (the size has doubled) and when it fails (the size
is what it was); (3) the same holds of `σ` itself once the table is initialised. -/
theorem table_size_is_power_of_two (P : pointer_build.block_macros) (w : Nat)
    (memory : Nat → Bool) (builtin : List (List Nat × Nat)) (σ : pointer_build.administration)
    (hP : P.FUNCTION_SYMBOL_BLOCK_CLASS + 9 ≤ w)
    (hreach : pointer_build.reachable P w memory builtin σ) :
    (∀ depth σ', pointer_build.initialise_administration P w memory builtin
        (pointer_build.function_symbol P w memory builtin depth) σ = .ok σ' →
      (∃ k, σ'.function_symbol_table_size = 2 ^ k) ∧
      σ'.function_symbol_table_mask = σ'.function_symbol_table_size - 1 ∧
      ∀ h, h &&& σ'.function_symbol_table_mask < σ'.function_symbol_table_size) ∧
    (σ.function_symbol_table_size ≠ 0 →
      σ.function_symbol_index_table_size <<< (P.FUNCTION_SYMBOL_BLOCK_CLASS + 1) % 2 ^ w
        > σ.function_symbol_table_size →
      ∃ σ', pointer_build.resize_function_symbol_hashtable P w memory σ = .ok σ' ∧
        (∃ k, σ'.function_symbol_table_size = 2 ^ k) ∧
        σ'.function_symbol_table_mask = σ'.function_symbol_table_size - 1 ∧
        (∀ h, h &&& σ'.function_symbol_table_mask < σ'.function_symbol_table_size) ∧
        (memory σ.allocations = true →
          σ'.function_symbol_table_size = 2 * σ.function_symbol_table_size) ∧
        (memory σ.allocations = false →
          σ'.function_symbol_table_size = σ.function_symbol_table_size)) ∧
    (σ.function_symbol_table_size ≠ 0 →
      (∃ k, σ.function_symbol_table_size = 2 ^ k) ∧
      σ.function_symbol_table_mask = σ.function_symbol_table_size - 1 ∧
      ∀ h, h &&& σ.function_symbol_table_mask < σ.function_symbol_table_size) := by
  have hcases := pointer_build.reachable_well_formed P w memory hP builtin σ hreach
  have hwf : σ.function_symbol_table_size ≠ 0 → pointer_build.well_formed P w σ := by
    intro hne
    rcases hcases with h | h
    · subst h
      exact absurd rfl hne
    · exact h
  have hfacts : ∀ τ, pointer_build.well_formed P w τ →
      (∃ k, τ.function_symbol_table_size = 2 ^ k) ∧
      τ.function_symbol_table_mask = τ.function_symbol_table_size - 1 ∧
      ∀ h, h &&& τ.function_symbol_table_mask < τ.function_symbol_table_size :=
    fun τ hτ => ⟨hτ.size_pow, hτ.mask_eq, pointer_build.wf_bucket_lt P w τ hτ⟩
  refine ⟨?_, ?_, fun hne => hfacts σ (hwf hne)⟩
  · intro depth σ' hinit
    rcases hcases with h | h
    · subst h
      exact hfacts σ' (pointer_build.wf_initialise P w memory hP builtin depth σ' hinit)
    · have hne : σ.function_symbol_table_size ≠ 0 := by
        have := pointer_build.wf_pos P w σ h
        omega
      unfold pointer_build.initialise_administration at hinit
      rw [if_neg hne] at hinit
      injection hinit with hinit
      rw [← hinit]
      exact hfacts σ h
  · intro hne htrig
    have hσ := hwf hne
    obtain ⟨σr, hstep, hwfr, _⟩ := pointer_build.wf_resize_step P w memory hP σ hσ
    rw [if_pos htrig] at hstep
    have hpw : 2 ^ (P.FUNCTION_SYMBOL_BLOCK_CLASS + 9) ≤ 2 ^ w :=
      Nat.pow_le_pow_right (by decide) hP
    have hp8 : 2 ^ (P.FUNCTION_SYMBOL_BLOCK_CLASS + 9)
        = 2 ^ (P.FUNCTION_SYMBOL_BLOCK_CLASS + 1) * 256 := by
      rw [show P.FUNCTION_SYMBOL_BLOCK_CLASS + 9 = (P.FUNCTION_SYMBOL_BLOCK_CLASS + 1) + 8
        by omega, Nat.pow_add]
    have hdue : 2 * σ.function_symbol_table_size < 2 ^ w := by
      have h1 : σ.function_symbol_index_table_size <<< (P.FUNCTION_SYMBOL_BLOCK_CLASS + 1)
          % 2 ^ w
          ≤ σ.function_symbol_index_table_size * 2 ^ (P.FUNCTION_SYMBOL_BLOCK_CLASS + 1) := by
        rw [Nat.shiftLeft_eq]
        exact Nat.mod_le _ _
      have h2 : σ.function_symbol_index_table_size * 2 ^ (P.FUNCTION_SYMBOL_BLOCK_CLASS + 1)
          ≤ 128 * 2 ^ (P.FUNCTION_SYMBOL_BLOCK_CLASS + 1) :=
        Nat.mul_le_mul_right _ hσ.blocks_le
      omega
    obtain ⟨f1, f2, f3⟩ := hfacts σr hwfr
    refine ⟨σr, hstep, f1, f2, f3, ?_, ?_⟩
    · intro hm
      obtain ⟨σ1, hrun, hr⟩ := pointer_build.ptr_resize_spec P w memory σ
        (pointer_build.wf_pos P w σ hσ) hdue hm hσ.table_length
      rw [hstep] at hrun
      injection hrun with hrun
      rw [hrun]
      exact hr.table_size
    · intro hm
      rw [pointer_build.ptr_resize_failure P w memory σ hdue hm] at hstep
      injection hstep with hstep
      rw [← hstep]

/-- Witness for C23: the state after the first constructor call, `function_symbol("f", 1)`,
with 64-bit words and blocks of two records, has 4 buckets and mask 3. -/
theorem table_size_is_power_of_two_witness :
    (∃ k, pointer_build.sample_first.function_symbol_table_size = 2 ^ k) ∧
    pointer_build.sample_first.function_symbol_table_mask
      = pointer_build.sample_first.function_symbol_table_size - 1 ∧
    ∀ h, h &&& pointer_build.sample_first.function_symbol_table_mask
      < pointer_build.sample_first.function_symbol_table_size :=
  (table_size_is_power_of_two pointer_build.sample_macros 64 (fun _ => true) []
    pointer_build.sample_first (by decide)
    (pointer_build.reachable.construct pointer_build.administration.start
      pointer_build.sample_first 2 [102] 1 0 pointer_build.reachable.start rfl)).2.2
    (by decide)

/-- C27, on the pointer build, with words of `w` bits that hold
`2^(FUNCTION_SYMBOL_BLOCK_CLASS + 9)`. Let `σ` be a state that the program reaches by
constructing, copying and releasing symbols (the constructor resizes, the last release calls
`free_function_symbol()`), and let record `m` be referenced. Then the bucket
`hash(name, arity) AND mask` of `m` exists, every bucket heads a chain that ends, the chain
of bucket `b` contains `m` exactly when `b` is the bucket of `m`, no other referenced record
has the name and arity of `m`, and `free_function_symbol()`, called when the count of `m` has
dropped to zero, returns: its search loop reaches `m`. -/
theorem chain_invariant_of_symbol_table (P : pointer_build.block_macros) (w : Nat)
    (memory : Nat → Bool) (builtin : List (List Nat × Nat)) (σ : pointer_build.administration)
    (m : Nat) (e : pointer_build._function_symbol)
    (hP : P.FUNCTION_SYMBOL_BLOCK_CLASS + 9 ≤ w)
    (hreach : pointer_build.reachable P w memory builtin σ)
    (he : σ.function_symbol_index_table[m]? = some e) (hlive : 0 < e.reference_count) :
    pointer_build.calculate_hash_of_function_symbol w e.name e.arity
      &&& σ.function_symbol_table_mask < σ.function_symbol_table_size ∧
    (∀ b, b < σ.function_symbol_table_size →
      ∃ head L, σ.function_symbol_hashtable[b]? = some head ∧
        pointer_build.chain σ.function_symbol_index_table head L ∧
        (m ∈ L ↔ b = pointer_build.calculate_hash_of_function_symbol w e.name e.arity
          &&& σ.function_symbol_table_mask)) ∧
    (∀ (j : Nat) (x : pointer_build._function_symbol),
      σ.function_symbol_index_table[j]? = some x → 0 < x.reference_count →
      x.name = e.name → x.arity = e.arity → j = m) ∧
    ∃ σ', pointer_build.free_function_symbol w m
      { σ with
        function_symbol_index_table := σ.function_symbol_index_table.set m
          { e with reference_count := 0 } } = .ok σ' := by
  have hσ : pointer_build.well_formed P w σ := by
    rcases pointer_build.reachable_well_formed P w memory hP builtin σ hreach with h | h
    · subst h
      simp [pointer_build.administration.start] at he
    · exact h
  refine ⟨pointer_build.wf_bucket_lt P w σ hσ _, ?_, ?_, ?_⟩
  · intro b hb
    obtain ⟨head, L, hh, hL, hmem⟩ := hσ.buckets b hb
    refine ⟨head, L, hh, hL, ?_⟩
    rw [hmem]
    constructor
    · rintro ⟨x, hx, _, hbx⟩
      rw [he] at hx
      injection hx with hx
      rw [hx]
      exact hbx.symm
    · intro hbb
      exact ⟨e, he, hlive, hbb.symm⟩
  · intro j x hx hl hn ha
    exact hσ.unique j m x e hx he hl hlive hn ha
  · obtain ⟨σ', h1, _⟩ := pointer_build.wf_free P w σ hσ m e he hlive
    exact ⟨σ', h1⟩

/-- Witness for C27: the symbol `f/1` in the state after the first constructor call. -/
theorem chain_invariant_of_symbol_table_witness :
    pointer_build.calculate_hash_of_function_symbol 64 [102] 1
      &&& pointer_build.sample_first.function_symbol_table_mask
        < pointer_build.sample_first.function_symbol_table_size ∧
    (∀ b, b < pointer_build.sample_first.function_symbol_table_size →
      ∃ head L, pointer_build.sample_first.function_symbol_hashtable[b]? = some head ∧
        pointer_build.chain pointer_build.sample_first.function_symbol_index_table head L ∧
        (0 ∈ L ↔ b = pointer_build.calculate_hash_of_function_symbol 64 [102] 1
          &&& pointer_build.sample_first.function_symbol_table_mask)) ∧
    (∀ (j : Nat) (x : pointer_build._function_symbol),
      pointer_build.sample_first.function_symbol_index_table[j]? = some x →
      0 < x.reference_count → x.name = [102] → x.arity = 1 → j = 0) ∧
    ∃ σ', pointer_build.free_function_symbol 64 0
      { pointer_build.sample_first with
        function_symbol_index_table :=
          pointer_build.sample_first.function_symbol_index_table.set 0
            { (⟨1, [102], 1, none, 0⟩ : pointer_build._function_symbol) with
              reference_count := 0 } } = .ok σ' :=
  chain_invariant_of_symbol_table pointer_build.sample_macros 64 (fun _ => true) []
    pointer_build.sample_first 0 ⟨1, [102], 1, none, 0⟩ (by decide)
    (pointer_build.reachable.construct pointer_build.administration.start
      pointer_build.sample_first 2 [102] 1 0 pointer_build.reachable.start rfl)
    rfl (by decide)

/-- C28 evaluated on the pointer build, with words of `w` bits that hold
`2^(FUNCTION_SYMBOL_BLOCK_CLASS + 9)`, blocks of at least one record and every allocation
succeeding. From any state `σ` that the program reaches after the table is initialised, the
client that constructs `count` new symbols `name/M`, `name/(M+1)`, ... (`M` above every arity
in the table) and keeps the handles, for some `count`, arrives in a state with 128 blocks, an
index table of 128 entries and an empty free list. The next new symbol makes the constructor
call `create_new_function_symbol_block()` with `function_symbol_index_table_size = 128`: it
writes `function_symbol_index_table[128]`, beyond the 128 entries allocated. -/
theorem block_creation_overruns_index_table (P : pointer_build.block_macros) (w : Nat)
    (memory : Nat → Bool) (builtin : List (List Nat × Nat)) (name : List Nat)
    (σ : pointer_build.administration) (M : Nat)
    (hP : P.FUNCTION_SYMBOL_BLOCK_CLASS + 9 ≤ w)
    (hBS : 0 < P.FUNCTION_SYMBOL_BLOCK_SIZE)
    (hmem : ∀ k, memory k = true)
    (hreach : pointer_build.reachable P w memory builtin σ)
    (hinit : σ.function_symbol_table_size ≠ 0)
    (hM : ∀ x ∈ σ.function_symbol_index_table, x.arity < M) :
    ∃ count σ1,
      pointer_build.construct_symbols P w memory builtin name count M σ = .ok σ1 ∧
      σ1.function_symbol_index_table_size = pointer_build.INITIAL_FUNCTION_INDEX_TABLE_SIZE ∧
      σ1.index_table_capacity = pointer_build.INITIAL_FUNCTION_INDEX_TABLE_SIZE ∧
      σ1.function_symbol_free_list = none ∧
      pointer_build.create_new_function_symbol_block P memory σ1
        = .error .undefined_behaviour ∧
      pointer_build.function_symbol P w memory builtin 2 name (M + count) σ1
        = .error .undefined_behaviour := by
  have hσ : pointer_build.well_formed P w σ := by
    rcases pointer_build.reachable_well_formed P w memory hP builtin σ hreach with h | h
    · subst h
      exact absurd rfl hinit
    · exact h
  obtain ⟨n, hslack⟩ := pointer_build.wf_slack P w σ hσ
  obtain ⟨σ1, g1, g2, g3, g4, g5⟩ := pointer_build.wf_construct_fresh P w memory hP hBS hmem
    builtin name n σ M hσ
    (fun i e he _ => hM e (List.mem_iff_getElem?.mpr ⟨i, he⟩)) hslack
  have hne : σ1.function_symbol_table_size ≠ 0 := by
    have := pointer_build.wf_pos P w σ1 g2
    omega
  refine ⟨n, σ1, g1, g3, g2.capacity_eq, g4, ?_, ?_⟩
  · unfold pointer_build.create_new_function_symbol_block
    rw [if_neg (by rw [g3, g2.capacity_eq]; exact Nat.lt_irrefl _)]
  · rw [pointer_build.ptr_function_symbol_initialised P w memory builtin 1 name (M + n) σ1 hne]
    apply pointer_build.wf_construct_overrun P w memory hP σ1 g2 name (M + n) g4 g3
    intro i e he hl hcon
    have := g5 i e he hl
    omega

/-- Witness for C28: 64-bit words, blocks of two records, no built-in symbols, and the symbols
`f/2`, `f/3`, ... constructed after `f/1`. -/
theorem block_creation_overruns_index_table_witness :
    ∃ count σ1,
      pointer_build.construct_symbols pointer_build.sample_macros 64 (fun _ => true) [] [102]
        count 2 pointer_build.sample_first = .ok σ1 ∧
      σ1.function_symbol_index_table_size = pointer_build.INITIAL_FUNCTION_INDEX_TABLE_SIZE ∧
      σ1.index_table_capacity = pointer_build.INITIAL_FUNCTION_INDEX_TABLE_SIZE ∧
      σ1.function_symbol_free_list = none ∧
      pointer_build.create_new_function_symbol_block pointer_build.sample_macros
        (fun _ => true) σ1 = .error .undefined_behaviour ∧
      pointer_build.function_symbol pointer_build.sample_macros 64 (fun _ => true) [] 2 [102]
        (2 + count) σ1 = .error .undefined_behaviour :=
  block_creation_overruns_index_table pointer_build.sample_macros 64 (fun _ => true) [] [102]
    pointer_build.sample_first 2 (by decide) (by decide) (fun _ => rfl)
    (pointer_build.reachable.construct pointer_build.administration.start
      pointer_build.sample_first 2 [102] 1 0 pointer_build.reachable.start rfl)
    (by decide) (by decide)

/-- The pointer build reuses a released record. Let `σ0` be a state that the program reaches
by constructing, copying and releasing symbols, with words of `w` bits that hold
`2^(FUNCTION_SYMBOL_BLOCK_CLASS + 9)`, let record `s` be referenced, and let
`free_function_symbol()`, called when the count of `s` has dropped to zero, give the state
`σ`. Then `s` heads the free list of `σ`, and the constructor for a name and arity that no
referenced record of `σ` carries returns `s`: record `s` holds the new symbol with count 1,
the free list is what it was in `σ0`, and the number of blocks and of records is unchanged. -/
theorem pointer_build_reuses_freed_slot (P : pointer_build.block_macros) (w : Nat)
    (memory : Nat → Bool) (builtin : List (List Nat × Nat))
    (σ0 σ : pointer_build.administration) (s : Nat) (e : pointer_build._function_symbol)
    (name : List Nat) (arity_ depth : Nat)
    (hP : P.FUNCTION_SYMBOL_BLOCK_CLASS + 9 ≤ w)
    (hreach : pointer_build.reachable P w memory builtin σ0)
    (he : σ0.function_symbol_index_table[s]? = some e) (hlive : 0 < e.reference_count)
    (hfree : pointer_build.free_function_symbol w s
      { σ0 with
        function_symbol_index_table := σ0.function_symbol_index_table.set s
          { e with reference_count := 0 } } = .ok σ)
    (hnew : ∀ x ∈ σ.function_symbol_index_table, 0 < x.reference_count →
      ¬ (x.arity = arity_ ∧ x.name = name)) :
    σ.function_symbol_free_list = some s ∧
    ∃ σ' next number,
      pointer_build.function_symbol P w memory builtin (depth + 1) name arity_ σ
        = .ok (s, σ') ∧
      σ'.function_symbol_index_table[s]? = some ⟨arity_, name, 1, next, number⟩ ∧
      σ'.function_symbol_free_list = σ0.function_symbol_free_list ∧
      σ'.function_symbol_index_table_size = σ.function_symbol_index_table_size ∧
      σ'.function_symbol_index_table.length = σ.function_symbol_index_table.length := by
  have hσ0 : pointer_build.well_formed P w σ0 := by
    rcases pointer_build.reachable_well_formed P w memory hP builtin σ0 hreach with h | h
    · subst h
      simp [pointer_build.administration.start] at he
    · exact h
  obtain ⟨σ2, f1, f2, f3, _, _, _, _, f8, _⟩ := pointer_build.wf_free P w σ0 hσ0 s e he hlive
  rw [hfree] at f1
  injection f1 with f1
  subst f1
  refine ⟨f3, ?_⟩
  obtain ⟨σ', nx, nr, c1, _, c3, c4, c5, c6, _⟩ :=
    pointer_build.wf_construct_reuses P w memory hP σ f2 name arity_ s _ f3 f8
      (fun i x hx hl => hnew x (List.mem_iff_getElem?.mpr ⟨i, hx⟩) hl)
  have hne : σ.function_symbol_table_size ≠ 0 := by
    have := pointer_build.wf_pos P w σ f2
    omega
  refine ⟨σ', nx, nr, ?_, c3, c4, c5, c6⟩
  rw [pointer_build.ptr_function_symbol_initialised P w memory builtin depth name arity_ σ hne]
  exact c1

/-- Witness: after `f/1` is released in the state after the first constructor call, the
constructor of `g/0` takes record 0 again. -/
theorem pointer_build_reuses_freed_slot_witness :
    pointer_build.sample_freed.function_symbol_free_list = some 0 ∧
    ∃ σ' next number,
      pointer_build.function_symbol pointer_build.sample_macros 64 (fun _ => true) [] 2
        [103] 0 pointer_build.sample_freed = .ok (0, σ') ∧
      σ'.function_symbol_index_table[0]? = some ⟨0, [103], 1, next, number⟩ ∧
      σ'.function_symbol_free_list = pointer_build.sample_first.function_symbol_free_list ∧
      σ'.function_symbol_index_table_size
        = pointer_build.sample_freed.function_symbol_index_table_size ∧
      σ'.function_symbol_index_table.length
        = pointer_build.sample_freed.function_symbol_index_table.length :=
  pointer_build_reuses_freed_slot pointer_build.sample_macros 64 (fun _ => true) []
    pointer_build.sample_first pointer_build.sample_freed 0 ⟨1, [102], 1, none, 0⟩ [103] 0 1
    (by decide)
    (pointer_build.reachable.construct pointer_build.administration.start
      pointer_build.sample_first 2 [102] 1 0 pointer_build.reachable.start rfl)
    rfl (by decide) rfl (by decide)

/-! ## Claims on released records of the index build -/

/-- C29 evaluated on the index build (`FUNCTION_SYMBOL_AS_POINTER` not defined), for any
built-in symbols (at most 16382, arities below `M`) and with every allocation succeeding. The
client constructs `name/M`, ..., `name/(M+count+1)` until the table holds 16384 records and
releases the two last symbols (records 16383 and 16382). The next constructor call finds
`function_lookup_table_size >= function_symbol_table_size` and resizes. When
`resize_function_symbol_hashtable()` runs, record 16382 is below `function_lookup_table_size`
and has reference count 0 (the assertion of the rehash loop is false), after the resize the
released record 16382 is linked in a bucket chain, and its `next` field, which linked it to
record 16383 on the free list, has been overwritten. -/
theorem index_build_resize_links_released_slot (w : Nat) (memory : Nat → Bool)
    (builtin : List (List Nat × Nat)) (M : Nat) (name : List Nat)
    (hw : 16 ≤ w) (hmem : ∀ k, memory k = true)
    (hlen : builtin.length + 1 < index_build.INITIAL_FUNCTION_HASH_TABLE_SIZE)
    (hM : ∀ p ∈ builtin, p.2 < M) :
    ∃ count σA σ0 σ1 σ2 σr head L link,
      index_build.construct_fresh w memory builtin name count M index_build.administration.start
        = .ok (16382, σA) ∧
      index_build.function_symbol w memory builtin 2 name (M + count + 1) σA
        = .ok (16383, σ0) ∧
      index_build.decrease_reference_count w 16383 σ0 = .ok σ1 ∧
      index_build.decrease_reference_count w 16382 σ1 = .ok σ2 ∧
      σ2.function_symbol_table_size ≠ 0 ∧
      σ2.function_lookup_table_size ≥ σ2.function_symbol_table_size ∧
      index_build.resize_function_symbol_hashtable w memory σ2 = .ok σr ∧
      16382 < σ2.function_lookup_table_size ∧
      σ2.first_free = some 16382 ∧
      σ2.function_lookup_table[16382]? = some ⟨name, M + count, some 16383, 0⟩ ∧
      σr.function_symbol_hashtable[index_build.calculate_hash_of_function_symbol w name
        (M + count) &&& σr.function_symbol_table_mask]? = some head ∧
      index_build.chain σr.function_lookup_table head L ∧
      16382 ∈ L ∧
      σr.first_free = some 16382 ∧
      σr.function_lookup_table[16382]? = some ⟨name, M + count, link, 0⟩ ∧
      link ≠ some 16383 := by
  have hT := index_build.initial_size_eq
  obtain ⟨count, σA, σ0, σ1, σ2, r1, r2, r3, r4, s1, s2, s3, s4, s5, s6, s7⟩ :=
    index_build.two_released_spec w memory builtin M name hw hmem hlen hM
  rw [hT] at r1 r2 r3 r4 s1 s2 s3 s4 s5 s6 s7
  simp only [Nat.reduceSub] at r1 r2 r3 r4 s4 s5 s6 s7
  have hpos : 0 < σ2.function_symbol_table_size := by rw [s1]; decide
  have hw2 : 2 * σ2.function_symbol_table_size < 2 ^ w := by
    rw [s1]
    calc 2 * 16384 < 2 ^ 16 := by norm_num
      _ ≤ 2 ^ w := Nat.pow_le_pow_right (by decide) hw
  obtain ⟨σr, hr, hrsize, hrmask, hrfree, hrn, hrhl, hrtl, hrrec, hrchain⟩ :=
    index_build.resize_function_symbol_hashtable_spec w memory σ2 hpos hw2 (hmem _)
      (by rw [s3, s2])
  obtain ⟨link, hlink0⟩ := hrrec 16382 _ s5
  have hlink : σr.function_lookup_table[16382]? = some ⟨name, M + count, link, 0⟩ := hlink0
  have hb := index_build.land_lt_doubled
    (index_build.calculate_hash_of_function_symbol w name (M + count))
    σ2.function_symbol_table_size hpos
  obtain ⟨head, hhead, hchain⟩ := hrchain _ hb
  have hamem : 16382 ∈ index_build.members w (2 * σ2.function_symbol_table_size - 1)
      σ2.function_lookup_table
      (index_build.calculate_hash_of_function_symbol w name (M + count)
        &&& (2 * σ2.function_symbol_table_size - 1))
      σ2.function_lookup_table_size := by
    apply index_build.mem_members _ _ _ _ _ _ (by rw [s2]; decide)
    unfold index_build.bucket_of
    rw [s5]
    rfl
  have hnext := index_build.resized_next_lt w _ σ2.function_lookup_table
    σr.function_lookup_table _ _ 16382 head _ hchain hamem hlink
  refine ⟨count, σA, σ0, σ1, σ2, σr, head, _, link, r1, r2, r3, r4, by omega,
    by rw [s1, s2], hr, by rw [s2]; decide, s4, s5,
    by rw [hrmask]; exact hhead, hchain, hamem, by rw [hrfree]; exact s4, hlink, ?_⟩
  intro hcon
  have := hnext 16383 hcon
  omega

/-- Witness for C29: 64-bit words, the built-in symbols `<undefined_term>/0`, `<aterm_int>/1`,
`<list_constructor>/2` and `<empty_list>/0`, and the symbols `f/3`, `f/4`, ... -/
theorem index_build_resize_links_released_slot_witness :
    ∃ count σA σ0 σ1 σ2 σr head L link,
      index_build.construct_fresh 64 (fun _ => true)
        [([60, 117, 110, 100, 101, 102, 105, 110, 101, 100, 95, 116, 101, 114, 109, 62], 0),
         ([60, 97, 116, 101, 114, 109, 95, 105, 110, 116, 62], 1),
         ([60, 108, 105, 115, 116, 95, 99, 111, 110, 115, 116, 114, 117, 99, 116, 111, 114, 62], 2),
         ([60, 101, 109, 112, 116, 121, 95, 108, 105, 115, 116, 62], 0)]
        [102] count 3 index_build.administration.start = .ok (16382, σA) ∧
      index_build.function_symbol 64 (fun _ => true)
        [([60, 117, 110, 100, 101, 102, 105, 110, 101, 100, 95, 116, 101, 114, 109, 62], 0),
         ([60, 97, 116, 101, 114, 109, 95, 105, 110, 116, 62], 1),
         ([60, 108, 105, 115, 116, 95, 99, 111, 110, 115, 116, 114, 117, 99, 116, 111, 114, 62], 2),
         ([60, 101, 109, 112, 116, 121, 95, 108, 105, 115, 116, 62], 0)]
        2 [102] (3 + count + 1) σA = .ok (16383, σ0) ∧
      index_build.decrease_reference_count 64 16383 σ0 = .ok σ1 ∧
      index_build.decrease_reference_count 64 16382 σ1 = .ok σ2 ∧
      σ2.function_symbol_table_size ≠ 0 ∧
      σ2.function_lookup_table_size ≥ σ2.function_symbol_table_size ∧
      index_build.resize_function_symbol_hashtable 64 (fun _ => true) σ2 = .ok σr ∧
      16382 < σ2.function_lookup_table_size ∧
      σ2.first_free = some 16382 ∧
      σ2.function_lookup_table[16382]? = some ⟨[102], 3 + count, some 16383, 0⟩ ∧
      σr.function_symbol_hashtable[index_build.calculate_hash_of_function_symbol 64 [102]
        (3 + count) &&& σr.function_symbol_table_mask]? = some head ∧
      index_build.chain σr.function_lookup_table head L ∧
      16382 ∈ L ∧
      σr.first_free = some 16382 ∧
      σr.function_lookup_table[16382]? = some ⟨[102], 3 + count, link, 0⟩ ∧
      link ≠ some 16383 :=
  index_build_resize_links_released_slot 64 (fun _ => true)
    [([60, 117, 110, 100, 101, 102, 105, 110, 101, 100, 95, 116, 101, 114, 109, 62], 0),
     ([60, 97, 116, 101, 114, 109, 95, 105, 110, 116, 62], 1),
     ([60, 108, 105, 115, 116, 95, 99, 111, 110, 115, 116, 114, 117, 99, 116, 111, 114, 62], 2),
     ([60, 101, 109, 112, 116, 121, 95, 108, 105, 115, 116, 62], 0)]
    3 [102] (by decide) (fun _ => rfl) (by decide) (by decide)

/-- C24 evaluated on the index build (`FUNCTION_SYMBOL_AS_POINTER` not defined), for any
built-in symbols (at most 16382, arities below `M`) and with every allocation succeeding. The
client constructs `name/M`, ..., `name/(M+count+1)` until the table holds 16384 records, and
releases `name/(M+count+1)` (record 16383) and then `name/(M+count)`: `free_function_symbol()`
has just released record 16382, which heads the free list. No referenced record carries
`name/(M+count+1)`, yet the next constructor call for it returns record 16383, not the record
16382 that was released last: the constructor resizes first, the resize links the released
records again, and the search finds the old record of the symbol. -/
theorem index_build_misses_freed_slot (w : Nat) (memory : Nat → Bool)
    (builtin : List (List Nat × Nat)) (M : Nat) (name : List Nat)
    (hw : 16 ≤ w) (hmem : ∀ k, memory k = true)
    (hlen : builtin.length + 1 < index_build.INITIAL_FUNCTION_HASH_TABLE_SIZE)
    (hM : ∀ p ∈ builtin, p.2 < M) :
    ∃ count σA σ0 σ1 σ2 σ3,
      index_build.construct_fresh w memory builtin name count M index_build.administration.start
        = .ok (16382, σA) ∧
      index_build.function_symbol w memory builtin 2 name (M + count + 1) σA
        = .ok (16383, σ0) ∧
      index_build.decrease_reference_count w 16383 σ0 = .ok σ1 ∧
      index_build.decrease_reference_count w 16382 σ1 = .ok σ2 ∧
      σ2.first_free = some 16382 ∧
      (∀ x ∈ σ2.function_lookup_table, 0 < x.reference_count →
        ¬ (x.arity = M + count + 1 ∧ x.name = name)) ∧
      index_build.function_symbol w memory builtin 2 name (M + count + 1) σ2
        = .ok (16383, σ3) := by
  have hT := index_build.initial_size_eq
  obtain ⟨count, σA, σ0, σ1, σ2, r1, r2, r3, r4, s1, s2, s3, s4, s5, s6, s7⟩ :=
    index_build.two_released_spec w memory builtin M name hw hmem hlen hM
  rw [hT] at r1 r2 r3 r4 s1 s2 s3 s4 s5 s6 s7
  simp only [Nat.reduceSub] at r1 r2 r3 r4 s4 s5 s6 s7
  have hpos : 0 < σ2.function_symbol_table_size := by rw [s1]; decide
  have hw2 : 2 * σ2.function_symbol_table_size < 2 ^ w := by
    rw [s1]
    calc 2 * 16384 < 2 ^ 16 := by norm_num
      _ ≤ 2 ^ w := Nat.pow_le_pow_right (by decide) hw
  have huniq : ∀ (i : Nat) (e : index_build._function_symbol),
      σ2.function_lookup_table[i]? = some e → e.name = name → e.arity = M + count + 1 →
      i = 16383 := by
    intro i e he _ har
    have hi := index_build.lt_of_getElem?_some _ _ _ he
    rw [s3] at hi
    by_cases h1 : i < 16382
    · have := s7 i e h1 he
      omega
    · by_cases h2 : i = 16382
      · subst h2
        rw [s5] at he
        injection he with he
        rw [← he] at har
        simp only at har
        omega
      · omega
  obtain ⟨σ3, next1, c1, _, _⟩ := index_build.released_slot_found w memory builtin 1 σ2 16383
    name (M + count + 1) none hpos hw2 (by rw [s1, s2]) (by rw [s3, s2]) (hmem _) s6 huniq
  refine ⟨count, σA, σ0, σ1, σ2, σ3, r1, r2, r3, r4, s4, ?_, c1⟩
  intro x hx hl hcon
  obtain ⟨i, hi⟩ := List.mem_iff_getElem?.mp hx
  have := huniq i x hi hcon.2 hcon.1
  subst this
  rw [s6] at hi
  injection hi with hi
  rw [← hi] at hl
  simp at hl

/-- Witness for C24: 64-bit words, the built-in symbols `<undefined_term>/0`, `<aterm_int>/1`,
`<list_constructor>/2` and `<empty_list>/0`, and the symbols `f/3`, `f/4`, ... -/
theorem index_build_misses_freed_slot_witness :
    ∃ count σA σ0 σ1 σ2 σ3,
      index_build.construct_fresh 64 (fun _ => true)
        [([60, 117, 110, 100, 101, 102, 105, 110, 101, 100, 95, 116, 101, 114, 109, 62], 0),
         ([60, 97, 116, 101, 114, 109, 95, 105, 110, 116, 62], 1),
         ([60, 108, 105, 115, 116, 95, 99, 111, 110, 115, 116, 114, 117, 99, 116, 111, 114, 62], 2),
         ([60, 101, 109, 112, 116, 121, 95, 108, 105, 115, 116, 62], 0)]
        [102] count 3 index_build.administration.start = .ok (16382, σA) ∧
      index_build.function_symbol 64 (fun _ => true)
        [([60, 117, 110, 100, 101, 102, 105, 110, 101, 100, 95, 116, 101, 114, 109, 62], 0),
         ([60, 97, 116, 101, 114, 109, 95, 105, 110, 116, 62], 1),
         ([60, 108, 105, 115, 116, 95, 99, 111, 110, 115, 116, 114, 117, 99, 116, 111, 114, 62], 2),
         ([60, 101, 109, 112, 116, 121, 95, 108, 105, 115, 116, 62], 0)]
        2 [102] (3 + count + 1) σA = .ok (16383, σ0) ∧
      index_build.decrease_reference_count 64 16383 σ0 = .ok σ1 ∧
      index_build.decrease_reference_count 64 16382 σ1 = .ok σ2 ∧
      σ2.first_free = some 16382 ∧
      (∀ x ∈ σ2.function_lookup_table, 0 < x.reference_count →
        ¬ (x.arity = 3 + count + 1 ∧ x.name = [102])) ∧
      index_build.function_symbol 64 (fun _ => true)
        [([60, 117, 110, 100, 101, 102, 105, 110, 101, 100, 95, 116, 101, 114, 109, 62], 0),
         ([60, 97, 116, 101, 114, 109, 95, 105, 110, 116, 62], 1),
         ([60, 108, 105, 115, 116, 95, 99, 111, 110, 115, 116, 114, 117, 99, 116, 111, 114, 62], 2),
         ([60, 101, 109, 112, 116, 121, 95, 108, 105, 115, 116, 62], 0)]
        2 [102] (3 + count + 1) σ2 = .ok (16383, σ3) :=
  index_build_misses_freed_slot 64 (fun _ => true)
    [([60, 117, 110, 100, 101, 102, 105, 110, 101, 100, 95, 116, 101, 114, 109, 62], 0),
     ([60, 97, 116, 101, 114, 109, 95, 105, 110, 116, 62], 1),
     ([60, 108, 105, 115, 116, 95, 99, 111, 110, 115, 116, 114, 117, 99, 116, 111, 114, 62], 2),
     ([60, 101, 109, 112, 116, 121, 95, 108, 105, 115, 116, 62], 0)]
    3 [102] (by decide) (fun _ => rfl) (by decide) (by decide)

end atermpp

namespace mcrl2
namespace data

/-! ## Fresh identifiers -/

theorem search_spec {C G : Type} (M : identifier_generator C G) (context : C)
    (hint : List Nat) :
    ∀ (fuel : Nat) (id : List Nat) (g : G) (r : List Nat × G),
      M.search context hint fuel id g = some r →
      M.has_identifier context r.1 = false ∧
      (M.has_identifier context id = false → r = (id, g)) := by
  intro fuel
  induction fuel with
  | zero =>
    intro id g r h
    rw [identifier_generator.search] at h
    split at h
    · cases h
    · rename_i hfresh
      injection h with h
      subst h
      exact ⟨by simpa using hfresh, fun _ => rfl⟩
  | succ fuel ih =>
    intro id g r h
    rw [identifier_generator.search] at h
    split at h
    · rename_i hused
      refine ⟨(ih _ _ r h).1, ?_⟩
      intro hcon
      rw [hcon] at hused
      cases hused
    · rename_i hfresh
      injection h with h
      subst h
      exact ⟨by simpa using hfresh, fun _ => rfl⟩

theorem search_returns {C G : Type} (M : identifier_generator C G) (context : C)
    (hint : List Nat) :
    ∀ (n fuel : Nat) (id : List Nat) (g : G), n ≤ fuel →
      M.has_identifier context (M.candidate hint n id g).1 = false →
      ∃ r, M.search context hint fuel id g = some r := by
  intro n
  induction n with
  | zero =>
    intro fuel id g _ h
    rw [identifier_generator.candidate] at h
    cases fuel with
    | zero =>
      rw [identifier_generator.search, h]
      exact ⟨_, rfl⟩
    | succ fuel =>
      rw [identifier_generator.search, h]
      exact ⟨_, rfl⟩
  | succ n ih =>
    intro fuel id g hle h
    rw [identifier_generator.candidate] at h
    cases fuel with
    | zero => omega
    | succ fuel =>
      rw [identifier_generator.search]
      split
      · exact ih fuel _ _ (by omega) h
      · exact ⟨_, rfl⟩

/-- C19: `identifier_generator::operator()(hint)` returns an identifier that the context did
not have before the call, and the context after the call is the old one with
`add_identifier` applied to that identifier. When the hint is not in the context the call
returns the hint itself, at once and without using the generator. The call returns as soon as
one of the identifiers tried (the hint, then what the generator yields) is not in the
context; the loop can go on for ever when the generator never yields such an identifier. -/
theorem identifier_generator_returns_fresh {C G : Type} (M : identifier_generator C G)
    (fuel : Nat) (hint : List Nat) (context : C) (g : G) :
    (∀ id context' g', M.call fuel hint context g = some (id, context', g') →
      M.has_identifier context id = false ∧
      context' = M.add_identifier context id ∧
      (M.has_identifier context hint = false → id = hint)) ∧
    (M.has_identifier context hint = false →
      M.call fuel hint context g = some (hint, M.add_identifier context hint, g)) ∧
    (∀ n, n ≤ fuel → M.has_identifier context (M.candidate hint n hint g).1 = false →
      ∃ r, M.call fuel hint context g = some r) := by
  refine ⟨?_, ?_, ?_⟩
  · intro id context' g' h
    unfold identifier_generator.call at h
    split at h
    · cases h
    · rename_i id1 g1 hsearch
      injection h with h
      injection h with h1 h2
      injection h2 with h2 h3
      subst h1
      obtain ⟨a, b⟩ := search_spec M context hint fuel hint g _ hsearch
      refine ⟨a, h2.symm, ?_⟩
      intro hfresh
      have := b hfresh
      injection this with this
  · intro hfresh
    unfold identifier_generator.call
    obtain ⟨r, hr⟩ := search_returns M context hint 0 fuel hint g (Nat.zero_le _) hfresh
    obtain ⟨_, b⟩ := search_spec M context hint fuel hint g r hr
    rw [hr, b hfresh]
  · intro n hn hfresh
    unfold identifier_generator.call
    obtain ⟨r, hr⟩ := search_returns M context hint n fuel hint g hn hfresh
    rw [hr]
    exact ⟨_, rfl⟩

/-- Witness for C19: the context holds `x` and `x0`; the hint `x` gives `x1`, and the hint `y`
gives `y`. -/
theorem identifier_generator_returns_fresh_witness :
    sample_identifier_generator.call 2 [120] [[120], [120, 48]] 0
      = some ([120, 49], [[120, 49], [120], [120, 48]], 2) ∧
    sample_identifier_generator.call 2 [121] [[120], [120, 48]] 0
      = some ([121], [[121], [120], [120, 48]], 0) :=
  have h := identifier_generator_returns_fresh sample_identifier_generator 2 [121]
    [[120], [120, 48]] 0
  ⟨by decide, h.2.1 (by decide)⟩

end data
end mcrl2

namespace lps

/-! ## Well-typed process initializers -/

/-- C20: `process_initializer::is_well_typed()` returns true if and only if no two
assignments of `m_assignments` have the same left hand side. The helper
`sequence_contains_duplicates` is taken to do what its name says: to return true exactly for
the sequences in which some element occurs twice. -/
theorem is_well_typed_iff_lhs_distinct {V E : Type}
    (sequence_contains_duplicates : List V → Bool)
    (hdup : ∀ l, sequence_contains_duplicates l = true ↔ ¬ l.Nodup)
    (p : process_initializer V E) :
    p.is_well_typed sequence_contains_duplicates = true
      ↔ p.m_assignments.Pairwise (fun a b => a.lhs ≠ b.lhs) := by
  have hpair : p.m_assignments.Pairwise (fun a b => a.lhs ≠ b.lhs)
      ↔ (p.m_assignments.map (fun a => a.lhs)).Nodup := by
    unfold List.Nodup
    rw [List.pairwise_map]
  rw [hpair]
  unfold process_initializer.is_well_typed
  by_cases h : sequence_contains_duplicates (p.m_assignments.map (fun a => a.lhs)) = true
  · rw [if_pos h]
    have := (hdup _).mp h
    simp [this]
  · rw [if_neg h]
    have : (p.m_assignments.map (fun a => a.lhs)).Nodup := by
      by_contra hcon
      exact h ((hdup _).mpr hcon)
    simp [this]

/-- Witness for C20: variables and expressions are numbers; the assignments `1 := 5, 2 := 5`
are well typed and the assignments `1 := 5, 1 := 6` are not. -/
theorem is_well_typed_iff_lhs_distinct_witness :
    process_initializer.is_well_typed (fun l : List Nat => decide (¬ l.Nodup))
        (⟨[], [⟨1, 5⟩, ⟨2, 5⟩]⟩ : process_initializer Nat Nat) = true ∧
    process_initializer.is_well_typed (fun l : List Nat => decide (¬ l.Nodup))
        (⟨[], [⟨1, 5⟩, ⟨1, 6⟩]⟩ : process_initializer Nat Nat) = false :=
  ⟨(is_well_typed_iff_lhs_distinct (fun l : List Nat => decide (¬ l.Nodup))
      (fun l => by simp) ⟨[], [⟨1, 5⟩, ⟨2, 5⟩]⟩).mpr (by simp),
    by decide⟩

end lps

namespace ltscompare

/-! ## The command line of ltscompare -/

theorem parse_formats_names {O : Type} (L : liblts O) (parser : parsed_command_line)
    (tool_options : t_tool_options O) :
    (parse_formats L parser tool_options).1.name_for_first = tool_options.name_for_first ∧
    (parse_formats L parser tool_options).1.name_for_second = tool_options.name_for_second := by
  unfold parse_formats
  simp only
  split <;> split <;> (try split) <;> exact ⟨rfl, rfl⟩

theorem parse_formats_first {O : Type} (L : liblts O) (parser : parsed_command_line)
    (tool_options : t_tool_options O) :
    (parse_formats L parser tool_options).1.format_for_first
      = if parser.count "in1" ≠ 0 then L.parse_format (parser.option_argument "in1")
        else if ¬ tool_options.name_for_first.isEmpty then
          L.guess_format tool_options.name_for_first
        else tool_options.format_for_first := by
  unfold parse_formats
  simp only
  split <;> split <;> (try split) <;> rfl

theorem parse_formats_second {O : Type} (L : liblts O) (parser : parsed_command_line)
    (tool_options : t_tool_options O) :
    (parse_formats L parser tool_options).1.format_for_second
      = if parser.count "in2" ≠ 0 then L.parse_format (parser.option_argument "in2")
        else L.guess_format tool_options.name_for_second := by
  have hn := (parse_formats_names L parser tool_options).2
  unfold parse_formats at hn ⊢
  simp only at hn ⊢
  split
  · rfl
  · simp only
    split <;> (try split) <;> rfl

theorem parse_formats_warns {O : Type} (L : liblts O) (parser : parsed_command_line)
    (tool_options : t_tool_options O) (hin1 : parser.count "in1" ≠ 0)
    (hbad : L.parse_format (parser.option_argument "in1") = .lts_none) :
    ("warning: format \x27" ++ parser.option_argument "in1" ++
      "\x27 is not recognised; option ignored\n") ∈ (parse_formats L parser tool_options).2 := by
  unfold parse_formats
  simp only [hin1, hbad, ne_eq, not_false_eq_true, if_true]
  split <;> split <;> simp

theorem parse_command_line_one {O : Type} (L : liblts O) (i1 i2 : lts_type) (eq_opts : O)
    (parser : parsed_command_line) (x : String) (h : parser.arguments = [x]) :
    ∃ r, parse_command_line L i1 i2 eq_opts parser = .ok r ∧
      r.1.name_for_first = "" ∧ r.1.name_for_second = x ∧
      r.1.format_for_first
        = (if parser.count "in1" ≠ 0 then L.parse_format (parser.option_argument "in1")
          else .lts_aut) ∧
      r.1.format_for_second
        = (if parser.count "in2" ≠ 0 then L.parse_format (parser.option_argument "in2")
          else L.guess_format x) ∧
      (parser.count "in1" ≠ 0 → L.parse_format (parser.option_argument "in1") = .lts_none →
        ("warning: format \x27" ++ parser.option_argument "in1" ++
          "\x27 is not recognised; option ignored\n") ∈ r.2) := by
  unfold parse_command_line
  simp only [h, List.length_singleton, one_ne_zero, if_false, if_true, lt_irrefl,
    Nat.lt_irrefl, List.getD_cons_zero, show ¬ (2 < 1) by decide]
  refine ⟨_, rfl, ?_, ?_, ?_, ?_, ?_⟩
  · rw [(parse_formats_names L parser _).1]
    split <;> split <;> split <;> rfl
  · rw [(parse_formats_names L parser _).2]
  · rw [parse_formats_first]
    have hempty : "".isEmpty = true := rfl
    split
    · rfl
    · simp only
      split <;> split <;> split <;> simp [hempty]
  · rw [parse_formats_second]
  · intro hin1 hbad
    exact List.mem_append_right _ (parse_formats_warns L parser _ hin1 hbad)

theorem parse_command_line_two {O : Type} (L : liblts O) (i1 i2 : lts_type) (eq_opts : O)
    (parser : parsed_command_line) (x y : String) (h : parser.arguments = [x, y]) :
    ∃ r, parse_command_line L i1 i2 eq_opts parser = .ok r ∧
      r.1.name_for_first = x ∧ r.1.name_for_second = y := by
  unfold parse_command_line
  simp only [h, List.length_cons, List.length_nil, List.getD_cons_zero,
    List.getD_cons_succ, show ¬ (0 + 1 + 1 = 0) by decide, show ¬ (0 + 1 + 1 = 1) by decide,
    show 1 < 0 + 1 + 1 by decide, show ¬ (2 < 0 + 1 + 1) by decide, if_false, if_true]
  refine ⟨_, rfl, ?_, ?_⟩
  · rw [(parse_formats_names L parser _).1]
  · rw [(parse_formats_names L parser _).2]

/-- C21, counterexample: on the command line with the two file arguments `""` and `aut`,
`parse_command_line` stores the empty string as the name of the first input, and `process`
reads the first LTS from `stdin`, not from a file named by the first argument. -/
theorem empty_first_argument_reads_stdin :
    ∃ r, parse_command_line sample_liblts .lts_none .lts_none []
        ⟨fun _ => 0, fun _ => "", ["", "aut"]⟩ = .ok r ∧
      r.1.name_for_first = "" ∧ second_input r.1 = "aut" ∧ first_input r.1 = none := by
  obtain ⟨r, h1, h2, h3⟩ := parse_command_line_two sample_liblts .lts_none .lts_none []
    ⟨fun _ => 0, fun _ => "", ["", "aut"]⟩ "" "aut" rfl
  refine ⟨r, h1, h2, h3, ?_⟩
  unfold first_input
  rw [h2]
  rfl

/-- C21, amended: with no file argument `parse_command_line` throws "need at least one file
argument"; with one, that argument is the name of the second input, from which `process`
reads the second LTS, the name of the first is empty and `process` reads the first LTS from
`stdin`; with two, they are the names of the first and the second input in this order,
`process` reads the second LTS from the file that the second names, and it reads the first
LTS from the file that the first names unless the first is the empty string, when it reads
the first LTS from `stdin`; with more than two it throws "too many file arguments". -/
theorem file_arguments_of_ltscompare {O : Type} (L : liblts O) (i1 i2 : lts_type)
    (eq_opts : O) (parser : parsed_command_line) :
    (parser.arguments = [] →
      parse_command_line L i1 i2 eq_opts parser = .error "need at least one file argument") ∧
    (∀ x, parser.arguments = [x] →
      ∃ r, parse_command_line L i1 i2 eq_opts parser = .ok r ∧
        r.1.name_for_first = "" ∧ r.1.name_for_second = x ∧ first_input r.1 = none ∧
        second_input r.1 = x) ∧
    (∀ x y, parser.arguments = [x, y] →
      ∃ r, parse_command_line L i1 i2 eq_opts parser = .ok r ∧
        r.1.name_for_first = x ∧ r.1.name_for_second = y ∧
        first_input r.1 = (if x.isEmpty then none else some x) ∧ second_input r.1 = y) ∧
    (2 < parser.arguments.length →
      parse_command_line L i1 i2 eq_opts parser = .error "too many file arguments") := by
  refine ⟨?_, ?_, ?_, ?_⟩
  · intro h
    unfold parse_command_line
    simp [h]
  · intro x h
    obtain ⟨r, h1, h2, h3, _⟩ := parse_command_line_one L i1 i2 eq_opts parser x h
    refine ⟨r, h1, h2, h3, ?_, h3⟩
    unfold first_input
    rw [h2]
    rfl
  · intro x y h
    obtain ⟨r, h1, h2, h3⟩ := parse_command_line_two L i1 i2 eq_opts parser x y h
    refine ⟨r, h1, h2, h3, ?_, h3⟩
    unfold first_input
    rw [h2]
  · intro h
    unfold parse_command_line
    simp only [h, if_true]
    rw [if_neg (by omega)]

/-- Witness for C21, amended: the command lines with the file arguments `aut`, and `aut` and
`svc`. -/
theorem file_arguments_of_ltscompare_witness :
    (∃ r, parse_command_line sample_liblts .lts_none .lts_none []
        ⟨fun _ => 0, fun _ => "", ["aut"]⟩ = .ok r ∧
      r.1.name_for_first = "" ∧ r.1.name_for_second = "aut" ∧ first_input r.1 = none ∧
      second_input r.1 = "aut") ∧
    (∃ r, parse_command_line sample_liblts .lts_none .lts_none []
        ⟨fun _ => 0, fun _ => "", ["aut", "svc"]⟩ = .ok r ∧
      r.1.name_for_first = "aut" ∧ r.1.name_for_second = "svc" ∧
      first_input r.1 = (if "aut".isEmpty then none else some "aut") ∧
      second_input r.1 = "svc") :=
  ⟨(file_arguments_of_ltscompare sample_liblts .lts_none .lts_none []
      ⟨fun _ => 0, fun _ => "", ["aut"]⟩).2.1 "aut" rfl,
    (file_arguments_of_ltscompare sample_liblts .lts_none .lts_none []
      ⟨fun _ => 0, fun _ => "", ["aut", "svc"]⟩).2.2.1 "aut" "svc" rfl⟩

/-- C22, as the code behaves: with one file argument (the first LTS comes from `stdin`) and
an option `--in1` whose format `parse_format` does not recognise, a warning says that the
option is ignored, but `format_for_first` is `lts_none`, whereas it is `lts_aut` on the same
command line without that option. In the same way an unrecognised `--in2` leaves
`format_for_second` at `lts_none`, whereas without the option it is the format guessed from
the name of the file. -/
theorem unrecognised_format_is_not_ignored {O : Type} (L : liblts O) (i1 i2 : lts_type)
    (eq_opts : O) (parser : parsed_command_line) (x : String)
    (hargs : parser.arguments = [x])
    (hin1 : parser.count "in1" ≠ 0)
    (hbad : L.parse_format (parser.option_argument "in1") = .lts_none) :
    ∃ given dropped,
      parse_command_line L i1 i2 eq_opts parser = .ok given ∧
      parse_command_line L i1 i2 eq_opts
        { parser with count := fun name => if name = "in1" then 0 else parser.count name }
        = .ok dropped ∧
      ("warning: format \x27" ++ parser.option_argument "in1" ++
        "\x27 is not recognised; option ignored\n") ∈ given.2 ∧
      given.1.format_for_first = .lts_none ∧
      dropped.1.format_for_first = .lts_aut ∧
      (parser.count "in2" ≠ 0 →
        L.parse_format (parser.option_argument "in2") = .lts_none →
        ∃ dropped2,
          parse_command_line L i1 i2 eq_opts
            { parser with count := fun name => if name = "in2" then 0 else parser.count name }
            = .ok dropped2 ∧
          given.1.format_for_second = .lts_none ∧
          dropped2.1.format_for_second = L.guess_format x) := by
  obtain ⟨given, g1, _, _, g4, g5, g6⟩ := parse_command_line_one L i1 i2 eq_opts parser x hargs
  obtain ⟨dropped, d1, _, _, d4, _⟩ := parse_command_line_one L i1 i2 eq_opts
    { parser with count := fun name => if name = "in1" then 0 else parser.count name } x hargs
  refine ⟨given, dropped, g1, d1, g6 hin1 hbad, ?_, ?_, ?_⟩
  · rw [g4, if_pos hin1, hbad]
  · rw [d4]
    simp
  · intro hin2 hbad2
    obtain ⟨dropped2, e1, _, _, _, e5, _⟩ := parse_command_line_one L i1 i2 eq_opts
      { parser with count := fun name => if name = "in2" then 0 else parser.count name } x hargs
    refine ⟨dropped2, e1, ?_, ?_⟩
    · rw [g5, if_pos hin2, hbad2]
    · rw [e5]
      simp

/-- Witness for C22: the command line `ltscompare --in1=fsm aut`, where `fsm` is not a format
that the sample `parse_format` knows. -/
theorem unrecognised_format_is_not_ignored_witness :
    ∃ given dropped,
      parse_command_line sample_liblts .lts_none .lts_none []
        ⟨fun name => if name = "in1" then 1 else 0, fun _ => "fsm", ["aut"]⟩ = .ok given ∧
      parse_command_line sample_liblts .lts_none .lts_none []
        ⟨fun _ => 0, fun _ => "fsm", ["aut"]⟩ = .ok dropped ∧
      given.1.format_for_first = .lts_none ∧
      dropped.1.format_for_first = .lts_aut := by
  obtain ⟨given, dropped, h1, h2, _, h4, h5, _⟩ :=
    unrecognised_format_is_not_ignored sample_liblts .lts_none .lts_none []
      ⟨fun name => if name = "in1" then 1 else 0, fun _ => "fsm", ["aut"]⟩ "aut" rfl
      (by decide) (by decide)
  refine ⟨given, dropped, h1, ?_, h4, h5⟩
  have hcount : (fun name : String => if name = "in1" then 0
      else (if name = "in1" then 1 else 0)) = fun _ => 0 := by
    funext name
    split <;> rfl
  simp only [hcount] at h2
  exact h2

end ltscompare
